import Mathlib

/-!
# NxN sliding-tile puzzle solvers: a verification development

Shallow embedding of the sequential solvers of the repository
(`bsp_puzzle_solver_nxn.cpp`, `board_available.cpp`, `h2_puzzle_solver_nxn.cpp`), of its
OpenMP solvers (`parallel_bfs_openmp.cpp`, `parallel_astar_h1_openmp.cpp`,
`parallel_astar_h2_openmp.cpp`) and proofs about them.

Modelling conventions.
* A board (`std::string`) is a `List Char`.
* C++ `int` values are modelled by `Int`; `/` and `%` on `int` are `Int.tdiv` and `Int.tmod`
  (truncation toward zero).  All counters stay far below `2^31` on every board the programs
  accept (`N ≤ 10`), so the arithmetic is exact.
* The global `int N` is a parameter `N : Nat` (the programs only ever store values `2..10`),
  the global `TARGET` is a parameter `TARGET : Board`.
* `std::queue` is a list (front = head), `std::unordered_set<string>` is a list used as a set,
  `std::unordered_map<string,int>` is an association list, `std::priority_queue` is an abstract
  structure with the two operations used (`push`, `top`+`pop`) and their contract.
* Loops that C++ runs until a container is empty take a `fuel` argument; the entry points
  supply a fuel that is proved sufficient.
* The `omp for` loops of the OpenMP solvers run their iterations one after another in index
  order.  `std::sort` is a parameter with the contract of the C++ standard (`DescendingSort`);
  `gccSort` is the sort of the GNU C++ library, with which the programs are built.
* The write-only counter `nodesExpanded`, the timing code and the printing are not modelled.
-/

namespace Puzzle

/-! ## Definitions -/

/-- A board: the row-major flattening of the grid, as in the `std::string` of the source. -/
abbrev Board := List Char

/-- The sentinel symbol of the empty cell. -/
def BLANK : Char := '#'

/-- The value of `(int) board.find('#')`: the index of the first blank, `-1` (`npos`) when the
board has none. -/
def findBlank (board : Board) : Int :=
  if BLANK ∈ board then (board.indexOf BLANK : Nat) else -1

/-- The array `dRow` of the source: UP, DOWN, LEFT, RIGHT. -/
def dRow (i : Nat) : Int :=
  match i with
  | 0 => -1
  | 1 => 1
  | _ => 0

/-- The array `dCol` of the source: UP, DOWN, LEFT, RIGHT. -/
def dCol (i : Nat) : Int :=
  match i with
  | 2 => -1
  | 3 => 1
  | _ => 0

/-- The array `MOVES` of `board_available.cpp`. -/
def MOVES (i : Nat) : String :=
  match i with
  | 0 => "UP"
  | 1 => "DOWN"
  | 2 => "LEFT"
  | _ => "RIGHT"

/-- Function `swapTiles` (`swapBoardTiles` in `board_available.cpp`): copy the board and swap the
two cells.  Indexing outside the string is undefined behaviour in C++; the model returns the
board unchanged there. -/
def swapTiles (board : Board) (pos1 pos2 : Int) : Board :=
  if 0 ≤ pos1 ∧ pos1 < board.length ∧ 0 ≤ pos2 ∧ pos2 < board.length then
    (board.set pos1.toNat (board.getD pos2.toNat BLANK)).set pos2.toNat
      (board.getD pos1.toNat BLANK)
  else board

/-- Function `generateTarget(n)` in letter mode (`useNumbers = false`, the only mode any caller
uses): `A`, `B`, ... for the first 26 tiles, `"A" + to_string(i - 25)` afterwards, then `#`. -/
def generateTarget (n : Nat) : Board :=
  (List.range (n * n - 1)).foldl
    (fun target i =>
      if i < 26 then target ++ [Char.ofNat (65 + i)]
      else target ++ ('A' :: Nat.toDigits 10 (i - 25)))
    [] ++ [BLANK]

/-- The constant `TARGET` of the 4x4 programs. -/
def TARGET4 : Board := "ABCDEFGHIJKLMNO#".toList

/-- The body of the move loop `for (i = 0; i < 4; i++)` up to the bounds test, shared verbatim by
every search of the repository: the in-bounds destinations `(newBoard, newPos)` in the order
UP, DOWN, LEFT, RIGHT. -/
def successors (N : Nat) (board : Board) (blankPos : Int) : List (Board × Int) :=
  (List.range 4).filterMap fun i =>
    let newRow := blankPos.tdiv N + dRow i
    let newCol := blankPos.tmod N + dCol i
    if 0 ≤ newRow ∧ newRow < N ∧ 0 ≤ newCol ∧ newCol < N then
      some (swapTiles board blankPos (newRow * N + newCol), newRow * N + newCol)
    else none

/-- The direction indices accepted by the bounds test of the searches at blank index `blankPos`,
in loop order. -/
def acceptedDirs (N : Nat) (blankPos : Int) : List Nat :=
  (List.range 4).filter fun i =>
    0 ≤ blankPos.tdiv N + dRow i ∧ blankPos.tdiv N + dRow i < N ∧
    0 ≤ blankPos.tmod N + dCol i ∧ blankPos.tmod N + dCol i < N

/-- Function `listAvailable` of `board_available.cpp`: the lines it prints, in order. -/
def listAvailable (board : Board) : List String :=
  let blankPos := findBlank board
  let row := blankPos.tdiv 4
  let col := blankPos.tmod 4
  (if row > 0 then ["UP"] else []) ++ (if row < 3 then ["DOWN"] else []) ++
  (if col > 0 then ["LEFT"] else []) ++ (if col < 3 then ["RIGHT"] else [])

/-- The inversion counter of `isSolvable`: the two nested index loops. -/
def countInversions (N : Nat) (board : Board) : Int :=
  (List.range (N * N - 1)).foldl
    (fun inversions i =>
      if board.getD i (Char.ofNat 0) = BLANK then inversions
      else
        (List.range' (i + 1) (N * N - (i + 1))).foldl
          (fun inversions j =>
            if board.getD j (Char.ofNat 0) = BLANK then inversions
            else if board.getD i (Char.ofNat 0) > board.getD j (Char.ofNat 0) then inversions + 1
            else inversions)
          inversions)
    0

/-- Function `isSolvable` of `bsp_puzzle_solver_nxn.cpp`. -/
def isSolvable (N : Nat) (board : Board) : Bool :=
  let inversions := countInversions N board
  if (N : Int).tmod 2 = 1 then
    decide (inversions.tmod 2 = 0)
  else
    let blankPos := findBlank board
    let blankRow := blankPos.tdiv N
    let blankRowFromBottom := (N : Int) - blankRow
    decide ((inversions + blankRowFromBottom).tmod 2 = 1)

/-- The `State` of the BFS programs. -/
structure State where
  board : Board
  blankPos : Int
  cost : Int
deriving DecidableEq, Repr

/-- One pass of the move loop of `bfs` for the dequeued state `current`: every in-bounds
successor board that is not yet in `visited` is inserted in `visited` and pushed at the back of
the queue with cost `current.cost + 1`. -/
def bfsExpand (N : Nat) (current : State) (q : List State) (visited : List Board) :
    List State × List Board :=
  (successors N current.board current.blankPos).foldl
    (fun acc nb =>
      if nb.1 ∈ acc.2 then acc
      else (acc.1 ++ [State.mk nb.1 nb.2 (current.cost + 1)], nb.1 :: acc.2))
    (q, visited)

/-- The `while (!q.empty())` loop of `bfs`.  `none` is only returned when the fuel runs out. -/
def bfsLoop (N : Nat) (TARGET : Board) : Nat → List State → List Board → Option Int
  | 0, _, _ => none
  | _ + 1, [], _ => some (-1)
  | fuel + 1, current :: q, visited =>
    if current.board = TARGET then some current.cost
    else
      let r := bfsExpand N current q visited
      bfsLoop N TARGET fuel r.1 r.2

/-- Function `bfs` of `bsp_puzzle_solver_nxn.cpp` with an explicit bound on the number of loop
iterations. -/
def bfsFuel (N : Nat) (TARGET : Board) (fuel : Nat) (start : Board) : Option Int :=
  bfsLoop N TARGET fuel [State.mk start (findBlank start) 0] [start]

/-- Function `bfs` of `bsp_puzzle_solver_nxn.cpp`.  The loop dequeues every board at most once
and only ever sees rearrangements of `start`, so `start.length ! + 1` iterations always suffice
(`bfs_correct`). -/
def bfs (N : Nat) (TARGET : Board) (start : Board) : Option Int :=
  bfsFuel N TARGET (start.length.factorial + 1) start

/-- Function `bfs` of `board_available.cpp` (the 4x4 solver): the same loop with the constants
`4` and `"ABCDEFGHIJKLMNO#"` written out. -/
def bfs4 (start : Board) : Option Int :=
  bfsLoop 4 TARGET4 (start.length.factorial + 1) [State.mk start (findBlank start) 0] [start]

/-- The legality test of the specification for direction `i` (0 = UP, 1 = DOWN, 2 = LEFT,
3 = RIGHT) at blank index `p`: with `row = p / N` and `col = p % N`, the destination cell
`(row + dRow i, col + dCol i)` lies inside `[0, N) x [0, N)`. -/
def destInGrid (N p i : Nat) : Bool :=
  decide (0 ≤ ((p / N : Nat) : Int) + dRow i ∧ ((p / N : Nat) : Int) + dRow i < N ∧
    0 ≤ ((p % N : Nat) : Int) + dCol i ∧ ((p % N : Nat) : Int) + dCol i < N)

/-- The flattened index of the destination cell of direction `i` from blank index `p`. -/
def destCell (N p i : Nat) : Int :=
  (((p / N : Nat) : Int) + dRow i) * N + (((p % N : Nat) : Int) + dCol i)

/-- The test of the inner loop of `isSolvable` on two symbols: both are tiles and the first is
the larger one. -/
def inverted (a c : Char) : Bool :=
  decide (a ≠ BLANK ∧ c ≠ BLANK ∧ a > c)

/-- The index pairs counted by the specification of the oracle: `i < j`, neither cell is the
blank, and the tile at `i` is larger than the tile at `j`. -/
def inversionPairs (board : Board) : Finset (Nat × Nat) :=
  (Finset.range board.length ×ˢ Finset.range board.length).filter
    (fun ij => ij.1 < ij.2 ∧
      inverted (board.getD ij.1 (Char.ofNat 0)) (board.getD ij.2 (Char.ofNat 0)) = true)

/-- The reference rule of the specification: with `inv` the number of inversion pairs, an odd
`N` is solvable iff `inv` is even, an even `N` iff `inv + (N - blankRow)` is odd, where
`blankRow` is the row of the blank. -/
def referenceSolvable (N : Nat) (board : Board) : Bool :=
  let inv := (inversionPairs board).card
  let blankRow := board.indexOf BLANK / N
  if N % 2 = 1 then decide (inv % 2 = 0) else decide ((inv + (N - blankRow)) % 2 = 1)

/-- Inversions of a board counted cell by cell (auxiliary, used in the proofs). -/
def invRec : Board → Nat
  | [] => 0
  | a :: l => l.countP (inverted a) + invRec l

/-- Inversions between a cell of `A` and a later cell of `B` (auxiliary). -/
def cross (A B : Board) : Nat :=
  (A.map (fun a => B.countP (inverted a))).sum

/-- One legal move: `b2` is one of the boards the move loop generates from `b1` with the blank
located by `find`. -/
def legalMove (N : Nat) (b1 b2 : Board) : Prop :=
  ∃ s ∈ successors N b1 (findBlank b1), s.1 = b2

/-- `Reach N k a b`: some sequence of exactly `k` legal moves transforms `a` into `b`. -/
def Reach (N : Nat) : Nat → Board → Board → Prop
  | 0, a, b => a = b
  | k + 1, a, b => ∃ c, Reach N k a c ∧ legalMove N c b

/-- The outcome a search must report on `start`: `-1` when no move sequence reaches `TARGET`,
otherwise the length of a shortest one. -/
def Optimal (N : Nat) (TARGET start : Board) (r : Int) : Prop :=
  (r = -1 ∧ ∀ k, ¬ Reach N k start TARGET) ∨
  (∃ d : Nat, r = d ∧ Reach N d start TARGET ∧ ∀ j, j < d → ¬ Reach N j start TARGET)

/-- The number of rearrangements of `start` not yet in `visited` (termination measure). -/
def unvisited (start : Board) (visited : List Board) : Nat :=
  (start.permutations.filter (fun x => decide (x ∉ visited))).length

/-- The loop invariant of `bfs` at front cost `c`; `cur` is the board being expanded, if any. -/
structure BInv (N : Nat) (TARGET start : Board) (c : Nat) (cur : Option Board)
    (q : List State) (v : List Board) : Prop where
  valid : ∀ s ∈ q, s.board.Perm start ∧ s.blankPos = findBlank s.board
  split : ∃ q1 q2, q = q1 ++ q2 ∧ (∀ s ∈ q1, s.cost = c) ∧ (∀ s ∈ q2, s.cost = c + 1)
  sound : ∀ s ∈ q, ∃ k : Nat, s.cost = k ∧ Reach N k start s.board ∧
    ∀ j, j < k → ¬ Reach N j start s.board
  complete : ∀ x j, Reach N j start x → j ≤ c → x ∈ v
  closed : ∀ x ∈ v, (∃ s ∈ q, s.board = x) ∨ some x = cur ∨
    (x ≠ TARGET ∧ ∀ y, legalMove N x y → y ∈ v)
  vperm : ∀ x ∈ v, x.Perm start

/-- The boards dequeued by the loop of `bfs`, in order (the loop of `bfsLoop`, recording
`current.board` at each iteration). -/
def bfsDequeued (N : Nat) (TARGET : Board) : Nat → List State → List Board → List Board
  | 0, _, _ => []
  | _ + 1, [], _ => []
  | fuel + 1, current :: q, visited =>
    current.board ::
      (if current.board = TARGET then []
       else
        let r := bfsExpand N current q visited
        bfsDequeued N TARGET fuel r.1 r.2)

/-! ### A* search -/

/-- The `State` of the A* programs. -/
structure AState where
  board : Board
  blankPos : Int
  cost : Int
  heuristic : Int
deriving DecidableEq, Repr

/-- Method `State::f`. -/
def AState.f (s : AState) : Int := s.cost + s.heuristic

/-- The value of `(int) s.find(c)`: the index of the first `c`, `-1` (`npos`) when absent. -/
def findChar (s : Board) (c : Char) : Int :=
  if c ∈ s then (s.indexOf c : Nat) else -1

/-- Function `calculateH1` (4x4 programs): the number of misplaced tiles. -/
def calculateH1 (board : Board) : Int :=
  (List.range 16).foldl
    (fun misplaced i =>
      if board.getD i (Char.ofNat 0) ≠ BLANK ∧
          board.getD i (Char.ofNat 0) ≠ TARGET4.getD i (Char.ofNat 0) then misplaced + 1
      else misplaced)
    0

/-- Function `calculateH2` of the 4x4 programs: the sum of Manhattan distances, the goal
position of a tile being `TARGET.find(board[i])`. -/
def calculateH2_4x4 (board : Board) : Int :=
  (List.range 16).foldl
    (fun totalDistance i =>
      if board.getD i (Char.ofNat 0) ≠ BLANK then
        let goalPos := findChar TARGET4 (board.getD i (Char.ofNat 0))
        let currentRow := (i : Int).tdiv 4
        let currentCol := (i : Int).tmod 4
        let goalRow := goalPos.tdiv 4
        let goalCol := goalPos.tmod 4
        totalDistance + (|currentRow - goalRow| + |currentCol - goalCol|)
      else totalDistance)
    0

/-- Lookup in a `std::unordered_map<K,int>` modelled as an association list (the most recent
binding of a key is the first one). -/
def mapFind {K : Type} [DecidableEq K] (m : List (K × Int)) (key : K) : Option Int :=
  match m with
  | [] => none
  | (k, v) :: rest => if k = key then some v else mapFind rest key

/-- Function `buildTargetPositions`: `targetPositions[TARGET[i]] = i` for every index. -/
def buildTargetPositions (TARGET : Board) : List (Char × Int) :=
  (List.range TARGET.length).foldl
    (fun targetPositions i => (TARGET.getD i (Char.ofNat 0), (i : Int)) :: targetPositions)
    []

/-- Function `calculateH2` of `h2_puzzle_solver_nxn.cpp`: the sum of Manhattan distances, the
goal position of a tile being `targetPositions[tile]` (`0` for a key that is absent, as
`operator[]` value-initialises it). -/
def calculateH2 (N : Nat) (targetPositions : List (Char × Int)) (board : Board) : Int :=
  (List.range board.length).foldl
    (fun distance i =>
      let tile := board.getD i (Char.ofNat 0)
      if tile = BLANK then distance
      else
        let targetPos := (mapFind targetPositions tile).getD 0
        let currentRow := (i : Int).tdiv N
        let currentCol := (i : Int).tmod N
        let targetRow := targetPos.tdiv N
        let targetCol := targetPos.tmod N
        distance + (|currentRow - targetRow| + |currentCol - targetCol|))
    0

/-- The contract of `std::priority_queue<State, vector<State>, Cmp>` with a comparator that
orders by `f`: the container is some arrangement of its elements, `push` adds one element, and
`top` followed by `pop` removes an element whose `f` is minimal.  Which of several minimal
elements is removed is left to the implementation. -/
structure PriorityQueue where
  push : List AState → AState → List AState
  pop : List AState → Option (AState × List AState)
  push_perm : ∀ l s, (push l s).Perm (s :: l)
  pop_nil : pop [] = none
  pop_min : ∀ l, l ≠ [] → ∃ s l', pop l = some (s, l') ∧ l.Perm (s :: l') ∧ ∀ t ∈ l, s.f ≤ t.f

/-- Removal of the first element of minimal `f` from a list. -/
def popMin : List AState → Option (AState × List AState)
  | [] => none
  | s :: l =>
    match popMin l with
    | none => some (s, [])
    | some (m, rest) => if s.f ≤ m.f then some (s, l) else some (m, s :: rest)

/-- A priority queue kept as a plain list: an executable instance of the contract. -/
def listPQ : PriorityQueue where
  push := fun l s => s :: l
  pop := popMin
  push_perm := fun _ _ => List.Perm.refl _
  pop_nil := rfl
  pop_min := by
    intro l
    induction l with
    | nil => intro h; exact absurd rfl h
    | cons s l ih =>
      intro _
      cases l with
      | nil =>
        refine ⟨s, [], rfl, List.Perm.refl _, ?_⟩
        intro t ht
        rw [List.mem_singleton] at ht
        rw [ht]
      | cons a l =>
        obtain ⟨m, rest, hm, hperm, hmin⟩ := ih (List.cons_ne_nil a l)
        by_cases hle : s.f ≤ m.f
        · refine ⟨s, a :: l, by rw [popMin, hm]; simp [hle], List.Perm.refl _, ?_⟩
          intro t ht
          rcases List.mem_cons.mp ht with e | e
          · rw [e]
          · exact le_trans hle (hmin t e)
        · refine ⟨m, s :: rest, by rw [popMin, hm]; simp [hle], ?_, ?_⟩
          · exact (List.Perm.cons s hperm).trans (List.Perm.swap m s rest)
          · intro t ht
            rcases List.mem_cons.mp ht with e | e
            · rw [e]; exact le_of_lt (not_le.mp hle)
            · exact hmin t e

/-- The test `!bestCost.count(newBoard) || newCost < bestCost[newBoard]`. -/
def betterCost (bestCost : List (Board × Int)) (newBoard : Board) (newCost : Int) : Bool :=
  match mapFind bestCost newBoard with
  | none => true
  | some g => decide (newCost < g)

/-- The body of the move loop of the A* searches for one in-bounds successor `nb` of the popped
state `current`: the successor is pushed, and `bestCost` updated, when its board has no entry in
`bestCost` or the new cost is smaller. -/
def aStarPush (pq : PriorityQueue) (h : Board → Int) (current : AState)
    (acc : List AState × List (Board × Int)) (nb : Board × Int) :
    List AState × List (Board × Int) :=
  let newCost := current.cost + 1
  if betterCost acc.2 nb.1 newCost = true then
    (pq.push acc.1 (AState.mk nb.1 nb.2 newCost (h nb.1)), (nb.1, newCost) :: acc.2)
  else acc

/-- The move loop of the A* searches for the popped state `current`. -/
def aStarExpand (pq : PriorityQueue) (N : Nat) (h : Board → Int) (current : AState)
    (open_ : List AState) (bestCost : List (Board × Int)) :
    List AState × List (Board × Int) :=
  (successors N current.board current.blankPos).foldl (aStarPush pq h current) (open_, bestCost)

/-- The `while (!pq.empty())` loop of the A* searches.  The three copies in the repository
differ in the constants and the heuristic (parameters `N`, `TARGET`, `h`) and in the order of the
two tests after the pop: the 4x4 `aStarSearch` tests for the goal first and then for membership
in `visited` (`goalFirst = true`), `astar_h2` tests `visited` first, inserts the board and then
tests for the goal (`goalFirst = false`).  `none` is only returned when the fuel runs out. -/
def aStarLoop (pq : PriorityQueue) (N : Nat) (TARGET : Board) (h : Board → Int)
    (goalFirst : Bool) :
    Nat → List AState → List Board → List (Board × Int) → Option Int
  | 0, _, _, _ => none
  | fuel + 1, open_, visited, bestCost =>
    match pq.pop open_ with
    | none => some (-1)
    | some (current, rest) =>
      if goalFirst then
        if current.board = TARGET then some current.cost
        else if current.board ∈ visited then
          aStarLoop pq N TARGET h goalFirst fuel rest visited bestCost
        else
          let r := aStarExpand pq N h current rest bestCost
          aStarLoop pq N TARGET h goalFirst fuel r.1 (current.board :: visited) r.2
      else
        if current.board ∈ visited then
          aStarLoop pq N TARGET h goalFirst fuel rest visited bestCost
        else if current.board = TARGET then some current.cost
        else
          let r := aStarExpand pq N h current rest bestCost
          aStarLoop pq N TARGET h goalFirst fuel r.1 (current.board :: visited) r.2

/-- The A* searches up to the loop: push the start state, set `bestCost[start] = 0`, run the
loop.  Every pop either closes a new board or discards a stale entry, and an expansion pushes
at most four states, so `4 * start.length ! + 2` iterations always suffice. -/
def aStar (pq : PriorityQueue) (N : Nat) (TARGET : Board) (h : Board → Int) (goalFirst : Bool)
    (start : Board) : Option Int :=
  aStarLoop pq N TARGET h goalFirst (4 * start.length.factorial + 2)
    (pq.push [] (AState.mk start (findBlank start) 0 (h start))) [] [(start, 0)]

/-- Function `aStarSearch` of the 4x4 solver with the misplaced-tile heuristic. -/
def aStarSearchH1 (pq : PriorityQueue) (start : Board) : Option Int :=
  aStar pq 4 TARGET4 calculateH1 true start

/-- Function `aStarSearch` of the 4x4 solver with the Manhattan heuristic. -/
def aStarSearchH2 (pq : PriorityQueue) (start : Board) : Option Int :=
  aStar pq 4 TARGET4 calculateH2_4x4 true start

/-- Function `astar_h2` of `h2_puzzle_solver_nxn.cpp`, with `targetPositions` built from
`TARGET` by `buildTargetPositions` as `main` does. -/
def astar_h2 (pq : PriorityQueue) (N : Nat) (TARGET : Board) (start : Board) : Option Int :=
  aStar pq N TARGET (calculateH2 N (buildTargetPositions TARGET)) false start

/-- The loop invariant of the A* searches; `cur` is the board being expanded, if any. -/
structure AInv (N : Nat) (TARGET start : Board) (h : Board → Int) (cur : Option Board)
    (open_ : List AState) (closed : List Board) (bc : List (Board × Int)) : Prop where
  entries : ∀ e ∈ open_, e.board.Perm start ∧ e.blankPos = findBlank e.board ∧
    e.heuristic = h e.board ∧
    ∃ k : Nat, e.cost = k ∧ Reach N k start e.board ∧ ∃ g, mapFind bc e.board = some g ∧ g ≤ e.cost
  table : ∀ x g, mapFind bc x = some g →
    ∃ k : Nat, g = k ∧ Reach N k start x ∧ (x ∈ closed ∨ ∃ e ∈ open_, e.board = x ∧ e.cost = g)
  closed_ok : ∀ x ∈ closed, x ≠ TARGET ∧ x.Perm start ∧
    ∃ k : Nat, mapFind bc x = some (k : Int) ∧ (∀ j, Reach N j start x → k ≤ j) ∧
      (some x = cur ∨ ∀ y, legalMove N x y → ∃ g, mapFind bc y = some g ∧ g ≤ (k : Int) + 1)
  start_in : ∃ g, mapFind bc start = some g ∧ g ≤ 0

/-- Consistency of a heuristic on the rearrangements of `start`: one move lowers the estimate
by at most one. -/
def Consistent (N : Nat) (start : Board) (h : Board → Int) : Prop :=
  ∀ x y, x.Perm start → legalMove N x y → h x ≤ h y + 1

/-- The contribution of cell `i` holding symbol `c` to `calculateH1` (auxiliary). -/
def h1Term (i : Nat) (c : Char) : Int :=
  if c ≠ BLANK ∧ c ≠ TARGET4.getD i (Char.ofNat 0) then 1 else 0

/-- The contribution of cell `i` holding symbol `c` to a Manhattan heuristic on the `N x N` grid,
`goal c` being the goal position of `c` (auxiliary). -/
def manhattanTerm (N : Nat) (goal : Char → Int) (i : Nat) (c : Char) : Int :=
  if c = BLANK then 0
  else |(i : Int).tdiv N - (goal c).tdiv N| + |(i : Int).tmod N - (goal c).tmod N|

/-! ### Explicit move sequences (used to show that the parity test is complete for `N = 3`) -/

/-- One pass of the move loop for the single direction `i`: the board after the move, `none`
when the bounds test rejects the direction. -/
def moveDir (N : Nat) (board : Board) (i : Nat) : Option Board :=
  let blankPos := findBlank board
  let newRow := blankPos.tdiv N + dRow i
  let newCol := blankPos.tmod N + dCol i
  if 0 ≤ newRow ∧ newRow < N ∧ 0 ≤ newCol ∧ newCol < N then
    some (swapTiles board blankPos (newRow * N + newCol))
  else none

/-- The board after a sequence of directions, `none` when one of them is rejected. -/
def applyDirs (N : Nat) : Board → List Nat → Option Board
  | board, [] => some board
  | board, i :: ds =>
    match moveDir N board i with
    | none => none
    | some b => applyDirs N b ds

/-- The symbol shown for `c` when only the symbols of `S` are tracked. -/
def maskChar (S : List Char) (c : Char) : Char :=
  if c ∈ S then c else '*'

/-- A board with every symbol outside `S` replaced by `*`. -/
def mask (S : List Char) (board : Board) : Board :=
  board.map (maskChar S)

/-- Test of a table of move sequences for one placement step on the 3x3 board: wherever the
next tracked symbol `t` sits on a cell that `g` shows as `*`, the sequence listed for that cell
consists of directions and leads to `g2`. -/
def stageCheck (g : Board) (t : Char) (g2 : Board) (certs : List (List Nat)) : Bool :=
  (List.range 9).all fun j =>
    decide (g.getD j BLANK ≠ '*') ||
      (decide (∀ i ∈ certs.getD j [], i < 4) &&
        decide (applyDirs 3 (g.set j t) (certs.getD j []) = some g2))

/-- Move sequences bringing the blank to the last cell. -/
def certsBlank : List (List Nat) :=
  [[1,1,3,3], [1,1,3], [1,1], [1,3,3], [1,3], [1], [3,3], [3], []]

/-- Move sequences placing `A`. -/
def certsA : List (List Nat) :=
  [[], [0,2,2,0,3,1,1,3], [0,2,0,3,1,2,2,0,3,1,1,3], [0,0,2,2,1,1,3,3],
   [0,0,2,1,2,0,3,1,1,3], [2,0,3,0,2,1,2,0,3,1,1,3], [0,2,2,1,3,0,0,2,1,1,3,3],
   [0,2,1,2,0,3,0,2,1,1,3,3], []]

/-- Move sequences placing `B`. -/
def certsB : List (List Nat) :=
  [[], [], [0,2,0,3,1,1], [0,2,2,1,3,3,0,0,2,1,1,3], [0,0,2,1,1,3], [2,0,3,0,2,1,1,3],
   [2,2,0,3,1,3,0,0,2,1,1,3], [0,2,1,3,0,0,2,1,1,3], []]

/-- Move sequences placing `C`. -/
def certsC : List (List Nat) :=
  [[], [], [], [0,0,2,1,2,1,3,3,0,2,0,3,1,1], [0,2,2,0,3,3,1,2,0,2,1,1,3,3],
   [0,0,2,1,3,1,2,0,0,3,1,1], [0,0,2,1,1,2,0,3,1,3,0,2,0,3,1,1], [0,0,2,1,1,3,0,2,0,3,1,1], []]

/-- Move sequences placing `D`. -/
def certsD : List (List Nat) :=
  [[], [], [], [], [2,2,0,3,1,3], [2,0,3,1,2,2,0,3,1,3], [0,2,2,1,3,3], [0,2,1,2,0,3,1,3], []]

/-- Move sequences placing `G`. -/
def certsG : List (List Nat) :=
  [[], [], [], [], [0,0,2,2,1,3,1,2,0,0,3,3,1,1], [2,2,0,3,3,1,2,0,2,1,3,3], [],
   [2,2,0,3,1,3,0,2,2,1,3,3], []]

/-- Move sequences placing `E`. -/
def certsE : List (List Nat) :=
  [[], [], [], [], [], [2,0,3,1], [], [0,2,1,3], []]

/-! ### Definitions for the claims on moves, heuristics and the parallel searches -/

/-- The structural inverse of a direction of `dRow`/`dCol`: UP and DOWN are exchanged, LEFT and
RIGHT are exchanged. -/
def oppositeDir (i : Nat) : Nat :=
  match i with
  | 0 => 1
  | 1 => 0
  | 2 => 3
  | _ => 2

/-- Function `calculateH1` of `parallel_astar_h1_openmp.cpp` (the OpenMP copy). -/
def calculateH1_omp (board : Board) : Int :=
  (List.range 16).foldl
    (fun misplaced i =>
      if board.getD i (Char.ofNat 0) ≠ BLANK ∧
          board.getD i (Char.ofNat 0) ≠ TARGET4.getD i (Char.ofNat 0) then misplaced + 1
      else misplaced)
    0

/-- The Manhattan sum of the specification: over the cells `i` that do not hold the blank, the
row distance plus the column distance between `i` and the index `t` of `board[i]` in `TARGET`. -/
def manhattanSum (N : Nat) (TARGET board : Board) : Int :=
  ∑ i ∈ (Finset.range board.length).filter (fun i => board.getD i (Char.ofNat 0) ≠ BLANK),
    (|((i / N : Nat) : Int) - ((TARGET.indexOf (board.getD i (Char.ofNat 0)) / N : Nat) : Int)| +
     |((i % N : Nat) : Int) - ((TARGET.indexOf (board.getD i (Char.ofNat 0)) % N : Nat) : Int)|)

/-- One iteration of the `while` loop of `bfs` on the configuration `(queue, visited)`: `none`
when the loop is left (empty queue, or the target at the front), otherwise the configuration at
the next loop head. -/
def bfsStep (N : Nat) (TARGET : Board) (c : List State × List Board) :
    Option (List State × List Board) :=
  match c.1 with
  | [] => none
  | current :: q =>
    if current.board = TARGET then none else some (bfsExpand N current q c.2)

/-- The configuration of `bfs` after `n` iterations of its loop, `none` when the loop was left
earlier. -/
def bfsIter (N : Nat) (TARGET : Board) :
    Nat → List State × List Board → Option (List State × List Board)
  | 0, c => some c
  | n + 1, c =>
    match bfsStep N TARGET c with
    | none => none
    | some c2 => bfsIter N TARGET n c2

/-- The configuration with which `bfs` enters its loop: queue and visited set hold the start
board. -/
def bfsInit (start : Board) : List State × List Board :=
  ([State.mk start (findBlank start) 0], [start])

/-- One iteration of the `while` loop of the A* searches on the configuration
`(pq, visited, bestCost)`: `none` when the loop is left (empty queue, or the target popped),
otherwise the configuration at the next loop head. -/
def aStarStep (pq : PriorityQueue) (N : Nat) (TARGET : Board) (h : Board → Int)
    (goalFirst : Bool) (c : List AState × List Board × List (Board × Int)) :
    Option (List AState × List Board × List (Board × Int)) :=
  match pq.pop c.1 with
  | none => none
  | some (current, rest) =>
    if goalFirst then
      if current.board = TARGET then none
      else if current.board ∈ c.2.1 then some (rest, c.2.1, c.2.2)
      else
        let r := aStarExpand pq N h current rest c.2.2
        some (r.1, current.board :: c.2.1, r.2)
    else
      if current.board ∈ c.2.1 then some (rest, c.2.1, c.2.2)
      else if current.board = TARGET then none
      else
        let r := aStarExpand pq N h current rest c.2.2
        some (r.1, current.board :: c.2.1, r.2)

/-- The configuration of an A* search after `n` iterations of its loop, `none` when the loop
was left earlier. -/
def aStarIter (pq : PriorityQueue) (N : Nat) (TARGET : Board) (h : Board → Int)
    (goalFirst : Bool) :
    Nat → List AState × List Board × List (Board × Int) →
      Option (List AState × List Board × List (Board × Int))
  | 0, c => some c
  | n + 1, c =>
    match aStarStep pq N TARGET h goalFirst c with
    | none => none
    | some c2 => aStarIter pq N TARGET h goalFirst n c2

/-- The configuration with which an A* search enters its loop. -/
def aStarInit (pq : PriorityQueue) (h : Board → Int) (start : Board) :
    List AState × List Board × List (Board × Int) :=
  (pq.push [] (AState.mk start (findBlank start) 0 (h start)), [], [(start, 0)])

/-! ### The OpenMP searches, one worker at a time

The `omp for` loops are modelled with their iterations run one after another in index order,
which is the execution of a team of one worker; a worker count `numThreads >= 0` then only
enters through the batch size of the A* variants.  A negative worker count gives no run that
could be modelled: the searches return no value for it. -/

/-- The shared variables of one level of `parallelBFS`. -/
structure PBfsRound where
  nextLevel : List State
  visited : List Board
  foundSolution : Bool
  solution : Int

/-- The body of the `omp for` loop of `parallelBFS` for the level entry `current`. -/
def parallelBFSItem (r : PBfsRound) (current : State) : PBfsRound :=
  if r.foundSolution then r
  else if current.board = TARGET4 then
    if !r.foundSolution then { r with foundSolution := true, solution := current.cost } else r
  else
    let e := bfsExpand 4 current r.nextLevel r.visited
    { r with nextLevel := e.1, visited := e.2 }

/-- The `while (!currentLevel.empty() && !foundSolution)` loop of `parallelBFS`. -/
def parallelBFSLoop : Nat → List State → List Board → Bool → Int → Option Int
  | 0, _, _, _, _ => none
  | fuel + 1, currentLevel, visited, foundSolution, solution =>
    if currentLevel ≠ [] ∧ foundSolution = false then
      let r := currentLevel.foldl parallelBFSItem (PBfsRound.mk [] visited foundSolution solution)
      if r.foundSolution then some r.solution
      else parallelBFSLoop fuel r.nextLevel r.visited r.foundSolution r.solution
    else some solution

/-- Function `parallelBFS` of `parallel_bfs_openmp.cpp`.  The team size requested with
`num_threads(numThreads)` fixes how the entries of a level are shared out, not what the
index-order run of the level computes.  A negative `numThreads` is no team size: the run is
aborted when the first parallel region is entered, and no value is returned (`none`). -/
def parallelBFS (start : Board) (numThreads : Int) : Option Int :=
  if numThreads < 0 then none
  else
    parallelBFSLoop (start.length.factorial + 1) [State.mk start (findBlank start) 0] [start]
      false (-1)

/-- The contract of `std::sort(openList.begin(), openList.end(), greater<State>())`: the result
is a rearrangement of the list in which no element has a larger `f` than an earlier one.  The
order among elements of equal `f` is left to the implementation. -/
structure DescendingSort where
  sort : List AState → List AState
  perm : ∀ l, (sort l).Perm l
  sorted : ∀ l, (sort l).Pairwise (fun a b => b.f ≤ a.f)

/-- The shared variables of one round of the parallel A* searches. -/
structure PAStarRound where
  newStates : List AState
  closedSet : List Board
  bestCost : List (Board × Int)
  solutionFound : Bool
  solution : Int

/-- The body of the move loop of the parallel A* searches for one in-bounds successor. -/
def parallelAStarPush (h : Board → Int) (current : AState)
    (acc : List AState × List (Board × Int)) (nb : Board × Int) :
    List AState × List (Board × Int) :=
  let newCost := current.cost + 1
  if betterCost acc.2 nb.1 newCost = true then
    (acc.1 ++ [AState.mk nb.1 nb.2 newCost (h nb.1)], (nb.1, newCost) :: acc.2)
  else acc

/-- The body of the `omp for` loop of the parallel A* searches for the batch entry
`current`. -/
def parallelAStarItem (h : Board → Int) (r : PAStarRound) (current : AState) : PAStarRound :=
  if r.solutionFound then r
  else if current.board ∈ r.closedSet then r
  else
    let r1 := { r with closedSet := current.board :: r.closedSet }
    if current.board = TARGET4 then
      if !r1.solutionFound || decide (current.cost < r1.solution) then
        { r1 with solutionFound := true, solution := current.cost }
      else r1
    else
      let e := (successors 4 current.board current.blankPos).foldl
        (parallelAStarPush h current) (r1.newStates, r1.bestCost)
      { r1 with newStates := e.1, bestCost := e.2 }

/-- The `while (!openList.empty() && !solutionFound)` loop of the parallel A* searches: sort,
take the `min(size, numThreads * 4)` last entries as the batch, process the batch, append the
new states.  With a negative `numThreads` the batch size is negative and the iterator range
`[openList.end() - batchSize, openList.end())` of `currentBatch` is inverted: the source has no
defined behaviour there, and the model returns no value (`none`). -/
def parallelAStarLoop (srt : DescendingSort) (h : Board → Int) (numThreads : Int) :
    Nat → List AState → List Board → List (Board × Int) → Bool → Int → Option Int
  | 0, _, _, _, _, _ => none
  | fuel + 1, openList, closedSet, bestCost, solutionFound, solution =>
    if openList ≠ [] ∧ solutionFound = false then
      let sorted := srt.sort openList
      let batchSize : Int := min (sorted.length : Int) (numThreads * 4)
      if batchSize < 0 then none
      else
        let currentBatch := sorted.drop (sorted.length - batchSize.toNat)
        let rest := sorted.take (sorted.length - batchSize.toNat)
        let r := currentBatch.foldl (parallelAStarItem h)
          (PAStarRound.mk [] closedSet bestCost solutionFound solution)
        parallelAStarLoop srt h numThreads fuel (rest ++ r.newStates) r.closedSet r.bestCost
          r.solutionFound r.solution
    else some solution

/-- Function `parallelAStarH1` of `parallel_astar_h1_openmp.cpp`. -/
def parallelAStarH1 (srt : DescendingSort) (start : Board) (numThreads : Int) : Option Int :=
  parallelAStarLoop srt calculateH1_omp numThreads (4 * start.length.factorial + 2)
    [AState.mk start (findBlank start) 0 (calculateH1_omp start)] [] [(start, 0)] false (-1)

/-- Function `parallelAStarH2` of `parallel_astar_h2_openmp.cpp`; its `calculateH2` is the
`TARGET.find` version of the 4x4 solver. -/
def parallelAStarH2 (srt : DescendingSort) (start : Board) (numThreads : Int) : Option Int :=
  parallelAStarLoop srt calculateH2_4x4 numThreads (4 * start.length.factorial + 2)
    [AState.mk start (findBlank start) 0 (calculateH2_4x4 start)] [] [(start, 0)] false (-1)

/-- Insertion of a state into a list that is descending in `f`. -/
def insertDesc (s : AState) : List AState → List AState
  | [] => [s]
  | a :: l => if a.f ≤ s.f then s :: a :: l else a :: insertDesc s l

/-- Insertion sort, descending in `f`: an executable instance of the sorting contract. -/
def listSort : DescendingSort where
  sort := fun l => l.foldr insertDesc []
  perm := by
    have hins : ∀ (s : AState) (l : List AState), (insertDesc s l).Perm (s :: l) := by
      intro s l
      induction l with
      | nil => exact List.Perm.refl _
      | cons a l ih =>
        unfold insertDesc
        by_cases h : a.f ≤ s.f
        · rw [if_pos h]
        · rw [if_neg h]
          exact (List.Perm.cons a ih).trans (List.Perm.swap s a l)
    intro l
    induction l with
    | nil => exact List.Perm.refl _
    | cons a l ih => exact (hins a _).trans (List.Perm.cons a ih)
  sorted := by
    have hins : ∀ (s : AState) (l : List AState), l.Pairwise (fun a b => b.f ≤ a.f) →
        (insertDesc s l).Pairwise (fun a b => b.f ≤ a.f) ∧
        ∀ x ∈ insertDesc s l, x = s ∨ x ∈ l := by
      intro s l
      induction l with
      | nil =>
        intro _
        exact ⟨List.pairwise_singleton _ _, fun x hx => Or.inl (List.mem_singleton.mp hx)⟩
      | cons a l ih =>
        intro hp
        unfold insertDesc
        by_cases h : a.f ≤ s.f
        · rw [if_pos h]
          refine ⟨List.Pairwise.cons ?_ hp, fun x hx => List.mem_cons.mp hx⟩
          intro b hb
          rcases List.mem_cons.mp hb with e | e
          · rw [e]; exact h
          · exact le_trans ((List.pairwise_cons.mp hp).1 b e) h
        · rw [if_neg h]
          obtain ⟨i1, i2⟩ := ih (List.pairwise_cons.mp hp).2
          refine ⟨List.Pairwise.cons ?_ i1, ?_⟩
          · intro b hb
            rcases i2 b hb with e | e
            · rw [e]; exact le_of_lt (not_le.mp h)
            · exact (List.pairwise_cons.mp hp).1 b e
          · intro x hx
            rcases List.mem_cons.mp hx with e | e
            · exact Or.inr (e ▸ List.mem_cons_self _ _)
            · rcases i2 x e with e2 | e2
              · exact Or.inl e2
              · exact Or.inr (List.mem_cons_of_mem _ e2)
    intro l
    induction l with
    | nil => exact List.Pairwise.nil
    | cons a l ih => exact (hins a _ ih).1

/-! ### The entry points

The `main` functions are modelled by what they do once the arguments are read: leave with exit
code `1` after an error message, or call the search and print its value.  The search is a
parameter of the `...With` versions, so that a statement can say whether it is called. -/

/-- The outcome of a run of `main`. -/
inductive MainResult where
  | sizeError
  | lengthError
  | notSolvable
  | usage
  | solution (r : Option Int)
  deriving DecidableEq

/-- The size detection of the first mode of `main` (no board size given): `N = 4` unless the
length of the puzzle is 9, 16, 25 or 64. -/
def detectSize (len : Nat) : Nat :=
  let N := 4
  if len = 9 then 3
  else if len = 16 then 4
  else if len = 25 then 5
  else if len = 64 then 8
  else N

/-- The branch `argc < 2` of the `main` functions of `bsp_puzzle_solver_nxn.cpp` and
`h2_puzzle_solver_nxn.cpp`: detect the size, build the target, search, print. -/
def mainAutoWith (search : Nat → Board → Board → Option Int) (puzzle : Board) : MainResult :=
  let N := detectSize puzzle.length
  let TARGET := generateTarget N
  MainResult.solution (search N TARGET puzzle)

/-- The branch `argc == 3` of `main` of `bsp_puzzle_solver_nxn.cpp`; `N` is the value of
`atoi(argv[1])`. -/
def bfsMainWith (search : Nat → Board → Board → Option Int) (N : Int) (puzzle : Board) :
    MainResult :=
  if N < 2 ∨ N > 10 then MainResult.sizeError
  else if (puzzle.length : Int) ≠ N * N then MainResult.lengthError
  else
    let TARGET := generateTarget N.toNat
    if !isSolvable N.toNat puzzle then MainResult.notSolvable
    else MainResult.solution (search N.toNat TARGET puzzle)

/-- The branch `argc == 3` of `main` of `h2_puzzle_solver_nxn.cpp`. -/
def h2MainWith (search : Nat → Board → Board → Option Int) (N : Int) (puzzle : Board) :
    MainResult :=
  if N < 2 ∨ N > 10 then MainResult.sizeError
  else if (puzzle.length : Int) ≠ N * N then MainResult.lengthError
  else
    let TARGET := generateTarget N.toNat
    MainResult.solution (search N.toNat TARGET puzzle)

/-- Function `main` of `bsp_puzzle_solver_nxn.cpp`, first mode. -/
def bfsMainAuto (puzzle : Board) : MainResult :=
  mainAutoWith bfs puzzle

/-- Function `main` of `h2_puzzle_solver_nxn.cpp`, first mode. -/
def h2MainAuto (pq : PriorityQueue) (puzzle : Board) : MainResult :=
  mainAutoWith (astar_h2 pq) puzzle

/-- Function `main` of `bsp_puzzle_solver_nxn.cpp`, second mode. -/
def bfsMain (N : Int) (puzzle : Board) : MainResult :=
  bfsMainWith bfs N puzzle

/-- Function `main` of `h2_puzzle_solver_nxn.cpp`, second mode. -/
def h2Main (pq : PriorityQueue) (N : Int) (puzzle : Board) : MainResult :=
  h2MainWith (astar_h2 pq) N puzzle

/-- The worker count read by the `main` functions of the OpenMP programs:
`(argc >= 2) ? atoi(argv[1]) : omp_get_max_threads()`. -/
def readThreads (arg : Option Int) (maxThreads : Int) : Int :=
  match arg with
  | some n => n
  | none => maxThreads

/-- Function `main` of `parallel_bfs_openmp.cpp`. -/
def parallelBFSMain (puzzle : Board) (arg : Option Int) (maxThreads : Int) : MainResult :=
  let numThreads := readThreads arg maxThreads
  MainResult.solution (parallelBFS puzzle numThreads)

/-- Function `main` of `parallel_astar_h1_openmp.cpp`. -/
def parallelAStarH1Main (srt : DescendingSort) (puzzle : Board) (arg : Option Int)
    (maxThreads : Int) : MainResult :=
  let numThreads := readThreads arg maxThreads
  MainResult.solution (parallelAStarH1 srt puzzle numThreads)

/-- Function `main` of `parallel_astar_h2_openmp.cpp`. -/
def parallelAStarH2Main (srt : DescendingSort) (puzzle : Board) (arg : Option Int)
    (maxThreads : Int) : MainResult :=
  let numThreads := readThreads arg maxThreads
  MainResult.solution (parallelAStarH2 srt puzzle numThreads)

/-! ### The rounds of the parallel A* searches, one at a time -/

/-- The batch selection at the head of a round of `parallelAStarH1` / `parallelAStarH2`, for a
worker count `numThreads >= 0`: sort the open list with `greater<State>`, copy its last
`min(size, numThreads * 4)` entries into `currentBatch` and erase them from the open list.
Returns `(currentBatch, openList)`. -/
def selectBatch (srt : DescendingSort) (numThreads : Int) (openList : List AState) :
    List AState × List AState :=
  let sorted := srt.sort openList
  let batchSize : Int := min (sorted.length : Int) (numThreads * 4)
  (sorted.drop (sorted.length - batchSize.toNat), sorted.take (sorted.length - batchSize.toNat))

/-- The variables of the parallel A* searches at the head of their `while` loop. -/
structure PAStarConfig where
  openList : List AState
  closedSet : List Board
  bestCost : List (Board × Int)
  solutionFound : Bool
  solution : Int
  deriving DecidableEq

/-- One round of the `while (!openList.empty() && !solutionFound)` loop of the parallel A*
searches for a worker count `numThreads >= 0`, the batch processed in index order: `none` when
the loop is left. -/
def parallelAStarStep (srt : DescendingSort) (h : Board → Int) (numThreads : Int)
    (c : PAStarConfig) : Option PAStarConfig :=
  if c.openList ≠ [] ∧ c.solutionFound = false then
    let sel := selectBatch srt numThreads c.openList
    let r := sel.1.foldl (parallelAStarItem h)
      (PAStarRound.mk [] c.closedSet c.bestCost c.solutionFound c.solution)
    some (PAStarConfig.mk (sel.2 ++ r.newStates) r.closedSet r.bestCost r.solutionFound
      r.solution)
  else none

/-- The configuration of a parallel A* search after `n` rounds, `none` when the loop was left
earlier. -/
def parallelAStarIter (srt : DescendingSort) (h : Board → Int) (numThreads : Int) :
    Nat → PAStarConfig → Option PAStarConfig
  | 0, c => some c
  | n + 1, c =>
    match parallelAStarStep srt h numThreads c with
    | none => none
    | some c2 => parallelAStarIter srt h numThreads n c2

/-- The configuration with which a parallel A* search enters its loop. -/
def parallelAStarInit (h : Board → Int) (start : Board) : PAStarConfig :=
  PAStarConfig.mk [AState.mk start (findBlank start) 0 (h start)] [] [(start, 0)] false (-1)

/-- The costs of the goal-board states of a batch, in index order. -/
def goalCosts (batch : List AState) : List Int :=
  (batch.filter (fun s => decide (s.board = TARGET4))).map AState.cost

/-- A state written with its board as a string. -/
def st (board : String) (blankPos cost heuristic : Int) : AState :=
  AState.mk board.toList blankPos cost heuristic

/-! ### The library sort

The programs are compiled with `g++`, so `std::sort` is the introsort of the GNU C++ library
(`bits/stl_algo.h`, `bits/stl_heap.h`): quicksort with the median of three entries as pivot on
ranges of more than 16 entries, heap sort once the depth limit `2 * lg n` is used up, and an
insertion sort over the whole range at the end.  The order it gives to entries that compare
equal decides which states of the open list enter a batch.  An iterator range is a list;
`comp a b` is the comparison handed to `std::sort`, `a > b` for `greater<State>`. -/


/-- The range `a` after `std::iter_swap(first + i, first + j)`: the entries at the positions `i`
and `j` exchanged (the range itself when a position lies outside it). -/
def iterSwap {α : Type} (a : List α) (i j : Nat) : List α :=
  match a.get? i, a.get? j with
  | some x, some y => (a.set i y).set j x
  | _, _ => a

/-- Function `std::__push_heap(first, holeIndex, topIndex, value, comp)`, the value being the
entry at `holeIndex`: it is exchanged with its parent as long as it lies below `topIndex` and
`comp(parent, value)` holds. -/
def pushHeap {α : Type} (comp : α → α → Bool) (topIndex : Nat) : Nat → List α → Nat → List α
  | 0, a, _ => a
  | fuel + 1, a, holeIndex =>
    match a.get? ((holeIndex - 1) / 2), a.get? holeIndex with
    | some x, some v =>
      if holeIndex > topIndex ∧ comp x v = true then
        pushHeap comp topIndex fuel (iterSwap a holeIndex ((holeIndex - 1) / 2))
          ((holeIndex - 1) / 2)
      else a
    | _, _ => a

/-- The first loop of `std::__adjust_heap`: the hole moves down to the child that `comp` does
not put before the other one, as long as it has two children.  Returns the range and the
position of the hole. -/
def adjustDown {α : Type} (comp : α → α → Bool) (len : Nat) : Nat → List α → Nat → List α × Nat
  | 0, a, holeIndex => (a, holeIndex)
  | fuel + 1, a, holeIndex =>
    if holeIndex < (len - 1) / 2 then
      match a.get? (2 * (holeIndex + 1)), a.get? (2 * (holeIndex + 1) - 1) with
      | some x, some y =>
        if comp x y = true then
          adjustDown comp len fuel (iterSwap a holeIndex (2 * (holeIndex + 1) - 1))
            (2 * (holeIndex + 1) - 1)
        else
          adjustDown comp len fuel (iterSwap a holeIndex (2 * (holeIndex + 1)))
            (2 * (holeIndex + 1))
      | _, _ => (a, holeIndex)
    else (a, holeIndex)

/-- Function `std::__adjust_heap(first, holeIndex, len, value, comp)`, the value being the entry
at `holeIndex`: the hole moves down to a leaf (through a last single child when `len` is even),
then the value moves up again with `std::__push_heap`. -/
def adjustHeap {α : Type} (comp : α → α → Bool) (a : List α) (holeIndex len : Nat) : List α :=
  let r := adjustDown comp len len a holeIndex
  if len % 2 = 0 ∧ r.2 = (len - 2) / 2 then
    pushHeap comp holeIndex len (iterSwap r.1 r.2 (2 * (r.2 + 1) - 1)) (2 * (r.2 + 1) - 1)
  else pushHeap comp holeIndex len r.1 r.2

/-- The loop of `std::__make_heap`: `std::__adjust_heap` at `parent`, `parent - 1`, ..., `0`. -/
def makeHeapLoop {α : Type} (comp : α → α → Bool) (len : Nat) : Nat → List α → List α
  | 0, a => adjustHeap comp a 0 len
  | parent + 1, a => makeHeapLoop comp len parent (adjustHeap comp a (parent + 1) len)

/-- Function `std::__make_heap(first, last, comp)`. -/
def makeHeap {α : Type} (comp : α → α → Bool) (a : List α) : List α :=
  if a.length < 2 then a else makeHeapLoop comp a.length ((a.length - 2) / 2) a

/-- Function `std::__sort_heap(first, first + last, comp)`: as long as more than one entry is
left, `std::__pop_heap` exchanges the first entry with the last one and restores the heap in
front of it. -/
def sortHeap {α : Type} (comp : α → α → Bool) : Nat → List α → List α
  | 0, a => a
  | last + 1, a =>
    if last + 1 > 1 then sortHeap comp last (adjustHeap comp (iterSwap a 0 last) 0 last)
    else a

/-- Function `std::__partial_sort(first, last, last, comp)`, the heap sort that
`std::__introsort_loop` falls back to: `std::__heap_select` is `std::__make_heap` here, followed
by `std::__sort_heap`. -/
def heapSort {α : Type} (comp : α → α → Bool) (a : List α) : List α :=
  sortHeap comp a.length (makeHeap comp a)

/-- Function `std::__move_median_to_first(first, first + a, first + b, first + c, comp)`: the
median of the three entries is exchanged with the first entry of the range. -/
def moveMedianToFirst {α : Type} (comp : α → α → Bool) (s : List α) (a b c : Nat) : List α :=
  match s.get? a, s.get? b, s.get? c with
  | some x, some y, some z =>
    if comp x y = true then
      if comp y z = true then iterSwap s 0 b
      else if comp x z = true then iterSwap s 0 c
      else iterSwap s 0 a
    else if comp x z = true then iterSwap s 0 a
    else if comp y z = true then iterSwap s 0 c
    else iterSwap s 0 b
  | _, _, _ => s

/-- The loop `while (comp(first, pivot)) ++first;` of `std::__unguarded_partition`, over the `k`
entries from `first` to `last - 1`: `front` is the range read from `first` on, `left` holds the
entries before `first`, the nearest one at its head.  Returns the number of entries left between
the two iterators, the range from `first` on and the entries before it.  The library relies on
the pivot for the end of the scan; the model also stops where the entries between the two
iterators are used up. -/
def scanForward {α : Type} (comp : α → α → Bool) (pivot : α) :
    Nat → List α → List α → Nat × List α × List α
  | k + 1, x :: front, left =>
    if comp x pivot = true then scanForward comp pivot k front (x :: left)
    else (k + 1, x :: front, left)
  | k, front, left => (k, front, left)

/-- The loop `while (comp(pivot, last)) --last;` of `std::__unguarded_partition`, over the `k`
entries from `last` down to `first`: `back` is the range read from `last` downwards, `right`
holds the entries behind `last`.  Returns the number of entries left between the two iterators,
the range from `last` downwards and the entries behind it. -/
def scanBackward {α : Type} (comp : α → α → Bool) (pivot : α) :
    Nat → List α → List α → Nat × List α × List α
  | k + 1, z :: back, right =>
    if comp pivot z = true then scanBackward comp pivot k back (z :: right)
    else (k + 1, z :: back, right)
  | k, back, right => (k, back, right)

/-- Function `std::__unguarded_partition(first, last, pivot, comp)`.  The `k` entries between the
two iterators are read forwards in `front` and backwards in `back`; `left` (nearest entry at its
head) and `right` hold the entries before and behind them.  A round scans forwards, then
backwards; when the iterators have not met, the two entries they stop at are exchanged.  Returns
the ranges `[first, cut)` and `[cut, last)`. -/
def unguardedPartition {α : Type} (comp : α → α → Bool) (pivot : α) :
    Nat → Nat → List α → List α → List α → List α → List α × List α
  | 0, k, front, _, left, right => (left.reverse ++ front.take k, right)
  | fuel + 1, k, front, back, left, right =>
    match scanForward comp pivot k front left with
    | (k1, front1, left1) =>
      match scanBackward comp pivot k1 back right with
      | (k2, back2, right2) =>
        match front1, back2 with
        | x :: front2, z :: back3 =>
          if 2 ≤ k2 then
            unguardedPartition comp pivot fuel (k2 - 2) front2 back3 (z :: left1) (x :: right2)
          else (left1.reverse, front1.take k2 ++ right2)
        | _, _ => (left1.reverse, front1.take k2 ++ right2)

/-- Function `std::__unguarded_partition_pivot(first, last, comp)`: the median of the entries at
`first + 1`, `mid` and `last - 1` becomes the pivot at `first`, and the rest of the range is
partitioned.  Returns the ranges `[first, cut)` (the pivot at its head) and `[cut, last)`. -/
def unguardedPartitionPivot {α : Type} (comp : α → α → Bool) (s : List α) : List α × List α :=
  match moveMedianToFirst comp s 1 (s.length / 2) (s.length - 1) with
  | [] => ([], [])
  | pivot :: rest =>
    match unguardedPartition comp pivot rest.length rest.length rest rest.reverse [] [] with
    | (l, r) => (pivot :: l, r)

/-- Function `std::__introsort_loop(first, last, depth_limit, comp)`: a range of more than 16
entries is partitioned, both parts being treated with the depth limit lowered by one, or sorted
by `std::__partial_sort` once the depth limit is `0`. -/
def introsortLoop {α : Type} (comp : α → α → Bool) : Nat → List α → List α
  | 0, s => if s.length > 16 then heapSort comp s else s
  | depthLimit + 1, s =>
    if s.length > 16 then
      match unguardedPartitionPivot comp s with
      | (l, r) => introsortLoop comp depthLimit l ++ introsortLoop comp depthLimit r
    else s

/-- Function `std::__unguarded_linear_insert` on the sorted range in front of `val`, read
backwards: `val` moves in front of the entries `next` with `comp(val, next)`. -/
def linearInsert {α : Type} (comp : α → α → Bool) (val : α) : List α → List α
  | [] => [val]
  | next :: t => if comp val next = true then next :: linearInsert comp val t else val :: next :: t

/-- Function `std::__final_insertion_sort(first, last, comp)`: every entry is inserted into the
sorted range in front of it.  The guarded and the unguarded insertion of the library put an
entry at the same place. -/
def finalInsertionSort {α : Type} (comp : α → α → Bool) (s : List α) : List α :=
  (s.foldl (fun prefixRev val => linearInsert comp val prefixRev) []).reverse

/-- Function `std::sort(first, last, comp)` of the GNU C++ library (`std::__sort`):
`std::__introsort_loop` with the depth limit `2 * lg(last - first)`, then
`std::__final_insertion_sort`. -/
def stdSort {α : Type} (comp : α → α → Bool) (s : List α) : List α :=
  finalInsertionSort comp (introsortLoop comp (2 * Nat.log2 s.length) s)

/-- The sort `std::sort(openList.begin(), openList.end(), greater<State>())` as the GNU C++
library computes it: an instance of the sorting contract. -/
def gccSort : DescendingSort where
  sort := fun l => stdSort (fun a b => decide (b.f < a.f)) l
  perm := by
    have hA : ∀ (t : List AState) (j : Nat) (x y : AState), t.get? j = some y → (y :: t.set j x).Perm (x ::
        t) := by
      intro t
      induction t with
      | nil => intro j x y h; simp at h
      | cons u t ih =>
        intro j x y h
        cases j with
        | zero =>
          simp only [List.get?_cons_zero, Option.some.injEq] at h
          rw [h]
          exact List.Perm.swap _ _ _
        | succ k =>
          simp only [List.get?_cons_succ] at h
          simp only [List.set_cons_succ]
          exact (List.Perm.swap _ _ _).trans (((ih k x y h).cons u).trans (List.Perm.swap _ _ _))
    have hswap : ∀ (a : List AState) (i j : Nat), (iterSwap a i j).Perm a := by
      have hB : ∀ (a : List AState) (i j : Nat) (x y : AState), a.get? i = some x → a.get? j = some y →
          ((a.set i y).set j x).Perm a := by
        intro a
        induction a with
        | nil => intro i j x y h; simp at h
        | cons u t ih =>
          intro i j x y h1 h2
          cases i with
          | zero =>
            simp only [List.get?_cons_zero, Option.some.injEq] at h1
            cases j with
            | zero =>
              simp only [List.get?_cons_zero, Option.some.injEq] at h2
              simp only [List.set_cons_zero]
              rw [← h1]
            | succ k =>
              simp only [List.get?_cons_succ] at h2
              simp only [List.set_cons_zero, List.set_cons_succ]
              rw [← h1]
              exact hA t k u y h2
          | succ m =>
            simp only [List.get?_cons_succ] at h1
            cases j with
            | zero =>
              simp only [List.get?_cons_zero, Option.some.injEq] at h2
              simp only [List.set_cons_zero, List.set_cons_succ]
              rw [← h2]
              exact hA t m u x h1
            | succ k =>
              simp only [List.get?_cons_succ] at h2
              simp only [List.set_cons_succ]
              exact (ih m k x y h1 h2).cons u
      intro a i j
      unfold iterSwap
      cases h1 : a.get? i with
      | none => exact List.Perm.refl _
      | some x =>
        cases h2 : a.get? j with
        | none => exact List.Perm.refl _
        | some y => exact hB a i j x y h1 h2
    have hpush : ∀ (comp : AState → AState → Bool) (top : Nat), ∀ (fuel : Nat) (a : List AState) (hole : Nat),
        (pushHeap comp top fuel a hole).Perm a := by
      intro comp top
      intro fuel
      induction fuel with
      | zero => intro a hole; exact List.Perm.refl _
      | succ fuel ih =>
        intro a hole
        rw [pushHeap]
        cases h1 : a.get? ((hole - 1) / 2) with
        | none => exact List.Perm.refl _
        | some x =>
          cases h2 : a.get? hole with
          | none => exact List.Perm.refl _
          | some v =>
            simp only []
            split
            · exact (ih _ _).trans (hswap _ _ _)
            · exact List.Perm.refl _
    have hdown : ∀ (comp : AState → AState → Bool) (len : Nat), ∀ (fuel : Nat) (a : List AState) (hole : Nat),
        (adjustDown comp len fuel a hole).1.Perm a := by
      intro comp len
      intro fuel
      induction fuel with
      | zero => intro a hole; exact List.Perm.refl _
      | succ fuel ih =>
        intro a hole
        rw [adjustDown]
        split
        · cases h1 : a.get? (2 * (hole + 1)) with
          | none => exact List.Perm.refl _
          | some x =>
            cases h2 : a.get? (2 * (hole + 1) - 1) with
            | none => exact List.Perm.refl _
            | some y =>
              simp only []
              split
              · exact (ih _ _).trans (hswap _ _ _)
              · exact (ih _ _).trans (hswap _ _ _)
        · exact List.Perm.refl _
    have hadjust : ∀ (comp : AState → AState → Bool), ∀ (a : List AState) (hole len : Nat), (adjustHeap comp a
        hole len).Perm a := by
      intro comp
      intro a hole len
      unfold adjustHeap
      simp only []
      split
      · exact (hpush comp _ _ _ _).trans ((hswap _ _ _).trans (hdown comp _ _ _ _))
      · exact (hpush comp _ _ _ _).trans (hdown comp _ _ _ _)
    have hmakeLoop : ∀ (comp : AState → AState → Bool) (len : Nat), ∀ (parent : Nat) (a : List AState),
        (makeHeapLoop comp len parent a).Perm a := by
      intro comp len
      intro parent
      induction parent with
      | zero => intro a; exact hadjust comp _ _ _
      | succ p ih => intro a; rw [makeHeapLoop]; exact (ih _).trans (hadjust comp _ _ _)
    have hmake : ∀ (comp : AState → AState → Bool), ∀ (a : List AState), (makeHeap comp a).Perm a := by
      intro comp
      intro a
      unfold makeHeap
      split
      · exact List.Perm.refl _
      · exact hmakeLoop comp _ _ _
    have hsortHeap : ∀ (comp : AState → AState → Bool), ∀ (last : Nat) (a : List AState), (sortHeap comp last
        a).Perm a := by
      intro comp
      intro last
      induction last with
      | zero => intro a; exact List.Perm.refl _
      | succ n ih =>
        intro a
        rw [sortHeap]
        split
        · exact (ih _).trans ((hadjust comp _ _ _).trans (hswap _ _ _))
        · exact List.Perm.refl _
    have hheap : ∀ (comp : AState → AState → Bool), ∀ (a : List AState), (heapSort comp a).Perm a := by
      intro comp
      intro a
      exact (hsortHeap comp _ _).trans (hmake comp a)
    have hmedian : ∀ (comp : AState → AState → Bool), ∀ (s : List AState) (a b c : Nat), (moveMedianToFirst comp
        s a b c).Perm s := by
      intro comp
      intro s a b c
      unfold moveMedianToFirst
      cases s.get? a with
      | none => exact List.Perm.refl _
      | some x =>
        cases s.get? b with
        | none => exact List.Perm.refl _
        | some y =>
          cases s.get? c with
          | none => exact List.Perm.refl _
          | some z =>
            simp only []
            split
            · split
              · exact hswap _ _ _
              · split
                · exact hswap _ _ _
                · exact hswap _ _ _
            · split
              · exact hswap _ _ _
              · split
                · exact hswap _ _ _
                · exact hswap _ _ _
    have hscanF : ∀ (comp : AState → AState → Bool) (p : AState), ∀ (mid fs left : List AState), ∃ m1 m2, mid = m1 ++
        m2 ∧ scanForward comp p mid.length (mid ++ fs) left = (m2.length, m2 ++ fs, m1.reverse ++
        left) := by
      intro comp p
      intro mid
      induction mid with
      | nil =>
        intro fs left
        refine ⟨[], [], rfl, ?_⟩
        cases fs <;> rfl
      | cons x mid ih =>
        intro fs left
        by_cases hc : comp x p = true
        · obtain ⟨m1, m2, e, h⟩ := ih fs (x :: left)
          refine ⟨x :: m1, m2, by rw [e]; rfl, ?_⟩
          show scanForward comp p (mid.length + 1) (x :: (mid ++ fs)) left = _
          rw [scanForward, if_pos hc, h]
          simp
        · refine ⟨[], x :: mid, rfl, ?_⟩
          simp only [List.length_cons, List.cons_append, scanForward, hc]
          simp
    have hscanB : ∀ (comp : AState → AState → Bool) (p : AState), ∀ (mid fs right : List AState), ∃ m1 m2, mid = m1 ++
        m2 ∧ scanBackward comp p mid.length (mid ++ fs) right = (m2.length, m2 ++ fs, m1.reverse
        ++ right) := by
      intro comp p
      intro mid
      induction mid with
      | nil =>
        intro fs right
        refine ⟨[], [], rfl, ?_⟩
        cases fs <;> rfl
      | cons x mid ih =>
        intro fs right
        by_cases hc : comp p x = true
        · obtain ⟨m1, m2, e, h⟩ := ih fs (x :: right)
          refine ⟨x :: m1, m2, by rw [e]; rfl, ?_⟩
          show scanBackward comp p (mid.length + 1) (x :: (mid ++ fs)) right = _
          rw [scanBackward, if_pos hc, h]
          simp
        · refine ⟨[], x :: mid, rfl, ?_⟩
          simp only [List.length_cons, List.cons_append, scanBackward, hc]
          simp
    have hpart : ∀ (comp : AState → AState → Bool) (p : AState), ∀ (fuel : Nat) (mid fs bs left right : List AState),
        ((unguardedPartition comp p fuel mid.length (mid ++ fs) (mid.reverse ++ bs) left right).1
        ++ (unguardedPartition comp p fuel mid.length (mid ++ fs) (mid.reverse ++ bs) left
        right).2).Perm (left.reverse ++ mid ++ right) := by
      intro comp p
      intro fuel
      induction fuel with
      | zero =>
        intro mid fs bs left right
        simp [unguardedPartition]
      | succ fuel ih =>
        intro mid fs bs left right
        obtain ⟨m1, m2, e1, h1⟩ := hscanF comp p mid fs left
        have eb : mid.reverse ++ bs = m2.reverse ++ (m1.reverse ++ bs) := by
          rw [e1]; simp
        obtain ⟨r1, r2, e2, h2⟩ := hscanB comp p m2.reverse (m1.reverse ++ bs) right
        have hm2 : m2 = r2.reverse ++ r1.reverse := by
          have := congrArg List.reverse e2
          simpa using this
        rw [unguardedPartition, h1]
        simp only []
        rw [eb]
        have hl : m2.length = m2.reverse.length := by simp
        rw [hl, h2]
        simp only []
        have ht : (m2 ++ fs).take r2.length = r2.reverse := by
          rw [hm2, List.append_assoc]
          have : r2.length = r2.reverse.length := by simp
          rw [this, List.take_left]
        have hstop : ((m1.reverse ++ left).reverse ++ ((m2 ++ fs).take r2.length ++
            (r1.reverse ++ right))).Perm (left.reverse ++ mid ++ right) := by
          rw [ht, e1, hm2]
          simp
        split
        · rename_i x front2 z back3 hf hb
          split
          · rename_i hk
            cases r2 with
            | nil => simp at hk
            | cons z2 r2t =>
              simp only [List.cons_append, List.cons.injEq] at hb
              obtain ⟨hz, hb3⟩ := hb
              subst hz
              cases hr : r2t.reverse with
              | nil =>
                have : r2t.length = 0 := by
                  have := congrArg List.length hr
                  simpa using this
                simp only [List.length_cons] at hk
                omega
              | cons x2 mid2 =>
                have hr2 : r2t = mid2.reverse ++ [x2] := by
                  have := congrArg List.reverse hr
                  simpa using this
                have hm2b : m2 = x2 :: (mid2 ++ (z2 :: r1.reverse)) := by
                  rw [hm2]
                  simp [hr]
                rw [hm2b] at hf
                simp only [List.cons_append, List.cons.injEq] at hf
                obtain ⟨hx, hf2⟩ := hf
                subst hx
                have hk3 : (z2 :: r2t).length - 2 = mid2.length := by
                  have := congrArg List.length hr
                  simp at this
                  simp only [List.length_cons]
                  omega
                have hfront : front2 = mid2 ++ ((z2 :: r1.reverse) ++ fs) := by
                  rw [← hf2]; simp
                have hback : back3 = mid2.reverse ++ ([x2] ++ (m1.reverse ++ bs)) := by
                  rw [← hb3, hr2]; simp
                rw [hk3, hfront, hback]
                refine (ih mid2 _ _ _ _).trans ?_
                rw [e1, hm2b]
                simp only [List.reverse_cons, List.reverse_append, List.reverse_reverse,
                  List.append_assoc, List.cons_append, List.nil_append, List.singleton_append]
                apply List.Perm.append_left
                apply List.Perm.append_left
                have e3 : (z2 :: (mid2 ++ x2 :: (r1.reverse ++ right))).Perm
                    (z2 :: x2 :: (mid2 ++ (r1.reverse ++ right))) :=
                  List.Perm.cons _ List.perm_middle
                have e4 : (x2 :: (mid2 ++ z2 :: (r1.reverse ++ right))).Perm
                    (x2 :: z2 :: (mid2 ++ (r1.reverse ++ right))) :=
                  List.Perm.cons _ List.perm_middle
                exact e3.trans ((List.Perm.swap _ _ _).trans e4.symm)
          · exact hstop
        · exact hstop
    have hpivot : ∀ (comp : AState → AState → Bool), ∀ (s : List AState), ((unguardedPartitionPivot comp s).1 ++
        (unguardedPartitionPivot comp s).2).Perm s := by
      intro comp
      intro s
      unfold unguardedPartitionPivot
      have hm := hmedian comp s 1 (s.length / 2) (s.length - 1)
      cases hs : moveMedianToFirst comp s 1 (s.length / 2) (s.length - 1) with
      | nil =>
        rw [hs] at hm
        simp only []
        exact hm
      | cons pv rest =>
        rw [hs] at hm
        simp only []
        have h := hpart comp pv rest.length rest [] [] [] []
        simp only [List.append_nil, List.reverse_nil, List.nil_append] at h
        exact (List.Perm.cons pv h).trans hm
    have hintro : ∀ (comp : AState → AState → Bool), ∀ (d : Nat) (s : List AState), (introsortLoop comp d s).Perm
        s := by
      intro comp
      intro d
      induction d with
      | zero =>
        intro s
        rw [introsortLoop]
        split
        · exact hheap comp s
        · exact List.Perm.refl _
      | succ d ih =>
        intro s
        rw [introsortLoop]
        split
        · have h := hpivot comp s
          cases hp : unguardedPartitionPivot comp s with
          | mk l r =>
            rw [hp] at h
            simp only [] at h ⊢
            exact (List.Perm.append (ih l) (ih r)).trans h
        · exact List.Perm.refl _
    have hins : ∀ (comp : AState → AState → Bool), ∀ (v : AState) (l : List AState), (linearInsert comp v l).Perm (v
        :: l) := by
      intro comp
      intro v l
      induction l with
      | nil => exact List.Perm.refl _
      | cons y t ih =>
        rw [linearInsert]
        split
        · exact (List.Perm.cons y ih).trans (List.Perm.swap _ _ _)
        · exact List.Perm.refl _
    have hfold : ∀ (comp : AState → AState → Bool), ∀ (s acc : List AState), (s.foldl (fun prefixRev val =>
        linearInsert comp val prefixRev) acc).Perm (s ++ acc) := by
      intro comp
      intro s
      induction s with
      | nil => intro acc; exact List.Perm.refl _
      | cons x s ih =>
        intro acc
        rw [List.foldl_cons]
        refine (ih _).trans ?_
        refine (List.Perm.append_left s (hins comp x acc)).trans ?_
        exact List.perm_middle
    have hfinal : ∀ (comp : AState → AState → Bool), ∀ (s : List AState), (finalInsertionSort comp s).Perm s :=
        by
      intro comp
      intro s
      unfold finalInsertionSort
      refine (List.reverse_perm _).trans ?_
      have := hfold comp s []
      rwa [List.append_nil] at this
    have hstd : ∀ (comp : AState → AState → Bool), ∀ (s : List AState), (stdSort comp s).Perm s := by
      intro comp
      intro s
      exact (hfinal comp _).trans (hintro comp _ s)
    intro l
    exact (hfinal _ _).trans (hintro _ _ l)
  sorted := by
    have hinsS : ∀ (f : AState → Int), ∀ (v : AState) (l : List AState), l.Pairwise (fun a b => f a ≤ f b) →
        (linearInsert (fun a b => decide (f b < f a)) v l).Pairwise (fun a b => f a ≤ f b) ∧ ∀ t ∈
        linearInsert (fun a b => decide (f b < f a)) v l, t = v ∨ t ∈ l := by
      intro f
      intro v l
      induction l with
      | nil =>
        intro _
        exact ⟨List.pairwise_singleton _ _, fun t ht => Or.inl (List.mem_singleton.mp ht)⟩
      | cons y t ih =>
        intro hp
        rw [linearInsert]
        by_cases hc : f y < f v
        · simp only [hc, decide_True, if_true]
          obtain ⟨i1, i2⟩ := ih (List.pairwise_cons.mp hp).2
          refine ⟨List.Pairwise.cons ?_ i1, ?_⟩
          · intro b hb
            rcases i2 b hb with e | e
            · rw [e]; exact le_of_lt hc
            · exact (List.pairwise_cons.mp hp).1 b e
          · intro b hb
            rcases List.mem_cons.mp hb with e | e
            · exact Or.inr (e ▸ List.mem_cons_self _ _)
            · rcases i2 b e with e2 | e2
              · exact Or.inl e2
              · exact Or.inr (List.mem_cons_of_mem _ e2)
        · simp only [hc, decide_False, Bool.false_eq_true, if_false]
          refine ⟨List.Pairwise.cons ?_ hp, fun b hb => List.mem_cons.mp hb⟩
          intro b hb
          rcases List.mem_cons.mp hb with e | e
          · rw [e]; exact not_lt.mp hc
          · exact le_trans (not_lt.mp hc) ((List.pairwise_cons.mp hp).1 b e)
    have hfoldS : ∀ (f : AState → Int), ∀ (s acc : List AState), acc.Pairwise (fun a b => f a ≤ f b) →
        (s.foldl (fun prefixRev val => linearInsert (fun a b => decide (f b < f a)) val prefixRev)
        acc).Pairwise (fun a b => f a ≤ f b) := by
      intro f
      intro s
      induction s with
      | nil => intro acc h; exact h
      | cons x s ih =>
        intro acc h
        rw [List.foldl_cons]
        exact ih _ (hinsS f x acc h).1
    have hfinalS : ∀ (f : AState → Int), ∀ (s : List AState), (finalInsertionSort (fun a b => decide (f b <
        f a)) s).Pairwise (fun a b => f b ≤ f a) := by
      intro f
      intro s
      unfold finalInsertionSort
      rw [List.pairwise_reverse]
      exact hfoldS f s [] List.Pairwise.nil
    intro l
    exact hfinalS AState.f _

/-! ### The rounds of the parallel A* searches on coded tables

For the evaluation of a long run the boards kept in `closedSet` and `bestCost` are replaced by
numbers, the comparison of `int` values is computed on their constructors and `calculateH2`
from the character codes.  The theorems `codedIter_encode`, `calculateH2Code_eq` and
`gccSort_coded` show that nothing else changes. -/

/-- A code of a board: its characters, each raised by one, as the digits of a number in base
`2^21`.  Different boards have different codes. -/
def encodeBoard (b : Board) : Nat :=
  b.foldr (fun c code => (c.toNat + 1) + 2097152 * code) 0

/-- The comparison `a > b` of two `int` values, computed on their constructors. -/
def intGt (a b : Int) : Bool :=
  match a, b with
  | Int.ofNat m, Int.ofNat n => Nat.blt n m
  | Int.ofNat _, Int.negSucc _ => true
  | Int.negSucc _, Int.ofNat _ => false
  | Int.negSucc m, Int.negSucc n => Nat.blt m n

/-- The contribution of cell `i` holding the character `c` to `calculateH2` of the 4x4 programs,
computed from the character code: `0` for the blank, the Manhattan distance between `i` and
`c - 'A'` for the letters `A` to `O`, and the distance to the goal position `-1` of a character
that `TARGET.find` does not find. -/
def manhattanCode (i : Nat) (c : Char) : Nat :=
  if c.toNat = 35 then 0
  else if 65 ≤ c.toNat ∧ c.toNat ≤ 79 then
    (i / 4 - (c.toNat - 65) / 4) + ((c.toNat - 65) / 4 - i / 4) +
    ((i % 4 - (c.toNat - 65) % 4) + ((c.toNat - 65) % 4 - i % 4))
  else i / 4 + (i % 4 + 1)

/-- Function `calculateH2` of the 4x4 programs, computed with `manhattanCode`. -/
def calculateH2Code (board : Board) : Int :=
  (List.range 16).foldl
    (fun totalDistance i =>
      totalDistance + (manhattanCode i (board.getD i (Char.ofNat 0)) : Nat))
    0

/-- Membership in a list of codes. -/
def codedMem : List Nat → Nat → Bool
  | [], _ => false
  | k :: rest, key => if Nat.beq k key = true then true else codedMem rest key

/-- Lookup in an association list keyed by codes. -/
def codedFind : List (Nat × Int) → Nat → Option Int
  | [], _ => none
  | (k, v) :: rest, key => if Nat.beq k key = true then some v else codedFind rest key

/-- The test of `betterCost` on a table keyed by codes. -/
def codedBetter (bestCost : List (Nat × Int)) (code : Nat) (newCost : Int) : Bool :=
  match codedFind bestCost code with
  | none => true
  | some g => intGt g newCost

/-- The shared variables of one round of the parallel A* searches, the boards of `closedSet` and
of `bestCost` replaced by their codes. -/
structure CodedRound where
  newStates : List AState
  closedSet : List Nat
  bestCost : List (Nat × Int)
  solutionFound : Bool
  solution : Int
  deriving DecidableEq

/-- Function `parallelAStarPush` on coded tables. -/
def codedPush (h : Board → Int) (current : AState)
    (acc : List AState × List (Nat × Int)) (nb : Board × Int) :
    List AState × List (Nat × Int) :=
  if codedBetter acc.2 (encodeBoard nb.1) (current.cost + 1) = true then
    (acc.1 ++ [AState.mk nb.1 nb.2 (current.cost + 1) (h nb.1)],
      (encodeBoard nb.1, current.cost + 1) :: acc.2)
  else acc

/-- Function `parallelAStarItem` on coded tables; `target` is the code of `TARGET`. -/
def codedItem (h : Board → Int) (target : Nat) (r : CodedRound) (current : AState) :
    CodedRound :=
  if r.solutionFound = true then r
  else if codedMem r.closedSet (encodeBoard current.board) = true then r
  else if Nat.beq (encodeBoard current.board) target = true then
    CodedRound.mk r.newStates (encodeBoard current.board :: r.closedSet) r.bestCost true
      current.cost
  else
    CodedRound.mk
      ((successors 4 current.board current.blankPos).foldl (codedPush h current)
        (r.newStates, r.bestCost)).1
      (encodeBoard current.board :: r.closedSet)
      ((successors 4 current.board current.blankPos).foldl (codedPush h current)
        (r.newStates, r.bestCost)).2
      r.solutionFound r.solution

/-- The variables of the parallel A* searches at the head of their loop, with coded tables. -/
structure CodedConfig where
  openList : List AState
  closedSet : List Nat
  bestCost : List (Nat × Int)
  solutionFound : Bool
  solution : Int
  deriving DecidableEq

/-- Function `parallelAStarStep` on coded tables, for the sort function `sort`. -/
def codedStep (sort : List AState → List AState) (h : Board → Int) (target : Nat)
    (numThreads : Int) (c : CodedConfig) : Option CodedConfig :=
  if c.openList ≠ [] ∧ c.solutionFound = false then
    match sort c.openList with
    | sorted =>
      match sorted.length - (min (sorted.length : Int) (numThreads * 4)).toNat with
      | n =>
        match (sorted.drop n).foldl (codedItem h target)
          (CodedRound.mk [] c.closedSet c.bestCost c.solutionFound c.solution) with
        | r =>
          some (CodedConfig.mk (sorted.take n ++ r.newStates) r.closedSet r.bestCost
            r.solutionFound r.solution)
  else none

/-- Function `parallelAStarIter` on coded tables. -/
def codedIter (sort : List AState → List AState) (h : Board → Int) (target : Nat)
    (numThreads : Int) : Nat → CodedConfig → Option CodedConfig
  | 0, c => some c
  | n + 1, c =>
    match codedStep sort h target numThreads c with
    | none => none
    | some c2 => codedIter sort h target numThreads n c2

/-- The configuration `c` with the boards of its tables replaced by their codes. -/
def encodeConfig (c : PAStarConfig) : CodedConfig :=
  CodedConfig.mk c.openList (c.closedSet.map encodeBoard)
    (c.bestCost.map (fun e => (encodeBoard e.1, e.2))) c.solutionFound c.solution

/-- The sort of the open list by the GNU C++ library, the comparison of `greater<State>`
computed by `intGt`. -/
def codedSort (l : List AState) : List AState :=
  stdSort (fun a b => intGt (a.cost + a.heuristic) (b.cost + b.heuristic)) l

/-- The round variables `r` with the boards of the tables replaced by their codes. -/
def encodeRound (r : PAStarRound) : CodedRound :=
  CodedRound.mk r.newStates (r.closedSet.map encodeBoard)
    (r.bestCost.map (fun e => (encodeBoard e.1, e.2))) r.solutionFound r.solution

/-- The variables of `parallelAStarH2` on the board `"ABCDEFGHMKION#LJ"` with one worker after
16 rounds (theorem `example_rounds_a`). -/
def roundConfig16 : PAStarConfig :=
  PAStarConfig.mk
    [
      st "ABCDEFGHM#JLNIKO" 9 11 7, st "ABCDEFGHKILO#MNJ" 12 7 11, st "ABCDEFGHK#LOMINJ" 9 7 11,
      st "ABCDEF#GKIOHMNLJ" 6 7 11, st "ABC#EFGDKIOHMNLJ" 3 7 11, st "ABCDEFH#MIGONKLJ" 7 4 14,
      st "ABCDE#FHMIGONKLJ" 5 4 14, st "AB#DEFCHMIGONKLJ" 2 4 14, st "ABCDEFH#MIGLNKJO" 7 8 10,
      st "ABCDE#FHMIGLNKJO" 5 8 10, st "AB#DEFCHMIGLNKJO" 2 8 10, st "ABCDEFGHKIJL#MNO" 12 11 7,
      st "ABCDEF#HMKGONLIJ" 6 3 15, st "ABCDEF#GMIJHNKOL" 6 9 9, st "ABC#EFGDMIJHNKOL" 3 9 9,
      st "ABCDEFGH#MLONIKJ" 8 6 12, st "ABCDEFGHKNIOML#J" 14 5 13, st "ABCDE#GHKFIJMNOL" 5 10 8,
      st "ABCDEFGHKNIJM#OL" 13 10 8, st "AB#DEFCHKIGJMNOL" 2 10 8, st "ABCDE#FHKIGJMNOL" 5 10 8,
      st "ABCDEFH#KIGJMNOL" 7 10 8, st "ABCDEFGHKNIO#MLJ" 12 5 13, st "ABCDEFGHKIOJ#MNL" 12 9 9,
      st "ABCDEFGHK#OJMINL" 9 9 9, st "ABCDEFGHK#JLMINO" 9 11 7, st "ABCDEFGHML#ONIKJ" 10 6 12,
      st "ABCDE#GHMFLONIKJ" 5 6 12, st "ABCDEF#HMKGINLJO" 6 5 13, st "ABCDEFGH#MIONKLJ" 8 2 14,
      st "ABCDE#GHMFIONKLJ" 5 2 14, st "ABCDEFGHMKJINL#O" 14 5 11, st "ABCDEFGHM#KINLJO" 9 5 11,
      st "ABCD#FGHEILOMNKJ" 4 7 9, st "ABCDEFGHM#ILNKJO" 9 7 9, st "ABCDEFG#KIJHMNOL" 7 10 6,
      st "ABCDEFG#MILHNKJO" 7 6 10, st "#BCDAFGHEKIOMNLJ" 0 4 12, st "ABCDEFG#MKIHNLJO" 7 4 12,
      st "ABCDEFG#MIOHNKLJ" 7 4 12, st "ABCDEF#HKIGOMNLJ" 6 5 11, st "ABCDEFGHM#KONLIJ" 9 3 13,
      st "ABCDEFGHIO#JMNKL" 10 10 6, st "ABCDEF#HKIGLMNJO" 6 9 7, st "ABCDEFGHINOJM#KL" 13 10 6,
      st "ABCDE#GHIFLOMNKJ" 5 8 8, st "ABCDEFGHIL#OMNKJ" 10 8 8, st "ABCDEFGHMIJL#NKO" 12 11 5,
      st "ABCDEFGH#KIJMNOL" 8 10 6, st "ABCDEFGHINLOM#KJ" 13 8 8, st "ABCDE#GHKFIOMNLJ" 5 4 12,
      st "ABCDEFGHMKO#NLIJ" 11 3 13, st "ABCDE#GHIFOJMNKL" 5 10 6, st "ABCD#FGHEIOJMNKL" 4 9 7,
      st "ABCDEFGHK#ILMNJO" 9 9 7, st "ABCDEFG#KILHMNJO" 7 8 8, st "A#CDFBGHEKIOMNLJ" 1 5 13,
      st "ABCDFKGHE#IOMNLJ" 9 5 13, st "ABCDFG#HEKIOMNLJ" 6 5 13, st "ABCDE#GHMFOJNIKL" 5 8 10,
      st "ABCDEFGH#MOJNIKL" 8 8 10, st "ABCDEFGHMO#JNIKL" 10 8 10, st "ABCDE#GHMFIJNKOL" 5 8 10,
      st "ABCDEFGHMKIJN#OL" 13 8 8, st "ABCDEFGH#MIJNKOL" 8 8 10, st "AB#DEFCHMIGJNKOL" 2 8 10,
      st "ABCDE#FHMIGJNKOL" 5 8 10, st "ABCDEFH#MIGJNKOL" 7 8 10]
    ([
      "ABCDEF#HMIGJNKOL", "ABCDEFGHM#IJNKOL", "ABCDEFGHM#OJNIKL", "ABCDF#GHEKIOMNLJ",
      "ABCDEFGHKILOM#NJ", "ABCDEFG#KIOHMNLJ", "ABCDEF#HMIGONKLJ", "ABCDEF#HMIGLNKJO",
      "ABCDEFGHI#LOMNKJ", "ABCDEF#HKIGJMNOL", "ABCDEFGHK#IJMNOL", "ABCDEFGHMIJLN#KO",
      "ABCDEFGH#ILOMNKJ", "ABCDEFG#MIJHNKOL", "ABCDEFGHM#LONIKJ", "ABCDEFGHMK#INLJO",
      "ABCDEFGHMILO#NKJ", "ABCDEFGHMIJLNK#O", "ABCDEFGHKIJLM#NO", "ABCDEFGHKIJLMNO#",
      "ABCDEFGHMI#LNKJO", "ABCDEFGHMILON#KJ", "ABCDEFGHKIOJM#NL", "ABCDEFGHKIJ#MNOL",
      "ABCDEFGHKIJLMN#O", "ABCDEFGHI#OJMNKL", "ABCDEFGHMIL#NKJO", "ABCDEFGHKI#JMNOL",
      "ABCDEFGHKI#LMNJO", "ABCDEFGH#IOJMNKL", "ABCDEFGHMIJLNKO#", "ABCDEFGHKIOJMN#L",
      "ABCDEFGHKIL#MNJO", "ABCDEFGHMIOJ#NKL", "ABCDEFGHMIJ#NKOL", "ABCDEFGHKIOJMNL#",
      "ABCDEFGHKILOMNJ#", "ABCDEFGHMIOJN#KL", "ABCDEFGHMI#JNKOL", "ABCDEFGHKIO#MNLJ",
      "ABCDEFGHKILOMN#J", "ABCDEFGHMIOJNK#L", "ABCDEFGHMILONKJ#", "ABCDEFGHKI#OMNLJ",
      "ABCDEFGHMIOJNKL#", "ABCDEFGHMILONK#J", "ABCDEFGHKNIOM#LJ", "ABCDEFGHK#IOMNLJ",
      "ABCD#FGHEKIOMNLJ", "ABCDEFGHMKI#NLJO", "ABCDEFGHMIO#NKLJ", "ABCDEFGH#KIOMNLJ",
      "ABCDEFGHMKIONLJ#", "ABCDEFGHMI#ONKLJ", "ABCDEFGHMK#ONLIJ", "ABCDEFGHMKIO#NLJ",
      "ABCDEFGHMKIONL#J", "ABCDEFGHM#IONKLJ", "ABCDEFGHMKION#LJ"].map String.toList)
    ([
      ("ABCDEFH#MIGJNKOL", 8), ("ABCDE#FHMIGJNKOL", 8), ("AB#DEFCHMIGJNKOL", 8),
      ("ABCDEFGH#MIJNKOL", 8), ("ABCDEFGHMKIJN#OL", 8), ("ABCDE#GHMFIJNKOL", 8),
      ("ABCDEFGHMO#JNIKL", 8), ("ABCDEFGH#MOJNIKL", 8), ("ABCDE#GHMFOJNIKL", 8),
      ("ABCDFG#HEKIOMNLJ", 5), ("ABCDFKGHE#IOMNLJ", 5), ("A#CDFBGHEKIOMNLJ", 5),
      ("ABCDEFGHKILO#MNJ", 7), ("ABCDEFGHK#LOMINJ", 7), ("ABCDEF#GKIOHMNLJ", 7),
      ("ABC#EFGDKIOHMNLJ", 7), ("ABCDEFH#MIGONKLJ", 4), ("ABCDE#FHMIGONKLJ", 4),
      ("AB#DEFCHMIGONKLJ", 4), ("ABCDEFH#MIGLNKJO", 8), ("ABCDE#FHMIGLNKJO", 8),
      ("AB#DEFCHMIGLNKJO", 8), ("ABCDEFGHIL#OMNKJ", 8), ("ABCDEFGHINLOM#KJ", 8),
      ("ABCDE#GHIFLOMNKJ", 8), ("ABCDEFH#KIGJMNOL", 10), ("ABCDE#FHKIGJMNOL", 10),
      ("AB#DEFCHKIGJMNOL", 10), ("ABCDEFGH#KIJMNOL", 10), ("ABCDEFGHKNIJM#OL", 10),
      ("ABCDE#GHKFIJMNOL", 10), ("ABCDEFGHMIJL#NKO", 11), ("ABCDEFGHM#JLNIKO", 11),
      ("ABCDEFGHI#LOMNKJ", 7), ("ABCD#FGHEILOMNKJ", 7), ("ABCDEF#GMIJHNKOL", 9),
      ("ABC#EFGDMIJHNKOL", 9), ("ABCDEFGHML#ONIKJ", 6), ("ABCDEFGH#MLONIKJ", 6),
      ("ABCDE#GHMFLONIKJ", 6), ("ABCDEFGHM#KINLJO", 5), ("ABCDEFGHMKJINL#O", 5),
      ("ABCDEF#HMKGINLJO", 5), ("ABCDEFGH#ILOMNKJ", 6), ("ABCDEFGHMIJLN#KO", 10),
      ("ABCDEFGHKIJL#MNO", 11), ("ABCDEFGHK#JLMINO", 11), ("ABCDEFGHM#ILNKJO", 7),
      ("ABCDEFGHMIJLNK#O", 7), ("ABCDEF#HMIGLNKJO", 7), ("ABCDEFGHMILO#NKJ", 5),
      ("ABCDEFGHM#LONIKJ", 5), ("ABCDEFGHKIOJ#MNL", 9), ("ABCDEFGHK#OJMINL", 9),
      ("ABCDEFG#KIJHMNOL", 10), ("ABCDEFGHKIJLMNO#", 10), ("ABCDEFGHKIJLM#NO", 10),
      ("ABCDEFGHIO#JMNKL", 10), ("ABCDEFGHINOJM#KL", 10), ("ABCDE#GHIFOJMNKL", 10),
      ("ABCDEFGHMI#LNKJO", 6), ("ABCDEFG#MILHNKJO", 6), ("ABCDEFGHKIJ#MNOL", 9),
      ("ABCDEFGHK#IJMNOL", 9), ("ABCDEF#HKIGJMNOL", 9), ("ABCDEFGHK#ILMNJO", 9),
      ("ABCDEFGHKIJLMN#O", 9), ("ABCDEF#HKIGLMNJO", 9), ("ABCDEFGHI#OJMNKL", 9),
      ("ABCD#FGHEIOJMNKL", 9), ("ABCDEFGHMIJLNK#O", 9), ("ABCDEFGHKIOJM#NL", 8),
      ("ABCDEFGHKI#JMNOL", 8), ("ABCDEFGHKI#LMNJO", 8), ("ABCDEFG#KILHMNJO", 8),
      ("ABCDEFGH#IOJMNKL", 8), ("ABCDEFGHMIJLNKO#", 8), ("ABCDEFG#MIJHNKOL", 8),
      ("ABCDEFGHKIOJMN#L", 7), ("ABCDEFGHKIL#MNJO", 7), ("ABCDEFGHMIOJ#NKL", 7),
      ("ABCDEFGHM#OJNIKL", 7), ("ABCDEFGHMIJ#NKOL", 7), ("ABCDEFGHM#IJNKOL", 7),
      ("ABCDEF#HMIGJNKOL", 7), ("ABCDEFGHKIOJMNL#", 6), ("ABCDEFG#KIOHMNLJ", 6),
      ("ABCDEFGHKILOMNJ#", 6), ("ABCDEFGHKILOM#NJ", 6), ("ABCDEFGHMIOJN#KL", 6),
      ("ABCDEFGHMI#JNKOL", 6), ("ABCDEFGHMIL#NKJO", 5), ("ABCDEFGHKIO#MNLJ", 5),
      ("ABCDEFGHKILOMN#J", 5), ("ABCDEF#HKIGOMNLJ", 5), ("ABCDEFGHMIOJNK#L", 5),
      ("ABCDEFGHMILONKJ#", 4), ("ABCDEFGHMILON#KJ", 4), ("ABCDEFGHKNIOML#J", 5),
      ("ABCDEFGHKNIO#MLJ", 5), ("ABCDEFGHKI#OMNLJ", 4), ("ABCDEFGHKNIOM#LJ", 4),
      ("ABCDE#GHKFIOMNLJ", 4), ("ABCDF#GHEKIOMNLJ", 4), ("#BCDAFGHEKIOMNLJ", 4),
      ("ABCDEFGHMK#INLJO", 4), ("ABCDEFG#MKIHNLJO", 4), ("ABCDEFGHMIOJNKL#", 4),
      ("ABCDEFG#MIOHNKLJ", 4), ("ABCDEFGHK#IOMNLJ", 3), ("ABCD#FGHEKIOMNLJ", 3),
      ("ABCDEFGHMKI#NLJO", 3), ("ABCDEFGHMIO#NKLJ", 3), ("ABCDEFGHMILONK#J", 3),
      ("ABCDEF#HMIGONKLJ", 3), ("ABCDEFGHMKO#NLIJ", 3), ("ABCDEFGHM#KONLIJ", 3),
      ("ABCDEF#HMKGONLIJ", 3), ("ABCDEFGH#KIOMNLJ", 2), ("ABCDEFGHMKIONLJ#", 2),
      ("ABCDEFGHMK#ONLIJ", 2), ("ABCDEFGHMI#ONKLJ", 2), ("ABCDEFGH#MIONKLJ", 2),
      ("ABCDE#GHMFIONKLJ", 2), ("ABCDEFGHMKIONL#J", 1), ("ABCDEFGHMKIO#NLJ", 1),
      ("ABCDEFGHM#IONKLJ", 1), ("ABCDEFGHMKION#LJ", 0)].map (fun e => (e.1.toList, e.2)))
    false (-1)

/-- The variables of `parallelAStarH2` on the board `"ABCDEFGHMKION#LJ"` with one worker after
25 rounds (theorem `example_rounds_b`). -/
def roundConfig25 : PAStarConfig :=
  PAStarConfig.mk
    [
      st "ABCDEFGHMKIJ#NOL" 12 11 7, st "A#CDEBGHKFIOMNLJ" 1 5 13, st "ABCDEG#HKFIOMNLJ" 6 5 13,
      st "ABCDEFGH#MIJNKOL" 8 8 10, st "ABCD#EGHMFIONKLJ" 4 3 15, st "ABCDFKGHE#IOMNLJ" 9 5 13,
      st "ABCDE#GHKFILMNJO" 5 10 8, st "ABCDEFGHM#JINKLO" 9 7 11, st "ABCDEFGHMKJ#NLOI" 11 7 11,
      st "ABCDEFGHILKOM#NJ" 13 10 8, st "ABCDEFG#ILOHMNKJ" 7 10 8, st "ABC#EFGDKIOHMNLJ" 3 7 11,
      st "ABCDEFGHNMIO#KLJ" 12 3 15, st "ABCD#EGHKFIOMNLJ" 4 5 13, st "ABCDEF#GKIOHMNLJ" 6 7 11,
      st "ABCDEFH#MIGONKLJ" 7 4 14, st "ABCDEFGHK#OJMINL" 9 9 9, st "AB#DEFCHMIGJNKOL" 2 8 10,
      st "B#CDAFGHEKIOMNLJ" 1 5 13, st "ABCDE#FHMIGJNKOL" 5 8 10, st "AB#DEFCHMIGONKLJ" 2 4 14,
      st "AB#DEFCHKIGJMNOL" 2 10 8, st "ABCDEFH#MIGJNKOL" 7 8 10, st "ABCD#EGHIFLOMNKJ" 4 9 9,
      st "ABCDEFGH#MKONLIJ" 8 4 14, st "ABCDE#GHMFKONLIJ" 5 4 14, st "ABCDF#GHEILOMNKJ" 5 8 10,
      st "#BCDAFGHEILOMNKJ" 0 8 10, st "ABCDEFGH#MILNKJO" 8 8 10, st "ABCDE#GHMFILNKJO" 5 8 10,
      st "ABCDEF#GKIJHMNOL" 6 11 7, st "ABC#EFGDKIJHMNOL" 3 11 7, st "ABCDEG#HIFLOMNKJ" 6 9 9,
      st "ABCD#EGHIFOJMNKL" 4 11 7, st "ABCDEF#GMIJHNKOL" 6 9 9, st "ABCDE#GHMFIJNKOL" 5 8 10,
      st "A#CDEBGHIFOJMNKL" 1 11 7, st "ABCDEG#HIFOJMNKL" 6 11 7, st "#BCDAFGHEIOJMNKL" 0 10 8,
      st "ABCDF#GHEIOJMNKL" 5 10 8, st "ABCDEFGHKNILM#JO" 13 10 8, st "ABCDEFGHINOJMK#L" 14 11 7,
      st "A#CDEBGHMFIONKLJ" 1 3 15, st "ABCDEFGH#MOJNIKL" 8 8 10, st "ABCD#FGHEMIONKLJ" 4 3 15,
      st "ABCDEF#HIOGJMNKL" 6 11 7, st "ABCDEFGHMKIJNO#L" 14 9 9, st "ABCDE#GHMFKINLJO" 5 6 12,
      st "ABCDE#GHKFIJMNOL" 5 10 8, st "ABCDEFH#MIGLNKJO" 7 8 10, st "ABCDE#FHMIGLNKJO" 5 8 10,
      st "AB#DEFCHMIGLNKJO" 2 8 10, st "ABCDEFGHKIJL#MNO" 12 11 7, st "ABCDE#GHMFOJNIKL" 5 8 10,
      st "ABCDEF#HMKGONLIJ" 6 3 15, st "ABCDEFGHMO#JNIKL" 10 8 10, st "ABCDE#GHMFLONIKJ" 5 6 12,
      st "ABCDE#FHKIGJMNOL" 5 10 8, st "ABCDEFGHK#LOMINJ" 9 7 11, st "ABCDEFGHM#JLNIKO" 9 11 7,
      st "ABCDEFGHINLOMK#J" 14 9 9, st "ABCDEFGHINLO#MKJ" 12 9 9, st "ABCD#FGHEKIJMNOL" 4 11 7,
      st "ABCDEFH#KIGLMNJO" 7 10 8, st "ABCDEFGHINOJ#MKL" 12 11 7, st "ABCDEFGHKIOJ#MNL" 12 9 9,
      st "ABCDEFGHIOKJMNL#" 15 12 6, st "ABCDEFGH#MKINLJO" 8 6 12, st "ABCDEFGHIOKJM#NL" 13 12 6,
      st "ABCDEFGHKILO#MNJ" 12 7 11, st "A#CDFBGHEKIOMNLJ" 1 5 13, st "A#CDEBGHIFLOMNKJ" 1 9 9,
      st "ABCDEG#HMFIONKLJ" 6 3 15, st "AB#DEFCHKIGLMNJO" 2 10 8, st "ABCDE#FHKIGLMNJO" 5 10 8,
      st "ABCDEFH#KIGJMNOL" 7 10 8, st "ABCDEFGHKNIO#MLJ" 12 5 13, st "ABCDE#FHMIGONKLJ" 5 4 14,
      st "ABCDEFGHK#JLMINO" 9 11 7, st "ABCDEF#HMKGINLJO" 6 5 13, st "ABCDEFGHIOJLMN#K" 14 13 5,
      st "ABCDEFG#MKOHNLIJ" 7 4 14, st "ABCDEF#HILGOMNKJ" 6 9 9, st "ABC#EFGDMIJHNKOL" 3 9 9,
      st "ABCDEFGHKNIOML#J" 14 5 13, st "ABCDFG#HEKIOMNLJ" 6 5 13, st "ABCDEFGHKNIJM#OL" 13 10 8,
      st "ABCDEFGH#MLONIKJ" 8 6 12, st "ABCDEFGHML#ONIKJ" 10 6 12, st "ABCDEFG#IOJHMNKL" 7 12 6,
      st "ABCDEFGHMKOJNLI#" 15 4 12, st "ABCDEFGHMLKON#IJ" 13 4 12, st "ABCDEF#HKIGOMNLJ" 6 5 11,
      st "ABCDEFGHMKIJ#NOL" 12 9 7, st "ABCDEFGHILK#MNJO" 11 11 5, st "ABCDEFGHMKILN#JO" 13 8 8,
      st "ABCDEFGH#KJIMNLO" 8 8 8, st "ABCDEFGHMLKIN#JO" 13 6 10, st "ABCDEFGHILOJMNK#" 15 10 6,
      st "ABCDEFG#MILHNKJO" 7 6 10, st "ABCDEFGH#IJLMNKO" 8 12 4, st "ABC#EFGDKILHMNJO" 3 9 9,
      st "ABCDEF#GKILHMNJO" 6 9 9, st "ABC#EFGDMIOHNKLJ" 3 5 13, st "ABCDEF#GMIOHNKLJ" 6 5 13,
      st "ABCD#FGHEKILMNJO" 4 11 7, st "ABCDEFGHMKIL#NJO" 12 11 7, st "ABC#EFGDMKIHNLJO" 3 5 13,
      st "ABCDEF#GMKIHNLJO" 6 5 13]
    ([
      "ABCDEFG#MKIHNLJO", "ABCDEFGH#KILMNJO", "ABCDEFG#MIOHNKLJ", "ABCDEFG#KILHMNJO",
      "ABCDEFGHM#KONLIJ", "ABCD#FGHEILOMNKJ", "ABCDEFGHM#ILNKJO", "ABCDEFG#KIJHMNOL",
      "ABCDEFGHMKIJN#OL", "ABCDEFGHIOJLMNK#", "ABCDEFGHILKOMNJ#", "ABCDEFGHMKJI#NLO",
      "ABCDEFGHK#ILMNJO", "ABCD#FGHEIOJMNKL", "ABCDE#GHIFOJMNKL", "ABCDE#GHIFLOMNKJ",
      "#BCDAFGHEKIOMNLJ", "ABCDEFGHIOJ#MNKL", "ABCDEFGHIOKJMN#L", "ABCDEFGHMKO#NLIJ",
      "ABCDEFGHILO#MNKJ", "ABCDEFGHILKOMN#J", "ABCDEFGHMKJINLO#", "ABCDEFGHMKJIN#LO",
      "ABCDEFGHINOJM#KL", "ABCDEF#HKIGLMNJO", "ABCDEFGHIO#JMNKL", "ABCDEFGHM#KINLJO",
      "ABCDE#GHKFIOMNLJ", "ABCDEFGH#MIONKLJ", "ABCDE#GHMFIONKLJ", "ABCDEFGHMKJINL#O",
      "ABCDEFGHINLOM#KJ", "ABCDEFGH#KIJMNOL", "ABCDEFGHMIJL#NKO", "ABCDEFGHIL#OMNKJ",
      "ABCDEF#HMIGJNKOL", "ABCDEFGHM#IJNKOL", "ABCDEFGHM#OJNIKL", "ABCDF#GHEKIOMNLJ",
      "ABCDEFGHKILOM#NJ", "ABCDEFG#KIOHMNLJ", "ABCDEF#HMIGONKLJ", "ABCDEF#HMIGLNKJO",
      "ABCDEFGHI#LOMNKJ", "ABCDEF#HKIGJMNOL", "ABCDEFGHK#IJMNOL", "ABCDEFGHMIJLN#KO",
      "ABCDEFGH#ILOMNKJ", "ABCDEFG#MIJHNKOL", "ABCDEFGHM#LONIKJ", "ABCDEFGHMK#INLJO",
      "ABCDEFGHMILO#NKJ", "ABCDEFGHMIJLNK#O", "ABCDEFGHKIJLM#NO", "ABCDEFGHKIJLMNO#",
      "ABCDEFGHMI#LNKJO", "ABCDEFGHMILON#KJ", "ABCDEFGHKIOJM#NL", "ABCDEFGHKIJ#MNOL",
      "ABCDEFGHKIJLMN#O", "ABCDEFGHI#OJMNKL", "ABCDEFGHMIL#NKJO", "ABCDEFGHKI#JMNOL",
      "ABCDEFGHKI#LMNJO", "ABCDEFGH#IOJMNKL", "ABCDEFGHMIJLNKO#", "ABCDEFGHKIOJMN#L",
      "ABCDEFGHKIL#MNJO", "ABCDEFGHMIOJ#NKL", "ABCDEFGHMIJ#NKOL", "ABCDEFGHKIOJMNL#",
      "ABCDEFGHKILOMNJ#", "ABCDEFGHMIOJN#KL", "ABCDEFGHMI#JNKOL", "ABCDEFGHKIO#MNLJ",
      "ABCDEFGHKILOMN#J", "ABCDEFGHMIOJNK#L", "ABCDEFGHMILONKJ#", "ABCDEFGHKI#OMNLJ",
      "ABCDEFGHMIOJNKL#", "ABCDEFGHMILONK#J", "ABCDEFGHKNIOM#LJ", "ABCDEFGHK#IOMNLJ",
      "ABCD#FGHEKIOMNLJ", "ABCDEFGHMKI#NLJO", "ABCDEFGHMIO#NKLJ", "ABCDEFGH#KIOMNLJ",
      "ABCDEFGHMKIONLJ#", "ABCDEFGHMI#ONKLJ", "ABCDEFGHMK#ONLIJ", "ABCDEFGHMKIO#NLJ",
      "ABCDEFGHMKIONL#J", "ABCDEFGHM#IONKLJ", "ABCDEFGHMKION#LJ"].map String.toList)
    ([
      ("ABCDEF#GMKIHNLJO", 5), ("ABC#EFGDMKIHNLJO", 5), ("ABCDEFGHMKIL#NJO", 11),
      ("ABCD#FGHEKILMNJO", 11), ("ABCDEF#GMIOHNKLJ", 5), ("ABC#EFGDMIOHNKLJ", 5),
      ("ABCDEF#GKILHMNJO", 9), ("ABC#EFGDKILHMNJO", 9), ("ABCDEFGH#MKONLIJ", 4),
      ("ABCDEFGHMLKON#IJ", 4), ("ABCDE#GHMFKONLIJ", 4), ("ABCDF#GHEILOMNKJ", 8),
      ("#BCDAFGHEILOMNKJ", 8), ("ABCDEFGH#MILNKJO", 8), ("ABCDEFGHMKILN#JO", 8),
      ("ABCDE#GHMFILNKJO", 8), ("ABCDEF#GKIJHMNOL", 11), ("ABC#EFGDKIJHMNOL", 11),
      ("ABCDEFGHMKIJNO#L", 9), ("ABCDEFGHMKIJ#NOL", 9), ("ABCDEFGHIOJLMN#K", 13),
      ("ABCDEFGHILK#MNJO", 11), ("ABCDEFGH#KJIMNLO", 8), ("ABCDEFGH#KILMNJO", 10),
      ("ABCDEFGHKNILM#JO", 10), ("ABCDE#GHKFILMNJO", 10), ("ABCDF#GHEIOJMNKL", 10),
      ("#BCDAFGHEIOJMNKL", 10), ("ABCDEG#HIFOJMNKL", 11), ("ABCD#EGHIFOJMNKL", 11),
      ("A#CDEBGHIFOJMNKL", 11), ("ABCDEG#HIFLOMNKJ", 9), ("ABCD#EGHIFLOMNKJ", 9),
      ("A#CDEBGHIFLOMNKJ", 9), ("B#CDAFGHEKIOMNLJ", 5), ("ABCDEFGHIOJLMNK#", 12),
      ("ABCDEFG#IOJHMNKL", 12), ("ABCDEFGHIOKJMNL#", 12), ("ABCDEFGHIOKJM#NL", 12),
      ("ABCDEFGHMKOJNLI#", 4), ("ABCDEFG#MKOHNLIJ", 4), ("ABCDEFGHILOJMNK#", 10),
      ("ABCDEFG#ILOHMNKJ", 10), ("ABCDEFGHILKOMNJ#", 10), ("ABCDEFGHILKOM#NJ", 10),
      ("ABCDEFGHMKJ#NLOI", 7), ("ABCDEFGHMKJI#NLO", 7), ("ABCDEFGHM#JINKLO", 7),
      ("ABCDEFGHINOJMK#L", 11), ("ABCDEFGHINOJ#MKL", 11), ("ABCDEFH#KIGLMNJO", 10),
      ("ABCDE#FHKIGLMNJO", 10), ("AB#DEFCHKIGLMNJO", 10), ("ABCDEFGHIOJ#MNKL", 11),
      ("ABCDEFGHIOKJMN#L", 11), ("ABCDEF#HIOGJMNKL", 11), ("ABCDEFGH#MKINLJO", 6),
      ("ABCDEFGHMLKIN#JO", 6), ("ABCDE#GHMFKINLJO", 6), ("ABCDEG#HKFIOMNLJ", 5),
      ("ABCD#EGHKFIOMNLJ", 5), ("A#CDEBGHKFIOMNLJ", 5), ("ABCDEFGHNMIO#KLJ", 3),
      ("ABCD#FGHEMIONKLJ", 3), ("ABCDEG#HMFIONKLJ", 3), ("ABCD#EGHMFIONKLJ", 3),
      ("A#CDEBGHMFIONKLJ", 3), ("ABCDEFGHMKJINLO#", 6), ("ABCDEFGHMKJIN#LO", 6),
      ("ABCDEFGHINLOMK#J", 9), ("ABCDEFGHINLO#MKJ", 9), ("ABCDEFGHMKIJ#NOL", 11),
      ("ABCD#FGHEKIJMNOL", 11), ("ABCDEFGH#IJLMNKO", 12), ("ABCDEFGHILO#MNKJ", 9),
      ("ABCDEFGHILKOMN#J", 9), ("ABCDEF#HILGOMNKJ", 9), ("ABCDEFH#MIGJNKOL", 8),
      ("ABCDE#FHMIGJNKOL", 8), ("AB#DEFCHMIGJNKOL", 8), ("ABCDEFGH#MIJNKOL", 8),
      ("ABCDEFGHMKIJN#OL", 8), ("ABCDE#GHMFIJNKOL", 8), ("ABCDEFGHMO#JNIKL", 8),
      ("ABCDEFGH#MOJNIKL", 8), ("ABCDE#GHMFOJNIKL", 8), ("ABCDFG#HEKIOMNLJ", 5),
      ("ABCDFKGHE#IOMNLJ", 5), ("A#CDFBGHEKIOMNLJ", 5), ("ABCDEFGHKILO#MNJ", 7),
      ("ABCDEFGHK#LOMINJ", 7), ("ABCDEF#GKIOHMNLJ", 7), ("ABC#EFGDKIOHMNLJ", 7),
      ("ABCDEFH#MIGONKLJ", 4), ("ABCDE#FHMIGONKLJ", 4), ("AB#DEFCHMIGONKLJ", 4),
      ("ABCDEFH#MIGLNKJO", 8), ("ABCDE#FHMIGLNKJO", 8), ("AB#DEFCHMIGLNKJO", 8),
      ("ABCDEFGHIL#OMNKJ", 8), ("ABCDEFGHINLOM#KJ", 8), ("ABCDE#GHIFLOMNKJ", 8),
      ("ABCDEFH#KIGJMNOL", 10), ("ABCDE#FHKIGJMNOL", 10), ("AB#DEFCHKIGJMNOL", 10),
      ("ABCDEFGH#KIJMNOL", 10), ("ABCDEFGHKNIJM#OL", 10), ("ABCDE#GHKFIJMNOL", 10),
      ("ABCDEFGHMIJL#NKO", 11), ("ABCDEFGHM#JLNIKO", 11), ("ABCDEFGHI#LOMNKJ", 7),
      ("ABCD#FGHEILOMNKJ", 7), ("ABCDEF#GMIJHNKOL", 9), ("ABC#EFGDMIJHNKOL", 9),
      ("ABCDEFGHML#ONIKJ", 6), ("ABCDEFGH#MLONIKJ", 6), ("ABCDE#GHMFLONIKJ", 6),
      ("ABCDEFGHM#KINLJO", 5), ("ABCDEFGHMKJINL#O", 5), ("ABCDEF#HMKGINLJO", 5),
      ("ABCDEFGH#ILOMNKJ", 6), ("ABCDEFGHMIJLN#KO", 10), ("ABCDEFGHKIJL#MNO", 11),
      ("ABCDEFGHK#JLMINO", 11), ("ABCDEFGHM#ILNKJO", 7), ("ABCDEFGHMIJLNK#O", 7),
      ("ABCDEF#HMIGLNKJO", 7), ("ABCDEFGHMILO#NKJ", 5), ("ABCDEFGHM#LONIKJ", 5),
      ("ABCDEFGHKIOJ#MNL", 9), ("ABCDEFGHK#OJMINL", 9), ("ABCDEFG#KIJHMNOL", 10),
      ("ABCDEFGHKIJLMNO#", 10), ("ABCDEFGHKIJLM#NO", 10), ("ABCDEFGHIO#JMNKL", 10),
      ("ABCDEFGHINOJM#KL", 10), ("ABCDE#GHIFOJMNKL", 10), ("ABCDEFGHMI#LNKJO", 6),
      ("ABCDEFG#MILHNKJO", 6), ("ABCDEFGHKIJ#MNOL", 9), ("ABCDEFGHK#IJMNOL", 9),
      ("ABCDEF#HKIGJMNOL", 9), ("ABCDEFGHK#ILMNJO", 9), ("ABCDEFGHKIJLMN#O", 9),
      ("ABCDEF#HKIGLMNJO", 9), ("ABCDEFGHI#OJMNKL", 9), ("ABCD#FGHEIOJMNKL", 9),
      ("ABCDEFGHMIJLNK#O", 9), ("ABCDEFGHKIOJM#NL", 8), ("ABCDEFGHKI#JMNOL", 8),
      ("ABCDEFGHKI#LMNJO", 8), ("ABCDEFG#KILHMNJO", 8), ("ABCDEFGH#IOJMNKL", 8),
      ("ABCDEFGHMIJLNKO#", 8), ("ABCDEFG#MIJHNKOL", 8), ("ABCDEFGHKIOJMN#L", 7),
      ("ABCDEFGHKIL#MNJO", 7), ("ABCDEFGHMIOJ#NKL", 7), ("ABCDEFGHM#OJNIKL", 7),
      ("ABCDEFGHMIJ#NKOL", 7), ("ABCDEFGHM#IJNKOL", 7), ("ABCDEF#HMIGJNKOL", 7),
      ("ABCDEFGHKIOJMNL#", 6), ("ABCDEFG#KIOHMNLJ", 6), ("ABCDEFGHKILOMNJ#", 6),
      ("ABCDEFGHKILOM#NJ", 6), ("ABCDEFGHMIOJN#KL", 6), ("ABCDEFGHMI#JNKOL", 6),
      ("ABCDEFGHMIL#NKJO", 5), ("ABCDEFGHKIO#MNLJ", 5), ("ABCDEFGHKILOMN#J", 5),
      ("ABCDEF#HKIGOMNLJ", 5), ("ABCDEFGHMIOJNK#L", 5), ("ABCDEFGHMILONKJ#", 4),
      ("ABCDEFGHMILON#KJ", 4), ("ABCDEFGHKNIOML#J", 5), ("ABCDEFGHKNIO#MLJ", 5),
      ("ABCDEFGHKI#OMNLJ", 4), ("ABCDEFGHKNIOM#LJ", 4), ("ABCDE#GHKFIOMNLJ", 4),
      ("ABCDF#GHEKIOMNLJ", 4), ("#BCDAFGHEKIOMNLJ", 4), ("ABCDEFGHMK#INLJO", 4),
      ("ABCDEFG#MKIHNLJO", 4), ("ABCDEFGHMIOJNKL#", 4), ("ABCDEFG#MIOHNKLJ", 4),
      ("ABCDEFGHK#IOMNLJ", 3), ("ABCD#FGHEKIOMNLJ", 3), ("ABCDEFGHMKI#NLJO", 3),
      ("ABCDEFGHMIO#NKLJ", 3), ("ABCDEFGHMILONK#J", 3), ("ABCDEF#HMIGONKLJ", 3),
      ("ABCDEFGHMKO#NLIJ", 3), ("ABCDEFGHM#KONLIJ", 3), ("ABCDEF#HMKGONLIJ", 3),
      ("ABCDEFGH#KIOMNLJ", 2), ("ABCDEFGHMKIONLJ#", 2), ("ABCDEFGHMK#ONLIJ", 2),
      ("ABCDEFGHMI#ONKLJ", 2), ("ABCDEFGH#MIONKLJ", 2), ("ABCDE#GHMFIONKLJ", 2),
      ("ABCDEFGHMKIONL#J", 1), ("ABCDEFGHMKIO#NLJ", 1), ("ABCDEFGHM#IONKLJ", 1),
      ("ABCDEFGHMKION#LJ", 0)].map (fun e => (e.1.toList, e.2)))
    false (-1)

/-- The variables of `parallelAStarH2` on the board `"ABCDEFGHMKION#LJ"` with two workers after
10 rounds (theorem `example_pair_a`). -/
def pairConfig10 : PAStarConfig :=
  PAStarConfig.mk
    [
      st "ABCDFG#HEKIOMNLJ" 6 5 13, st "ABCDEFH#KIGOMNLJ" 7 6 12, st "ABCDE#FHKIGOMNLJ" 5 6 12,
      st "AB#DEFCHKIGOMNLJ" 2 6 12, st "ABCDEFGH#MLONIKJ" 8 6 12, st "ABCDEFGHML#ONIKJ" 10 6 12,
      st "ABCDEFGH#MKONLIJ" 8 4 14, st "ABCDEG#HMFIONKLJ" 6 3 15, st "A#CDEBGHMFIONKLJ" 1 3 15,
      st "ABCDEFGHKNIO#MLJ" 12 5 13, st "ABCDFKGHE#IOMNLJ" 9 5 13, st "ABC#EFGDMKIHNLJO" 3 5 13,
      st "ABCD#FGHEMIONKLJ" 4 3 15, st "AB#DEFCHMIGONKLJ" 2 4 14, st "ABCDEFGHKNIOML#J" 14 5 13,
      st "ABC#EFGDMIOHNKLJ" 3 5 13, st "ABCDEF#GMIOHNKLJ" 6 5 13, st "ABC#EFGDKIOHMNLJ" 3 7 11,
      st "ABCDE#GHMFKONLIJ" 5 4 14, st "ABCDEFGHMKOJNL#I" 14 5 13, st "ABCDEF#GMKIHNLJO" 6 5 13,
      st "ABCDEFH#MIGONKLJ" 7 4 14, st "ABCDE#FHMIGONKLJ" 5 4 14, st "ABCDEF#HMKGINLJO" 6 5 13,
      st "ABCDEFG#MKOHNLIJ" 7 4 14, st "ABCDEF#HMKGONLIJ" 6 3 15, st "ABCDE#GHMFLONIKJ" 5 6 12,
      st "B#CDAFGHEKIOMNLJ" 1 5 13, st "A#CDFBGHEKIOMNLJ" 1 5 13, st "ABCD#EGHMFIONKLJ" 4 3 15,
      st "ABCDEF#GMILHNKJO" 6 7 11, st "ABCDEFGHNMIO#KLJ" 12 3 15, st "ABCDEF#GKIOHMNLJ" 6 7 11,
      st "ABC#EFGDMILHNKJO" 3 7 11, st "ABCDEFGHKILOM#NJ" 13 6 10, st "ABCDEFGHM#KINLJO" 9 5 11,
      st "ABCDEFGHMKJIN#LO" 13 6 10, st "ABCDEFGHMKJINLO#" 15 6 10, st "ABCD#FGHEILOMNKJ" 4 7 9,
      st "ABCDEFGH#LKOMNIJ" 8 6 10, st "ABCDEF#HKIGLMNJO" 6 9 7, st "ABCDEFGHK#ILMNJO" 9 9 7,
      st "ABCDEF#HKIGJMNOL" 6 9 7, st "ABCDEFGHK#IJMNOL" 9 9 7, st "ABCD#FGHEIOJMNKL" 4 9 7,
      st "ABCDEFGHM#JLNIKO" 9 9 7, st "ABCDEFGHM#IJNKOL" 9 7 9, st "ABCDEFGHM#OJNIKL" 9 7 9,
      st "ABCDEF#HMIGLNKJO" 6 7 9, st "ABCDEFGHM#ILNKJO" 9 7 9, st "ABCDE#GHKFIOMNLJ" 5 4 12,
      st "ABCDEFGHMLKONI#J" 14 5 11, st "ABCDEFGHIL#OMNKJ" 10 8 8, st "ABCDEF#HMIGJNKOL" 6 7 9,
      st "ABCDEFG#KILHMNJO" 7 8 8, st "ABCDEFGHK#OJMINL" 9 9 9, st "ABCDEFGHKIOJ#MNL" 12 9 9,
      st "ABC#EFGDMIJHNKOL" 3 9 9, st "ABCDEF#GMIJHNKOL" 6 9 9, st "ABCDEFGHINLO#MKJ" 12 9 9,
      st "ABCDEFGHINLOMK#J" 14 9 9, st "A#CDEBGHIFLOMNKJ" 1 9 9, st "ABCD#EGHIFLOMNKJ" 4 9 9,
      st "ABCDEG#HIFLOMNKJ" 6 9 9, st "ABCDEFGH#IJLMNKO" 8 10 4, st "ABCDE#GHIFOJMNKL" 5 10 6,
      st "ABCDEFGHINOJM#KL" 13 10 6, st "ABCDEFGHIO#JMNKL" 10 10 6, st "ABCDEFG#KIJHMNOL" 7 10 6,
      st "ABCDEFGHKIJLMNO#" 15 10 4, st "ABCDEFGHKIJLM#NO" 13 10 6]
    ([
      "ABCDEFGHKIJLMN#O", "ABCDEFGHKIJ#MNOL", "ABCDEFGHI#OJMNKL", "ABCDEFGHMIJL#NKO",
      "ABCDE#GHIFLOMNKJ", "ABCDEFGHINLOM#KJ", "ABCDEFG#MIJHNKOL", "ABCDEFGHKIOJM#NL",
      "ABCDEFGHMIJLN#KO", "ABCDEFGH#IOJMNKL", "ABCDEFGHMIJLNKO#", "ABCDEFGHKI#JMNOL",
      "ABCDEFGHKI#LMNJO", "ABCDEFGHMLKO#NIJ", "ABCDEFG#MIOHNKLJ", "ABCDEFGHMKJINL#O",
      "ABCDEFGHI#LOMNKJ", "ABCDEFGHMIJLNK#O", "ABCDEFGHMIOJ#NKL", "ABCDEFGHMIJ#NKOL",
      "ABCDEFGHKIOJMN#L", "ABCDEFGHKIL#MNJO", "ABCDEFG#MILHNKJO", "ABCDEFG#KIOHMNLJ",
      "ABCDEFGH#ILOMNKJ", "ABCDEFGHMI#LNKJO", "ABCDEFGHMIOJN#KL", "ABCDEFGHMI#JNKOL",
      "ABCDEFGHKIOJMNL#", "ABCDEFGHKILOMNJ#", "ABCDEFGHM#LONIKJ", "ABCDEF#HKIGOMNLJ",
      "ABCDEFGHMILO#NKJ", "ABCDEFGHMIL#NKJO", "ABCDEFGHMIOJNK#L", "ABCDEFGHKIO#MNLJ",
      "ABCDEFGHKILOMN#J", "ABCDEFGHMLKON#IJ", "ABCDEFGHMKOJNLI#", "ABCDEFGHKNIOM#LJ",
      "ABCDEFGHMILON#KJ", "ABCDEFGHMILONKJ#", "ABCDEFGHMIOJNKL#", "ABCDEFGHKI#OMNLJ",
      "ABCDF#GHEKIOMNLJ", "#BCDAFGHEKIOMNLJ", "ABCDEFGHMK#INLJO", "ABCDEFG#MKIHNLJO",
      "ABCDEFGHK#IOMNLJ", "ABCD#FGHEKIOMNLJ", "ABCDEFGHMKI#NLJO", "ABCDEFGHMIO#NKLJ",
      "ABCDEFGHMILONK#J", "ABCDEF#HMIGONKLJ", "ABCDEFGHMKO#NLIJ", "ABCDEFGHM#KONLIJ",
      "ABCDEFGH#KIOMNLJ", "ABCDEFGHMKIONLJ#", "ABCDEFGHMI#ONKLJ", "ABCDEFGHMK#ONLIJ",
      "ABCDEFGH#MIONKLJ", "ABCDE#GHMFIONKLJ", "ABCDEFGHMKIO#NLJ", "ABCDEFGHMKIONL#J",
      "ABCDEFGHM#IONKLJ", "ABCDEFGHMKION#LJ"].map String.toList)
    ([
      ("ABCDEFGHKIJLM#NO", 10), ("ABCDEFGHKIJLMNO#", 10), ("ABCDEFG#KIJHMNOL", 10),
      ("ABCDEFGHIO#JMNKL", 10), ("ABCDEFGHINOJM#KL", 10), ("ABCDE#GHIFOJMNKL", 10),
      ("ABCDEFGH#IJLMNKO", 10), ("ABCDEG#HIFLOMNKJ", 9), ("ABCD#EGHIFLOMNKJ", 9),
      ("A#CDEBGHIFLOMNKJ", 9), ("ABCDEFGHINLOMK#J", 9), ("ABCDEFGHINLO#MKJ", 9),
      ("ABCDEF#GMIJHNKOL", 9), ("ABC#EFGDMIJHNKOL", 9), ("ABCDEFGHKIOJ#MNL", 9),
      ("ABCDEFGHK#OJMINL", 9), ("ABCDEFGHMIJL#NKO", 9), ("ABCDEFGHM#JLNIKO", 9),
      ("ABCDEFGHI#OJMNKL", 9), ("ABCD#FGHEIOJMNKL", 9), ("ABCDEFGHKIJ#MNOL", 9),
      ("ABCDEFGHK#IJMNOL", 9), ("ABCDEF#HKIGJMNOL", 9), ("ABCDEFGHK#ILMNJO", 9),
      ("ABCDEFGHKIJLMN#O", 9), ("ABCDEF#HKIGLMNJO", 9), ("ABCDEFGH#LKOMNIJ", 6),
      ("ABCDEF#GMIOHNKLJ", 5), ("ABC#EFGDMIOHNKLJ", 5), ("ABCDEFGHMKJINLO#", 6),
      ("ABCDEFGHMKJIN#LO", 6), ("ABCDEFGHIL#OMNKJ", 8), ("ABCDEFGHINLOM#KJ", 8),
      ("ABCDE#GHIFLOMNKJ", 8), ("ABCDEFGHMIJLN#KO", 8), ("ABCDEFGH#IOJMNKL", 8),
      ("ABCDEFGHMIJLNKO#", 8), ("ABCDEFG#MIJHNKOL", 8), ("ABCDEFGHKIOJM#NL", 8),
      ("ABCDEFGHKI#JMNOL", 8), ("ABCDEFGHKI#LMNJO", 8), ("ABCDEFG#KILHMNJO", 8),
      ("ABCDEF#GMILHNKJO", 7), ("ABC#EFGDMILHNKJO", 7), ("ABCDEF#GKIOHMNLJ", 7),
      ("ABC#EFGDKIOHMNLJ", 7), ("ABCDEFGHI#LOMNKJ", 7), ("ABCD#FGHEILOMNKJ", 7),
      ("ABCDEFGHM#ILNKJO", 7), ("ABCDEFGHMIJLNK#O", 7), ("ABCDEF#HMIGLNKJO", 7),
      ("ABCDEFGHMIOJ#NKL", 7), ("ABCDEFGHM#OJNIKL", 7), ("ABCDEFGHMIJ#NKOL", 7),
      ("ABCDEFGHM#IJNKOL", 7), ("ABCDEF#HMIGJNKOL", 7), ("ABCDEFGHKIOJMN#L", 7),
      ("ABCDEFGHKIL#MNJO", 7), ("ABCDEFGHML#ONIKJ", 6), ("ABCDEFGH#MLONIKJ", 6),
      ("ABCDE#GHMFLONIKJ", 6), ("ABCDEFH#KIGOMNLJ", 6), ("ABCDE#FHKIGOMNLJ", 6),
      ("AB#DEFCHKIGOMNLJ", 6), ("ABCDEFGH#ILOMNKJ", 6), ("ABCDEFGHMI#LNKJO", 6),
      ("ABCDEFG#MILHNKJO", 6), ("ABCDEFGHMIOJN#KL", 6), ("ABCDEFGHMI#JNKOL", 6),
      ("ABCDEFGHKIOJMNL#", 6), ("ABCDEFG#KIOHMNLJ", 6), ("ABCDEFGHKILOMNJ#", 6),
      ("ABCDEFGHKILOM#NJ", 6), ("ABCDEFGHMLKONI#J", 5), ("ABCDEFGHMLKO#NIJ", 5),
      ("ABCDEFGHMKOJNL#I", 5), ("ABCDEFGHKNIOML#J", 5), ("ABCDEFGHKNIO#MLJ", 5),
      ("ABCDEFGHMILO#NKJ", 5), ("ABCDEFGHM#LONIKJ", 5), ("ABCDEFGHMIL#NKJO", 5),
      ("ABCDEFGHMIOJNK#L", 5), ("ABCDEFGHKIO#MNLJ", 5), ("ABCDEFGHKILOMN#J", 5),
      ("ABCDEF#HKIGOMNLJ", 5), ("ABCDFG#HEKIOMNLJ", 5), ("ABCDFKGHE#IOMNLJ", 5),
      ("A#CDFBGHEKIOMNLJ", 5), ("B#CDAFGHEKIOMNLJ", 5), ("ABCDEFGHM#KINLJO", 5),
      ("ABCDEFGHMKJINL#O", 5), ("ABCDEF#HMKGINLJO", 5), ("ABCDEF#GMKIHNLJO", 5),
      ("ABC#EFGDMKIHNLJO", 5), ("ABCDEFGHKI#OMNLJ", 4), ("ABCDEFGHKNIOM#LJ", 4),
      ("ABCDE#GHKFIOMNLJ", 4), ("ABCDF#GHEKIOMNLJ", 4), ("#BCDAFGHEKIOMNLJ", 4),
      ("ABCDEFGHMK#INLJO", 4), ("ABCDEFG#MKIHNLJO", 4), ("ABCDEFGHMIOJNKL#", 4),
      ("ABCDEFG#MIOHNKLJ", 4), ("ABCDEFGHMILONKJ#", 4), ("ABCDEFGHMILON#KJ", 4),
      ("ABCDEFH#MIGONKLJ", 4), ("ABCDE#FHMIGONKLJ", 4), ("AB#DEFCHMIGONKLJ", 4),
      ("ABCDEFGHMKOJNLI#", 4), ("ABCDEFG#MKOHNLIJ", 4), ("ABCDEFGH#MKONLIJ", 4),
      ("ABCDEFGHMLKON#IJ", 4), ("ABCDE#GHMFKONLIJ", 4), ("ABCDEFGHK#IOMNLJ", 3),
      ("ABCD#FGHEKIOMNLJ", 3), ("ABCDEFGHMKI#NLJO", 3), ("ABCDEFGHMIO#NKLJ", 3),
      ("ABCDEFGHMILONK#J", 3), ("ABCDEF#HMIGONKLJ", 3), ("ABCDEFGHMKO#NLIJ", 3),
      ("ABCDEFGHM#KONLIJ", 3), ("ABCDEF#HMKGONLIJ", 3), ("ABCDEFGHNMIO#KLJ", 3),
      ("ABCD#FGHEMIONKLJ", 3), ("ABCDEG#HMFIONKLJ", 3), ("ABCD#EGHMFIONKLJ", 3),
      ("A#CDEBGHMFIONKLJ", 3), ("ABCDEFGH#KIOMNLJ", 2), ("ABCDEFGHMKIONLJ#", 2),
      ("ABCDEFGHMK#ONLIJ", 2), ("ABCDEFGHMI#ONKLJ", 2), ("ABCDEFGH#MIONKLJ", 2),
      ("ABCDE#GHMFIONKLJ", 2), ("ABCDEFGHMKIONL#J", 1), ("ABCDEFGHMKIO#NLJ", 1),
      ("ABCDEFGHM#IONKLJ", 1), ("ABCDEFGHMKION#LJ", 0)].map (fun e => (e.1.toList, e.2)))
    false (-1)

/-! ## Theorems -/

/-! ## Boards, the blank and `swapTiles` -/

theorem swapTiles_length (b : Board) (p q : Int) : (swapTiles b p q).length = b.length := by
  unfold swapTiles
  split <;> simp

theorem swapTiles_of_range (b : Board) (p q : Nat) (hp : p < b.length) (hq : q < b.length) :
    swapTiles b p q = (b.set p (b.getD q BLANK)).set q (b.getD p BLANK) := by
  unfold swapTiles
  have h : (0:Int) ≤ p ∧ (p:Int) < b.length ∧ (0:Int) ≤ q ∧ (q:Int) < b.length := by
    refine ⟨by omega, by omega, by omega, by omega⟩
  rw [if_pos h]
  simp

theorem swapTiles_getElem? (b : Board) (p q : Nat) (hp : p < b.length) (hq : q < b.length)
    (i : Nat) :
    (swapTiles b p q)[i]? = if i = q then b[p]? else if i = p then b[q]? else b[i]? := by
  rw [swapTiles_of_range b p q hp hq]
  simp only [List.getElem?_set, List.length_set, List.getD_eq_getElem?_getD]
  by_cases h1 : i = q
  · subst h1
    simp [hq, hp, List.getElem?_eq_getElem]
  · by_cases h2 : i = p
    · subst h2
      simp [hq, hp, List.getElem?_eq_getElem, h1, Ne.symm h1]
    · simp [h1, h2, Ne.symm h1, Ne.symm h2]

theorem swapTiles_comm (b : Board) (p q : Nat) (hp : p < b.length) (hq : q < b.length) :
    swapTiles b p q = swapTiles b q p := by
  apply List.ext_getElem?
  intro i
  rw [swapTiles_getElem? b p q hp hq, swapTiles_getElem? b q p hq hp]
  by_cases h1 : i = q
  · by_cases h2 : i = p
    · rw [if_pos h1, if_pos h2, ← h1, ← h2]
    · rw [if_pos h1, if_neg h2, if_pos h1]
  · by_cases h2 : i = p
    · rw [if_neg h1, if_pos h2, if_pos h2]
    · rw [if_neg h1, if_neg h2, if_neg h2, if_neg h1]

theorem getElem?_middle (X R : Board) (x : Char) : (X ++ x :: R)[X.length]? = some x := by
  rw [List.getElem?_append_right (le_refl _), Nat.sub_self]
  exact List.getElem?_cons_zero

theorem swapTiles_self (b : Board) (p : Nat) (hp : p < b.length) : swapTiles b p p = b := by
  apply List.ext_getElem?
  intro i
  rw [swapTiles_getElem? b p p hp hp]
  by_cases h1 : i = p <;> simp [h1]

/-- The shape of a swap of two cells `p < q`. -/
theorem swapTiles_shape (X M Y : Board) (x y : Char) :
    swapTiles (X ++ x :: (M ++ y :: Y)) (X.length : Nat) ((X.length + 1 + M.length : Nat)) =
      X ++ y :: (M ++ x :: Y) := by
  apply List.ext_getElem?
  intro i
  have hp : X.length < (X ++ x :: (M ++ y :: Y)).length := by
    simp only [List.length_append, List.length_cons]; omega
  have hq : X.length + 1 + M.length < (X ++ x :: (M ++ y :: Y)).length := by
    simp only [List.length_append, List.length_cons]; omega
  rw [swapTiles_getElem? _ _ _ hp hq]
  have e1 : (X ++ x :: (M ++ y :: Y))[X.length]? = some x := getElem?_middle _ _ _
  have e2 : ∀ (u v : Char), (X ++ u :: (M ++ v :: Y))[X.length + 1 + M.length]? = some v := by
    intro u v
    rw [List.getElem?_append_right (by omega)]
    have : X.length + 1 + M.length - X.length = M.length + 1 := by omega
    rw [this, List.getElem?_cons_succ]
    exact getElem?_middle _ _ _
  rw [e1, e2]
  by_cases h1 : i = X.length + 1 + M.length
  · rw [if_pos h1, h1, e2]
  · rw [if_neg h1]
    by_cases h2 : i = X.length
    · rw [if_pos h2, h2, getElem?_middle]
    · rw [if_neg h2]
      by_cases h3 : i < X.length
      · rw [List.getElem?_append_left h3, List.getElem?_append_left h3]
      · rw [List.getElem?_append_right (by omega), List.getElem?_append_right (by omega)]
        obtain ⟨k, hk⟩ : ∃ k, i - X.length = k + 1 := ⟨i - X.length - 1, by omega⟩
        rw [hk, List.getElem?_cons_succ, List.getElem?_cons_succ]
        by_cases h4 : k < M.length
        · rw [List.getElem?_append_left h4, List.getElem?_append_left h4]
        · rw [List.getElem?_append_right (by omega), List.getElem?_append_right (by omega)]
          obtain ⟨m, hm⟩ : ∃ m, k - M.length = m + 1 := ⟨k - M.length - 1, by omega⟩
          rw [hm, List.getElem?_cons_succ, List.getElem?_cons_succ]

/-- Every board with two cells `p < q` splits around them. -/
theorem board_split (b : Board) (p q : Nat) (hpq : p < q) (hq : q < b.length) :
    ∃ X M Y x y, b = X ++ x :: (M ++ y :: Y) ∧ X.length = p ∧ X.length + 1 + M.length = q := by
  refine ⟨b.take p, (b.drop (p + 1)).take (q - p - 1), b.drop (q + 1), b[p], b[q], ?_, ?_, ?_⟩
  · have h1 : b = b.take p ++ b.drop p := (List.take_append_drop p b).symm
    have h2 : b.drop p = b[p] :: b.drop (p + 1) := List.drop_eq_getElem_cons (by omega)
    have h3 : b.drop (p + 1) =
        (b.drop (p + 1)).take (q - p - 1) ++ (b.drop (p + 1)).drop (q - p - 1) :=
      (List.take_append_drop _ _).symm
    have h4 : (b.drop (p + 1)).drop (q - p - 1) = b.drop q := by
      rw [List.drop_drop]; congr 1; omega
    have h5 : b.drop q = b[q] :: b.drop (q + 1) := List.drop_eq_getElem_cons hq
    rw [h4, h5] at h3
    rw [h2] at h1
    rw [← h3]
    exact h1
  · simp; omega
  · simp; omega

theorem swapTiles_perm (b : Board) (p q : Nat) (hp : p < b.length) (hq : q < b.length) :
    (swapTiles b p q).Perm b := by
  rcases Nat.lt_trichotomy p q with h | h | h
  · obtain ⟨X, M, Y, x, y, hb, hX, hM⟩ := board_split b p q h hq
    subst hb
    rw [← hX, ← hM, swapTiles_shape]
    apply List.Perm.append_left
    have e1 : (y :: (M ++ x :: Y)).Perm (y :: x :: (M ++ Y)) :=
      List.Perm.cons _ List.perm_middle
    have e2 : (x :: (M ++ y :: Y)).Perm (x :: y :: (M ++ Y)) :=
      List.Perm.cons _ List.perm_middle
    exact e1.trans ((List.Perm.swap x y _).trans e2.symm)
  · subst h; rw [swapTiles_self b p hp]
  · obtain ⟨X, M, Y, x, y, hb, hX, hM⟩ := board_split b q p h hp
    rw [swapTiles_comm b p q hp hq]
    subst hb
    rw [← hX, ← hM, swapTiles_shape]
    apply List.Perm.append_left
    have e1 : (y :: (M ++ x :: Y)).Perm (y :: x :: (M ++ Y)) :=
      List.Perm.cons _ List.perm_middle
    have e2 : (x :: (M ++ y :: Y)).Perm (x :: y :: (M ++ Y)) :=
      List.Perm.cons _ List.perm_middle
    exact e1.trans ((List.Perm.swap x y _).trans e2.symm)

theorem swapTiles_perm_int (b : Board) (p q : Int) : (swapTiles b p q).Perm b := by
  by_cases h : 0 ≤ p ∧ p < b.length ∧ 0 ≤ q ∧ q < b.length
  · obtain ⟨h1, h2, h3, h4⟩ := h
    lift p to Nat using h1
    lift q to Nat using h3
    exact swapTiles_perm b p q (by omega) (by omega)
  · unfold swapTiles
    rw [if_neg h]

/-- A symbol that occurs once occupies a single cell. -/
theorem cell_unique (a : Char) : ∀ (b : Board) (i j : Nat), b.count a = 1 →
    b[i]? = some a → b[j]? = some a → i = j := by
  intro b
  induction b with
  | nil => intro i j h; simp at h
  | cons x l ih =>
    intro i j h hi hj
    by_cases hx : x = a
    · subst hx
      have h0 : l.count x = 0 := by simpa using h
      have hn : x ∉ l := List.count_eq_zero.mp h0
      cases i with
      | zero =>
        cases j with
        | zero => rfl
        | succ j =>
          rw [List.getElem?_cons_succ] at hj
          exact absurd (List.getElem?_mem hj) hn
      | succ i =>
        rw [List.getElem?_cons_succ] at hi
        exact absurd (List.getElem?_mem hi) hn
    · have h1 : l.count a = 1 := by
        rw [List.count_cons_of_ne (Ne.symm hx)] at h; exact h
      cases i with
      | zero => simp at hi; exact absurd hi hx
      | succ i =>
        cases j with
        | zero => simp at hj; exact absurd hj hx
        | succ j =>
          rw [List.getElem?_cons_succ] at hi hj
          rw [ih i j h1 hi hj]

theorem findBlank_of_mem (b : Board) (h : BLANK ∈ b) :
    findBlank b = (b.indexOf BLANK : Nat) ∧ b.indexOf BLANK < b.length ∧
      b[b.indexOf BLANK]? = some BLANK := by
  refine ⟨by simp [findBlank, h], List.indexOf_lt_length.mpr h, List.getElem?_indexOf h⟩

theorem findBlank_of_cell (b : Board) (i : Nat) (h : b.count BLANK = 1)
    (hi : b[i]? = some BLANK) : findBlank b = i := by
  have hm : BLANK ∈ b := List.getElem?_mem hi
  obtain ⟨h1, _, h3⟩ := findBlank_of_mem b hm
  rw [h1, cell_unique BLANK b _ _ h h3 hi]

theorem findBlank_spec (b : Board) (h : b.count BLANK = 1) :
    ∃ p : Nat, findBlank b = p ∧ p < b.length ∧ b[p]? = some BLANK := by
  have hm : BLANK ∈ b := List.count_pos_iff.mp (by omega)
  obtain ⟨h1, h2, h3⟩ := findBlank_of_mem b hm
  exact ⟨_, h1, h2, h3⟩

/-- After swapping the blank at `p` with the cell `q`, `find` locates the blank at `q`. -/
theorem findBlank_swap (b : Board) (p q : Nat) (hp : p < b.length) (hq : q < b.length)
    (hb : b[p]? = some BLANK) (hone : b.count BLANK = 1) :
    findBlank (swapTiles b p q) = q := by
  apply findBlank_of_cell
  · rw [(swapTiles_perm b p q hp hq).count_eq]; exact hone
  · rw [swapTiles_getElem? b p q hp hq, if_pos rfl, hb]

/-! ## The move generator -/

theorem mem_successors (N : Nat) (b : Board) (p : Int) (nb : Board) (np : Int) :
    (nb, np) ∈ successors N b p ↔
      ∃ i, i < 4 ∧ (0 ≤ p.tdiv N + dRow i ∧ p.tdiv N + dRow i < N ∧
        0 ≤ p.tmod N + dCol i ∧ p.tmod N + dCol i < N) ∧
        nb = swapTiles b p ((p.tdiv N + dRow i) * N + (p.tmod N + dCol i)) ∧
        np = (p.tdiv N + dRow i) * N + (p.tmod N + dCol i) := by
  unfold successors
  simp only [List.mem_filterMap, List.mem_range]
  constructor
  · rintro ⟨i, hi, h⟩
    refine ⟨i, hi, ?_⟩
    split at h
    · rename_i hc
      simp only [Option.some.injEq, Prod.mk.injEq] at h
      exact ⟨hc, h.1.symm, h.2.symm⟩
    · exact absurd h (by simp)
  · rintro ⟨i, hi, hc, h1, h2⟩
    refine ⟨i, hi, ?_⟩
    rw [if_pos hc, h1, h2]

theorem successors_length_le (N : Nat) (b : Board) (p : Int) :
    (successors N b p).length ≤ 4 := by
  unfold successors
  exact (List.length_filterMap_le _ _).trans (by simp)

/-- Row and column of a cell of the grid. -/
theorem cell_coords (N p : Nat) (hp : p < N * N) :
    p / N < N ∧ p % N < N ∧ p = (p / N) * N + p % N := by
  have hN : 0 < N := by
    rcases Nat.eq_zero_or_pos N with h | h
    · subst h; simp at hp
    · exact h
  refine ⟨Nat.div_lt_of_lt_mul hp, Nat.mod_lt _ hN, ?_⟩
  have := Nat.div_add_mod p N
  rw [Nat.mul_comm] at this
  exact this.symm

/-- What the move loop generates at a blank index inside the grid: a swap with the cell above,
below, to the left or to the right, whenever that cell exists. -/
theorem successors_cases (N : Nat) (b : Board) (p : Nat) (hp : p < N * N)
    (nb : Board) (np : Int) (h : (nb, np) ∈ successors N b p) :
    ∃ q : Nat, np = q ∧ q < N * N ∧ nb = swapTiles b p q ∧
      ((1 ≤ p / N ∧ q + N = p) ∨ (p / N + 1 < N ∧ q = p + N) ∨
       (1 ≤ p % N ∧ q + 1 = p) ∨ (p % N + 1 < N ∧ q = p + 1)) := by
  obtain ⟨hr, hc, hrc⟩ := cell_coords N p hp
  rw [mem_successors] at h
  obtain ⟨i, hi, hb, h1, h2⟩ := h
  rw [← Int.ofNat_tdiv, ← Int.ofNat_tmod] at hb h1 h2
  have key : ∀ q : Nat, np = q → (q < N * N ∧
      ((1 ≤ p / N ∧ q + N = p) ∨ (p / N + 1 < N ∧ q = p + N) ∨
       (1 ≤ p % N ∧ q + 1 = p) ∨ (p % N + 1 < N ∧ q = p + 1))) →
      ∃ q : Nat, np = q ∧ q < N * N ∧ nb = swapTiles b p q ∧
      ((1 ≤ p / N ∧ q + N = p) ∨ (p / N + 1 < N ∧ q = p + N) ∨
       (1 ≤ p % N ∧ q + 1 = p) ∨ (p % N + 1 < N ∧ q = p + 1)) := by
    intro q hq hh
    refine ⟨q, hq, hh.1, ?_, hh.2⟩
    rw [h1, ← h2, hq]
  generalize hR : p / N = r at *
  generalize hC : p % N = c at *
  have hrN : r * N + N ≤ N * N := by
    have : (r + 1) * N ≤ N * N := Nat.mul_le_mul_right N hr
    rw [Nat.add_mul, Nat.one_mul] at this
    exact this
  interval_cases i
  · simp only [dRow, dCol] at hb h2
    have hr1 : 1 ≤ r := by omega
    refine key (p - N) ?_ ?_
    · rw [h2]
      have : (((p - N : Nat)) : Int) = (p : Int) - N := by
        have : N ≤ p := by
          rw [hrc]
          have := Nat.mul_le_mul_right N hr1
          omega
        omega
      rw [this, hrc]
      push_cast
      ring
    · have : N ≤ p := by
        rw [hrc]
        have := Nat.mul_le_mul_right N hr1
        omega
      exact ⟨by omega, Or.inl ⟨hr1, by omega⟩⟩
  · simp only [dRow, dCol] at hb h2
    have hr1 : r + 1 < N := by omega
    have hrN2 : (r + 1) * N + N ≤ N * N := by
      have : (r + 1 + 1) * N ≤ N * N := Nat.mul_le_mul_right N hr1
      rw [Nat.add_mul (r + 1), Nat.one_mul] at this
      exact this
    rw [Nat.add_mul, Nat.one_mul] at hrN2
    refine key (p + N) ?_ ?_
    · rw [h2, hrc]
      push_cast
      ring
    · exact ⟨by omega, Or.inr (Or.inl ⟨hr1, rfl⟩)⟩
  · simp only [dRow, dCol] at hb h2
    have hc1 : 1 ≤ c := by omega
    refine key (p - 1) ?_ ?_
    · rw [h2]
      have : (((p - 1 : Nat)) : Int) = (p : Int) - 1 := by omega
      rw [this, hrc]
      push_cast
      ring
    · exact ⟨by omega, Or.inr (Or.inr (Or.inl ⟨hc1, by omega⟩))⟩
  · simp only [dRow, dCol] at hb h2
    have hc1 : c + 1 < N := by omega
    refine key (p + 1) ?_ ?_
    · rw [h2, hrc]
      push_cast
      ring
    · exact ⟨by omega, Or.inr (Or.inr (Or.inr ⟨hc1, rfl⟩))⟩

theorem acceptedDirs_eq (N p : Nat) :
    acceptedDirs N p = (List.range 4).filter (destInGrid N p) := by
  unfold acceptedDirs destInGrid
  rw [← Int.ofNat_tdiv, ← Int.ofNat_tmod]

theorem successors_eq (N p : Nat) (board : Board) :
    successors N board p =
      ((List.range 4).filter (destInGrid N p)).map
        (fun i => (swapTiles board p (destCell N p i), destCell N p i)) := by
  unfold successors destInGrid destCell
  rw [← Int.ofNat_tdiv, ← Int.ofNat_tmod, ← List.filterMap_eq_map, List.filterMap_filter]
  apply List.filterMap_congr
  intro i _
  by_cases h : 0 ≤ ((p / N : Nat) : Int) + dRow i ∧ ((p / N : Nat) : Int) + dRow i < N ∧
    0 ≤ ((p % N : Nat) : Int) + dCol i ∧ ((p % N : Nat) : Int) + dCol i < N
  · simp [h]
  · simp [h]

/-- Claim C9. On the 4x4 board with the blank at index `p < 16`, `listAvailable` prints exactly
the directions among UP, DOWN, LEFT, RIGHT (in that order) whose destination cell
`(p / 4 + dRow, p % 4 + dCol)` lies inside the grid; and for every `N ≥ 2` and every blank index
`p' < N * N` the bounds test of the searches accepts exactly the directions with that property,
in the same order, and generates the swap with the destination cell for each of them. -/
theorem legal_directions (board : Board) (p : Nat) (hp : p < 16) (hb : findBlank board = p)
    (N : Nat) (hN : 2 ≤ N) (p' : Nat) (hp' : p' < N * N) (board' : Board) :
    listAvailable board = ((List.range 4).filter (destInGrid 4 p)).map MOVES ∧
    acceptedDirs N p' = (List.range 4).filter (destInGrid N p') ∧
    successors N board' p' =
      ((List.range 4).filter (destInGrid N p')).map
        (fun i => (swapTiles board' p' (destCell N p' i), destCell N p' i)) := by
  refine ⟨?_, acceptedDirs_eq N p', successors_eq N p' board'⟩
  unfold listAvailable
  rw [hb]
  interval_cases p <;> decide

theorem legal_directions_witness :
    listAvailable "ABC#DEFGHIJKLMNO".toList =
        ((List.range 4).filter (destInGrid 4 3)).map MOVES ∧
    acceptedDirs 3 4 = (List.range 4).filter (destInGrid 3 4) ∧
    successors 3 "ABCD#EFGH".toList (4 : Nat) =
      ((List.range 4).filter (destInGrid 3 4)).map
        (fun i => (swapTiles "ABCD#EFGH".toList (4 : Nat) (destCell 3 4 i), destCell 3 4 i)) :=
  legal_directions "ABC#DEFGHIJKLMNO".toList 3 (by decide) (by decide) 3 (by decide) 4
    (by decide) "ABCD#EFGH".toList

/-- Claim C10. For in-range positions `p`, `q` the board returned by `swapTiles` has the length of
the argument, holds `b[q]` at `p`, `b[p]` at `q` and `b[i]` at every other index; when `b[p]` is
the blank, the blank of the result is at `q` (and `find` locates it there when the board has a
single blank).  The argument is a value of the model and cannot change. -/
theorem swapTiles_frame (b : Board) (p q : Nat) (hp : p < b.length) (hq : q < b.length) :
    (swapTiles b p q).length = b.length ∧
    (swapTiles b p q)[p]? = b[q]? ∧
    (swapTiles b p q)[q]? = b[p]? ∧
    (∀ i : Nat, i ≠ p → i ≠ q → (swapTiles b p q)[i]? = b[i]?) ∧
    (b[p]? = some BLANK → (swapTiles b p q)[q]? = some BLANK ∧
      (b.count BLANK = 1 → findBlank (swapTiles b p q) = q)) := by
  have e := swapTiles_getElem? b p q hp hq
  have eq : (swapTiles b p q)[q]? = b[p]? := by rw [e, if_pos rfl]
  refine ⟨swapTiles_length b p q, ?_, eq, ?_, ?_⟩
  · rw [e]
    by_cases h : p = q
    · rw [if_pos h, h]
    · rw [if_neg h, if_pos rfl]
  · intro i h1 h2
    rw [e, if_neg h2, if_neg h1]
  · intro hb
    refine ⟨by rw [eq, hb], fun hc => ?_⟩
    exact findBlank_swap b p q hp hq hb hc

theorem swapTiles_frame_witness :
    (swapTiles "ABC#".toList (3 : Nat) (1 : Nat)).length = "ABC#".toList.length ∧
    (swapTiles "ABC#".toList (3 : Nat) (1 : Nat))[3]? = "ABC#".toList[1]? ∧
    (swapTiles "ABC#".toList (3 : Nat) (1 : Nat))[1]? = "ABC#".toList[3]? ∧
    (∀ i : Nat, i ≠ 3 → i ≠ 1 →
      (swapTiles "ABC#".toList (3 : Nat) (1 : Nat))[i]? = "ABC#".toList[i]?) ∧
    ("ABC#".toList[3]? = some BLANK →
      (swapTiles "ABC#".toList (3 : Nat) (1 : Nat))[1]? = some BLANK ∧
      ("ABC#".toList.count BLANK = 1 →
        findBlank (swapTiles "ABC#".toList (3 : Nat) (1 : Nat)) = (1 : Nat))) :=
  swapTiles_frame "ABC#".toList 3 1 (by decide) (by decide)

/-! ## The inversion counter of the solvability oracle -/

theorem foldl_add_eq_sum {ι : Type} (g : ι → Int) (f : Int → ι → Int)
    (hf : ∀ acc x, f acc x = acc + g x) :
    ∀ (l : List ι) (init : Int), l.foldl f init = init + (l.map g).sum := by
  intro l
  induction l with
  | nil => intro init; simp
  | cons x l ih =>
    intro init
    rw [List.foldl_cons, ih, hf, List.map_cons, List.sum_cons]
    ring

theorem list_range_sum (g : Nat → Int) (m : Nat) :
    ((List.range m).map g).sum = ∑ i ∈ Finset.range m, g i := by
  induction m with
  | zero => simp
  | succ m ih =>
    rw [List.range_succ, List.map_append, List.sum_append, ih, Finset.sum_range_succ]
    simp

theorem list_range'_sum (g : Nat → Int) (s k : Nat) :
    ((List.range' s k).map g).sum = ∑ j ∈ Finset.range k, g (s + j) := by
  rw [List.range'_eq_map_range, List.map_map, list_range_sum]
  rfl

theorem inverted_blank_left (y : Char) : inverted BLANK y = false := by
  simp [inverted]

theorem inverted_blank_right (x : Char) : inverted x BLANK = false := by
  simp [inverted]

theorem inverted_of_tiles (x y : Char) (hx : x ≠ BLANK) (hy : y ≠ BLANK) :
    inverted x y = decide (x > y) := by
  simp [inverted, hx, hy]

theorem inner_body (x y : Char) (acc : Int) (hx : x ≠ BLANK) :
    (if y = BLANK then acc else if x > y then acc + 1 else acc) =
      acc + (if inverted x y = true then (1 : Int) else 0) := by
  by_cases hy : y = BLANK
  · rw [if_pos hy, hy, inverted_blank_right]; simp
  · rw [if_neg hy, inverted_of_tiles x y hx hy]
    by_cases hgt : x > y
    · rw [if_pos hgt, if_pos (by simpa using hgt)]
    · rw [if_neg hgt, if_neg (by simpa using hgt)]; simp

/-- The square sum that the nested loops of `isSolvable` compute. -/
theorem countInversions_eq_sum (N : Nat) (b : Board) :
    countInversions N b =
      ∑ i ∈ Finset.range (N * N - 1), ∑ j ∈ Finset.range (N * N - (i + 1)),
        (if inverted (b.getD i (Char.ofNat 0)) (b.getD (i + 1 + j) (Char.ofNat 0)) = true
          then (1 : Int) else 0) := by
  unfold countInversions
  rw [foldl_add_eq_sum
    (fun i => ∑ j ∈ Finset.range (N * N - (i + 1)),
        (if inverted (b.getD i (Char.ofNat 0)) (b.getD (i + 1 + j) (Char.ofNat 0)) = true
          then (1 : Int) else 0))]
  · rw [list_range_sum, zero_add]
  · intro acc i
    generalize b.getD i (Char.ofNat 0) = x
    by_cases hi : x = BLANK
    · rw [if_pos hi, hi]
      have : ∀ j, (if inverted BLANK (b.getD (i + 1 + j) (Char.ofNat 0)) = true
          then (1 : Int) else 0) = 0 := by
        intro j; rw [inverted_blank_left]; rfl
      rw [Finset.sum_congr rfl (fun j _ => this j), Finset.sum_const_zero, add_zero]
    · rw [if_neg hi]
      rw [foldl_add_eq_sum
        (fun j => if inverted x (b.getD j (Char.ofNat 0)) = true
          then (1 : Int) else 0)]
      · rw [list_range'_sum]
      · intro acc j
        exact inner_body _ _ _ hi

theorem countP_eq_sum (p : Char → Bool) (d : Char) (l : Board) :
    ∑ j ∈ Finset.range l.length, (if p (l.getD j d) = true then 1 else 0) = l.countP p := by
  induction l with
  | nil => simp
  | cons a l ih =>
    rw [List.length_cons, Finset.sum_range_succ']
    simp only [List.getD_cons_succ, List.getD_cons_zero]
    rw [ih, List.countP_cons]

theorem tri_sum_eq_invRec (d : Char) (b : Board) :
    ∑ i ∈ Finset.range b.length, ∑ j ∈ Finset.range (b.length - (i + 1)),
      (if inverted (b.getD i d) (b.getD (i + 1 + j) d) = true then 1 else 0) = invRec b := by
  induction b with
  | nil => simp [invRec]
  | cons a l ih =>
    rw [List.length_cons, Finset.sum_range_succ']
    have h0 : ∑ j ∈ Finset.range (l.length + 1 - (0 + 1)),
        (if inverted ((a :: l).getD 0 d) ((a :: l).getD (0 + 1 + j) d) = true then 1 else 0)
        = l.countP (inverted a) := by
      have e : l.length + 1 - (0 + 1) = l.length := by omega
      rw [e, ← countP_eq_sum (inverted a) d l]
      apply Finset.sum_congr rfl
      intro j _
      have e2 : 0 + 1 + j = j + 1 := by omega
      rw [e2, List.getD_cons_succ, List.getD_cons_zero]
    have h1 : ∀ i, ∑ j ∈ Finset.range (l.length + 1 - (i + 1 + 1)),
        (if inverted ((a :: l).getD (i + 1) d) ((a :: l).getD (i + 1 + 1 + j) d) = true
          then 1 else 0) =
        ∑ j ∈ Finset.range (l.length - (i + 1)),
          (if inverted (l.getD i d) (l.getD (i + 1 + j) d) = true then 1 else 0) := by
      intro i
      have e : l.length + 1 - (i + 1 + 1) = l.length - (i + 1) := by omega
      rw [e]
      apply Finset.sum_congr rfl
      intro j _
      have e2 : i + 1 + 1 + j = (i + 1 + j) + 1 := by omega
      rw [e2, List.getD_cons_succ, List.getD_cons_succ]
    rw [h0, Finset.sum_congr rfl (fun i _ => h1 i), ih, invRec, Nat.add_comm]

/-- The loops of `isSolvable` count the inversions of the board. -/
theorem countInversions_eq_invRec (N : Nat) (b : Board) (hlen : b.length = N * N) :
    countInversions N b = (invRec b : Nat) := by
  rw [countInversions_eq_sum, ← tri_sum_eq_invRec (Char.ofNat 0) b, hlen]
  push_cast
  rcases Nat.eq_zero_or_pos (N * N) with h | h
  · rw [h]
  · obtain ⟨m, hm⟩ : ∃ m, N * N = m + 1 := ⟨N * N - 1, by omega⟩
    rw [hm, Finset.sum_range_succ (n := m)]
    simp

theorem sum_after (f : Nat → Nat) (i n : Nat) (hi : i < n) :
    ∑ j ∈ Finset.range n, (if i < j then f j else 0) =
      ∑ k ∈ Finset.range (n - (i + 1)), f (i + 1 + k) := by
  rw [← Finset.sum_Ico_eq_sum_range, Finset.range_eq_Ico,
    ← Finset.sum_Ico_consecutive _ (Nat.zero_le (i + 1)) (by omega)]
  have hz : ∑ j ∈ Finset.Ico 0 (i + 1), (if i < j then f j else 0) = 0 := by
    apply Finset.sum_eq_zero
    intro j hj
    have : ¬ i < j := by
      have := (Finset.mem_Ico.mp hj).2
      omega
    rw [if_neg this]
  rw [hz, zero_add]
  apply Finset.sum_congr rfl
  intro j hj
  have : i < j := by
    have := (Finset.mem_Ico.mp hj).1
    omega
  rw [if_pos this]

/-- The pairs counted by the specification are the inversions of the board. -/
theorem card_inversionPairs (b : Board) : (inversionPairs b).card = invRec b := by
  unfold inversionPairs
  rw [Finset.card_filter, Finset.sum_product, ← tri_sum_eq_invRec (Char.ofNat 0) b]
  apply Finset.sum_congr rfl
  intro i hi
  have hi' : i < b.length := Finset.mem_range.mp hi
  rw [← sum_after (fun j => if inverted (b.getD i (Char.ofNat 0)) (b.getD j (Char.ofNat 0)) = true
    then 1 else 0) i b.length hi']
  apply Finset.sum_congr rfl
  intro j _
  by_cases h : i < j
  · simp [h]
  · simp [h]

/-- The oracle in terms of the inversions of the board and the row of the blank. -/
theorem isSolvable_eq (N : Nat) (b : Board) (hlen : b.length = N * N) (p : Nat)
    (hp : findBlank b = p) (hpN : p < N * N) :
    isSolvable N b =
      if N % 2 = 1 then decide (invRec b % 2 = 0)
      else decide ((invRec b + (N - p / N)) % 2 = 1) := by
  obtain ⟨hr, _, _⟩ := cell_coords N p hpN
  unfold isSolvable
  simp only []
  rw [countInversions_eq_invRec N b hlen, hp, ← Int.ofNat_tdiv]
  have e1 : (N : Int).tmod 2 = (N : Int) % 2 := Int.tmod_eq_emod (by omega) (by omega)
  have e2 : ((invRec b : Nat) : Int).tmod 2 = ((invRec b : Nat) : Int) % 2 :=
    Int.tmod_eq_emod (by omega) (by omega)
  have e3 : (((invRec b : Nat) : Int) + ((N : Int) - ((p / N : Nat) : Int))).tmod 2 =
      (((invRec b : Nat) : Int) + ((N : Int) - ((p / N : Nat) : Int))) % 2 :=
    Int.tmod_eq_emod (by omega) (by omega)
  rw [e1, e2, e3]
  by_cases hodd : N % 2 = 1
  · rw [if_pos hodd, if_pos (by omega)]
    apply decide_eq_decide.mpr
    omega
  · rw [if_neg hodd, if_neg (by omega)]
    apply decide_eq_decide.mpr
    omega

/-- Claim C7. For `N ≥ 2` and a board of length `N * N` with exactly one `#`, `isSolvable`
computes the reference rule of the specification: with `inv` the number of index pairs `i < j`
of non-blank cells with `b[i] > b[j]`, the verdict is `inv` even when `N` is odd and
`inv + (N - blankRow)` odd when `N` is even, `blankRow` being the index of `#` divided by `N`. -/
theorem isSolvable_eq_reference (N : Nat) (b : Board) (hN : 2 ≤ N) (hlen : b.length = N * N)
    (hone : b.count BLANK = 1) : isSolvable N b = referenceSolvable N b := by
  have hm : BLANK ∈ b := List.count_pos_iff.mp (by omega)
  obtain ⟨h1, h2, _⟩ := findBlank_of_mem b hm
  rw [isSolvable_eq N b hlen _ h1 (by omega)]
  unfold referenceSolvable
  simp only []
  rw [card_inversionPairs]

theorem isSolvable_eq_reference_witness :
    isSolvable 3 "ABCDEF#GH".toList = referenceSolvable 3 "ABCDEF#GH".toList :=
  isSolvable_eq_reference 3 "ABCDEF#GH".toList (by decide) (by decide) (by decide)

/-! ## The oracle is invariant under moves -/

theorem invRec_append (A B : Board) : invRec (A ++ B) = invRec A + invRec B + cross A B := by
  induction A with
  | nil => simp [invRec, cross]
  | cons a A ih =>
    have e : invRec (a :: A ++ B) = (A ++ B).countP (inverted a) + invRec (A ++ B) := rfl
    have e2 : cross (a :: A) B = B.countP (inverted a) + cross A B := rfl
    have e3 : invRec (a :: A) = A.countP (inverted a) + invRec A := rfl
    rw [e, e2, e3, ih, List.countP_append]
    omega

theorem cross_perm (A : Board) {B B' : Board} (h : B.Perm B') : cross A B = cross A B' := by
  unfold cross
  congr 1
  apply List.map_congr_left
  intro a _
  exact h.countP_eq _

theorem cross_cons_right (M Y : Board) (y : Char) :
    cross M (y :: Y) = M.countP (fun m => inverted m y) + cross M Y := by
  induction M with
  | nil => simp [cross]
  | cons m M ih =>
    simp only [cross, List.map_cons, List.sum_cons, List.countP_cons] at ih ⊢
    rw [ih]
    omega

theorem countP_split (M : Board) (y : Char) (hy : y ≠ BLANK)
    (hM : ∀ m ∈ M, m ≠ BLANK ∧ m ≠ y) :
    M.countP (fun m => inverted m y) + M.countP (inverted y) = M.length := by
  induction M with
  | nil => simp
  | cons m M ih =>
    have hm := hM m (List.mem_cons_self _ _)
    have ih' := ih (fun m' h' => hM m' (List.mem_cons_of_mem _ h'))
    simp only [List.countP_cons, List.length_cons]
    rw [inverted_of_tiles m y hm.1 hy, inverted_of_tiles y m hy hm.1]
    rcases lt_trichotomy m y with h | h | h
    · have h2 : ¬ m > y := not_lt.mpr (le_of_lt h)
      have h3 : y > m := h
      rw [decide_eq_false h2, decide_eq_true h3]
      simp only [Bool.false_eq_true, if_true, if_false]
      omega
    · exact absurd h hm.2
    · have h2 : ¬ y > m := not_lt.mpr (le_of_lt h)
      have h3 : m > y := h
      rw [decide_eq_false h2, decide_eq_true h3]
      simp only [Bool.false_eq_true, if_true, if_false]
      omega

theorem countP_blank_left (M : Board) : M.countP (inverted BLANK) = 0 := by
  apply List.countP_eq_zero.mpr
  intro m _
  rw [inverted_blank_left]; simp

theorem countP_blank_right (M : Board) : M.countP (fun m => inverted m BLANK) = 0 := by
  apply List.countP_eq_zero.mpr
  intro m _
  rw [inverted_blank_right]; simp

/-- Swapping the blank with a tile `M.length` cells away changes the inversion count by a number
of the parity of `M.length`. -/
theorem invRec_swap (X M Y : Board) (x y : Char) (hx : x = BLANK ∨ y = BLANK) (hxy : x ≠ y)
    (hM : ∀ m ∈ M, m ≠ BLANK ∧ m ≠ x ∧ m ≠ y) :
    ∃ K, invRec (X ++ x :: (M ++ y :: Y)) + invRec (X ++ y :: (M ++ x :: Y)) =
      2 * K + M.length := by
  have hp : (x :: (M ++ y :: Y)).Perm (y :: (M ++ x :: Y)) := by
    have e1 : (y :: (M ++ x :: Y)).Perm (y :: x :: (M ++ Y)) :=
      List.Perm.cons _ List.perm_middle
    have e2 : (x :: (M ++ y :: Y)).Perm (x :: y :: (M ++ Y)) :=
      List.Perm.cons _ List.perm_middle
    exact e2.trans ((List.Perm.swap y x _).trans e1.symm)
  have hc := cross_perm X hp
  have key : ∀ u v : Char, invRec (X ++ u :: (M ++ v :: Y)) =
      invRec X + cross X (u :: (M ++ v :: Y)) +
        (M.countP (inverted u) + (if inverted u v = true then 1 else 0) + Y.countP (inverted u)
          + invRec M + (Y.countP (inverted v) + invRec Y)
          + (M.countP (fun m => inverted m v) + cross M Y)) := by
    intro u v
    rw [invRec_append X, invRec, List.countP_append, List.countP_cons, invRec_append M, invRec,
      cross_cons_right]
    omega
  rw [key x y, key y x, hc]
  rcases hx with hx | hy
  · subst hx
    have hy : y ≠ BLANK := fun h => hxy h.symm
    have hs := countP_split M y hy (fun m hm => ⟨(hM m hm).1, (hM m hm).2.2⟩)
    rw [countP_blank_left M, countP_blank_right M, inverted_blank_left, inverted_blank_right,
      countP_blank_left Y]
    refine ⟨invRec X + cross X (y :: (M ++ BLANK :: Y)) + invRec M + Y.countP (inverted y)
      + invRec Y + cross M Y, ?_⟩
    simp only [Bool.false_eq_true, if_false]
    omega
  · subst hy
    have hx : x ≠ BLANK := hxy
    have hs := countP_split M x hx (fun m hm => ⟨(hM m hm).1, (hM m hm).2.1⟩)
    rw [countP_blank_left M, countP_blank_right M, inverted_blank_left, inverted_blank_right,
      countP_blank_left Y]
    refine ⟨invRec X + cross X (BLANK :: (M ++ x :: Y)) + invRec M + Y.countP (inverted x)
      + invRec Y + cross M Y, ?_⟩
    simp only [Bool.false_eq_true, if_false]
    omega

theorem getElem?_second (X M Y : Board) (u v : Char) :
    (X ++ u :: (M ++ v :: Y))[X.length + 1 + M.length]? = some v := by
  rw [List.getElem?_append_right (by omega)]
  have : X.length + 1 + M.length - X.length = M.length + 1 := by omega
  rw [this, List.getElem?_cons_succ]
  exact getElem?_middle _ _ _

theorem nodup_split (X M Y : Board) (x y : Char) (h : (X ++ x :: (M ++ y :: Y)).Nodup) :
    x ≠ y ∧ ∀ m ∈ M, m ≠ x ∧ m ≠ y := by
  have h1 : (x :: (M ++ y :: Y)).Nodup := (List.nodup_append.mp h).2.1
  have h2 : x ∉ M ++ y :: Y := (List.nodup_cons.mp h1).1
  have h3 : (M ++ y :: Y).Nodup := (List.nodup_cons.mp h1).2
  have h4 : y ∉ M ++ Y := (List.nodup_cons.mp (List.nodup_middle.mp h3)).1
  refine ⟨fun e => h2 (by simp [e]), fun m hm => ⟨?_, ?_⟩⟩
  · intro e; exact h2 (by simp [← e, hm])
  · intro e; exact h4 (by simp [← e, hm])

/-- The inversion count after swapping the blank at `p` with the tile at `q`. -/
theorem invRec_move (b : Board) (p q : Nat) (hp : p < b.length) (hq : q < b.length)
    (hpq : p ≠ q) (hb : b[p]? = some BLANK) (hnd : b.Nodup) :
    ∃ K, invRec b + invRec (swapTiles b p q) = 2 * K + ((max p q - min p q) - 1) := by
  rcases Nat.lt_or_gt_of_ne hpq with h | h
  · obtain ⟨X, M, Y, x, y, e, hX, hM⟩ := board_split b p q h hq
    subst e
    have hx : x = BLANK := by
      have := getElem?_middle X (M ++ y :: Y) x
      rw [hX, hb] at this
      exact (Option.some.inj this).symm
    obtain ⟨hxy, hmem⟩ := nodup_split X M Y x y hnd
    have e1 : max p q - min p q - 1 = M.length := by
      rw [max_eq_right (le_of_lt h), min_eq_left (le_of_lt h)]; omega
    rw [e1, ← hX, ← hM, swapTiles_shape]
    apply invRec_swap X M Y x y (Or.inl hx) hxy
    intro m hm
    exact ⟨fun e => (hmem m hm).1 (e.trans hx.symm), hmem m hm⟩
  · obtain ⟨X, M, Y, x, y, e, hX, hM⟩ := board_split b q p h hp
    rw [swapTiles_comm b p q hp hq]
    subst e
    have hy : y = BLANK := by
      have := getElem?_second X M Y x y
      rw [hM, hb] at this
      exact (Option.some.inj this).symm
    obtain ⟨hxy, hmem⟩ := nodup_split X M Y x y hnd
    have e1 : max p q - min p q - 1 = M.length := by
      rw [max_eq_left (le_of_lt h), min_eq_right (le_of_lt h)]; omega
    rw [e1, ← hX, ← hM, swapTiles_shape]
    apply invRec_swap X M Y x y (Or.inr hy) hxy
    intro m hm
    exact ⟨fun e => (hmem m hm).2 (e.trans hy.symm), hmem m hm⟩

theorem div_of_coords (r c N : Nat) (hc : c < N) : (r * N + c) / N = r := by
  have hN : 0 < N := by omega
  rw [Nat.add_comm, Nat.add_mul_div_right _ _ hN, Nat.div_eq_of_lt hc, Nat.zero_add]

theorem nodup_of_tiles (b : Board) (hone : b.count BLANK = 1)
    (htiles : (b.filter (fun c => decide (c ≠ BLANK))).Nodup) : b.Nodup := by
  rw [List.nodup_iff_count_le_one]
  intro a
  by_cases ha : a = BLANK
  · rw [ha, hone]
  · have := List.nodup_iff_count_le_one.mp htiles a
    rw [List.count_filter (by simpa using ha)] at this
    exact this

/-- The verdict of the oracle does not change along a move of the blank. -/
theorem isSolvable_successor (N : Nat) (b : Board) (hN : 2 ≤ N) (hlen : b.length = N * N)
    (hone : b.count BLANK = 1) (htiles : (b.filter (fun c => decide (c ≠ BLANK))).Nodup)
    (nb : Board) (np : Int) (hmove : (nb, np) ∈ successors N b (findBlank b)) :
    nb = swapTiles b (findBlank b) np ∧ isSolvable N nb = isSolvable N b := by
  have hnd := nodup_of_tiles b hone htiles
  obtain ⟨p, hp, hpl, hpb⟩ := findBlank_spec b hone
  rw [hp] at hmove ⊢
  have hpN : p < N * N := by omega
  obtain ⟨q, hq, hqN, hnb, hcase⟩ := successors_cases N b p hpN nb np hmove
  obtain ⟨hr, hc, hrc⟩ := cell_coords N p hpN
  have hql : q < b.length := by omega
  refine ⟨by rw [hnb, hq], ?_⟩
  have hpq : p ≠ q := by
    rcases hcase with h | h | h | h <;> omega
  have hnbq : findBlank nb = q := by
    rw [hnb]
    exact findBlank_swap b p q hpl hql hpb hone
  have hnblen : nb.length = N * N := by rw [hnb, swapTiles_length, hlen]
  obtain ⟨K, hK⟩ := invRec_move b p q hpl hql hpq hpb hnd
  rw [← hnb] at hK
  rw [isSolvable_eq N nb hnblen q hnbq hqN, isSolvable_eq N b hlen p hp hpN]
  have hqdiv : (1 ≤ p / N ∧ q + N = p ∧ q / N + 1 = p / N) ∨
      (p / N + 1 < N ∧ q = p + N ∧ q / N = p / N + 1) ∨
      ((q + 1 = p ∨ q = p + 1) ∧ q / N = p / N) := by
    have hN0 : 0 < N := by omega
    rcases hcase with h | h | h | h
    · left
      refine ⟨h.1, h.2, ?_⟩
      rw [← h.2, Nat.add_div_right _ hN0]
    · right; left
      refine ⟨h.1, h.2, ?_⟩
      rw [h.2, Nat.add_div_right _ hN0]
    · right; right
      refine ⟨Or.inl h.2, ?_⟩
      have e : q = (p / N) * N + (p % N - 1) := by omega
      rw [e, div_of_coords _ _ _ (by omega)]
    · right; right
      refine ⟨Or.inr h.2, ?_⟩
      have e : q = (p / N) * N + (p % N + 1) := by omega
      rw [e, div_of_coords _ _ _ h.1]
  by_cases hodd : N % 2 = 1
  · rw [if_pos hodd, if_pos hodd]
    apply decide_eq_decide.mpr
    rcases hqdiv with h | h | h
    · have : max p q - min p q - 1 = N - 1 := by
        rw [max_eq_left (by omega), min_eq_right (by omega)]; omega
      omega
    · have : max p q - min p q - 1 = N - 1 := by
        rw [max_eq_right (by omega), min_eq_left (by omega)]; omega
      omega
    · have : max p q - min p q - 1 = 0 := by
        rcases h.1 with h1 | h1
        · rw [max_eq_left (by omega), min_eq_right (by omega)]; omega
        · rw [max_eq_right (by omega), min_eq_left (by omega)]; omega
      omega
  · rw [if_neg hodd, if_neg hodd]
    apply decide_eq_decide.mpr
    have hqr : q / N < N := Nat.div_lt_of_lt_mul hqN
    rcases hqdiv with h | h | h
    · have : max p q - min p q - 1 = N - 1 := by
        rw [max_eq_left (by omega), min_eq_right (by omega)]; omega
      omega
    · have : max p q - min p q - 1 = N - 1 := by
        rw [max_eq_right (by omega), min_eq_left (by omega)]; omega
      omega
    · have : max p q - min p q - 1 = 0 := by
        rcases h.1 with h1 | h1
        · rw [max_eq_left (by omega), min_eq_right (by omega)]; omega
        · rw [max_eq_right (by omega), min_eq_left (by omega)]; omega
      rw [h.2]
      omega

/-- Claim C8. The verdict of the oracle is an invariant of the move relation: for `N ≥ 2`, a
board of length `N * N` with exactly one `#` and pairwise distinct tiles, and every successor
`swapTiles(b, blankPos, newPos)` generated by the move loop (UP, DOWN, LEFT or RIGHT of the
blank), `isSolvable` gives the same verdict on the successor as on the board. -/
theorem isSolvable_move_invariant (N : Nat) (b : Board) (hN : 2 ≤ N) (hlen : b.length = N * N)
    (hone : b.count BLANK = 1) (htiles : (b.filter (fun c => decide (c ≠ BLANK))).Nodup)
    (nb : Board) (np : Int) (hmove : (nb, np) ∈ successors N b (findBlank b)) :
    nb = swapTiles b (findBlank b) np ∧ isSolvable N nb = isSolvable N b :=
  isSolvable_successor N b hN hlen hone htiles nb np hmove

theorem isSolvable_move_invariant_witness :
    swapTiles "ABCDEFGH#".toList (8 : Nat) (5 : Nat) =
        swapTiles "ABCDEFGH#".toList (findBlank "ABCDEFGH#".toList) (5 : Nat) ∧
      isSolvable 3 (swapTiles "ABCDEFGH#".toList (8 : Nat) (5 : Nat)) =
        isSolvable 3 "ABCDEFGH#".toList :=
  isSolvable_move_invariant 3 "ABCDEFGH#".toList (by decide) (by decide) (by decide)
    (by decide) (swapTiles "ABCDEFGH#".toList (8 : Nat) (5 : Nat)) (5 : Nat) (by decide)

/-! ## Breadth-first search -/

/-- A successor of a well-formed board is well formed, and its `newPos` is its blank index. -/
theorem successor_valid (N : Nat) (start x : Board) (hone : start.count BLANK = 1)
    (hlen : start.length = N * N) (hx : x.Perm start) (nb : Board) (np : Int)
    (h : (nb, np) ∈ successors N x (findBlank x)) : nb.Perm start ∧ np = findBlank nb := by
  have hxone : x.count BLANK = 1 := by rw [hx.count_eq]; exact hone
  have hxlen : x.length = N * N := by rw [hx.length_eq]; exact hlen
  obtain ⟨p, hp, hpl, hpb⟩ := findBlank_spec x hxone
  rw [hp] at h
  obtain ⟨q, hq, hqN, hnb, _⟩ := successors_cases N x p (by omega) nb np h
  have hql : q < x.length := by omega
  refine ⟨?_, ?_⟩
  · rw [hnb]; exact (swapTiles_perm x p q hpl hql).trans hx
  · rw [hq, hnb]
    exact (findBlank_swap x p q hpl hql hpb hxone).symm

theorem unvisited_cons_lt (start : Board) (v : List Board) (nb : Board) (hnb : nb.Perm start)
    (hv : nb ∉ v) : unvisited start (nb :: v) < unvisited start v := by
  unfold unvisited
  have e : start.permutations.filter (fun x => decide (x ∉ nb :: v)) =
      (start.permutations.filter (fun x => decide (x ∉ v))).filter (fun x => decide (x ≠ nb)) := by
    rw [List.filter_filter]
    apply List.filter_congr
    intro x _
    simp [List.mem_cons, not_or]
  rw [e]
  apply List.length_filter_lt_length_iff_exists.mpr
  refine ⟨nb, ?_, by simp⟩
  rw [List.mem_filter]
  exact ⟨List.mem_permutations.mpr hnb, by simpa using hv⟩

theorem unvisited_start (start : Board) :
    unvisited start [start] + 1 ≤ start.length.factorial := by
  have h := unvisited_cons_lt start [] start (List.Perm.refl _) (by simp)
  have h2 : unvisited start [] ≤ start.length.factorial := by
    unfold unvisited
    rw [← List.length_permutations]
    exact List.length_filter_le _ _
  omega

theorem reach_succ (N : Nat) (a c b : Board) (k : Nat) (h1 : Reach N k a c)
    (h2 : legalMove N c b) : Reach N (k + 1) a b :=
  ⟨c, h1, h2⟩

/-- The invariant holds when `bfs` enters its loop. -/
theorem binv_init (N : Nat) (T start : Board) :
    BInv N T start 0 none [State.mk start (findBlank start) 0] [start] where
  valid := by
    intro s hs
    rw [List.mem_singleton] at hs
    subst hs
    exact ⟨List.Perm.refl _, rfl⟩
  split := ⟨[State.mk start (findBlank start) 0], [], by simp, by
    intro s hs
    rw [List.mem_singleton] at hs
    subst hs
    rfl, by simp⟩
  sound := by
    intro s hs
    rw [List.mem_singleton] at hs
    subst hs
    exact ⟨0, rfl, rfl, fun j hj => absurd hj (Nat.not_lt_zero j)⟩
  complete := by
    intro x j hr hj
    have : j = 0 := by omega
    subst this
    have e : start = x := hr
    simp [e]
  closed := by
    intro x hx
    rw [List.mem_singleton] at hx
    subst hx
    exact Or.inl ⟨_, List.mem_singleton.mpr rfl, rfl⟩
  vperm := by
    intro x hx
    rw [List.mem_singleton] at hx
    subst hx
    exact List.Perm.refl _

/-- When no queued state has the front cost any more, the next level becomes the front. -/
theorem binv_level (N : Nat) (T start : Board) (c : Nat) (q : List State) (v : List Board)
    (h : BInv N T start c none q v) (hq : ∀ s ∈ q, s.cost = c + 1) :
    BInv N T start (c + 1) none q v where
  valid := h.valid
  split := ⟨q, [], by simp, by
    intro s hs
    rw [hq s hs]
    push_cast
    rfl, by simp⟩
  sound := h.sound
  complete := by
    intro x j hr hj
    rcases Nat.lt_or_ge j (c + 1) with hlt | hge
    · exact h.complete x j hr (by omega)
    · have hj' : j = c + 1 := by omega
      subst hj'
      obtain ⟨y, hy, hmove⟩ := hr
      have hyv := h.complete y c hy (le_refl _)
      rcases h.closed y hyv with ⟨s, hs, hsb⟩ | hcur | hcl
      · obtain ⟨k, hk, _, hmin⟩ := h.sound s hs
        rw [hq s hs] at hk
        have hk' : k = c + 1 := by omega
        subst hk'
        rw [hsb] at hmin
        exact absurd hy (hmin c (by omega))
      · exact absurd hcur (by simp)
      · exact hcl.2 x hmove
  closed := h.closed
  vperm := h.vperm

/-- The invariant is kept by the move loop of one expansion; every successor handled ends up in
`visited`, and the termination measure does not grow. -/
theorem bfsExpand_fold (N : Nat) (T start : Board) (hone : start.count BLANK = 1)
    (hlen : start.length = N * N) (c : Nat) (cur : State) (hcost : cur.cost = c)
    (hperm : cur.board.Perm start) (hpos : cur.blankPos = findBlank cur.board)
    (hreach : Reach N c start cur.board) :
    ∀ (L : List (Board × Int)), (∀ s ∈ L, s ∈ successors N cur.board cur.blankPos) →
    ∀ (q : List State) (v : List Board), BInv N T start c (some cur.board) q v →
      BInv N T start c (some cur.board)
        (L.foldl (fun acc nb =>
          if nb.1 ∈ acc.2 then acc
          else (acc.1 ++ [State.mk nb.1 nb.2 (cur.cost + 1)], nb.1 :: acc.2)) (q, v)).1
        (L.foldl (fun acc nb =>
          if nb.1 ∈ acc.2 then acc
          else (acc.1 ++ [State.mk nb.1 nb.2 (cur.cost + 1)], nb.1 :: acc.2)) (q, v)).2 ∧
      (∀ x ∈ v, x ∈ (L.foldl (fun acc nb =>
          if nb.1 ∈ acc.2 then acc
          else (acc.1 ++ [State.mk nb.1 nb.2 (cur.cost + 1)], nb.1 :: acc.2)) (q, v)).2) ∧
      (∀ s ∈ L, s.1 ∈ (L.foldl (fun acc nb =>
          if nb.1 ∈ acc.2 then acc
          else (acc.1 ++ [State.mk nb.1 nb.2 (cur.cost + 1)], nb.1 :: acc.2)) (q, v)).2) ∧
      unvisited start (L.foldl (fun acc nb =>
          if nb.1 ∈ acc.2 then acc
          else (acc.1 ++ [State.mk nb.1 nb.2 (cur.cost + 1)], nb.1 :: acc.2)) (q, v)).2 +
        (L.foldl (fun acc nb =>
          if nb.1 ∈ acc.2 then acc
          else (acc.1 ++ [State.mk nb.1 nb.2 (cur.cost + 1)], nb.1 :: acc.2)) (q, v)).1.length
        ≤ unvisited start v + q.length := by
  intro L
  induction L with
  | nil =>
    intro _ q v h
    exact ⟨h, fun x hx => hx, fun s hs => absurd hs (List.not_mem_nil s), le_refl _⟩
  | cons s L ih =>
    intro hL q v h
    have hs := hL s (List.mem_cons_self _ _)
    have hL' : ∀ t ∈ L, t ∈ successors N cur.board cur.blankPos :=
      fun t ht => hL t (List.mem_cons_of_mem _ ht)
    rw [List.foldl_cons]
    by_cases hv : s.1 ∈ v
    · rw [if_pos hv]
      obtain ⟨i1, i2, i3, i4⟩ := ih hL' q v h
      refine ⟨i1, i2, ?_, i4⟩
      intro t ht
      rcases List.mem_cons.mp ht with e | e
      · rw [e]; exact i2 _ hv
      · exact i3 t e
    · rw [if_neg hv]
      have hs' : (s.1, s.2) ∈ successors N cur.board (findBlank cur.board) := by
        rw [← hpos]; exact hs
      obtain ⟨hnperm, hnpos⟩ := successor_valid N start cur.board hone hlen hperm s.1 s.2 hs'
      have hmove : legalMove N cur.board s.1 := ⟨s, by rw [← hpos]; exact hs, rfl⟩
      have hinv : BInv N T start c (some cur.board)
          (q ++ [State.mk s.1 s.2 (cur.cost + 1)]) (s.1 :: v) := by
        refine ⟨?_, ?_, ?_, ?_, ?_, ?_⟩
        · intro t ht
          rcases List.mem_append.mp ht with e | e
          · exact h.valid t e
          · rw [List.mem_singleton] at e
            subst e
            exact ⟨hnperm, hnpos⟩
        · obtain ⟨q1, q2, e, h1, h2⟩ := h.split
          refine ⟨q1, q2 ++ [State.mk s.1 s.2 (cur.cost + 1)], by rw [e, List.append_assoc],
            h1, ?_⟩
          intro t ht
          rcases List.mem_append.mp ht with e' | e'
          · exact h2 t e'
          · rw [List.mem_singleton] at e'
            subst e'
            show cur.cost + 1 = (c : Int) + 1
            rw [hcost]
        · intro t ht
          rcases List.mem_append.mp ht with e | e
          · exact h.sound t e
          · rw [List.mem_singleton] at e
            subst e
            refine ⟨c + 1, by show cur.cost + 1 = ((c + 1 : Nat) : Int); rw [hcost]; push_cast; rfl,
              reach_succ N start cur.board s.1 c hreach hmove, ?_⟩
            intro j hj hr
            exact hv (h.complete s.1 j hr (by omega))
        · intro x j hr hj
          exact List.mem_cons_of_mem _ (h.complete x j hr hj)
        · intro x hx
          rcases List.mem_cons.mp hx with e | e
          · left
            exact ⟨State.mk s.1 s.2 (cur.cost + 1), by simp, e.symm⟩
          · rcases h.closed x e with ⟨t, ht, htb⟩ | hc | hc
            · left; exact ⟨t, List.mem_append_left _ ht, htb⟩
            · right; left; exact hc
            · right; right
              exact ⟨hc.1, fun y hy => List.mem_cons_of_mem _ (hc.2 y hy)⟩
        · intro x hx
          rcases List.mem_cons.mp hx with e | e
          · rw [e]; exact hnperm
          · exact h.vperm x e
      obtain ⟨i1, i2, i3, i4⟩ := ih hL' _ _ hinv
      refine ⟨i1, fun x hx => i2 x (List.mem_cons_of_mem _ hx), ?_, ?_⟩
      · intro t ht
        rcases List.mem_cons.mp ht with e | e
        · rw [e]; exact i2 _ (List.mem_cons_self _ _)
        · exact i3 t e
      · have hlt := unvisited_cons_lt start v s.1 hnperm hv
        refine le_trans i4 ?_
        rw [List.length_append, List.length_singleton]
        omega

/-- With an empty queue every reachable board is in `visited`, and the target is not. -/
theorem binv_empty (N : Nat) (T start : Board) (c : Nat) (v : List Board)
    (h : BInv N T start c none [] v) : ∀ k, ¬ Reach N k start T := by
  have hall : ∀ k x, Reach N k start x → x ∈ v := by
    intro k
    induction k with
    | zero => intro x hr; exact h.complete x 0 hr (Nat.zero_le _)
    | succ k ih =>
      intro x hr
      obtain ⟨y, hy, hmove⟩ := hr
      rcases h.closed y (ih y hy) with ⟨s, hs, _⟩ | hc | hc
      · exact absurd hs (List.not_mem_nil s)
      · exact absurd hc (by simp)
      · exact hc.2 x hmove
  intro k hr
  rcases h.closed T (hall k T hr) with ⟨s, hs, _⟩ | hc | hc
  · exact absurd hs (List.not_mem_nil s)
  · exact absurd hc (by simp)
  · exact hc.1 rfl

/-- The head of the queue has the front cost, possibly after moving to the next level. -/
theorem binv_front (N : Nat) (T start : Board) (c : Nat) (cur : State) (q : List State)
    (v : List Board) (h : BInv N T start c none (cur :: q) v) :
    ∃ c' q1 q2, BInv N T start c' none (cur :: q) v ∧ q = q1 ++ q2 ∧ cur.cost = c' ∧
      (∀ s ∈ q1, s.cost = c') ∧ (∀ s ∈ q2, s.cost = c' + 1) := by
  obtain ⟨q1, q2, e, h1, h2⟩ := h.split
  cases q1 with
  | nil =>
    rw [List.nil_append] at e
    have hall : ∀ s ∈ cur :: q, s.cost = (c : Int) + 1 := by rw [e]; exact h2
    refine ⟨c + 1, q, [], binv_level N T start c _ v h hall, by simp, ?_, ?_, by simp⟩
    · rw [hall cur (List.mem_cons_self _ _)]; push_cast; rfl
    · intro s hs
      rw [hall s (List.mem_cons_of_mem _ hs)]; push_cast; rfl
  | cons a q1 =>
    rw [List.cons_append] at e
    obtain ⟨e1, e2⟩ := List.cons.inj e
    subst e1
    exact ⟨c, q1, q2, h, e2, h1 _ (List.mem_cons_self _ _),
      fun s hs => h1 s (List.mem_cons_of_mem _ hs), h2⟩

/-- One iteration of the loop of `bfs` on a state that is not the target keeps the invariant and
decreases the termination measure. -/
theorem binv_step (N : Nat) (T start : Board) (hone : start.count BLANK = 1)
    (hlen : start.length = N * N) (c : Nat) (cur : State) (q : List State) (v : List Board)
    (h : BInv N T start c none (cur :: q) v) (hT : cur.board ≠ T) :
    ∃ c', BInv N T start c' none (bfsExpand N cur q v).1 (bfsExpand N cur q v).2 ∧
      unvisited start (bfsExpand N cur q v).2 + (bfsExpand N cur q v).1.length
        ≤ unvisited start v + q.length := by
  obtain ⟨c', q1, q2, h', e, hcost, h1, h2⟩ := binv_front N T start c cur q v h
  obtain ⟨hperm, hpos⟩ := h'.valid cur (List.mem_cons_self _ _)
  obtain ⟨k, hk, hreach, hmin⟩ := h'.sound cur (List.mem_cons_self _ _)
  have hkc : k = c' := by omega
  subst hkc
  have hmid : BInv N T start k (some cur.board) q v := by
    refine ⟨fun s hs => h'.valid s (List.mem_cons_of_mem _ hs), ⟨q1, q2, e, h1, h2⟩,
      fun s hs => h'.sound s (List.mem_cons_of_mem _ hs), h'.complete, ?_, h'.vperm⟩
    intro x hx
    rcases h'.closed x hx with ⟨s, hs, hsb⟩ | hc | hc
    · rcases List.mem_cons.mp hs with e' | e'
      · right; left; rw [← hsb, e']
      · left; exact ⟨s, e', hsb⟩
    · exact absurd hc (by simp)
    · right; right; exact hc
  obtain ⟨i1, _, i3, i4⟩ := bfsExpand_fold N T start hone hlen k cur hcost hperm hpos
    hreach (successors N cur.board cur.blankPos) (fun s hs => hs) q v hmid
  refine ⟨k, ⟨i1.valid, i1.split, i1.sound, i1.complete, ?_, i1.vperm⟩, i4⟩
  intro x hx
  rcases i1.closed x hx with hc | hc | hc
  · left; exact hc
  · right; right
    have hxc : x = cur.board := Option.some.inj hc
    rw [hxc]
    refine ⟨hT, ?_⟩
    rintro y ⟨s, hs, hsy⟩
    rw [← hpos] at hs
    rw [← hsy]
    exact i3 s hs
  · right; right; exact hc

/-- The loop of `bfs` returns, and what it returns is optimal. -/
theorem bfsLoop_correct (N : Nat) (T start : Board) (hone : start.count BLANK = 1)
    (hlen : start.length = N * N) :
    ∀ (fuel c : Nat) (q : List State) (v : List Board), BInv N T start c none q v →
      unvisited start v + q.length < fuel →
      ∃ r, bfsLoop N T fuel q v = some r ∧ Optimal N T start r := by
  intro fuel
  induction fuel with
  | zero => intro c q v _ hf; exact absurd hf (Nat.not_lt_zero _)
  | succ fuel ih =>
    intro c q v h hf
    cases q with
    | nil =>
      exact ⟨-1, rfl, Or.inl ⟨rfl, binv_empty N T start c v h⟩⟩
    | cons cur q =>
      by_cases hT : cur.board = T
      · obtain ⟨k, hk, hreach, hmin⟩ := h.sound cur (List.mem_cons_self _ _)
        refine ⟨cur.cost, by rw [bfsLoop, if_pos hT], Or.inr ⟨k, hk, ?_, ?_⟩⟩
        · rw [← hT]; exact hreach
        · rw [← hT]; exact hmin
      · obtain ⟨c', hend, hle⟩ := binv_step N T start hone hlen c cur q v h hT
        rw [List.length_cons] at hf
        obtain ⟨r, hr, hopt⟩ := ih c' _ _ hend (by omega)
        exact ⟨r, by rw [bfsLoop, if_neg hT]; exact hr, hopt⟩

/-- Every board the loop of `bfs` dequeues is reachable from the start board. -/
theorem bfsDequeued_reach (N : Nat) (T start : Board) (hone : start.count BLANK = 1)
    (hlen : start.length = N * N) :
    ∀ (fuel c : Nat) (q : List State) (v : List Board), BInv N T start c none q v →
      ∀ x ∈ bfsDequeued N T fuel q v, ∃ k, Reach N k start x := by
  intro fuel
  induction fuel with
  | zero => intro c q v _ x hx; exact absurd hx (List.not_mem_nil x)
  | succ fuel ih =>
    intro c q v h x hx
    cases q with
    | nil => exact absurd hx (List.not_mem_nil x)
    | cons cur q =>
      rw [bfsDequeued] at hx
      rcases List.mem_cons.mp hx with e | e
      · obtain ⟨k, _, hreach, _⟩ := h.sound cur (List.mem_cons_self _ _)
        exact ⟨k, by rw [e]; exact hreach⟩
      · by_cases hT : cur.board = T
        · rw [if_pos hT] at e
          exact absurd e (List.not_mem_nil x)
        · rw [if_neg hT] at e
          obtain ⟨c', hend, _⟩ := binv_step N T start hone hlen c cur q v h hT
          exact ih c' _ _ hend x e

/-- Function `bfs` returns on every board of length `N * N` with one blank, and its result is
`-1` when the target is unreachable and the length of a shortest move sequence otherwise. -/
theorem bfs_correct (N : Nat) (T start : Board) (hone : start.count BLANK = 1)
    (hlen : start.length = N * N) : ∃ r, bfs N T start = some r ∧ Optimal N T start r := by
  apply bfsLoop_correct N T start hone hlen _ 0 _ _ (binv_init N T start)
  have := unvisited_start start
  rw [List.length_singleton]
  omega

theorem optimal_unique (N : Nat) (T start : Board) (r1 r2 : Int) (h1 : Optimal N T start r1)
    (h2 : Optimal N T start r2) : r1 = r2 := by
  rcases h1 with ⟨e1, n1⟩ | ⟨d1, e1, a1, m1⟩
  · rcases h2 with ⟨e2, _⟩ | ⟨d2, _, a2, _⟩
    · rw [e1, e2]
    · exact absurd a2 (n1 d2)
  · rcases h2 with ⟨_, n2⟩ | ⟨d2, e2, a2, m2⟩
    · exact absurd a1 (n2 d1)
    · have : d1 = d2 := by
        rcases Nat.lt_trichotomy d1 d2 with h | h | h
        · exact absurd a1 (m2 d1 h)
        · exact h
        · exact absurd a2 (m1 d2 h)
      rw [e1, e2, this]

/-! ## The claims about `bfs` -/

theorem target_valid (N : Nat) (h2 : 2 ≤ N) (h5 : N ≤ 5) :
    (generateTarget N).count BLANK = 1 ∧ (generateTarget N).length = N * N ∧
      (generateTarget N).Nodup := by
  interval_cases N <;> decide

theorem board_valid (N : Nat) (h2 : 2 ≤ N) (h5 : N ≤ 5) (b : Board)
    (hb : b.Perm (generateTarget N)) :
    b.count BLANK = 1 ∧ b.length = N * N ∧ b.Nodup := by
  obtain ⟨h1, hl, hn⟩ := target_valid N h2 h5
  exact ⟨by rw [hb.count_eq]; exact h1, by rw [hb.length_eq]; exact hl, hb.nodup_iff.mpr hn⟩

theorem bfs4_eq (b : Board) : bfs4 b = bfs 4 (generateTarget 4) b := by
  have : generateTarget 4 = TARGET4 := by decide
  rw [this]
  rfl

/-- Claim C1. For `N` in `2..5` and a board `b` that is a permutation of `generateTarget(N)` from
which the target is reachable by legal moves, `bfs(b)` returns the length `d` of a shortest
sequence of legal moves from `b` to the target: some sequence of `d` moves reaches the target and
no shorter one does.  For `N = 4` the 4x4 solver `bfs` of `board_available.cpp` returns the same
value. -/
theorem bfs_shortest (N : Nat) (h2 : 2 ≤ N) (h5 : N ≤ 5) (b : Board)
    (hb : b.Perm (generateTarget N)) (hreach : ∃ k, Reach N k b (generateTarget N)) :
    ∃ d : Nat, bfs N (generateTarget N) b = some (d : Int) ∧
      Reach N d b (generateTarget N) ∧ (∀ j, j < d → ¬ Reach N j b (generateTarget N)) ∧
      (N = 4 → bfs4 b = some (d : Int)) := by
  obtain ⟨hone, hlen, _⟩ := board_valid N h2 h5 b hb
  obtain ⟨r, hr, hopt⟩ := bfs_correct N (generateTarget N) b hone hlen
  rcases hopt with ⟨_, hno⟩ | ⟨d, hd, h1, h2'⟩
  · obtain ⟨k, hk⟩ := hreach
    exact absurd hk (hno k)
  · refine ⟨d, by rw [hr, hd], h1, h2', ?_⟩
    intro h4
    subst h4
    rw [bfs4_eq, hr, hd]

theorem bfs_shortest_witness :
    ∃ d : Nat, bfs 2 (generateTarget 2) "A#CB".toList = some (d : Int) ∧
      Reach 2 d "A#CB".toList (generateTarget 2) ∧
      (∀ j, j < d → ¬ Reach 2 j "A#CB".toList (generateTarget 2)) ∧
      (2 = 4 → bfs4 "A#CB".toList = some (d : Int)) :=
  bfs_shortest 2 (by decide) (by decide) "A#CB".toList (by decide)
    ⟨1, "A#CB".toList, rfl, by unfold legalMove; decide⟩

/-- Claim C4. For `N` in `2..5` and a valid board `b`, `bfs(b)` returns `-1` if and only if no
sequence of legal moves transforms `b` into the target; otherwise it returns a value `≥ 0`. -/
theorem bfs_minus_one_iff (N : Nat) (h2 : 2 ≤ N) (h5 : N ≤ 5) (b : Board)
    (hb : b.Perm (generateTarget N)) :
    (bfs N (generateTarget N) b = some (-1) ↔ ¬ ∃ k, Reach N k b (generateTarget N)) ∧
    ∃ r, bfs N (generateTarget N) b = some r ∧ (r ≠ -1 → 0 ≤ r) := by
  obtain ⟨hone, hlen, _⟩ := board_valid N h2 h5 b hb
  obtain ⟨r, hr, hopt⟩ := bfs_correct N (generateTarget N) b hone hlen
  rcases hopt with ⟨hm, hno⟩ | ⟨d, hd, h1, _⟩
  · refine ⟨⟨fun _ => ?_, fun _ => by rw [hr, hm]⟩, r, hr, fun h => absurd hm h⟩
    rintro ⟨k, hk⟩
    exact hno k hk
  · refine ⟨⟨fun h => ?_, fun h => absurd ⟨d, h1⟩ h⟩, r, hr, fun _ => by omega⟩
    rw [hr, hd] at h
    have := Option.some.inj h
    omega

theorem bfs_minus_one_iff_witness :
    (bfs 2 (generateTarget 2) "#ABC".toList = some (-1) ↔
      ¬ ∃ k, Reach 2 k "#ABC".toList (generateTarget 2)) ∧
    ∃ r, bfs 2 (generateTarget 2) "#ABC".toList = some r ∧ (r ≠ -1 → 0 ≤ r) :=
  bfs_minus_one_iff 2 (by decide) (by decide) "#ABC".toList (by decide)

/-- Boards reachable by moves are rearrangements of the start board. -/
theorem reach_perm (N : Nat) (start : Board) (hone : start.count BLANK = 1)
    (hlen : start.length = N * N) : ∀ k x, Reach N k start x → x.Perm start := by
  intro k
  induction k with
  | zero => intro x hr; have e : start = x := hr; rw [e]
  | succ k ih =>
    intro x hr
    obtain ⟨y, hy, s, hs, hsx⟩ := hr
    rw [← hsx]
    exact (successor_valid N start y hone hlen (ih y hy) s.1 s.2 hs).1

/-- The verdict of the oracle is the same on every board reachable from `start`. -/
theorem reach_isSolvable (N : Nat) (hN : 2 ≤ N) (start : Board) (hone : start.count BLANK = 1)
    (hlen : start.length = N * N) (hnd : start.Nodup) :
    ∀ k x, Reach N k start x → isSolvable N x = isSolvable N start := by
  intro k
  induction k with
  | zero => intro x hr; have e : start = x := hr; rw [e]
  | succ k ih =>
    intro x hr
    obtain ⟨y, hy, s, hs, hsx⟩ := hr
    have hyp := reach_perm N start hone hlen k y hy
    have hynd : y.Nodup := hyp.nodup_iff.mpr hnd
    rw [← hsx, ← ih y hy]
    exact (isSolvable_successor N y hN (by rw [hyp.length_eq]; exact hlen)
      (by rw [hyp.count_eq]; exact hone) (hynd.filter _) s.1 s.2 hs).2

/-- Claim C6. With `N = 4` and `TARGET = "ABCDEFGHIJKLMNO#"`, on every valid board on which
`isSolvable` is false, `bfs` never dequeues the target and returns `-1` (both the NxN solver and
the 4x4 solver). -/
theorem bfs_unsolvable4 (b : Board) (hb : b.Perm TARGET4) (hs : isSolvable 4 b = false) :
    bfs 4 TARGET4 b = some (-1) ∧
    TARGET4 ∉ bfsDequeued 4 TARGET4 (b.length.factorial + 1) [State.mk b (findBlank b) 0] [b] ∧
    bfs4 b = some (-1) := by
  have hT : generateTarget 4 = TARGET4 := by decide
  rw [← hT] at hb
  obtain ⟨hone, hlen, hnd⟩ := board_valid 4 (by decide) (by decide) b hb
  have hno : ∀ k, ¬ Reach 4 k b TARGET4 := by
    intro k hk
    have := reach_isSolvable 4 (by decide) b hone hlen hnd k TARGET4 hk
    rw [hs] at this
    exact absurd this (by decide)
  obtain ⟨r, hr, hopt⟩ := bfs_correct 4 TARGET4 b hone hlen
  have hr1 : r = -1 := by
    rcases hopt with ⟨hm, _⟩ | ⟨d, _, h1, _⟩
    · exact hm
    · exact absurd h1 (hno d)
  refine ⟨by rw [hr, hr1], ?_, by rw [bfs4_eq, hT, hr, hr1]⟩
  intro hmem
  obtain ⟨k, hk⟩ := bfsDequeued_reach 4 TARGET4 b hone hlen _ 0 _ _ (binv_init 4 TARGET4 b)
    TARGET4 hmem
  exact hno k hk

theorem bfs_unsolvable4_witness :
    bfs 4 TARGET4 "ABCDEFGHIJKLMON#".toList = some (-1) ∧
    TARGET4 ∉ bfsDequeued 4 TARGET4 ("ABCDEFGHIJKLMON#".toList.length.factorial + 1)
      [State.mk "ABCDEFGHIJKLMON#".toList (findBlank "ABCDEFGHIJKLMON#".toList) 0]
      ["ABCDEFGHIJKLMON#".toList] ∧
    bfs4 "ABCDEFGHIJKLMON#".toList = some (-1) :=
  bfs_unsolvable4 "ABCDEFGHIJKLMON#".toList (by decide) (by decide)

/-! ## A* search -/

theorem mapFind_cons {K : Type} [DecidableEq K] (m : List (K × Int)) (k x : K) (v : Int) :
    mapFind ((k, v) :: m) x = if k = x then some v else mapFind m x := rfl

/-- Every reachable board is closed or dominated by an entry of the open list. -/
theorem ainv_frontier (N : Nat) (T start : Board) (h : Board → Int)
    (hone : start.count BLANK = 1) (hlen : start.length = N * N) (hcons : Consistent N start h)
    (open_ : List AState) (closed : List Board) (bc : List (Board × Int))
    (inv : AInv N T start h none open_ closed bc) :
    ∀ d x, Reach N d start x → x ∈ closed ∨ ∃ e ∈ open_, e.f ≤ (d : Int) + h x := by
  intro d
  induction d with
  | zero =>
    intro x hr
    have e : start = x := hr
    subst e
    obtain ⟨g, hg, hg0⟩ := inv.start_in
    obtain ⟨k, hk, _, hc⟩ := inv.table start g hg
    rcases hc with hc | ⟨e, he, heb, hec⟩
    · exact Or.inl hc
    · right
      refine ⟨e, he, ?_⟩
      obtain ⟨_, _, hh, _⟩ := inv.entries e he
      unfold AState.f
      rw [hh, heb, hec]
      push_cast
      omega
  | succ d ih =>
    intro x hr
    obtain ⟨y, hy, hmove⟩ := hr
    have hyp := reach_perm N start hone hlen d y hy
    have hc := hcons y x hyp hmove
    rcases ih y hy with hcl | ⟨e, he, hef⟩
    · obtain ⟨_, _, k, hk, hmin, hnb⟩ := inv.closed_ok y hcl
      rcases hnb with hcur | hnb
      · exact absurd hcur (by simp)
      · obtain ⟨g, hg, hgk⟩ := hnb x hmove
        have hkd : k ≤ d := hmin d hy
        obtain ⟨k', hk', _, hc'⟩ := inv.table x g hg
        rcases hc' with hc' | ⟨e, he, heb, hec⟩
        · exact Or.inl hc'
        · right
          refine ⟨e, he, ?_⟩
          obtain ⟨_, _, hh, _⟩ := inv.entries e he
          unfold AState.f
          rw [hh, heb, hec]
          push_cast
          omega
    · right
      refine ⟨e, he, ?_⟩
      push_cast
      omega

/-- A popped entry whose board is not closed carries the shortest distance to its board. -/
theorem ainv_popped (N : Nat) (T start : Board) (h : Board → Int)
    (hone : start.count BLANK = 1) (hlen : start.length = N * N) (hcons : Consistent N start h)
    (open_ : List AState) (closed : List Board) (bc : List (Board × Int))
    (inv : AInv N T start h none open_ closed bc) (cur : AState) (hcur : cur ∈ open_)
    (hmin : ∀ t ∈ open_, cur.f ≤ t.f) (hncl : cur.board ∉ closed) :
    ∀ d, Reach N d start cur.board → cur.cost ≤ (d : Int) := by
  intro d hr
  rcases ainv_frontier N T start h hone hlen hcons open_ closed bc inv d cur.board hr with
    hc | ⟨e, he, hef⟩
  · exact absurd hc hncl
  · have h1 := hmin e he
    have hh : cur.heuristic = h cur.board := (inv.entries cur hcur).2.2.1
    unfold AState.f at h1 hef
    rw [hh] at h1
    omega

/-- The invariant holds when an A* search enters its loop. -/
theorem ainv_init (pq : PriorityQueue) (N : Nat) (T start : Board) (h : Board → Int) :
    AInv N T start h none (pq.push [] (AState.mk start (findBlank start) 0 (h start))) []
      [(start, 0)] := by
  have hmem : ∀ e ∈ pq.push [] (AState.mk start (findBlank start) 0 (h start)),
      e = AState.mk start (findBlank start) 0 (h start) := by
    intro e he
    have := (pq.push_perm [] _).mem_iff.mp he
    rwa [List.mem_singleton] at this
  have hin : AState.mk start (findBlank start) 0 (h start) ∈
      pq.push [] (AState.mk start (findBlank start) 0 (h start)) :=
    (pq.push_perm [] _).mem_iff.mpr (List.mem_singleton.mpr rfl)
  refine ⟨?_, ?_, ?_, ?_⟩
  · intro e he
    rw [hmem e he]
    exact ⟨List.Perm.refl _, rfl, rfl, 0, rfl, rfl, 0, by rw [mapFind_cons, if_pos rfl],
      le_refl _⟩
  · intro x g hg
    rw [mapFind_cons] at hg
    by_cases hx : start = x
    · rw [if_pos hx] at hg
      have hg0 : g = 0 := (Option.some.inj hg).symm
      subst hx
      exact ⟨0, by rw [hg0]; rfl, rfl, Or.inr ⟨_, hin, rfl, by rw [hg0]⟩⟩
    · rw [if_neg hx] at hg
      exact absurd hg (by simp [mapFind])
  · intro x hx
    exact absurd hx (List.not_mem_nil x)
  · exact ⟨0, by rw [mapFind_cons, if_pos rfl], le_refl _⟩

/-- One pass of the body of the A* move loop keeps the invariant, never raises an entry of
`bestCost`, leaves the successor with an entry of at most the new cost, and pushes at most one
state. -/
theorem aStarPush_inv (pq : PriorityQueue) (N : Nat) (T start : Board) (h : Board → Int)
    (hone : start.count BLANK = 1) (hlen : start.length = N * N) (closed : List Board)
    (cur : AState) (k : Nat) (hcost : cur.cost = k) (hperm : cur.board.Perm start)
    (hpos : cur.blankPos = findBlank cur.board) (hreach : Reach N k start cur.board)
    (s : Board × Int) (hs : s ∈ successors N cur.board cur.blankPos)
    (open_ : List AState) (bc : List (Board × Int))
    (inv : AInv N T start h (some cur.board) open_ closed bc) :
    AInv N T start h (some cur.board) (aStarPush pq h cur (open_, bc) s).1 closed
        (aStarPush pq h cur (open_, bc) s).2 ∧
      (∀ y g, mapFind bc y = some g →
        ∃ g', mapFind (aStarPush pq h cur (open_, bc) s).2 y = some g' ∧ g' ≤ g) ∧
      (∃ g, mapFind (aStarPush pq h cur (open_, bc) s).2 s.1 = some g ∧ g ≤ (k : Int) + 1) ∧
      (aStarPush pq h cur (open_, bc) s).1.length ≤ open_.length + 1 := by
  have hs' : (s.1, s.2) ∈ successors N cur.board (findBlank cur.board) := by
    rw [← hpos]; exact hs
  obtain ⟨hnperm, hnpos⟩ := successor_valid N start cur.board hone hlen hperm s.1 s.2 hs'
  have hmove : legalMove N cur.board s.1 := ⟨s, by rw [← hpos]; exact hs, rfl⟩
  have hnreach : Reach N (k + 1) start s.1 := reach_succ N start cur.board s.1 k hreach hmove
  unfold aStarPush
  simp only []
  by_cases hb : betterCost bc s.1 (cur.cost + 1) = true
  · rw [if_pos hb]
    simp only []
    have hold : ∀ g, mapFind bc s.1 = some g → cur.cost + 1 < g := by
      intro g hg
      unfold betterCost at hb
      rw [hg] at hb
      simpa using hb
    have hncl : s.1 ∉ closed := by
      intro hc
      obtain ⟨_, _, kx, hkx, hmin, _⟩ := inv.closed_ok s.1 hc
      have := hold _ hkx
      have := hmin (k + 1) hnreach
      omega
    have hmono : ∀ y g, mapFind bc y = some g →
        ∃ g', mapFind ((s.1, cur.cost + 1) :: bc) y = some g' ∧ g' ≤ g := by
      intro y g hg
      rw [mapFind_cons]
      by_cases hy : s.1 = y
      · rw [if_pos hy]
        rw [← hy] at hg
        exact ⟨_, rfl, le_of_lt (hold g hg)⟩
      · rw [if_neg hy]
        exact ⟨g, hg, le_refl _⟩
    have hnew : AState.mk s.1 s.2 (cur.cost + 1) (h s.1) ∈
        pq.push open_ (AState.mk s.1 s.2 (cur.cost + 1) (h s.1)) :=
      (pq.push_perm _ _).mem_iff.mpr (List.mem_cons_self _ _)
    have hsub : ∀ e ∈ open_, e ∈ pq.push open_ (AState.mk s.1 s.2 (cur.cost + 1) (h s.1)) :=
      fun e he => (pq.push_perm _ _).mem_iff.mpr (List.mem_cons_of_mem _ he)
    refine ⟨⟨?_, ?_, ?_, ?_⟩, hmono, ⟨cur.cost + 1, by rw [mapFind_cons, if_pos rfl], by omega⟩,
      by rw [(pq.push_perm _ _).length_eq]; simp⟩
    · intro e he
      rcases List.mem_cons.mp ((pq.push_perm _ _).mem_iff.mp he) with e1 | e1
      · rw [e1]
        exact ⟨hnperm, hnpos, rfl, k + 1, by show cur.cost + 1 = ((k + 1 : Nat) : Int); omega,
          hnreach, cur.cost + 1, by rw [mapFind_cons, if_pos rfl], le_refl _⟩
      · obtain ⟨a1, a2, a3, k', a4, a5, g, a6, a7⟩ := inv.entries e e1
        obtain ⟨g', hg', hle⟩ := hmono e.board g a6
        exact ⟨a1, a2, a3, k', a4, a5, g', hg', le_trans hle a7⟩
    · intro x g hg
      rw [mapFind_cons] at hg
      by_cases hx : s.1 = x
      · rw [if_pos hx] at hg
        have hg' : g = cur.cost + 1 := (Option.some.inj hg).symm
        refine ⟨k + 1, by omega, by rw [← hx]; exact hnreach, Or.inr ⟨_, hnew, hx, hg'.symm⟩⟩
      · rw [if_neg hx] at hg
        obtain ⟨k', a1, a2, a3⟩ := inv.table x g hg
        refine ⟨k', a1, a2, ?_⟩
        rcases a3 with a3 | ⟨e, he, a3⟩
        · exact Or.inl a3
        · exact Or.inr ⟨e, hsub e he, a3⟩
    · intro x hx
      obtain ⟨a1, a2, kx, a3, a4, a5⟩ := inv.closed_ok x hx
      have hxs : s.1 ≠ x := fun e => hncl (e ▸ hx)
      refine ⟨a1, a2, kx, by rw [mapFind_cons, if_neg hxs]; exact a3, a4, ?_⟩
      rcases a5 with a5 | a5
      · exact Or.inl a5
      · right
        intro y hy
        obtain ⟨g, hg, hgk⟩ := a5 y hy
        obtain ⟨g', hg', hle⟩ := hmono y g hg
        exact ⟨g', hg', le_trans hle hgk⟩
    · obtain ⟨g, hg, hg0⟩ := inv.start_in
      obtain ⟨g', hg', hle⟩ := hmono start g hg
      exact ⟨g', hg', le_trans hle hg0⟩
  · rw [if_neg hb]
    refine ⟨inv, fun y g hg => ⟨g, hg, le_refl _⟩, ?_, Nat.le_succ _⟩
    unfold betterCost at hb
    cases hm : mapFind bc s.1 with
    | none => rw [hm] at hb; exact absurd rfl hb
    | some g =>
      rw [hm] at hb
      refine ⟨g, rfl, ?_⟩
      have : ¬ cur.cost + 1 < g := by simpa using hb
      omega

/-- The A* move loop keeps the invariant; afterwards every successor of the expanded board has
an entry of at most the new cost, and at most one state per successor was pushed. -/
theorem aStarExpand_fold (pq : PriorityQueue) (N : Nat) (T start : Board) (h : Board → Int)
    (hone : start.count BLANK = 1) (hlen : start.length = N * N) (closed : List Board)
    (cur : AState) (k : Nat) (hcost : cur.cost = k) (hperm : cur.board.Perm start)
    (hpos : cur.blankPos = findBlank cur.board) (hreach : Reach N k start cur.board) :
    ∀ (L : List (Board × Int)), (∀ s ∈ L, s ∈ successors N cur.board cur.blankPos) →
    ∀ (open_ : List AState) (bc : List (Board × Int)),
      AInv N T start h (some cur.board) open_ closed bc →
      AInv N T start h (some cur.board) (L.foldl (aStarPush pq h cur) (open_, bc)).1 closed
          (L.foldl (aStarPush pq h cur) (open_, bc)).2 ∧
        (∀ y g, mapFind bc y = some g →
          ∃ g', mapFind (L.foldl (aStarPush pq h cur) (open_, bc)).2 y = some g' ∧ g' ≤ g) ∧
        (∀ s ∈ L, ∃ g, mapFind (L.foldl (aStarPush pq h cur) (open_, bc)).2 s.1 = some g ∧
          g ≤ (k : Int) + 1) ∧
        (L.foldl (aStarPush pq h cur) (open_, bc)).1.length ≤ open_.length + L.length := by
  intro L
  induction L with
  | nil =>
    intro _ open_ bc inv
    exact ⟨inv, fun y g hg => ⟨g, hg, le_refl _⟩, fun s hs => absurd hs (List.not_mem_nil s),
      le_refl _⟩
  | cons s L ih =>
    intro hL open_ bc inv
    obtain ⟨j1, j2, j3, j4⟩ := aStarPush_inv pq N T start h hone hlen closed cur k hcost hperm
      hpos hreach s (hL s (List.mem_cons_self _ _)) open_ bc inv
    obtain ⟨i1, i2, i3, i4⟩ := ih (fun t ht => hL t (List.mem_cons_of_mem _ ht)) _ _ j1
    rw [List.foldl_cons]
    refine ⟨i1, ?_, ?_, ?_⟩
    · intro y g hg
      obtain ⟨g1, hg1, hle1⟩ := j2 y g hg
      obtain ⟨g2, hg2, hle2⟩ := i2 y g1 hg1
      exact ⟨g2, hg2, le_trans hle2 hle1⟩
    · intro t ht
      rcases List.mem_cons.mp ht with e | e
      · obtain ⟨g1, hg1, hle1⟩ := j3
        obtain ⟨g2, hg2, hle2⟩ := i2 s.1 g1 hg1
        rw [e]
        exact ⟨g2, hg2, le_trans hle2 hle1⟩
      · exact i3 t e
    · rw [List.length_cons]
      exact le_trans i4 (by omega)

/-- Popping the target returns an optimal cost. -/
theorem ainv_goal (N : Nat) (T start : Board) (h : Board → Int)
    (hone : start.count BLANK = 1) (hlen : start.length = N * N) (hcons : Consistent N start h)
    (open_ : List AState) (closed : List Board) (bc : List (Board × Int))
    (inv : AInv N T start h none open_ closed bc) (cur : AState) (hcur : cur ∈ open_)
    (hmin : ∀ t ∈ open_, cur.f ≤ t.f) (hT : cur.board = T) : Optimal N T start cur.cost := by
  have hncl : cur.board ∉ closed := by
    intro hc
    exact (inv.closed_ok _ hc).1 hT
  have hopt := ainv_popped N T start h hone hlen hcons open_ closed bc inv cur hcur hmin hncl
  obtain ⟨_, _, _, k, hk, hreach, _⟩ := inv.entries cur hcur
  refine Or.inr ⟨k, hk, by rw [← hT]; exact hreach, ?_⟩
  intro j hj hr
  rw [← hT] at hr
  have := hopt j hr
  omega

/-- Discarding a popped entry whose board is closed keeps the invariant. -/
theorem ainv_skip (N : Nat) (T start : Board) (h : Board → Int)
    (open_ rest : List AState) (closed : List Board) (bc : List (Board × Int))
    (inv : AInv N T start h none open_ closed bc) (cur : AState)
    (hperm : open_.Perm (cur :: rest)) (hcl : cur.board ∈ closed) :
    AInv N T start h none rest closed bc := by
  refine ⟨fun e he => inv.entries e (hperm.mem_iff.mpr (List.mem_cons_of_mem _ he)), ?_,
    inv.closed_ok, inv.start_in⟩
  intro x g hg
  obtain ⟨k, a1, a2, a3⟩ := inv.table x g hg
  refine ⟨k, a1, a2, ?_⟩
  rcases a3 with a3 | ⟨e, he, heb, hec⟩
  · exact Or.inl a3
  · rcases List.mem_cons.mp (hperm.mem_iff.mp he) with e1 | e1
    · left; rw [← heb, e1]; exact hcl
    · exact Or.inr ⟨e, e1, heb, hec⟩

/-- Expanding a popped entry whose board is neither closed nor the target keeps the invariant;
at most four states are pushed and one more rearrangement of the start board is closed. -/
theorem ainv_expand (pq : PriorityQueue) (N : Nat) (T start : Board) (h : Board → Int)
    (hone : start.count BLANK = 1) (hlen : start.length = N * N) (hcons : Consistent N start h)
    (open_ rest : List AState) (closed : List Board) (bc : List (Board × Int))
    (inv : AInv N T start h none open_ closed bc) (cur : AState)
    (hperm : open_.Perm (cur :: rest)) (hmin : ∀ t ∈ open_, cur.f ≤ t.f)
    (hncl : cur.board ∉ closed) (hT : cur.board ≠ T) :
    AInv N T start h none (aStarExpand pq N h cur rest bc).1 (cur.board :: closed)
        (aStarExpand pq N h cur rest bc).2 ∧
      (aStarExpand pq N h cur rest bc).1.length ≤ rest.length + 4 ∧
      unvisited start (cur.board :: closed) < unvisited start closed := by
  have hcur : cur ∈ open_ := hperm.mem_iff.mpr (List.mem_cons_self _ _)
  have hopt := ainv_popped N T start h hone hlen hcons open_ closed bc inv cur hcur hmin hncl
  obtain ⟨hbperm, hpos, _, k, hk, hreach, g, hg, hgle⟩ := inv.entries cur hcur
  obtain ⟨k', hk', hreach', _⟩ := inv.table cur.board g hg
  have hgk : g = (k : Int) := by
    have := hopt k' hreach'
    omega
  have hmid : AInv N T start h (some cur.board) rest (cur.board :: closed) bc := by
    refine ⟨fun e he => inv.entries e (hperm.mem_iff.mpr (List.mem_cons_of_mem _ he)), ?_, ?_,
      inv.start_in⟩
    · intro x g' hg'
      obtain ⟨k2, a1, a2, a3⟩ := inv.table x g' hg'
      refine ⟨k2, a1, a2, ?_⟩
      rcases a3 with a3 | ⟨e, he, heb, hec⟩
      · exact Or.inl (List.mem_cons_of_mem _ a3)
      · rcases List.mem_cons.mp (hperm.mem_iff.mp he) with e1 | e1
        · left; rw [← heb, e1]; exact List.mem_cons_self _ _
        · exact Or.inr ⟨e, e1, heb, hec⟩
    · intro x hx
      rcases List.mem_cons.mp hx with e | e
      · rw [e]
        refine ⟨hT, hbperm, k, by rw [hg, hgk], ?_, Or.inl rfl⟩
        intro j hj
        have := hopt j hj
        omega
      · obtain ⟨a1, a2, kx, a3, a4, a5⟩ := inv.closed_ok x e
        refine ⟨a1, a2, kx, a3, a4, ?_⟩
        rcases a5 with a5 | a5
        · exact absurd a5 (by simp)
        · exact Or.inr a5
  obtain ⟨i1, i2, i3, i4⟩ := aStarExpand_fold pq N T start h hone hlen (cur.board :: closed) cur
    k hk hbperm hpos hreach (successors N cur.board cur.blankPos) (fun s hs => hs) rest bc hmid
  refine ⟨⟨i1.entries, i1.table, ?_, i1.start_in⟩, ?_,
    unvisited_cons_lt start closed cur.board hbperm hncl⟩
  · intro x hx
    obtain ⟨a1, a2, kx, a3, a4, a5⟩ := i1.closed_ok x hx
    refine ⟨a1, a2, kx, a3, a4, ?_⟩
    rcases a5 with a5 | a5
    · right
      have hxc : x = cur.board := Option.some.inj a5
      rw [hxc] at a3 a4 ⊢
      have hkx : kx = k := by
        have e1 := a4 k hreach
        obtain ⟨k2, hk2, hr2, _⟩ := i1.table cur.board kx a3
        have e2 := hopt k2 hr2
        omega
      rintro y ⟨s, hs, hsy⟩
      rw [← hpos] at hs
      obtain ⟨g', hg', hle⟩ := i3 s hs
      rw [← hsy, hkx]
      exact ⟨g', hg', hle⟩
    · exact Or.inr a5
  · have := successors_length_le N cur.board cur.blankPos
    exact le_trans i4 (by omega)

/-- The loop of the A* searches returns, and what it returns is optimal, for every consistent
heuristic and every priority queue obeying the contract. -/
theorem aStarLoop_correct (pq : PriorityQueue) (N : Nat) (T start : Board) (h : Board → Int)
    (gf : Bool) (hone : start.count BLANK = 1) (hlen : start.length = N * N)
    (hcons : Consistent N start h) :
    ∀ (fuel : Nat) (open_ : List AState) (closed : List Board) (bc : List (Board × Int)),
      AInv N T start h none open_ closed bc →
      4 * unvisited start closed + open_.length < fuel →
      ∃ r, aStarLoop pq N T h gf fuel open_ closed bc = some r ∧ Optimal N T start r := by
  intro fuel
  induction fuel with
  | zero => intro _ _ _ _ hf; exact absurd hf (Nat.not_lt_zero _)
  | succ fuel ih =>
    intro open_ closed bc inv hf
    by_cases hnil : open_ = []
    · subst hnil
      refine ⟨-1, by rw [aStarLoop, pq.pop_nil], Or.inl ⟨rfl, ?_⟩⟩
      intro k hr
      rcases ainv_frontier N T start h hone hlen hcons [] closed bc inv k T hr with
        hc | ⟨e, he, _⟩
      · exact (inv.closed_ok T hc).1 rfl
      · exact absurd he (List.not_mem_nil e)
    · obtain ⟨cur, rest, hpop, hperm, hmin⟩ := pq.pop_min open_ hnil
      have hcur : cur ∈ open_ := hperm.mem_iff.mpr (List.mem_cons_self _ _)
      have hlenp : open_.length = rest.length + 1 := by rw [hperm.length_eq]; rfl
      have hgoal : cur.board = T → ∃ r, some cur.cost = some r ∧ Optimal N T start r :=
        fun hT => ⟨cur.cost, rfl,
          ainv_goal N T start h hone hlen hcons open_ closed bc inv cur hcur hmin hT⟩
      have hskip : cur.board ∈ closed →
          ∃ r, aStarLoop pq N T h gf fuel rest closed bc = some r ∧ Optimal N T start r :=
        fun hcl => ih rest closed bc (ainv_skip N T start h open_ rest closed bc inv cur hperm hcl)
          (by omega)
      have hexp : cur.board ∉ closed → cur.board ≠ T →
          ∃ r, aStarLoop pq N T h gf fuel (aStarExpand pq N h cur rest bc).1
            (cur.board :: closed) (aStarExpand pq N h cur rest bc).2 = some r ∧
            Optimal N T start r := by
        intro hncl hT
        obtain ⟨e1, e2, e3⟩ := ainv_expand pq N T start h hone hlen hcons open_ rest closed bc
          inv cur hperm hmin hncl hT
        exact ih _ _ _ e1 (by omega)
      rw [aStarLoop, hpop]
      simp only []
      cases gf with
      | true =>
        simp only [if_true]
        by_cases hT : cur.board = T
        · rw [if_pos hT]; exact hgoal hT
        · rw [if_neg hT]
          by_cases hcl : cur.board ∈ closed
          · rw [if_pos hcl]; exact hskip hcl
          · rw [if_neg hcl]; exact hexp hcl hT
      | false =>
        simp only [Bool.false_eq_true, if_false]
        by_cases hcl : cur.board ∈ closed
        · rw [if_pos hcl]; exact hskip hcl
        · rw [if_neg hcl]
          by_cases hT : cur.board = T
          · rw [if_pos hT]; exact hgoal hT
          · rw [if_neg hT]; exact hexp hcl hT

/-- Every A* search of the repository returns on a board of length `N * N` with one blank, and
its result is `-1` when the target is unreachable and the length of a shortest move sequence
otherwise, provided the heuristic is consistent. -/
theorem aStar_correct (pq : PriorityQueue) (N : Nat) (T start : Board) (h : Board → Int)
    (gf : Bool) (hone : start.count BLANK = 1) (hlen : start.length = N * N)
    (hcons : Consistent N start h) :
    ∃ r, aStar pq N T h gf start = some r ∧ Optimal N T start r := by
  apply aStarLoop_correct pq N T start h gf hone hlen hcons _ _ _ _ (ainv_init pq N T start h)
  have h1 : unvisited start [] ≤ start.length.factorial := by
    unfold unvisited
    rw [← List.length_permutations]
    exact List.length_filter_le _ _
  have h2 : (pq.push [] (AState.mk start (findBlank start) 0 (h start))).length = 1 := by
    rw [(pq.push_perm _ _).length_eq]; rfl
  rw [h2]
  omega

/-! ## Consistency of the heuristics -/

theorem swapTiles_getD (b : Board) (p q : Nat) (hp : p < b.length) (hq : q < b.length)
    (d : Char) (i : Nat) :
    (swapTiles b p q).getD i d =
      if i = q then b.getD p d else if i = p then b.getD q d else b.getD i d := by
  simp only [List.getD_eq_getElem?_getD, swapTiles_getElem? b p q hp hq]
  by_cases h1 : i = q
  · rw [if_pos h1, if_pos h1]
  · rw [if_neg h1, if_neg h1]
    by_cases h2 : i = p
    · rw [if_pos h2, if_pos h2]
    · rw [if_neg h2, if_neg h2]

/-- A heuristic that sums a per-cell term vanishing on the blank changes, along a move of the
blank from `p` to `q`, by the difference of the terms of the moved tile at `q` and at `p`. -/
theorem sum_terms_move (n : Nat) (term : Nat → Char → Int) (hblank : ∀ i, term i BLANK = 0)
    (d : Char) (b : Board) (p q : Nat) (hp : p < b.length) (hq : q < b.length) (hpn : p < n)
    (hqn : q < n) (hpq : p ≠ q) (hb : b[p]? = some BLANK) :
    ∑ i ∈ Finset.range n, term i (b.getD i d) =
      ∑ i ∈ Finset.range n, term i ((swapTiles b p q).getD i d) +
        (term q (b.getD q d) - term p (b.getD q d)) := by
  have hbp : b.getD p d = BLANK := by
    rw [List.getD_eq_getElem?_getD, hb]; rfl
  have key : ∑ i ∈ Finset.range n,
      (term i (b.getD i d) - term i ((swapTiles b p q).getD i d)) =
      (term p (b.getD p d) - term p ((swapTiles b p q).getD p d)) +
      (term q (b.getD q d) - term q ((swapTiles b p q).getD q d)) := by
    apply Finset.sum_eq_add p q hpq
    · intro c _ hc
      rw [swapTiles_getD b p q hp hq, if_neg hc.2, if_neg hc.1, sub_self]
    · intro h; exact absurd (Finset.mem_range.mpr hpn) h
    · intro h; exact absurd (Finset.mem_range.mpr hqn) h
  rw [Finset.sum_sub_distrib] at key
  rw [swapTiles_getD b p q hp hq d p, swapTiles_getD b p q hp hq d q, if_neg hpq, if_pos rfl,
    if_pos rfl, hbp, hblank, hblank] at key
  linarith

/-- Rows and columns of the two cells of a move. -/
theorem move_coords (N p q : Nat) (hN : 0 < N)
    (h : (1 ≤ p / N ∧ q + N = p) ∨ (p / N + 1 < N ∧ q = p + N) ∨
       (1 ≤ p % N ∧ q + 1 = p) ∨ (p % N + 1 < N ∧ q = p + 1)) :
    (q / N + 1 = p / N ∧ q % N = p % N) ∨ (q / N = p / N + 1 ∧ q % N = p % N) ∨
    (q / N = p / N ∧ q % N + 1 = p % N) ∨ (q / N = p / N ∧ q % N = p % N + 1) := by
  have hdm := Nat.div_add_mod p N
  have hmod : p % N < N := Nat.mod_lt _ hN
  rcases h with h | h | h | h
  · left
    rw [← h.2, Nat.add_div_right _ hN, Nat.add_mod_right]
    exact ⟨rfl, rfl⟩
  · right; left
    rw [h.2, Nat.add_div_right _ hN, Nat.add_mod_right]
    exact ⟨rfl, rfl⟩
  · right; right; left
    have e : q = (p / N) * N + (p % N - 1) := by
      rw [Nat.mul_comm]; omega
    have hc : p % N - 1 < N := by omega
    rw [e, div_of_coords _ _ _ hc, Nat.mul_comm, Nat.mul_add_mod, Nat.mod_eq_of_lt hc]
    exact ⟨rfl, by omega⟩
  · right; right; right
    have e : q = (p / N) * N + (p % N + 1) := by
      rw [Nat.mul_comm]; omega
    rw [e, div_of_coords _ _ _ h.1, Nat.mul_comm, Nat.mul_add_mod, Nat.mod_eq_of_lt h.1]
    exact ⟨rfl, rfl⟩

/-- The Manhattan distance to a fixed cell changes by at most one between the two cells of a
move. -/
theorem manhattan_step (N p q : Nat) (R C : Int)
    (h : (q / N + 1 = p / N ∧ q % N = p % N) ∨ (q / N = p / N + 1 ∧ q % N = p % N) ∨
      (q / N = p / N ∧ q % N + 1 = p % N) ∨ (q / N = p / N ∧ q % N = p % N + 1)) :
    |(q : Int).tdiv N - R| + |(q : Int).tmod N - C| ≤
      |(p : Int).tdiv N - R| + |(p : Int).tmod N - C| + 1 := by
  rw [← Int.ofNat_tdiv, ← Int.ofNat_tmod, ← Int.ofNat_tdiv, ← Int.ofNat_tmod]
  rcases h with h | h | h | h
  · have e1 : ((p / N : Nat) : Int) = ((q / N : Nat) : Int) + 1 := by omega
    rw [h.2, e1]
    have := abs_sub_abs_le_abs_sub (((q / N : Nat) : Int) - R) (((q / N : Nat) : Int) + 1 - R)
    have e2 : ((q / N : Nat) : Int) - R - (((q / N : Nat) : Int) + 1 - R) = -1 := by ring
    rw [e2] at this
    simp only [abs_neg, abs_one] at this
    linarith
  · have e1 : ((q / N : Nat) : Int) = ((p / N : Nat) : Int) + 1 := by omega
    rw [h.2, e1]
    have := abs_sub_abs_le_abs_sub (((p / N : Nat) : Int) + 1 - R) (((p / N : Nat) : Int) - R)
    have e2 : ((p / N : Nat) : Int) + 1 - R - (((p / N : Nat) : Int) - R) = 1 := by ring
    rw [e2] at this
    simp only [abs_one] at this
    linarith
  · have e1 : ((p % N : Nat) : Int) = ((q % N : Nat) : Int) + 1 := by omega
    rw [h.1, e1]
    have := abs_sub_abs_le_abs_sub (((q % N : Nat) : Int) - C) (((q % N : Nat) : Int) + 1 - C)
    have e2 : ((q % N : Nat) : Int) - C - (((q % N : Nat) : Int) + 1 - C) = -1 := by ring
    rw [e2] at this
    simp only [abs_neg, abs_one] at this
    linarith
  · have e1 : ((q % N : Nat) : Int) = ((p % N : Nat) : Int) + 1 := by omega
    rw [h.1, e1]
    have := abs_sub_abs_le_abs_sub (((p % N : Nat) : Int) + 1 - C) (((p % N : Nat) : Int) - C)
    have e2 : ((p % N : Nat) : Int) + 1 - C - (((p % N : Nat) : Int) - C) = 1 := by ring
    rw [e2] at this
    simp only [abs_one] at this
    linarith

/-- The shape of a legal move from a well-formed board. -/
theorem legalMove_shape (N : Nat) (x y : Board) (hone : x.count BLANK = 1)
    (hlen : x.length = N * N) (hmove : legalMove N x y) :
    ∃ p q : Nat, p < x.length ∧ q < x.length ∧ p ≠ q ∧ x[p]? = some BLANK ∧
      y = swapTiles x p q ∧
      ((q / N + 1 = p / N ∧ q % N = p % N) ∨ (q / N = p / N + 1 ∧ q % N = p % N) ∨
       (q / N = p / N ∧ q % N + 1 = p % N) ∨ (q / N = p / N ∧ q % N = p % N + 1)) := by
  obtain ⟨p, hp, hpl, hpb⟩ := findBlank_spec x hone
  obtain ⟨s, hs, hsy⟩ := hmove
  rw [hp] at hs
  obtain ⟨q, _, hqN, hnb, hcase⟩ := successors_cases N x p (by omega) s.1 s.2 hs
  have hN : 0 < N := by
    rcases Nat.eq_zero_or_pos N with h | h
    · subst h; simp at hqN
    · exact h
  refine ⟨p, q, hpl, by omega, ?_, hpb, by rw [← hsy, hnb], move_coords N p q hN hcase⟩
  rcases hcase with h | h | h | h <;> omega

theorem calculateH1_eq_sum (b : Board) :
    calculateH1 b = ∑ i ∈ Finset.range 16, h1Term i (b.getD i (Char.ofNat 0)) := by
  unfold calculateH1
  rw [foldl_add_eq_sum (fun i => h1Term i (b.getD i (Char.ofNat 0))), list_range_sum, zero_add]
  intro acc i
  unfold h1Term
  by_cases hc : b.getD i (Char.ofNat 0) ≠ BLANK ∧
      b.getD i (Char.ofNat 0) ≠ TARGET4.getD i (Char.ofNat 0)
  · rw [if_pos hc, if_pos hc]
  · rw [if_neg hc, if_neg hc, add_zero]

theorem calculateH2_4x4_eq_sum (b : Board) :
    calculateH2_4x4 b =
      ∑ i ∈ Finset.range 16, manhattanTerm 4 (findChar TARGET4) i (b.getD i (Char.ofNat 0)) := by
  unfold calculateH2_4x4
  rw [foldl_add_eq_sum (fun i => manhattanTerm 4 (findChar TARGET4) i (b.getD i (Char.ofNat 0))),
    list_range_sum, zero_add]
  intro acc i
  unfold manhattanTerm
  by_cases hc : b.getD i (Char.ofNat 0) = BLANK
  · rw [if_neg (not_not.mpr hc), if_pos hc, add_zero]
  · rw [if_pos hc, if_neg hc]
    rfl

theorem calculateH2_eq_sum (N : Nat) (tp : List (Char × Int)) (b : Board) :
    calculateH2 N tp b =
      ∑ i ∈ Finset.range b.length,
        manhattanTerm N (fun c => (mapFind tp c).getD 0) i (b.getD i (Char.ofNat 0)) := by
  unfold calculateH2
  rw [foldl_add_eq_sum
    (fun i => manhattanTerm N (fun c => (mapFind tp c).getD 0) i (b.getD i (Char.ofNat 0))),
    list_range_sum, zero_add]
  intro acc i
  unfold manhattanTerm
  simp only []
  by_cases hc : b.getD i (Char.ofNat 0) = BLANK
  · rw [if_pos hc, if_pos hc, add_zero]
  · rw [if_neg hc, if_neg hc]

theorem h1Term_blank (i : Nat) : h1Term i BLANK = 0 := by
  unfold h1Term
  rw [if_neg]
  intro h
  exact h.1 rfl

theorem manhattanTerm_blank (N : Nat) (goal : Char → Int) (i : Nat) :
    manhattanTerm N goal i BLANK = 0 := by
  unfold manhattanTerm
  rw [if_pos rfl]

theorem manhattanTerm_step (N : Nat) (goal : Char → Int) (p q : Nat) (t : Char)
    (h : (q / N + 1 = p / N ∧ q % N = p % N) ∨ (q / N = p / N + 1 ∧ q % N = p % N) ∨
      (q / N = p / N ∧ q % N + 1 = p % N) ∨ (q / N = p / N ∧ q % N = p % N + 1)) :
    manhattanTerm N goal q t ≤ manhattanTerm N goal p t + 1 := by
  unfold manhattanTerm
  by_cases ht : t = BLANK
  · rw [if_pos ht, if_pos ht]; omega
  · rw [if_neg ht, if_neg ht]
    exact manhattan_step N p q _ _ h

/-- The misplaced-tile heuristic is consistent on the 4x4 board. -/
theorem h1_consistent (start : Board) (hone : start.count BLANK = 1)
    (hlen : start.length = 4 * 4) : Consistent 4 start calculateH1 := by
  intro x y hx hmove
  have hxone : x.count BLANK = 1 := by rw [hx.count_eq]; exact hone
  have hxlen : x.length = 4 * 4 := by rw [hx.length_eq]; exact hlen
  obtain ⟨p, q, hp, hq, hpq, hpb, hy, _⟩ := legalMove_shape 4 x y hxone hxlen hmove
  rw [calculateH1_eq_sum, calculateH1_eq_sum, hy,
    sum_terms_move 16 h1Term h1Term_blank (Char.ofNat 0) x p q hp hq (by omega) (by omega)
      hpq hpb]
  have h1 : h1Term q (x.getD q (Char.ofNat 0)) ≤ 1 := by
    unfold h1Term; split <;> omega
  have h2 : 0 ≤ h1Term p (x.getD q (Char.ofNat 0)) := by
    unfold h1Term; split <;> omega
  omega

/-- The Manhattan heuristic of the 4x4 solver is consistent. -/
theorem h2_4x4_consistent (start : Board) (hone : start.count BLANK = 1)
    (hlen : start.length = 4 * 4) : Consistent 4 start calculateH2_4x4 := by
  intro x y hx hmove
  have hxone : x.count BLANK = 1 := by rw [hx.count_eq]; exact hone
  have hxlen : x.length = 4 * 4 := by rw [hx.length_eq]; exact hlen
  obtain ⟨p, q, hp, hq, hpq, hpb, hy, hadj⟩ := legalMove_shape 4 x y hxone hxlen hmove
  rw [calculateH2_4x4_eq_sum, calculateH2_4x4_eq_sum, hy,
    sum_terms_move 16 (manhattanTerm 4 (findChar TARGET4)) (manhattanTerm_blank 4 _)
      (Char.ofNat 0) x p q hp hq (by omega) (by omega) hpq hpb]
  have := manhattanTerm_step 4 (findChar TARGET4) p q (x.getD q (Char.ofNat 0)) hadj
  omega

/-- The Manhattan heuristic of the NxN solver is consistent. -/
theorem h2_consistent (N : Nat) (tp : List (Char × Int)) (start : Board)
    (hone : start.count BLANK = 1) (hlen : start.length = N * N) :
    Consistent N start (calculateH2 N tp) := by
  intro x y hx hmove
  have hxone : x.count BLANK = 1 := by rw [hx.count_eq]; exact hone
  have hxlen : x.length = N * N := by rw [hx.length_eq]; exact hlen
  obtain ⟨p, q, hp, hq, hpq, hpb, hy, hadj⟩ := legalMove_shape N x y hxone hxlen hmove
  rw [calculateH2_eq_sum, calculateH2_eq_sum, hy, swapTiles_length,
    sum_terms_move x.length (manhattanTerm N (fun c => (mapFind tp c).getD 0))
      (manhattanTerm_blank N _) (Char.ofNat 0) x p q hp hq hp hq hpq hpb]
  have := manhattanTerm_step N (fun c => (mapFind tp c).getD 0) p q
    (x.getD q (Char.ofNat 0)) hadj
  omega

/-! ## The claims about sequential A* -/

/-- Claim C2. For every solvable valid 4x4 board `b` (a permutation of `"ABCDEFGHIJKLMNO#"` from
which the target is reachable), the sequential A* with the misplaced-tile heuristic returns the
same move count as the sequential `bfs`, whatever element of minimal `f` the priority queue
hands out among ties. -/
theorem astar_h1_eq_bfs (pq : PriorityQueue) (b : Board) (hb : b.Perm TARGET4)
    (hreach : ∃ k, Reach 4 k b TARGET4) :
    aStarSearchH1 pq b = bfs4 b ∧ ∃ d : Nat, bfs4 b = some (d : Int) := by
  have hT : generateTarget 4 = TARGET4 := by decide
  rw [← hT] at hb
  obtain ⟨hone, hlen, _⟩ := board_valid 4 (by decide) (by decide) b hb
  obtain ⟨r1, hr1, ho1⟩ := aStar_correct pq 4 TARGET4 b calculateH1 true hone hlen
    (h1_consistent b hone hlen)
  obtain ⟨r2, hr2, ho2⟩ := bfs_correct 4 TARGET4 b hone hlen
  have hb4 : bfs4 b = some r2 := by rw [bfs4_eq, hT]; exact hr2
  have e : r1 = r2 := optimal_unique 4 TARGET4 b r1 r2 ho1 ho2
  refine ⟨by unfold aStarSearchH1; rw [hr1, hb4, e], ?_⟩
  rcases ho2 with ⟨_, hno⟩ | ⟨d, hd, _, _⟩
  · obtain ⟨k, hk⟩ := hreach
    exact absurd hk (hno k)
  · exact ⟨d, by rw [hb4, hd]⟩

theorem astar_h1_eq_bfs_witness :
    aStarSearchH1 listPQ "ABCDEFGHIJKLMN#O".toList = bfs4 "ABCDEFGHIJKLMN#O".toList ∧
      ∃ d : Nat, bfs4 "ABCDEFGHIJKLMN#O".toList = some (d : Int) :=
  astar_h1_eq_bfs listPQ "ABCDEFGHIJKLMN#O".toList (by decide)
    ⟨1, "ABCDEFGHIJKLMN#O".toList, rfl, by unfold legalMove; decide⟩

/-- Claim C3. For `N` in `2..5` and every solvable valid board `b`, the sequential A* with the
Manhattan heuristic (`astar_h2` with `TARGET = generateTarget(N)` and `targetPositions` built
from it, and the 4x4 `aStarSearch` using `calculateH2` when `N = 4`) returns the same move count
as the sequential `bfs`, whatever element of minimal `f` the priority queue hands out among
ties. -/
theorem astar_h2_eq_bfs (pq : PriorityQueue) (N : Nat) (h2 : 2 ≤ N) (h5 : N ≤ 5) (b : Board)
    (hb : b.Perm (generateTarget N)) (hreach : ∃ k, Reach N k b (generateTarget N)) :
    astar_h2 pq N (generateTarget N) b = bfs N (generateTarget N) b ∧
    (N = 4 → aStarSearchH2 pq b = bfs N (generateTarget N) b) ∧
    ∃ d : Nat, bfs N (generateTarget N) b = some (d : Int) := by
  obtain ⟨hone, hlen, _⟩ := board_valid N h2 h5 b hb
  obtain ⟨r1, hr1, ho1⟩ := aStar_correct pq N (generateTarget N) b
    (calculateH2 N (buildTargetPositions (generateTarget N))) false hone hlen
    (h2_consistent N _ b hone hlen)
  obtain ⟨r2, hr2, ho2⟩ := bfs_correct N (generateTarget N) b hone hlen
  have e : r1 = r2 := optimal_unique N (generateTarget N) b r1 r2 ho1 ho2
  refine ⟨by unfold astar_h2; rw [hr1, hr2, e], ?_, ?_⟩
  · intro h4
    subst h4
    have hT : generateTarget 4 = TARGET4 := by decide
    rw [hT] at hr2 ho2 ⊢
    obtain ⟨r3, hr3, ho3⟩ := aStar_correct pq 4 TARGET4 b calculateH2_4x4 true hone hlen
      (h2_4x4_consistent b hone hlen)
    have e3 : r3 = r2 := optimal_unique 4 TARGET4 b r3 r2 ho3 ho2
    unfold aStarSearchH2
    rw [hr3, hr2, e3]
  · rcases ho2 with ⟨_, hno⟩ | ⟨d, hd, _, _⟩
    · obtain ⟨k, hk⟩ := hreach
      exact absurd hk (hno k)
    · exact ⟨d, by rw [hr2, hd]⟩

theorem astar_h2_eq_bfs_witness :
    astar_h2 listPQ 2 (generateTarget 2) "A#CB".toList =
        bfs 2 (generateTarget 2) "A#CB".toList ∧
    (2 = 4 → aStarSearchH2 listPQ "A#CB".toList = bfs 2 (generateTarget 2) "A#CB".toList) ∧
    ∃ d : Nat, bfs 2 (generateTarget 2) "A#CB".toList = some (d : Int) :=
  astar_h2_eq_bfs listPQ 2 (by decide) (by decide) "A#CB".toList (by decide)
    ⟨1, "A#CB".toList, rfl, by unfold legalMove; decide⟩

/-! ## Completeness of the parity test on the 3x3 board -/

theorem reach_trans (N : Nat) (a b : Board) (j : Nat) (hab : Reach N j a b) :
    ∀ (k : Nat) (c : Board), Reach N k b c → Reach N (j + k) a c := by
  intro k
  induction k with
  | zero => intro c h; have e : b = c := h; rw [← e]; exact hab
  | succ k ih =>
    intro c h
    obtain ⟨m, hm, hmove⟩ := h
    exact ⟨m, ih m hm, hmove⟩

theorem moveDir_legal (N : Nat) (b b' : Board) (i : Nat) (hi : i < 4)
    (h : moveDir N b i = some b') : legalMove N b b' := by
  unfold moveDir at h
  simp only [] at h
  split at h
  · rename_i hc
    refine ⟨(b', ((findBlank b).tdiv N + dRow i) * N + ((findBlank b).tmod N + dCol i)), ?_, rfl⟩
    rw [mem_successors]
    exact ⟨i, hi, hc, (Option.some.inj h).symm, rfl⟩
  · exact absurd h (by simp)

theorem applyDirs_reach (N : Nat) : ∀ (ds : List Nat) (b b' : Board), (∀ i ∈ ds, i < 4) →
    applyDirs N b ds = some b' → Reach N ds.length b b' := by
  intro ds
  induction ds with
  | nil => intro b b' _ h; exact Option.some.inj h
  | cons i ds ih =>
    intro b b' hd h
    rw [applyDirs] at h
    cases hm : moveDir N b i with
    | none => rw [hm] at h; exact absurd h (by simp)
    | some c =>
      rw [hm] at h
      have h1 : Reach N 1 b c := ⟨b, rfl, moveDir_legal N b c i (hd i (List.mem_cons_self _ _)) hm⟩
      have h2 := ih c b' (fun t ht => hd t (List.mem_cons_of_mem _ ht)) h
      have := reach_trans N b c 1 h1 ds.length b' h2
      rw [List.length_cons, Nat.add_comm]
      exact this

theorem findBlank_map (f : Char → Char) (hf : f BLANK = BLANK) (hf' : ∀ c, f c = BLANK → c = BLANK)
    (b : Board) : findBlank (b.map f) = findBlank b := by
  have hmem : BLANK ∈ b.map f ↔ BLANK ∈ b := by
    rw [List.mem_map]
    constructor
    · rintro ⟨c, hc, hfc⟩
      rw [← hf' c hfc]; exact hc
    · intro h; exact ⟨BLANK, h, hf⟩
  have hidx : (b.map f).indexOf BLANK = b.indexOf BLANK := by
    induction b with
    | nil => rfl
    | cons a l ih =>
      rw [List.map_cons]
      by_cases ha : a = BLANK
      · rw [List.indexOf_cons_eq _ ha, List.indexOf_cons_eq _ (by rw [ha, hf])]
      · have hfa : f a ≠ BLANK := fun h => ha (hf' a h)
        rw [List.indexOf_cons_ne _ ha, List.indexOf_cons_ne _ hfa, ih]
        constructor
        · intro h
          rcases List.mem_map.mp h with ⟨c, hc, hfc⟩
          rw [← hf' c hfc]; exact hc
        · intro h; exact List.mem_map.mpr ⟨BLANK, h, hf⟩
  unfold findBlank
  by_cases h : BLANK ∈ b
  · rw [if_pos h, if_pos (hmem.mpr h), hidx]
  · rw [if_neg h, if_neg (fun h' => h (hmem.mp h'))]

theorem swapTiles_map (f : Char → Char) (b : Board) (p q : Int) :
    swapTiles (b.map f) p q = (swapTiles b p q).map f := by
  by_cases h : 0 ≤ p ∧ p < b.length ∧ 0 ≤ q ∧ q < b.length
  · obtain ⟨h1, h2, h3, h4⟩ := h
    lift p to Nat using h1
    lift q to Nat using h3
    have hp : p < b.length := by omega
    have hq : q < b.length := by omega
    apply List.ext_getElem?
    intro i
    rw [swapTiles_getElem? _ p q (by rw [List.length_map]; exact hp)
      (by rw [List.length_map]; exact hq)]
    rw [List.getElem?_map (l := swapTiles b p q), swapTiles_getElem? b p q hp hq]
    simp only [List.getElem?_map]
    by_cases e1 : i = q
    · rw [if_pos e1, if_pos e1]
    · rw [if_neg e1, if_neg e1]
      by_cases e2 : i = p
      · rw [if_pos e2, if_pos e2]
      · rw [if_neg e2, if_neg e2]
  · unfold swapTiles
    rw [if_neg h, if_neg (by rw [List.length_map]; exact h)]

theorem maskChar_blank (S : List Char) (hS : BLANK ∈ S) :
    maskChar S BLANK = BLANK ∧ ∀ c, maskChar S c = BLANK → c = BLANK := by
  refine ⟨by unfold maskChar; rw [if_pos hS], ?_⟩
  intro c hc
  unfold maskChar at hc
  by_cases h : c ∈ S
  · rw [if_pos h] at hc; exact hc
  · rw [if_neg h] at hc; exact absurd hc (by decide)

theorem moveDir_mask (N : Nat) (S : List Char) (hS : BLANK ∈ S) (b : Board) (i : Nat) :
    moveDir N (mask S b) i = (moveDir N b i).map (mask S) := by
  obtain ⟨h1, h2⟩ := maskChar_blank S hS
  unfold moveDir mask
  simp only []
  rw [findBlank_map _ h1 h2, swapTiles_map]
  split <;> rfl

theorem applyDirs_mask (N : Nat) (S : List Char) (hS : BLANK ∈ S) :
    ∀ (ds : List Nat) (b : Board),
      applyDirs N (mask S b) ds = (applyDirs N b ds).map (mask S) := by
  intro ds
  induction ds with
  | nil => intro b; rfl
  | cons i ds ih =>
    intro b
    rw [applyDirs, applyDirs, moveDir_mask N S hS]
    cases moveDir N b i with
    | none => rfl
    | some c => exact ih c

/-- Tracking one more symbol `t` shows `t` on the cell where it sits and changes nothing else. -/
theorem mask_add_tile (S : List Char) (t : Char) (b : Board) (hnd : b.Nodup) (ht : t ∈ b)
    (htS : t ∉ S) :
    mask (t :: S) b = (mask S b).set (b.indexOf t) t ∧
      (mask S b).getD (b.indexOf t) BLANK = '*' ∧ b.indexOf t < b.length := by
  have hj : b.indexOf t < b.length := List.indexOf_lt_length.mpr ht
  have hbj : b[b.indexOf t]? = some t := List.getElem?_indexOf ht
  have hcount : b.count t = 1 := List.count_eq_one_of_mem hnd ht
  refine ⟨?_, ?_, hj⟩
  · apply List.ext_getElem?
    intro i
    unfold mask
    rw [List.getElem?_set, List.getElem?_map, List.length_map]
    by_cases hi : b.indexOf t = i
    · rw [if_pos hi, ← hi, if_pos hj, hbj]
      show some (maskChar (t :: S) t) = some t
      unfold maskChar
      rw [if_pos (List.mem_cons_self _ _)]
    · rw [if_neg hi, List.getElem?_map]
      cases hc : b[i]? with
      | none => rfl
      | some c =>
        have hct : c ≠ t := by
          intro e
          rw [e] at hc
          exact hi (cell_unique t b _ _ hcount hbj hc)
        show some (maskChar (t :: S) c) = some (maskChar S c)
        unfold maskChar
        by_cases hcS : c ∈ S
        · rw [if_pos hcS, if_pos (List.mem_cons_of_mem _ hcS)]
        · rw [if_neg hcS, if_neg]
          intro h
          rcases List.mem_cons.mp h with e | e
          · exact hct e
          · exact hcS e
  · unfold mask
    rw [List.getD_eq_getElem?_getD, List.getElem?_map, hbj]
    show maskChar S t = '*'
    unfold maskChar
    rw [if_neg htS]

/-- One placement step: if the table of move sequences passes `stageCheck`, every rearrangement
of the 3x3 target that shows `g` can be moved to one that shows `g2` with `t` tracked too. -/
theorem stage_step (S : List Char) (g : Board) (t : Char) (g2 : Board)
    (certs : List (List Nat)) (hB : BLANK ∈ t :: S)
    (hcheck : stageCheck g t g2 certs = true) (ht : t ∈ generateTarget 3) (htS : t ∉ S)
    (b : Board) (hb : b.Perm (generateTarget 3)) (hmask : mask S b = g) :
    ∃ b' k, Reach 3 k b b' ∧ b'.Perm (generateTarget 3) ∧ mask (t :: S) b' = g2 := by
  obtain ⟨hone, hlen, hnd⟩ := board_valid 3 (by decide) (by decide) b hb
  obtain ⟨h1, h2, h3⟩ := mask_add_tile S t b hnd (hb.mem_iff.mpr ht) htS
  rw [hmask] at h1 h2
  unfold stageCheck at hcheck
  rw [List.all_eq_true] at hcheck
  have hc := hcheck (b.indexOf t) (List.mem_range.mpr (by omega))
  rw [Bool.or_eq_true, Bool.and_eq_true, decide_eq_true_eq, decide_eq_true_eq,
    decide_eq_true_eq] at hc
  rcases hc with hc | ⟨hd, hc⟩
  · exact absurd h2 hc
  · rw [← h1, applyDirs_mask 3 (t :: S) hB] at hc
    cases hap : applyDirs 3 b (certs.getD (b.indexOf t) []) with
    | none => rw [hap] at hc; exact absurd hc (by simp)
    | some b' =>
      rw [hap] at hc
      have hr := applyDirs_reach 3 _ b b' hd hap
      exact ⟨b', _, hr, (reach_perm 3 b hone hlen _ b' hr).trans hb, Option.some.inj hc⟩

theorem stage_blank :
    stageCheck "*********".toList BLANK "********#".toList certsBlank = true := by decide

theorem stage_A : stageCheck "********#".toList 'A' "A*******#".toList certsA = true := by
  decide

theorem stage_B : stageCheck "A*******#".toList 'B' "AB******#".toList certsB = true := by
  decide

theorem stage_C : stageCheck "AB******#".toList 'C' "ABC*****#".toList certsC = true := by
  decide

theorem stage_D : stageCheck "ABC*****#".toList 'D' "ABCD****#".toList certsD = true := by
  decide

theorem stage_G : stageCheck "ABCD****#".toList 'G' "ABCD**G*#".toList certsG = true := by
  decide

theorem stage_E : stageCheck "ABCD**G*#".toList 'E' "ABCDE*G*#".toList certsE = true := by
  decide

theorem mask_nil (b : Board) : mask [] b = List.replicate b.length '*' := by
  unfold mask
  induction b with
  | nil => rfl
  | cons a l ih =>
    rw [List.map_cons, ih, List.length_cons, List.replicate_succ]
    rfl

theorem mask_full (S : List Char) (b : Board) (h : ∀ c ∈ b, c ∈ S) : mask S b = b := by
  unfold mask
  induction b with
  | nil => rfl
  | cons a l ih =>
    rw [List.map_cons, ih (fun c hc => h c (List.mem_cons_of_mem _ hc))]
    unfold maskChar
    rw [if_pos (h a (List.mem_cons_self _ _))]

/-- Once everything but `F` and `H` is in place with the blank in the last cell, the board is
the target or the target with `F` and `H` exchanged, and the oracle rejects the latter. -/
theorem last_two_cells :
    (List.range 9).all (fun jF => (List.range 9).all (fun jH =>
      decide ("ABCDE*G*#".toList.getD jF BLANK = '*' →
        ("ABCDE*G*#".toList.set jF 'F').getD jH BLANK = '*' →
        isSolvable 3 (("ABCDE*G*#".toList.set jF 'F').set jH 'H') = true →
        ("ABCDE*G*#".toList.set jF 'F').set jH 'H' = generateTarget 3))) = true := by
  decide

/-- From every rearrangement of the 3x3 target that the oracle accepts, the target is
reachable. -/
theorem solvable3_reach (b : Board) (hb : b.Perm (generateTarget 3))
    (hs : isSolvable 3 b = true) : ∃ k, Reach 3 k b (generateTarget 3) := by
  obtain ⟨hone, hlen, hnd⟩ := board_valid 3 (by decide) (by decide) b hb
  have h0 : mask [] b = "*********".toList := by rw [mask_nil, hlen]; decide
  obtain ⟨b1, k1, r1, p1, m1⟩ := stage_step [] _ BLANK _ certsBlank (by decide) stage_blank
    (by decide) (by decide) b hb h0
  obtain ⟨b2, k2, r2, p2, m2⟩ := stage_step _ _ 'A' _ certsA (by decide) stage_A
    (by decide) (by decide) b1 p1 m1
  obtain ⟨b3, k3, r3, p3, m3⟩ := stage_step _ _ 'B' _ certsB (by decide) stage_B
    (by decide) (by decide) b2 p2 m2
  obtain ⟨b4, k4, r4, p4, m4⟩ := stage_step _ _ 'C' _ certsC (by decide) stage_C
    (by decide) (by decide) b3 p3 m3
  obtain ⟨b5, k5, r5, p5, m5⟩ := stage_step _ _ 'D' _ certsD (by decide) stage_D
    (by decide) (by decide) b4 p4 m4
  obtain ⟨b6, k6, r6, p6, m6⟩ := stage_step _ _ 'G' _ certsG (by decide) stage_G
    (by decide) (by decide) b5 p5 m5
  obtain ⟨b7, k7, r7, p7, m7⟩ := stage_step _ _ 'E' _ certsE (by decide) stage_E
    (by decide) (by decide) b6 p6 m6
  have hr : Reach 3 (k1 + k2 + k3 + k4 + k5 + k6 + k7) b b7 :=
    reach_trans 3 b b6 _ (reach_trans 3 b b5 _ (reach_trans 3 b b4 _ (reach_trans 3 b b3 _
      (reach_trans 3 b b2 _ (reach_trans 3 b b1 _ r1 _ b2 r2) _ b3 r3) _ b4 r4) _ b5 r5)
      _ b6 r6) _ b7 r7
  have hs7 : isSolvable 3 b7 = true := by
    rw [reach_isSolvable 3 (by decide) b hone hlen hnd _ b7 hr]; exact hs
  obtain ⟨_, hlen7, hnd7⟩ := board_valid 3 (by decide) (by decide) b7 p7
  obtain ⟨f1, f2, f3⟩ := mask_add_tile ['E', 'G', 'D', 'C', 'B', 'A', BLANK] 'F' b7 hnd7
    (p7.mem_iff.mpr (by decide)) (by decide)
  rw [m7] at f1 f2
  obtain ⟨g1, g2, g3⟩ := mask_add_tile ['F', 'E', 'G', 'D', 'C', 'B', 'A', BLANK] 'H' b7 hnd7
    (p7.mem_iff.mpr (by decide)) (by decide)
  rw [f1] at g1 g2
  have hfull : mask ['H', 'F', 'E', 'G', 'D', 'C', 'B', 'A', BLANK] b7 = b7 := by
    apply mask_full
    intro c hc
    have : c ∈ generateTarget 3 := p7.mem_iff.mp hc
    revert c
    have hall : ∀ c ∈ generateTarget 3, c ∈ ['H', 'F', 'E', 'G', 'D', 'C', 'B', 'A', BLANK] := by
      decide
    intro c _ hc
    exact hall c hc
  rw [hfull] at g1
  rw [g1] at hs7
  have hall := last_two_cells
  rw [List.all_eq_true] at hall
  have hall2 := hall (b7.indexOf 'F') (List.mem_range.mpr (by omega))
  rw [List.all_eq_true] at hall2
  have := of_decide_eq_true (hall2 (b7.indexOf 'H') (List.mem_range.mpr (by omega))) f2 g2 hs7
  rw [← g1] at this
  rw [← this]
  exact ⟨_, hr⟩

/-- Claim C5. With `N = 3` and `TARGET = "ABCDEFGH#"`, for every board that is a permutation of
`"ABCDEFGH#"`, `isSolvable` is true if and only if `bfs` does not return `-1`: the verdict of
the oracle coincides with exhaustive BFS reachability of the target. -/
theorem oracle_iff_bfs3 (b : Board) (hb : b.Perm "ABCDEFGH#".toList) :
    (isSolvable 3 b = true ↔ bfs 3 "ABCDEFGH#".toList b ≠ some (-1)) ∧
    ∃ r, bfs 3 "ABCDEFGH#".toList b = some r := by
  have hT : "ABCDEFGH#".toList = generateTarget 3 := by decide
  rw [hT] at hb ⊢
  obtain ⟨hone, hlen, hnd⟩ := board_valid 3 (by decide) (by decide) b hb
  obtain ⟨r, hr, hopt⟩ := bfs_correct 3 (generateTarget 3) b hone hlen
  refine ⟨⟨fun hs => ?_, fun hne => ?_⟩, r, hr⟩
  · obtain ⟨k, hk⟩ := solvable3_reach b hb hs
    rcases hopt with ⟨_, hno⟩ | ⟨d, hd, _, _⟩
    · exact absurd hk (hno k)
    · rw [hr, hd]
      intro h
      have := Option.some.inj h
      omega
  · rcases hopt with ⟨hm, _⟩ | ⟨d, _, hreach, _⟩
    · exact absurd (by rw [hr, hm]) hne
    · rw [← reach_isSolvable 3 (by decide) b hone hlen hnd d _ hreach]
      decide

theorem oracle_iff_bfs3_witness :
    (isSolvable 3 "ABCDEF#GH".toList = true ↔
      bfs 3 "ABCDEFGH#".toList "ABCDEF#GH".toList ≠ some (-1)) ∧
    ∃ r, bfs 3 "ABCDEFGH#".toList "ABCDEF#GH".toList = some r :=
  oracle_iff_bfs3 "ABCDEF#GH".toList (by decide)

/-! ## Moves are involutions -/

/-- The destination of an in-grid direction: a cell of the grid, one row or one column away. -/
theorem dest_coords (N p i : Nat) (hp : p < N * N) (hi : i < 4)
    (h : destInGrid N p i = true) :
    ∃ q : Nat, destCell N p i = (q : Int) ∧ q < N * N ∧ q ≠ p ∧
      ((q / N : Nat) : Int) = ((p / N : Nat) : Int) + dRow i ∧
      ((q % N : Nat) : Int) = ((p % N : Nat) : Int) + dCol i := by
  obtain ⟨hr, hc, _⟩ := cell_coords N p hp
  unfold destInGrid at h
  obtain ⟨h1, h2, h3, h4⟩ := of_decide_eq_true h
  obtain ⟨r', hr'⟩ := Int.eq_ofNat_of_zero_le h1
  obtain ⟨c', hc'⟩ := Int.eq_ofNat_of_zero_le h3
  have hr'N : r' < N := by omega
  have hc'N : c' < N := by omega
  have hq1 : (r' * N + c') / N = r' := div_of_coords r' c' N hc'N
  have hq2 : (r' * N + c') % N = c' := by
    rw [Nat.mul_comm, Nat.mul_add_mod, Nat.mod_eq_of_lt hc'N]
  refine ⟨r' * N + c', ?_, ?_, ?_, ?_, ?_⟩
  · unfold destCell
    rw [hr', hc']
    push_cast
    rfl
  · have : (r' + 1) * N ≤ N * N := Nat.mul_le_mul_right N hr'N
    rw [Nat.add_mul, Nat.one_mul] at this
    omega
  · intro e
    rw [e] at hq1 hq2
    rw [hq1] at hr'
    rw [hq2] at hc'
    have e1 : dRow i = 0 := by omega
    have e2 : dCol i = 0 := by omega
    interval_cases i <;> simp [dRow, dCol] at e1 e2
  · rw [hq1, hr']
  · rw [hq2, hc']

theorem dRow_opposite (i : Nat) (hi : i < 4) :
    dRow (oppositeDir i) = - dRow i ∧ dCol (oppositeDir i) = - dCol i ∧ oppositeDir i < 4 := by
  interval_cases i <;> decide

theorem swapTiles_twice (b : Board) (p q : Nat) (hp : p < b.length) (hq : q < b.length) :
    swapTiles (swapTiles b p q) q p = b := by
  have hl := swapTiles_length b p q
  apply List.ext_getElem?
  intro i
  rw [swapTiles_getElem? _ q p (by rw [hl]; exact hq) (by rw [hl]; exact hp),
    swapTiles_getElem? b p q hp hq, swapTiles_getElem? b p q hp hq,
    swapTiles_getElem? b p q hp hq]
  by_cases h1 : i = p
  · rw [if_pos h1, if_pos rfl, h1]
  · rw [if_neg h1]
    by_cases h2 : i = q
    · rw [if_pos h2, h2]
      by_cases h3 : p = q
      · rw [if_pos h3, h3]
      · rw [if_neg h3, if_pos rfl]
    · rw [if_neg h2, if_neg h2, if_neg h1]

/-- The single-direction pass of the move loop in terms of the in-grid test. -/
theorem moveDir_eq (N : Nat) (b : Board) (p i : Nat) (hp : findBlank b = p) :
    moveDir N b i =
      if destInGrid N p i = true then some (swapTiles b p (destCell N p i)) else none := by
  unfold moveDir destInGrid destCell
  simp only []
  rw [hp, ← Int.ofNat_tdiv, ← Int.ofNat_tmod]
  by_cases h : 0 ≤ ((p / N : Nat) : Int) + dRow i ∧ ((p / N : Nat) : Int) + dRow i < N ∧
      0 ≤ ((p % N : Nat) : Int) + dCol i ∧ ((p % N : Nat) : Int) + dCol i < N
  · rw [if_pos h, if_pos (decide_eq_true h)]
  · rw [if_neg h, if_neg (by simpa using h)]

/-- A legal direction followed by the opposite direction restores board and blank index. -/
theorem move_back (N : Nat) (b : Board) (hlen : b.length = N * N) (p : Nat) (hp : p < N * N)
    (hb : b[p]? = some BLANK) (i : Nat) (hi : i < 4) (hleg : destInGrid N p i = true) :
    ∃ q : Nat, destCell N p i = q ∧ q < N * N ∧ q ≠ p ∧
      (swapTiles b p q)[q]? = some BLANK ∧
      destInGrid N q (oppositeDir i) = true ∧ destCell N q (oppositeDir i) = p ∧
      swapTiles (swapTiles b p q) q p = b ∧
      (b.count BLANK = 1 →
        moveDir N b i = some (swapTiles b p q) ∧
        moveDir N (swapTiles b p q) (oppositeDir i) = some b) := by
  obtain ⟨q, hq, hqN, hqp, hrow, hcol⟩ := dest_coords N p i hp hi hleg
  obtain ⟨o1, o2, _⟩ := dRow_opposite i hi
  obtain ⟨hr, hc, hrc⟩ := cell_coords N p hp
  have hpl : p < b.length := by omega
  have hql : q < b.length := by omega
  have hblank : (swapTiles b p q)[q]? = some BLANK := by
    rw [swapTiles_getElem? b p q hpl hql, if_pos rfl, hb]
  have hopp : destInGrid N q (oppositeDir i) = true := by
    unfold destInGrid
    apply decide_eq_true
    rw [hrow, hcol, o1, o2]
    have hA0 : (0 : Int) ≤ ((p / N : Nat) : Int) := Int.ofNat_nonneg _
    have hA1 : ((p / N : Nat) : Int) < N := by exact_mod_cast hr
    have hB0 : (0 : Int) ≤ ((p % N : Nat) : Int) := Int.ofNat_nonneg _
    have hB1 : ((p % N : Nat) : Int) < N := by exact_mod_cast hc
    generalize ((p / N : Nat) : Int) = A at hA0 hA1 ⊢
    generalize ((p % N : Nat) : Int) = B at hB0 hB1 ⊢
    refine ⟨by omega, by omega, by omega, by omega⟩
  have hdest : destCell N q (oppositeDir i) = p := by
    unfold destCell
    rw [hrow, hcol, o1, o2]
    have e1 : ((p / N : Nat) : Int) + dRow i + -dRow i = ((p / N : Nat) : Int) := by ring
    have e2 : ((p % N : Nat) : Int) + dCol i + -dCol i = ((p % N : Nat) : Int) := by ring
    rw [e1, e2]
    have : (p : Int) = ((p / N * N + p % N : Nat) : Int) := by rw [← hrc]
    rw [this]
    push_cast
    rfl
  have htwice := swapTiles_twice b p q hpl hql
  refine ⟨q, hq, hqN, hqp, hblank, hopp, hdest, htwice, ?_⟩
  intro hone
  have hfb : findBlank b = p := findBlank_of_cell b p hone hb
  have hfb' : findBlank (swapTiles b p q) = q := findBlank_swap b p q hpl hql hb hone
  refine ⟨?_, ?_⟩
  · rw [moveDir_eq N b p i hfb, if_pos hleg, hq]
  · rw [moveDir_eq N _ q _ hfb', if_pos hopp, hdest, htwice]

/-- Claim C11. For `N ≥ 2`, a board of length `N * N` with its blank at index `p`, and a legal
direction `i` leading to index `q`: the opposite direction is legal from `q`, leads back to `p`,
and applying it returns the original board, `swapTiles(swapTiles(b, p, q), q, p) = b`; on a board
with a single blank the two passes of the move loop produce exactly these boards. -/
theorem move_involution (N : Nat) (hN : 2 ≤ N) (b : Board) (hlen : b.length = N * N) (p : Nat)
    (hp : p < N * N) (hb : b[p]? = some BLANK) (i : Nat) (hi : i < 4)
    (hleg : destInGrid N p i = true) :
    ∃ q : Nat, destCell N p i = q ∧ q < N * N ∧ q ≠ p ∧
      (swapTiles b p q)[q]? = some BLANK ∧
      destInGrid N q (oppositeDir i) = true ∧ destCell N q (oppositeDir i) = p ∧
      swapTiles (swapTiles b p q) q p = b ∧
      (b.count BLANK = 1 →
        moveDir N b i = some (swapTiles b p q) ∧
        moveDir N (swapTiles b p q) (oppositeDir i) = some b) :=
  move_back N b hlen p hp hb i hi hleg

theorem move_involution_witness :
    ∃ q : Nat, destCell 3 8 0 = q ∧ q < 3 * 3 ∧ q ≠ 8 ∧
      (swapTiles "ABCDEFGH#".toList (8 : Nat) q)[q]? = some BLANK ∧
      destInGrid 3 q (oppositeDir 0) = true ∧ destCell 3 q (oppositeDir 0) = (8 : Nat) ∧
      swapTiles (swapTiles "ABCDEFGH#".toList (8 : Nat) q) q (8 : Nat) = "ABCDEFGH#".toList ∧
      ("ABCDEFGH#".toList.count BLANK = 1 →
        moveDir 3 "ABCDEFGH#".toList 0 = some (swapTiles "ABCDEFGH#".toList (8 : Nat) q) ∧
        moveDir 3 (swapTiles "ABCDEFGH#".toList (8 : Nat) q) (oppositeDir 0) =
          some "ABCDEFGH#".toList) :=
  move_involution 3 (by decide) "ABCDEFGH#".toList (by decide) 8 (by decide) (by decide) 0
    (by decide) (by decide)

/-! ## The heuristics -/

theorem getD_mem (b : Board) (d : Char) (i : Nat) (hi : i < b.length) : b.getD i d ∈ b := by
  rw [List.getD_eq_getElem b d hi]
  exact List.getElem_mem _

theorem getElem?_eq_getD (b : Board) (d : Char) (i : Nat) (hi : i < b.length) :
    b[i]? = some (b.getD i d) := by
  rw [List.getD_eq_getElem b d hi, List.getElem?_eq_getElem hi]

/-- The misplaced-tile count as a cardinality. -/
theorem calculateH1_card (b : Board) :
    calculateH1 b = (((Finset.range 16).filter (fun i => b.getD i (Char.ofNat 0) ≠ BLANK ∧
      b.getD i (Char.ofNat 0) ≠ TARGET4.getD i (Char.ofNat 0))).card : Int) := by
  rw [calculateH1_eq_sum, Finset.card_filter]
  push_cast
  apply Finset.sum_congr rfl
  intro i _
  rfl

/-- Claim C13. For every 16-character board, `calculateH1` is the number of indices `i` in
`0..15` with `b[i] ≠ '#'` and `b[i] ≠ TARGET[i]`, `TARGET = "ABCDEFGHIJKLMNO#"`; the sequential
and the OpenMP copies of the function agree. -/
theorem calculateH1_misplaced (b : Board) (hlen : b.length = 16) :
    calculateH1 b = (((Finset.range 16).filter (fun i => b[i]? ≠ some BLANK ∧
      b[i]? ≠ "ABCDEFGHIJKLMNO#".toList[i]?)).card : Int) ∧
    calculateH1_omp b = calculateH1 b := by
  refine ⟨?_, rfl⟩
  rw [calculateH1_card]
  congr 2
  apply Finset.filter_congr
  intro i hi
  have hi' : i < 16 := Finset.mem_range.mp hi
  have e1 := getElem?_eq_getD b (Char.ofNat 0) i (by omega)
  have e2 : "ABCDEFGHIJKLMNO#".toList[i]? = some (TARGET4.getD i (Char.ofNat 0)) :=
    getElem?_eq_getD TARGET4 (Char.ofNat 0) i (by
      have : TARGET4.length = 16 := by decide
      omega)
  rw [e1, e2]
  constructor
  · rintro ⟨h1, h2⟩
    exact ⟨fun h => h1 (Option.some.inj h), fun h => h2 (Option.some.inj h)⟩
  · rintro ⟨h1, h2⟩
    exact ⟨fun h => h1 (by rw [h]), fun h => h2 (by rw [h])⟩

theorem calculateH1_misplaced_witness :
    calculateH1 "ABCDEFG#IJKHMNOL".toList =
      (((Finset.range 16).filter (fun i => "ABCDEFG#IJKHMNOL".toList[i]? ≠ some BLANK ∧
        "ABCDEFG#IJKHMNOL".toList[i]? ≠ "ABCDEFGHIJKLMNO#".toList[i]?)).card : Int) ∧
    calculateH1_omp "ABCDEFG#IJKHMNOL".toList = calculateH1 "ABCDEFG#IJKHMNOL".toList :=
  calculateH1_misplaced "ABCDEFG#IJKHMNOL".toList (by decide)

theorem h1Term_le_manhattan :
    ∀ i ∈ List.range 16, ∀ c ∈ TARGET4,
      h1Term i c ≤ manhattanTerm 4 (findChar TARGET4) i c := by
  decide

/-- On the 4x4 board the misplaced-tile count never exceeds the Manhattan sum. -/
theorem h1_le_h2 (b : Board) (hb : b.Perm TARGET4) : calculateH1 b ≤ calculateH2_4x4 b := by
  have hlen : b.length = 16 := by rw [hb.length_eq]; decide
  rw [calculateH1_eq_sum, calculateH2_4x4_eq_sum]
  apply Finset.sum_le_sum
  intro i hi
  have hi' : i < 16 := Finset.mem_range.mp hi
  exact h1Term_le_manhattan i (List.mem_range.mpr hi') _
    (hb.mem_iff.mp (getD_mem b _ i (by omega)))

/-- Claim C15. For every valid 4x4 board (a permutation of `"ABCDEFGHIJKLMNO#"`),
`calculateH1(b) ≤ calculateH2(b)`. -/
theorem calculateH1_le_calculateH2 (b : Board) (hb : b.Perm "ABCDEFGHIJKLMNO#".toList) :
    calculateH1 b ≤ calculateH2_4x4 b :=
  h1_le_h2 b hb

theorem calculateH1_le_calculateH2_witness :
    calculateH1 "ABCDEFG#IJKHMNOL".toList ≤ calculateH2_4x4 "ABCDEFG#IJKHMNOL".toList :=
  calculateH1_le_calculateH2 "ABCDEFG#IJKHMNOL".toList (by decide)

/-- Claim C17. Both heuristics are consistent: for every valid 4x4 board `b` and every board
`b'` obtained from `b` by one legal move, `calculateH1(b) ≤ 1 + calculateH1(b')` and
`calculateH2(b) ≤ 1 + calculateH2(b')` (the `TARGET.find` version of the 4x4 solvers and the
table version of the NxN solver at `N = 4`). -/
theorem heuristics_consistent (b b' : Board) (hb : b.Perm "ABCDEFGHIJKLMNO#".toList)
    (hmove : legalMove 4 b b') :
    calculateH1 b ≤ 1 + calculateH1 b' ∧ calculateH2_4x4 b ≤ 1 + calculateH2_4x4 b' ∧
    calculateH2 4 (buildTargetPositions "ABCDEFGHIJKLMNO#".toList) b ≤
      1 + calculateH2 4 (buildTargetPositions "ABCDEFGHIJKLMNO#".toList) b' := by
  have hone : b.count BLANK = 1 := by rw [hb.count_eq]; decide
  have hlen : b.length = 4 * 4 := by rw [hb.length_eq]; decide
  have h1 := h1_consistent b hone hlen b b' (List.Perm.refl _) hmove
  have h2 := h2_4x4_consistent b hone hlen b b' (List.Perm.refl _) hmove
  have h3 := h2_consistent 4 (buildTargetPositions "ABCDEFGHIJKLMNO#".toList) b hone hlen b b'
    (List.Perm.refl _) hmove
  refine ⟨by omega, by omega, by omega⟩

theorem heuristics_consistent_witness :
    calculateH1 "ABCDEFGHIJKLMNO#".toList ≤ 1 + calculateH1 "ABCDEFGHIJKLMN#O".toList ∧
    calculateH2_4x4 "ABCDEFGHIJKLMNO#".toList ≤ 1 + calculateH2_4x4 "ABCDEFGHIJKLMN#O".toList ∧
    calculateH2 4 (buildTargetPositions "ABCDEFGHIJKLMNO#".toList) "ABCDEFGHIJKLMNO#".toList ≤
      1 + calculateH2 4 (buildTargetPositions "ABCDEFGHIJKLMNO#".toList)
        "ABCDEFGHIJKLMN#O".toList :=
  heuristics_consistent "ABCDEFGHIJKLMNO#".toList "ABCDEFGHIJKLMN#O".toList (by decide)
    (by unfold legalMove; decide)

/-- After `buildTargetPositions`, the table maps every symbol of the target to its index. -/
theorem targetPositions_lookup (N : Nat) (h2 : 2 ≤ N) (h5 : N ≤ 5) :
    ∀ c ∈ generateTarget N,
      (mapFind (buildTargetPositions (generateTarget N)) c).getD 0 =
        (((generateTarget N).indexOf c : Nat) : Int) := by
  interval_cases N <;> decide

/-- The Manhattan heuristic of the NxN solver is the Manhattan sum of the specification. -/
theorem calculateH2_eq_manhattanSum (N : Nat) (h2 : 2 ≤ N) (h5 : N ≤ 5) (b : Board)
    (hb : b.Perm (generateTarget N)) :
    calculateH2 N (buildTargetPositions (generateTarget N)) b =
      manhattanSum N (generateTarget N) b := by
  rw [calculateH2_eq_sum]
  unfold manhattanSum
  rw [Finset.sum_filter]
  apply Finset.sum_congr rfl
  intro i hi
  have hi' : i < b.length := Finset.mem_range.mp hi
  have hmem : b.getD i (Char.ofNat 0) ∈ generateTarget N :=
    hb.mem_iff.mp (getD_mem b _ i hi')
  unfold manhattanTerm
  by_cases hc : b.getD i (Char.ofNat 0) = BLANK
  · rw [if_pos hc, if_neg (not_not.mpr hc)]
  · rw [if_neg hc, if_pos hc]
    simp only []
    rw [targetPositions_lookup N h2 h5 _ hmem, ← Int.ofNat_tdiv, ← Int.ofNat_tmod,
      ← Int.ofNat_tdiv, ← Int.ofNat_tmod]

/-- Claim C14. For `N` in `2..5` and a valid board `b` (a permutation of
`TARGET = generateTarget(N)`), after `buildTargetPositions()`, `calculateH2(b)` is the sum over
the indices `i` with `b[i] ≠ '#'` of `|i/N - t/N| + |i%N - t%N|`, `t` being the index of `b[i]`
in `TARGET`. -/
theorem calculateH2_manhattan (N : Nat) (h2 : 2 ≤ N) (h5 : N ≤ 5) (b : Board)
    (hb : b.Perm (generateTarget N)) :
    calculateH2 N (buildTargetPositions (generateTarget N)) b =
      manhattanSum N (generateTarget N) b :=
  calculateH2_eq_manhattanSum N h2 h5 b hb

theorem calculateH2_manhattan_witness :
    calculateH2 3 (buildTargetPositions (generateTarget 3)) "#ABDECGHF".toList =
      manhattanSum 3 (generateTarget 3) "#ABDECGHF".toList :=
  calculateH2_manhattan 3 (by decide) (by decide) "#ABDECGHF".toList (by decide)

/-- A consistent heuristic drops by at most `k` along `k` moves. -/
theorem consistent_reach (N : Nat) (start : Board) (h : Board → Int)
    (hone : start.count BLANK = 1) (hlen : start.length = N * N)
    (hcons : Consistent N start h) :
    ∀ k x, Reach N k start x → h start ≤ h x + k := by
  intro k
  induction k with
  | zero =>
    intro x hr
    have e : start = x := hr
    rw [e]
    simp
  | succ k ih =>
    intro x hr
    obtain ⟨y, hy, hmove⟩ := hr
    have h1 := ih y hy
    have h2 := hcons y x (reach_perm N start hone hlen k y hy) hmove
    push_cast
    omega

theorem calculateH2_target (N : Nat) (h2 : 2 ≤ N) (h5 : N ≤ 5) :
    calculateH2 N (buildTargetPositions (generateTarget N)) (generateTarget N) = 0 := by
  interval_cases N <;> decide

/-- The Manhattan heuristic never exceeds the number of moves of any sequence reaching the
target. -/
theorem calculateH2_le_reach (N : Nat) (h2 : 2 ≤ N) (h5 : N ≤ 5) (b : Board)
    (hb : b.Perm (generateTarget N)) (k : Nat) (hr : Reach N k b (generateTarget N)) :
    calculateH2 N (buildTargetPositions (generateTarget N)) b ≤ k := by
  obtain ⟨hone, hlen, _⟩ := board_valid N h2 h5 b hb
  have := consistent_reach N b (calculateH2 N (buildTargetPositions (generateTarget N))) hone hlen
    (h2_consistent N (buildTargetPositions (generateTarget N)) b hone hlen) k _ hr
  rw [calculateH2_target N h2 h5] at this
  omega

/-- Claim C16. The Manhattan heuristic is admissible: for `N` in `2..5` and a valid board `b`
from which the target is reachable, `calculateH2(b)` is at most the optimal move count
returned by `bfs(b)`. -/
theorem calculateH2_admissible (N : Nat) (h2 : 2 ≤ N) (h5 : N ≤ 5) (b : Board)
    (hb : b.Perm (generateTarget N)) (hreach : ∃ k, Reach N k b (generateTarget N)) :
    ∃ d : Nat, bfs N (generateTarget N) b = some (d : Int) ∧
      calculateH2 N (buildTargetPositions (generateTarget N)) b ≤ (d : Int) := by
  obtain ⟨hone, hlen, _⟩ := board_valid N h2 h5 b hb
  obtain ⟨r, hr, hopt⟩ := bfs_correct N (generateTarget N) b hone hlen
  rcases hopt with ⟨_, hno⟩ | ⟨d, hd, h1, _⟩
  · obtain ⟨k, hk⟩ := hreach
    exact absurd hk (hno k)
  · exact ⟨d, by rw [hr, hd], calculateH2_le_reach N h2 h5 b hb d h1⟩

theorem calculateH2_admissible_witness :
    ∃ d : Nat, bfs 2 (generateTarget 2) "A#CB".toList = some (d : Int) ∧
      calculateH2 2 (buildTargetPositions (generateTarget 2)) "A#CB".toList ≤ (d : Int) :=
  calculateH2_admissible 2 (by decide) (by decide) "A#CB".toList (by decide)
    ⟨1, "A#CB".toList, rfl, by unfold legalMove; decide⟩

/-! ## The generated target -/

section GeneratedTarget

set_option maxRecDepth 100000

/-- For the sizes `2..5` the generated target is a board: `N * N` symbols, the blank last and
occurring once, the tiles pairwise distinct and ascending. -/
theorem generateTarget_small (N : Nat) (h2 : 2 ≤ N) (h5 : N ≤ 5) :
    (generateTarget N).length = N * N ∧ (generateTarget N).getLast? = some BLANK ∧
    (generateTarget N).count BLANK = 1 ∧ (generateTarget N).dropLast.Pairwise (· < ·) := by
  interval_cases N <;> decide

/-- For the sizes `6..10`, which the solvers accept as well, the generated target has more
than `N * N` characters and repeats the character `A`. -/
theorem generateTarget_large (N : Nat) (h6 : 6 ≤ N) (h10 : N ≤ 10) :
    N * N < (generateTarget N).length ∧ 1 < (generateTarget N).count 'A' := by
  interval_cases N <;> decide

/-- Claim C18, evaluated at `N = 6` (a size the solvers accept): `generateTarget(6)` is the
45-character string `A..Z`, `A1`, ..., `A9`, `#`, not a sequence of `6 * 6 = 36` pairwise
distinct symbols; no board of 36 characters can ever be equal to it. -/
theorem generateTarget_six :
    generateTarget 6 = "ABCDEFGHIJKLMNOPQRSTUVWXYZA1A2A3A4A5A6A7A8A9#".toList ∧
    (generateTarget 6).length = 45 ∧ (generateTarget 6).length ≠ 6 * 6 ∧
    (generateTarget 6).count 'A' = 10 ∧ ¬ (generateTarget 6).dropLast.Nodup ∧
    ¬ (generateTarget 6).dropLast.Pairwise (· < ·) := by
  decide

end GeneratedTarget

/-! ## Boards at distance zero and one from the target -/

theorem legalMove_iff_moveDir (N : Nat) (x y : Board) :
    legalMove N x y ↔ ∃ i, i < 4 ∧ moveDir N x i = some y := by
  constructor
  · rintro ⟨s, hs, hsy⟩
    have hs' : (s.1, s.2) ∈ successors N x (findBlank x) := hs
    rw [mem_successors] at hs'
    obtain ⟨i, hi, hc, h1, _⟩ := hs'
    refine ⟨i, hi, ?_⟩
    unfold moveDir
    simp only []
    rw [if_pos hc, ← hsy, h1]
  · rintro ⟨i, hi, h⟩
    exact moveDir_legal N x y i hi h

/-- Moves can be undone: the move relation is symmetric on well-formed boards. -/
theorem legalMove_symm (N : Nat) (x y : Board) (hone : x.count BLANK = 1)
    (hlen : x.length = N * N) (h : legalMove N x y) : legalMove N y x := by
  obtain ⟨i, hi, hm⟩ := (legalMove_iff_moveDir N x y).mp h
  obtain ⟨p, hp, hpl, hpb⟩ := findBlank_spec x hone
  rw [moveDir_eq N x p i hp] at hm
  by_cases hleg : destInGrid N p i = true
  · rw [if_pos hleg] at hm
    obtain ⟨q, hq, _, _, _, _, _, _, hmv⟩ := move_back N x hlen p (by omega) hpb i hi hleg
    obtain ⟨_, hback⟩ := hmv hone
    rw [hq] at hm
    rw [Option.some.inj hm] at hback
    exact moveDir_legal N y x _ (dRow_opposite i hi).2.2 hback
  · rw [if_neg hleg] at hm
    exact absurd hm (by simp)

/-- A move changes the board. -/
theorem legalMove_ne (N : Nat) (x y : Board) (hone : x.count BLANK = 1)
    (hlen : x.length = N * N) (h : legalMove N x y) : y ≠ x := by
  obtain ⟨p, q, hp, hq, hpq, hpb, hy, _⟩ := legalMove_shape N x y hone hlen h
  intro e
  have h1 : y[q]? = some BLANK := by
    rw [hy, swapTiles_getElem? x p q hp hq, if_pos rfl, hpb]
  rw [e] at h1
  exact hpq (cell_unique BLANK x p q hone hpb h1)

theorem optimal_zero (N : Nat) (T : Board) : Optimal N T T 0 :=
  Or.inr ⟨0, rfl, rfl, fun j hj => absurd hj (Nat.not_lt_zero j)⟩

theorem optimal_zero_iff (N : Nat) (T b : Board) (r : Int) (h : Optimal N T b r) :
    r = 0 ↔ b = T := by
  constructor
  · intro hr
    rcases h with ⟨hm, _⟩ | ⟨d, hd, hreach, _⟩
    · omega
    · have : d = 0 := by omega
      subst this
      exact hreach
  · intro hb
    subst hb
    exact optimal_unique N b b r 0 h (optimal_zero N b)

theorem optimal_one (N : Nat) (T b : Board) (hmove : legalMove N b T) (hne : b ≠ T) :
    Optimal N T b 1 := by
  refine Or.inr ⟨1, rfl, ⟨b, rfl, hmove⟩, ?_⟩
  intro j hj hr
  have : j = 0 := by omega
  subst this
  exact hne hr

/-- Claim C20. For `N` in `2..5` and a board `b` obtained from the target by exactly one legal
move of the blank, `bfs(b) = 1`, and the sequential A* searches return `1` as well (`astar_h2`,
and for `N = 4` the 4x4 `bfs` and both copies of `aStarSearch`), for every tie-breaking of the
priority queue. -/
theorem one_move_from_target (pq : PriorityQueue) (N : Nat) (h2 : 2 ≤ N) (h5 : N ≤ 5)
    (b : Board) (hmove : legalMove N (generateTarget N) b) :
    bfs N (generateTarget N) b = some 1 ∧ astar_h2 pq N (generateTarget N) b = some 1 ∧
    (N = 4 → bfs4 b = some 1 ∧ aStarSearchH1 pq b = some 1 ∧ aStarSearchH2 pq b = some 1) := by
  obtain ⟨hTone, hTlen, _⟩ := target_valid N h2 h5
  have hb : b.Perm (generateTarget N) :=
    reach_perm N (generateTarget N) hTone hTlen 1 b ⟨_, rfl, hmove⟩
  obtain ⟨hone, hlen, _⟩ := board_valid N h2 h5 b hb
  have hopt : Optimal N (generateTarget N) b 1 :=
    optimal_one N _ b (legalMove_symm N _ b hTone hTlen hmove)
      (legalMove_ne N _ b hTone hTlen hmove)
  obtain ⟨r1, hr1, ho1⟩ := bfs_correct N (generateTarget N) b hone hlen
  obtain ⟨r2, hr2, ho2⟩ := aStar_correct pq N (generateTarget N) b
    (calculateH2 N (buildTargetPositions (generateTarget N))) false hone hlen
    (h2_consistent N _ b hone hlen)
  have e1 := optimal_unique N _ b r1 1 ho1 hopt
  have e2 := optimal_unique N _ b r2 1 ho2 hopt
  refine ⟨by rw [hr1, e1], by unfold astar_h2; rw [hr2, e2], ?_⟩
  intro h4
  subst h4
  have hT : generateTarget 4 = TARGET4 := by decide
  rw [hT] at hopt
  obtain ⟨r3, hr3, ho3⟩ := aStar_correct pq 4 TARGET4 b calculateH1 true hone hlen
    (h1_consistent b hone hlen)
  obtain ⟨r4, hr4, ho4⟩ := aStar_correct pq 4 TARGET4 b calculateH2_4x4 true hone hlen
    (h2_4x4_consistent b hone hlen)
  have e3 := optimal_unique 4 _ b r3 1 ho3 hopt
  have e4 := optimal_unique 4 _ b r4 1 ho4 hopt
  refine ⟨by rw [bfs4_eq, hr1, e1], by unfold aStarSearchH1; rw [hr3, e3],
    by unfold aStarSearchH2; rw [hr4, e4]⟩

theorem one_move_from_target_witness :
    bfs 3 (generateTarget 3) "ABCDEFG#H".toList = some 1 ∧
    astar_h2 listPQ 3 (generateTarget 3) "ABCDEFG#H".toList = some 1 ∧
    (3 = 4 → bfs4 "ABCDEFG#H".toList = some 1 ∧
      aStarSearchH1 listPQ "ABCDEFG#H".toList = some 1 ∧
      aStarSearchH2 listPQ "ABCDEFG#H".toList = some 1) :=
  one_move_from_target listPQ 3 (by decide) (by decide) "ABCDEFG#H".toList
    (by unfold legalMove; decide)

/-! ## The searches on the target itself -/

/-- Function `parallelBFS` returns `0` on the target: the only entry of the first level is the
target. -/
theorem parallelBFS_target (numThreads : Int) (hn : 0 ≤ numThreads) :
    parallelBFS TARGET4 numThreads = some 0 := by
  unfold parallelBFS
  rw [if_neg (not_lt.mpr hn)]
  decide

/-- The parallel A* loop returns `0` when the open list holds only the target at cost `0`. -/
theorem parallelAStarLoop_target (srt : DescendingSort) (h : Board → Int) (numThreads : Int)
    (hn : 1 ≤ numThreads) (fuel : Nat) (p hh : Int) (bc : List (Board × Int)) :
    parallelAStarLoop srt h numThreads (fuel + 2) [AState.mk TARGET4 p 0 hh] [] bc false (-1) =
      some 0 := by
  have hs : srt.sort [AState.mk TARGET4 p 0 hh] = [AState.mk TARGET4 p 0 hh] :=
    List.perm_singleton.mp (srt.perm _)
  have hb : min (((1 : Nat)) : Int) (numThreads * 4) = 1 := by
    rw [min_eq_left]
    · rfl
    · push_cast; omega
  rw [parallelAStarLoop]
  simp only [hs, List.length_singleton, hb]
  simp [parallelAStarItem, parallelAStarLoop]

/-- Every sequential A* search returns `0` on the target. -/
theorem aStar_target (pq : PriorityQueue) (N : Nat) (T : Board) (h : Board → Int) (gf : Bool)
    (hone : T.count BLANK = 1) (hlen : T.length = N * N) (hcons : Consistent N T h) :
    aStar pq N T h gf T = some 0 := by
  obtain ⟨r, hr, ho⟩ := aStar_correct pq N T T h gf hone hlen hcons
  rw [hr, optimal_unique N T T r 0 ho (optimal_zero N T)]

/-- Function `bfs` returns `0` exactly on the target. -/
theorem bfs_zero_iff (N : Nat) (T b : Board) (hone : b.count BLANK = 1)
    (hlen : b.length = N * N) : bfs N T b = some 0 ↔ b = T := by
  obtain ⟨r, hr, ho⟩ := bfs_correct N T b hone hlen
  rw [hr]
  constructor
  · intro e
    exact (optimal_zero_iff N T b r ho).mp (Option.some.inj e)
  · intro e
    rw [(optimal_zero_iff N T b r ho).mpr e]

/-- Claim C19. For `N` in `2..5` and a valid board `b`, `bfs(b) = 0` if and only if `b` is the
target; with `N = 4`, `generateTarget(4) = "ABCDEFGHIJKLMNO#"`, and on it `bfs` (both copies),
the A* searches (for every tie-breaking of the priority queue) and the parallel searches (for
every positive worker count and every tie order of the sort; the first batch holds the target
alone, so the schedule of the workers plays no role) return `0`. -/
theorem target_cost_zero (pq : PriorityQueue) (srt : DescendingSort) (N : Nat) (h2 : 2 ≤ N)
    (h5 : N ≤ 5) (b : Board) (hb : b.Perm (generateTarget N)) (numThreads : Int)
    (hn : 1 ≤ numThreads) :
    (bfs N (generateTarget N) b = some 0 ↔ b = generateTarget N) ∧
    generateTarget 4 = "ABCDEFGHIJKLMNO#".toList ∧
    bfs 4 (generateTarget 4) (generateTarget 4) = some 0 ∧
    bfs4 (generateTarget 4) = some 0 ∧
    aStarSearchH1 pq (generateTarget 4) = some 0 ∧
    aStarSearchH2 pq (generateTarget 4) = some 0 ∧
    astar_h2 pq 4 (generateTarget 4) (generateTarget 4) = some 0 ∧
    parallelBFS (generateTarget 4) numThreads = some 0 ∧
    parallelAStarH1 srt (generateTarget 4) numThreads = some 0 ∧
    parallelAStarH2 srt (generateTarget 4) numThreads = some 0 := by
  obtain ⟨hone, hlen, _⟩ := board_valid N h2 h5 b hb
  have hT : generateTarget 4 = TARGET4 := by decide
  have hT1 : TARGET4.count BLANK = 1 := by decide
  have hTl : TARGET4.length = 4 * 4 := by decide
  rw [hT]
  refine ⟨bfs_zero_iff N _ b hone hlen, rfl, (bfs_zero_iff 4 _ _ hT1 hTl).mpr rfl, ?_,
    aStar_target pq 4 TARGET4 _ true hT1 hTl (h1_consistent _ hT1 hTl),
    aStar_target pq 4 TARGET4 _ true hT1 hTl (h2_4x4_consistent _ hT1 hTl),
    aStar_target pq 4 TARGET4 _ false hT1 hTl (h2_consistent 4 _ _ hT1 hTl),
    parallelBFS_target numThreads (by omega), ?_, ?_⟩
  · rw [bfs4_eq, hT]
    exact (bfs_zero_iff 4 _ _ hT1 hTl).mpr rfl
  · exact parallelAStarLoop_target srt _ numThreads hn _ _ _ _
  · exact parallelAStarLoop_target srt _ numThreads hn _ _ _ _

theorem target_cost_zero_witness :
    (bfs 2 (generateTarget 2) "A#CB".toList = some 0 ↔ "A#CB".toList = generateTarget 2) ∧
    generateTarget 4 = "ABCDEFGHIJKLMNO#".toList ∧
    bfs 4 (generateTarget 4) (generateTarget 4) = some 0 ∧
    bfs4 (generateTarget 4) = some 0 ∧
    aStarSearchH1 listPQ (generateTarget 4) = some 0 ∧
    aStarSearchH2 listPQ (generateTarget 4) = some 0 ∧
    astar_h2 listPQ 4 (generateTarget 4) (generateTarget 4) = some 0 ∧
    parallelBFS (generateTarget 4) 2 = some 0 ∧
    parallelAStarH1 listSort (generateTarget 4) 2 = some 0 ∧
    parallelAStarH2 listSort (generateTarget 4) 2 = some 0 :=
  target_cost_zero listPQ listSort 2 (by decide) (by decide) "A#CB".toList (by decide) 2
    (by decide)

/-! ## Validity of the enqueued states -/

/-- The move loop of `bfs` only appends entries built from the successors of the current
state. -/
theorem bfsExpand_mem (N : Nat) (current : State) (P : State → Prop)
    (hs : ∀ nb ∈ successors N current.board current.blankPos,
      P (State.mk nb.1 nb.2 (current.cost + 1)))
    (q : List State) (visited : List Board) (hq : ∀ s ∈ q, P s) :
    ∀ s ∈ (bfsExpand N current q visited).1, P s := by
  unfold bfsExpand
  generalize successors N current.board current.blankPos = l at hs
  induction l generalizing q visited with
  | nil => simpa using hq
  | cons nb l ih =>
    rw [List.foldl_cons]
    by_cases hv : nb.1 ∈ visited
    · simp only [hv, if_true]
      exact ih q visited hq (fun x hx => hs x (List.mem_cons_of_mem _ hx))
    · simp only [hv, if_false]
      refine ih _ _ ?_ (fun x hx => hs x (List.mem_cons_of_mem _ hx))
      intro s hs2
      rcases List.mem_append.mp hs2 with h1 | h1
      · exact hq s h1
      · rw [List.mem_singleton.mp h1]
        exact hs nb (List.mem_cons_self _ _)

/-- The move loop of the A* searches only pushes entries built from the successors of the
current state. -/
theorem aStarExpand_mem (pq : PriorityQueue) (N : Nat) (h : Board → Int) (current : AState)
    (P : AState → Prop)
    (hs : ∀ nb ∈ successors N current.board current.blankPos,
      P (AState.mk nb.1 nb.2 (current.cost + 1) (h nb.1)))
    (open_ : List AState) (bestCost : List (Board × Int)) (hq : ∀ s ∈ open_, P s) :
    ∀ s ∈ (aStarExpand pq N h current open_ bestCost).1, P s := by
  unfold aStarExpand
  generalize successors N current.board current.blankPos = l at hs
  induction l generalizing open_ bestCost with
  | nil => simpa using hq
  | cons nb l ih =>
    rw [List.foldl_cons]
    unfold aStarPush
    by_cases hv : betterCost bestCost nb.1 (current.cost + 1) = true
    · simp only [hv, if_true]
      refine ih _ _ ?_ (fun x hx => hs x (List.mem_cons_of_mem _ hx))
      intro s hs2
      rcases List.mem_cons.mp ((pq.push_perm _ _).mem_iff.mp hs2) with h1 | h1
      · rw [h1]
        exact hs nb (List.mem_cons_self _ _)
      · exact hq s h1
    · simp only [hv, if_false]
      exact ih open_ bestCost hq (fun x hx => hs x (List.mem_cons_of_mem _ hx))

/-- One iteration of the loop of `bfs` keeps every queue entry a permutation of the start board
with its blank position recorded. -/
theorem bfsStep_valid (N : Nat) (T start : Board) (hone : start.count BLANK = 1)
    (hlen : start.length = N * N) (c c2 : List State × List Board)
    (hc : ∀ s ∈ c.1, s.board.Perm start ∧ s.blankPos = findBlank s.board)
    (h : bfsStep N T c = some c2) :
    ∀ s ∈ c2.1, s.board.Perm start ∧ s.blankPos = findBlank s.board := by
  obtain ⟨q0, vis⟩ := c
  unfold bfsStep at h
  cases q0 with
  | nil => simp at h
  | cons current q =>
    simp only at h
    by_cases ht : current.board = T
    · simp [ht] at h
    · simp only [ht, if_false, Option.some.injEq] at h
      rw [← h]
      obtain ⟨hcp, hcb⟩ := hc current (List.mem_cons_self _ _)
      apply bfsExpand_mem N current _ _ q vis
        (fun s hs => hc s (List.mem_cons_of_mem _ hs))
      intro nb hnb
      rw [hcb] at hnb
      exact successor_valid N start current.board hone hlen hcp nb.1 nb.2 hnb

/-- The queue of `bfs` at every loop head. -/
theorem bfsIter_valid (N : Nat) (T start : Board) (hone : start.count BLANK = 1)
    (hlen : start.length = N * N) (n : Nat) (c c2 : List State × List Board)
    (hc : ∀ s ∈ c.1, s.board.Perm start ∧ s.blankPos = findBlank s.board)
    (h : bfsIter N T n c = some c2) :
    ∀ s ∈ c2.1, s.board.Perm start ∧ s.blankPos = findBlank s.board := by
  induction n generalizing c with
  | zero =>
    simp only [bfsIter, Option.some.injEq] at h
    rw [← h]; exact hc
  | succ n ih =>
    rw [bfsIter] at h
    cases hst : bfsStep N T c with
    | none => rw [hst] at h; simp at h
    | some c1 =>
      rw [hst] at h
      exact ih c1 (bfsStep_valid N T start hone hlen c c1 hc hst) h

/-- One iteration of the loop of an A* search keeps every queue entry a permutation of the start
board with its blank position recorded. -/
theorem aStarStep_valid (pq : PriorityQueue) (N : Nat) (T start : Board) (h : Board → Int)
    (gf : Bool) (hone : start.count BLANK = 1) (hlen : start.length = N * N)
    (c c2 : List AState × List Board × List (Board × Int))
    (hc : ∀ s ∈ c.1, s.board.Perm start ∧ s.blankPos = findBlank s.board)
    (hstep : aStarStep pq N T h gf c = some c2) :
    ∀ s ∈ c2.1, s.board.Perm start ∧ s.blankPos = findBlank s.board := by
  obtain ⟨q0, vis, bc⟩ := c
  unfold aStarStep at hstep
  cases hpop : pq.pop q0 with
  | none => simp [hpop] at hstep
  | some pr =>
    obtain ⟨current, rest⟩ := pr
    have hne : q0 ≠ [] := by
      intro e
      rw [e, pq.pop_nil] at hpop
      exact Option.noConfusion hpop
    obtain ⟨s0, l0, hp0, hperm, _⟩ := pq.pop_min q0 hne
    rw [hpop] at hp0
    obtain ⟨rfl, rfl⟩ := Prod.mk.inj (Option.some.inj hp0)
    have hcur := hc current (hperm.mem_iff.mpr (List.mem_cons_self _ _))
    have hrest : ∀ s ∈ rest, s.board.Perm start ∧ s.blankPos = findBlank s.board :=
      fun s hs => hc s (hperm.mem_iff.mpr (List.mem_cons_of_mem _ hs))
    have hexp : ∀ s ∈ (aStarExpand pq N h current rest bc).1,
        s.board.Perm start ∧ s.blankPos = findBlank s.board := by
      apply aStarExpand_mem pq N h current _ _ rest bc hrest
      intro nb hnb
      rw [hcur.2] at hnb
      exact successor_valid N start current.board hone hlen hcur.1 nb.1 nb.2 hnb
    simp only [hpop] at hstep
    by_cases ht : current.board = T <;> by_cases hv : current.board ∈ vis <;> cases gf <;>
      simp [ht, hv] at hstep <;>
      first
        | (rw [← hstep]; exact hrest)
        | (rw [← hstep]; exact hexp)
        | exact absurd hstep.1 hv
        | (rw [← hstep.2]; exact hrest)

/-- The queue of an A* search at every loop head. -/
theorem aStarIter_valid (pq : PriorityQueue) (N : Nat) (T start : Board) (h : Board → Int)
    (gf : Bool) (hone : start.count BLANK = 1) (hlen : start.length = N * N) (n : Nat)
    (c c2 : List AState × List Board × List (Board × Int))
    (hc : ∀ s ∈ c.1, s.board.Perm start ∧ s.blankPos = findBlank s.board)
    (hit : aStarIter pq N T h gf n c = some c2) :
    ∀ s ∈ c2.1, s.board.Perm start ∧ s.blankPos = findBlank s.board := by
  induction n generalizing c with
  | zero =>
    simp only [aStarIter, Option.some.injEq] at hit
    rw [← hit]; exact hc
  | succ n ih =>
    rw [aStarIter] at hit
    cases hst : aStarStep pq N T h gf c with
    | none => rw [hst] at hit; simp at hit
    | some c1 =>
      rw [hst] at hit
      exact ih c1 (aStarStep_valid pq N T start h gf hone hlen c c1 hc hst) hit

/-- A permutation of the start board with its blank position recorded is a valid board whose
recorded position holds the blank. -/
theorem valid_entry (start b : Board) (p : Int) (hone : start.count BLANK = 1)
    (hv : b.Perm start ∧ p = findBlank b) :
    b.Perm start ∧ b.count BLANK = 1 ∧ p = findBlank b ∧
      ∃ k : Nat, p = (k : Int) ∧ k < b.length ∧ b[k]? = some BLANK := by
  have h1 : b.count BLANK = 1 := by rw [hv.1.count_eq]; exact hone
  obtain ⟨k, hk, hkl, hkb⟩ := findBlank_spec b h1
  exact ⟨hv.1, h1, hv.2, k, by rw [hv.2, hk], hkl, hkb⟩

/-- The loop of `bfs` runs the iterations described by `bfsStep`. -/
theorem bfsLoop_step (N : Nat) (T : Board) (fuel : Nat) (c : List State × List Board) :
    bfsLoop N T (fuel + 1) c.1 c.2 =
      match bfsStep N T c with
      | some c2 => bfsLoop N T fuel c2.1 c2.2
      | none =>
        match c.1 with
        | [] => some (-1)
        | current :: _ => some current.cost := by
  obtain ⟨q0, vis⟩ := c
  cases q0 with
  | nil => simp [bfsLoop, bfsStep]
  | cons current q =>
    by_cases ht : current.board = T <;> simp [bfsLoop, bfsStep, ht]

/-- The loop of the A* searches runs the iterations described by `aStarStep`. -/
theorem aStarLoop_step (pq : PriorityQueue) (N : Nat) (T : Board) (h : Board → Int) (gf : Bool)
    (fuel : Nat) (c : List AState × List Board × List (Board × Int)) :
    aStarLoop pq N T h gf (fuel + 1) c.1 c.2.1 c.2.2 =
      match aStarStep pq N T h gf c with
      | some c2 => aStarLoop pq N T h gf fuel c2.1 c2.2.1 c2.2.2
      | none =>
        match pq.pop c.1 with
        | none => some (-1)
        | some (current, _) => some current.cost := by
  obtain ⟨q0, vis, bc⟩ := c
  rw [aStarLoop]
  unfold aStarStep
  cases hpop : pq.pop q0 with
  | none => simp
  | some pr =>
    obtain ⟨current, rest⟩ := pr
    by_cases ht : current.board = T <;> by_cases hv : current.board ∈ vis <;> cases gf <;>
      simp [ht, hv] <;> (rw [ht] at hv; simp [hv])

/-- Claim C12. If the start board (of `N*N` symbols) has exactly one blank, then at every
iteration count `n` every state in the queue of `bfs`, and every state in the priority queue of
an A* search (any heuristic, either order of the goal and visited tests, any tie-breaking),
holds a board that is a permutation of the start board with exactly one blank, and its
`blankPos` field is the index of the blank in its board. Every state ever enqueued is in the
queue at the loop head that follows its insertion. Distinctness of the other symbols is not
needed, and is inherited by permutation. -/
theorem enqueued_states_valid (pq : PriorityQueue) (N : Nat) (T start : Board) (h : Board → Int)
    (gf : Bool) (hone : start.count BLANK = 1) (hlen : start.length = N * N) (n : Nat) :
    (∀ c, bfsIter N T n (bfsInit start) = some c → ∀ s ∈ c.1,
      s.board.Perm start ∧ s.board.count BLANK = 1 ∧ s.blankPos = findBlank s.board ∧
        ∃ k : Nat, s.blankPos = (k : Int) ∧ k < s.board.length ∧ s.board[k]? = some BLANK) ∧
    (∀ c, aStarIter pq N T h gf n (aStarInit pq h start) = some c → ∀ s ∈ c.1,
      s.board.Perm start ∧ s.board.count BLANK = 1 ∧ s.blankPos = findBlank s.board ∧
        ∃ k : Nat, s.blankPos = (k : Int) ∧ k < s.board.length ∧ s.board[k]? = some BLANK) := by
  constructor
  · intro c hc s hs
    apply valid_entry start s.board s.blankPos hone
    refine bfsIter_valid N T start hone hlen n (bfsInit start) c ?_ hc s hs
    intro t ht
    rw [List.mem_singleton.mp ht]
    exact ⟨List.Perm.refl _, rfl⟩
  · intro c hc s hs
    apply valid_entry start s.board s.blankPos hone
    refine aStarIter_valid pq N T start h gf hone hlen n (aStarInit pq h start) c ?_ hc s hs
    intro t ht
    have ht2 : t ∈ [AState.mk start (findBlank start) 0 (h start)] :=
      (pq.push_perm _ _).mem_iff.mp ht
    rw [List.mem_singleton.mp ht2]
    exact ⟨List.Perm.refl _, rfl⟩

theorem enqueued_states_valid_witness :
    bfsIter 2 (generateTarget 2) 1 (bfsInit "A#CB".toList) ≠ none ∧
    aStarIter listPQ 2 (generateTarget 2) (calculateH2 2 (buildTargetPositions (generateTarget 2)))
      false 1 (aStarInit listPQ (calculateH2 2 (buildTargetPositions (generateTarget 2)))
        "A#CB".toList) ≠ none ∧
    ((∀ c, bfsIter 2 (generateTarget 2) 1 (bfsInit "A#CB".toList) = some c → ∀ s ∈ c.1,
      s.board.Perm "A#CB".toList ∧ s.board.count BLANK = 1 ∧
        s.blankPos = findBlank s.board ∧
        ∃ k : Nat, s.blankPos = (k : Int) ∧ k < s.board.length ∧ s.board[k]? = some BLANK) ∧
    (∀ c, aStarIter listPQ 2 (generateTarget 2)
        (calculateH2 2 (buildTargetPositions (generateTarget 2))) false 1
        (aStarInit listPQ (calculateH2 2 (buildTargetPositions (generateTarget 2)))
          "A#CB".toList) = some c → ∀ s ∈ c.1,
      s.board.Perm "A#CB".toList ∧ s.board.count BLANK = 1 ∧
        s.blankPos = findBlank s.board ∧
        ∃ k : Nat, s.blankPos = (k : Int) ∧ k < s.board.length ∧ s.board[k]? = some BLANK)) :=
  ⟨by decide, by decide,
    enqueued_states_valid listPQ 2 (generateTarget 2) "A#CB".toList
      (calculateH2 2 (buildTargetPositions (generateTarget 2))) false (by decide) (by decide) 1⟩

/-! ## The example board of the usage text -/

/-- A board that is not a rearrangement of the target is answered with `-1`. -/
theorem bfs_not_perm (N : Nat) (T b : Board) (hone : b.count BLANK = 1)
    (hlen : b.length = N * N) (hnp : ¬ T.Perm b) : bfs N T b = some (-1) := by
  obtain ⟨r, hr, ho⟩ := bfs_correct N T b hone hlen
  rcases ho with ⟨h1, _⟩ | ⟨d, _, hreach, _⟩
  · rw [hr, h1]
  · exact absurd (reach_perm N b hone hlen d T hreach) hnp

/-- The board `"ABC#EFGHI"` of the usage text holds `I` and no `D`: whatever `bfs` returns on
it, it is not a positive move count. -/
theorem bfs_usage_example_not_positive :
    ¬ ∃ d : Int, bfs 3 (generateTarget 3) "ABC#EFGHI".toList = some d ∧ 0 < d := by
  have hnp : ¬ (generateTarget 3).Perm "ABC#EFGHI".toList := by
    intro hp
    have hD : 'D' ∈ "ABC#EFGHI".toList := hp.mem_iff.mp (by decide)
    exact absurd hD (by decide)
  rw [bfs_not_perm 3 _ _ (by decide) (by decide) hnp]
  rintro ⟨d, hd, hpos⟩
  have e : (-1 : Int) = d := Option.some.inj hd
  omega

/-- Claim C21, amended. With `N = 3` and `TARGET = generateTarget(3) = "ABCDEFGH#"`, `bfs` on
the board `"ABC#EFGHI"` returns the sentinel `-1`: the board is not a rearrangement of the
target (it holds `I` and no `D`), although the parity test `isSolvable` accepts it. -/
theorem bfs_usage_example :
    generateTarget 3 = "ABCDEFGH#".toList ∧
    ¬ (generateTarget 3).Perm "ABC#EFGHI".toList ∧
    isSolvable 3 "ABC#EFGHI".toList = true ∧
    bfs 3 (generateTarget 3) "ABC#EFGHI".toList = some (-1) := by
  have hnp : ¬ (generateTarget 3).Perm "ABC#EFGHI".toList := by
    intro hp
    have hD : 'D' ∈ "ABC#EFGHI".toList := hp.mem_iff.mp (by decide)
    exact absurd hD (by decide)
  exact ⟨by decide, hnp, by decide, bfs_not_perm 3 _ _ (by decide) (by decide) hnp⟩

/-! ## Termination of the sequential searches -/

/-- The loop of `bfs` is left exactly on an empty queue or with the target at its front. -/
theorem bfsStep_none (N : Nat) (T : Board) (c : List State × List Board)
    (h : bfsStep N T c = none) :
    c.1 = [] ∨ ∃ cur q, c.1 = cur :: q ∧ cur.board = T := by
  obtain ⟨q0, vis⟩ := c
  cases q0 with
  | nil => exact Or.inl rfl
  | cons cur q =>
    right
    refine ⟨cur, q, rfl, ?_⟩
    by_contra hne
    simp [bfsStep, hne] at h

/-- A run of the loop of `bfs` that returns a value leaves the loop after fewer iterations than
its fuel. -/
theorem bfsLoop_halts (N : Nat) (T : Board) :
    ∀ (fuel : Nat) (c : List State × List Board) (r : Int),
      bfsLoop N T fuel c.1 c.2 = some r →
      ∃ n c2, n < fuel ∧ bfsIter N T n c = some c2 ∧ bfsStep N T c2 = none := by
  intro fuel
  induction fuel with
  | zero =>
    intro c r h
    simp [bfsLoop] at h
  | succ fuel ih =>
    intro c r h
    rw [bfsLoop_step] at h
    cases hst : bfsStep N T c with
    | none => exact ⟨0, c, Nat.succ_pos _, rfl, hst⟩
    | some c1 =>
      rw [hst] at h
      obtain ⟨n, c2, hn, hit, hstop⟩ := ih c1 r h
      refine ⟨n + 1, c2, Nat.succ_lt_succ hn, ?_, hstop⟩
      rw [bfsIter, hst]
      exact hit

/-- The loop of an A* search is left exactly on an empty queue or with the target popped. -/
theorem aStarStep_none (pq : PriorityQueue) (N : Nat) (T : Board) (h : Board → Int) (gf : Bool)
    (c : List AState × List Board × List (Board × Int))
    (hs : aStarStep pq N T h gf c = none) :
    c.1 = [] ∨ ∃ cur rest, pq.pop c.1 = some (cur, rest) ∧ cur.board = T := by
  obtain ⟨q0, vis, bc⟩ := c
  by_cases he : q0 = []
  · exact Or.inl he
  · right
    obtain ⟨cur, rest, hpop, _, _⟩ := pq.pop_min q0 he
    refine ⟨cur, rest, hpop, ?_⟩
    by_contra hne
    unfold aStarStep at hs
    simp only [hpop] at hs
    by_cases hv : cur.board ∈ vis <;> cases gf <;> simp [hne, hv] at hs

/-- A run of the loop of an A* search that returns a value leaves the loop after fewer
iterations than its fuel. -/
theorem aStarLoop_halts (pq : PriorityQueue) (N : Nat) (T : Board) (h : Board → Int)
    (gf : Bool) :
    ∀ (fuel : Nat) (c : List AState × List Board × List (Board × Int)) (r : Int),
      aStarLoop pq N T h gf fuel c.1 c.2.1 c.2.2 = some r →
      ∃ n c2, n < fuel ∧ aStarIter pq N T h gf n c = some c2 ∧
        aStarStep pq N T h gf c2 = none := by
  intro fuel
  induction fuel with
  | zero =>
    intro c r hl
    simp [aStarLoop] at hl
  | succ fuel ih =>
    intro c r hl
    rw [aStarLoop_step] at hl
    cases hst : aStarStep pq N T h gf c with
    | none => exact ⟨0, c, Nat.succ_pos _, rfl, hst⟩
    | some c1 =>
      rw [hst] at hl
      obtain ⟨n, c2, hn, hit, hstop⟩ := ih c1 r hl
      refine ⟨n + 1, c2, Nat.succ_lt_succ hn, ?_, hstop⟩
      rw [aStarIter, hst]
      exact hit

/-- Function `bfs` leaves its loop after at most `|start|!` iterations. -/
theorem bfs_halts (N : Nat) (T b : Board) (hone : b.count BLANK = 1)
    (hlen : b.length = N * N) :
    ∃ n c, n ≤ b.length.factorial ∧ bfsIter N T n (bfsInit b) = some c ∧
      bfsStep N T c = none ∧ (c.1 = [] ∨ ∃ cur q, c.1 = cur :: q ∧ cur.board = T) := by
  obtain ⟨r, hr, _⟩ := bfs_correct N T b hone hlen
  obtain ⟨n, c, hn, hit, hstop⟩ := bfsLoop_halts N T _ (bfsInit b) r hr
  exact ⟨n, c, Nat.lt_succ_iff.mp hn, hit, hstop, bfsStep_none N T c hstop⟩

/-- An A* search with a consistent heuristic leaves its loop after at most `4 * |start|! + 1`
iterations. -/
theorem aStar_halts (pq : PriorityQueue) (N : Nat) (T b : Board) (h : Board → Int) (gf : Bool)
    (hone : b.count BLANK = 1) (hlen : b.length = N * N) (hcons : Consistent N b h) :
    ∃ n c, n ≤ 4 * b.length.factorial + 1 ∧
      aStarIter pq N T h gf n (aStarInit pq h b) = some c ∧
      aStarStep pq N T h gf c = none ∧
      (c.1 = [] ∨ ∃ cur rest, pq.pop c.1 = some (cur, rest) ∧ cur.board = T) := by
  obtain ⟨r, hr, _⟩ := aStar_correct pq N T b h gf hone hlen hcons
  obtain ⟨n, c, hn, hit, hstop⟩ := aStarLoop_halts pq N T h gf _ (aStarInit pq h b) r hr
  exact ⟨n, c, Nat.lt_succ_iff.mp hn, hit, hstop, aStarStep_none pq N T h gf c hstop⟩

/-- Claim C22. For `N` in `2..5` and every valid board `b` (solvable or not), `bfs(b)` and
`astar_h2(b)` return a value and leave their loops after finitely many iterations (at most
`(N*N)!` and `4 * (N*N)! + 1`), on an empty frontier or with the target dequeued; for `N = 4`
so does the 4x4 `aStarSearch` with h1, for every tie-breaking of the priority queue. -/
theorem searches_terminate (pq : PriorityQueue) (N : Nat) (h2 : 2 ≤ N) (h5 : N ≤ 5) (b : Board)
    (hb : b.Perm (generateTarget N)) :
    ((∃ r, bfs N (generateTarget N) b = some r) ∧
      ∃ n c, n ≤ (N * N).factorial ∧ bfsIter N (generateTarget N) n (bfsInit b) = some c ∧
        bfsStep N (generateTarget N) c = none ∧
        (c.1 = [] ∨ ∃ cur q, c.1 = cur :: q ∧ cur.board = generateTarget N)) ∧
    ((∃ r, astar_h2 pq N (generateTarget N) b = some r) ∧
      ∃ n c, n ≤ 4 * (N * N).factorial + 1 ∧
        aStarIter pq N (generateTarget N)
          (calculateH2 N (buildTargetPositions (generateTarget N))) false n
          (aStarInit pq (calculateH2 N (buildTargetPositions (generateTarget N))) b) = some c ∧
        aStarStep pq N (generateTarget N)
          (calculateH2 N (buildTargetPositions (generateTarget N))) false c = none ∧
        (c.1 = [] ∨ ∃ cur rest, pq.pop c.1 = some (cur, rest) ∧
          cur.board = generateTarget N)) ∧
    (N = 4 → (∃ r, aStarSearchH1 pq b = some r) ∧
      ∃ n c, n ≤ 4 * (4 * 4).factorial + 1 ∧
        aStarIter pq 4 TARGET4 calculateH1 true n (aStarInit pq calculateH1 b) = some c ∧
        aStarStep pq 4 TARGET4 calculateH1 true c = none ∧
        (c.1 = [] ∨ ∃ cur rest, pq.pop c.1 = some (cur, rest) ∧ cur.board = TARGET4)) := by
  obtain ⟨hone, hlen, _⟩ := board_valid N h2 h5 b hb
  refine ⟨⟨?_, ?_⟩, ⟨?_, ?_⟩, ?_⟩
  · obtain ⟨r, hr, _⟩ := bfs_correct N (generateTarget N) b hone hlen
    exact ⟨r, hr⟩
  · have := bfs_halts N (generateTarget N) b hone hlen
    rw [hlen] at this
    exact this
  · obtain ⟨r, hr, _⟩ := aStar_correct pq N (generateTarget N) b _ false hone hlen
      (h2_consistent N (buildTargetPositions (generateTarget N)) b hone hlen)
    exact ⟨r, hr⟩
  · have := aStar_halts pq N (generateTarget N) b _ false hone hlen
      (h2_consistent N (buildTargetPositions (generateTarget N)) b hone hlen)
    rw [hlen] at this
    exact this
  · intro h4
    subst h4
    refine ⟨?_, ?_⟩
    · obtain ⟨r, hr, _⟩ := aStar_correct pq 4 TARGET4 b calculateH1 true hone hlen
        (h1_consistent b hone hlen)
      exact ⟨r, hr⟩
    · have := aStar_halts pq 4 TARGET4 b calculateH1 true hone hlen (h1_consistent b hone hlen)
      rw [hlen] at this
      exact this

theorem searches_terminate_witness :
    "ABCDEFGHIJKLMN#O".toList.Perm (generateTarget 4) ∧
    ((∃ r, bfs 4 (generateTarget 4) "ABCDEFGHIJKLMN#O".toList = some r) ∧
      ∃ n c, n ≤ (4 * 4).factorial ∧
        bfsIter 4 (generateTarget 4) n (bfsInit "ABCDEFGHIJKLMN#O".toList) = some c ∧
        bfsStep 4 (generateTarget 4) c = none ∧
        (c.1 = [] ∨ ∃ cur q, c.1 = cur :: q ∧ cur.board = generateTarget 4)) ∧
    (∃ r, astar_h2 listPQ 4 (generateTarget 4) "ABCDEFGHIJKLMN#O".toList = some r) ∧
    (∃ r, aStarSearchH1 listPQ "ABCDEFGHIJKLMN#O".toList = some r) :=
  have h := searches_terminate listPQ 4 (by decide) (by decide) "ABCDEFGHIJKLMN#O".toList
    (by decide)
  ⟨by decide, h.1, h.2.1.1, (h.2.2 rfl).1⟩

/-! ## The level-synchronous search against the queue search -/

/-- More fuel does not change a value returned by the loop of `bfs`. -/
theorem bfsLoop_mono (N : Nat) (T : Board) :
    ∀ (f : Nat) (q : List State) (v : List Board) (r : Int),
      bfsLoop N T f q v = some r → ∀ k, bfsLoop N T (f + k) q v = some r := by
  intro f
  induction f with
  | zero =>
    intro q v r h
    simp [bfsLoop] at h
  | succ f ih =>
    intro q v r h k
    rw [Nat.succ_add]
    cases q with
    | nil =>
      simp only [bfsLoop] at h ⊢
      exact h
    | cons cur q =>
      simp only [bfsLoop] at h ⊢
      by_cases ht : cur.board = T
      · simp only [ht, if_true] at h ⊢
        exact h
      · simp only [ht, if_false] at h ⊢
        exact ih _ _ r h k

/-- The move loop of `bfs` leaves the entries already in the queue in front of the new ones. -/
theorem bfsExpand_append (N : Nat) (cur : State) (a q : List State) (v : List Board) :
    bfsExpand N cur (a ++ q) v = (a ++ (bfsExpand N cur q v).1, (bfsExpand N cur q v).2) := by
  unfold bfsExpand
  generalize successors N cur.board cur.blankPos = l
  induction l generalizing q v with
  | nil => rfl
  | cons nb l ih =>
    simp only [List.foldl_cons]
    by_cases hv : nb.1 ∈ v
    · simp only [hv, if_true]
      exact ih q v
    · simp only [hv, if_false]
      rw [List.append_assoc]
      exact ih _ _

/-- Once the solution flag is set, the remaining entries of the level are skipped. -/
theorem parallelBFS_found (lvl : List State) (n : List State) (v : List Board) (s : Int) :
    lvl.foldl parallelBFSItem (PBfsRound.mk n v true s) = PBfsRound.mk n v true s := by
  induction lvl with
  | nil => rfl
  | cons cur lvl ih =>
    rw [List.foldl_cons]
    have : parallelBFSItem (PBfsRound.mk n v true s) cur = PBfsRound.mk n v true s := by
      simp [parallelBFSItem]
    rw [this, ih]

/-- One level of `parallelBFS`, its entries taken in index order, does what the loop of `bfs`
does on a queue that starts with these entries. -/
theorem parallelBFS_level :
    ∀ (lvl next : List State) (vis : List Board) (f : Nat) (r sol : Int),
      bfsLoop 4 TARGET4 f (lvl ++ next) vis = some r →
      ((lvl.foldl parallelBFSItem (PBfsRound.mk next vis false sol)).foundSolution = true ∧
        (lvl.foldl parallelBFSItem (PBfsRound.mk next vis false sol)).solution = r) ∨
      ((lvl.foldl parallelBFSItem (PBfsRound.mk next vis false sol)).foundSolution = false ∧
        (lvl.foldl parallelBFSItem (PBfsRound.mk next vis false sol)).solution = sol ∧
        ∃ g, g + lvl.length = f ∧
          bfsLoop 4 TARGET4 g
            (lvl.foldl parallelBFSItem (PBfsRound.mk next vis false sol)).nextLevel
            (lvl.foldl parallelBFSItem (PBfsRound.mk next vis false sol)).visited = some r) := by
  intro lvl
  induction lvl with
  | nil =>
    intro next vis f r sol h
    right
    exact ⟨rfl, rfl, f, rfl, h⟩
  | cons cur lvl ih =>
    intro next vis f r sol h
    cases f with
    | zero => simp [bfsLoop] at h
    | succ f =>
      rw [List.cons_append] at h
      simp only [bfsLoop] at h
      rw [List.foldl_cons]
      by_cases ht : cur.board = TARGET4
      · simp only [ht, if_true] at h
        have hi : parallelBFSItem (PBfsRound.mk next vis false sol) cur =
            PBfsRound.mk next vis true cur.cost := by
          simp [parallelBFSItem, ht]
        rw [hi, parallelBFS_found]
        left
        exact ⟨rfl, Option.some.inj h⟩
      · simp only [ht, if_false] at h
        rw [bfsExpand_append] at h
        have hi : parallelBFSItem (PBfsRound.mk next vis false sol) cur =
            PBfsRound.mk (bfsExpand 4 cur next vis).1 (bfsExpand 4 cur next vis).2 false sol := by
          simp [parallelBFSItem, ht]
        rw [hi]
        rcases ih _ _ f r sol h with hl | ⟨h1, h2, g, hg, hloop⟩
        · exact Or.inl hl
        · right
          refine ⟨h1, h2, g, ?_, hloop⟩
          rw [List.length_cons]
          omega

/-- The loop of `parallelBFS` returns what the loop of `bfs` returns from the same level. -/
theorem parallelBFSLoop_eq :
    ∀ (f : Nat) (lvl : List State) (vis : List Board) (r : Int),
      bfsLoop 4 TARGET4 f lvl vis = some r →
      parallelBFSLoop f lvl vis false (-1) = some r := by
  intro f
  induction f with
  | zero =>
    intro lvl vis r h
    simp [bfsLoop] at h
  | succ f ih =>
    intro lvl vis r h
    cases lvl with
    | nil =>
      simp only [bfsLoop] at h
      simp [parallelBFSLoop, h]
    | cons cur lvl =>
      have h0 : bfsLoop 4 TARGET4 (f + 1) ((cur :: lvl) ++ []) vis = some r := by
        rw [List.append_nil]; exact h
      rw [parallelBFSLoop]
      simp only [ne_eq, reduceCtorEq, not_false_eq_true, and_self, if_true]
      rcases parallelBFS_level (cur :: lvl) [] vis (f + 1) r (-1) h0 with
        ⟨h1, h2⟩ | ⟨h1, h2, g, hg, hloop⟩
      · simp only [h1, if_true, h2]
      · simp only [h1, Bool.false_eq_true, if_false, h2]
        apply ih
        have hk : f = g + lvl.length := by
          rw [List.length_cons] at hg
          omega
        rw [hk]
        exact bfsLoop_mono 4 TARGET4 g _ _ r hloop _

/-- Function `parallelBFS` returns what the 4x4 `bfs` returns, whenever the latter returns. -/
theorem parallelBFS_eq_bfs4 (b : Board) (numThreads : Int) (hn : 0 ≤ numThreads) (r : Int)
    (h : bfs4 b = some r) : parallelBFS b numThreads = some r := by
  unfold parallelBFS
  rw [if_neg (not_lt.mpr hn)]
  exact parallelBFSLoop_eq _ _ _ r h

/-- Claim C23. For every valid 4x4 board `b`, `parallelBFS(b, 1)` (the entries of each level
taken one after another in index order) returns the value of the sequential 4x4 `bfs(b)`, which
is the optimal cost; in particular both return `-1` when the target is unreachable from `b`. -/
theorem parallelBFS_one_worker (b : Board) (hb : b.Perm TARGET4) :
    parallelBFS b 1 = bfs4 b ∧
    (∃ r, bfs4 b = some r ∧ Optimal 4 TARGET4 b r) ∧
    ((∀ k, ¬ Reach 4 k b TARGET4) → parallelBFS b 1 = some (-1) ∧ bfs4 b = some (-1)) := by
  have hone : b.count BLANK = 1 := by rw [hb.count_eq]; decide
  have hlen : b.length = 4 * 4 := by rw [hb.length_eq]; decide
  have hT : generateTarget 4 = TARGET4 := by decide
  obtain ⟨r, hr, ho⟩ := bfs_correct 4 TARGET4 b hone hlen
  have h4 : bfs4 b = some r := by rw [bfs4_eq, hT]; exact hr
  have hp : parallelBFS b 1 = some r := parallelBFS_eq_bfs4 b 1 (by decide) r h4
  refine ⟨by rw [hp, h4], ⟨r, h4, ho⟩, ?_⟩
  intro hun
  rcases ho with ⟨e, _⟩ | ⟨d, _, hreach, _⟩
  · rw [hp, h4, e]
    exact ⟨rfl, rfl⟩
  · exact absurd hreach (hun d)

theorem parallelBFS_one_worker_witness :
    "ABCDEFGHIJKLMN#O".toList.Perm TARGET4 ∧
    parallelBFS "ABCDEFGHIJKLMN#O".toList 1 = bfs4 "ABCDEFGHIJKLMN#O".toList ∧
    bfs4 "ABCDEFGHIJKLMN#O".toList = some 1 :=
  ⟨by decide, (parallelBFS_one_worker "ABCDEFGHIJKLMN#O".toList (by decide)).1, by decide⟩

/-! ## The blank lookup -/

/-- No cell before `indexOf` holds the symbol looked for. -/
theorem before_indexOf (a : Char) (b : List Char) :
    ∀ j, j < b.indexOf a → b[j]? ≠ some a := by
  induction b with
  | nil =>
    intro j _
    simp
  | cons x b ih =>
    intro j hj
    rw [List.indexOf_cons] at hj
    by_cases hx : x = a
    · simp [hx] at hj
    · have hx2 : (x == a) = false := by simpa using hx
      rw [hx2] at hj
      cases j with
      | zero =>
        rw [List.getElem?_cons_zero]
        intro e
        exact hx (Option.some.inj e)
      | succ j =>
        rw [List.getElem?_cons_succ]
        exact ih j (by simpa using hj)

/-- On a board with two blanks, and on a board with none, the lookup and `listAvailable` answer
like on any other board: the index of the first blank, respectively `-1`, and a list of
directions. -/
theorem findBlank_two_blanks :
    findBlank "AB#DEFGHIJKLMNO#".toList = 2 ∧
    listAvailable "AB#DEFGHIJKLMNO#".toList = ["DOWN", "LEFT", "RIGHT"] ∧
    findBlank "ABCDEFGHIJKLMNOP".toList = -1 ∧
    listAvailable "ABCDEFGHIJKLMNOP".toList = ["DOWN", "RIGHT"] := by
  decide

/-- Claim C26, amended. Locating the blank never fails: the lookup `find('#')` of `bfs` and
`listAvailable` yields `-1` on a board without `#`, and the index of the first `#` on a board
with one or more; no failure is reported. -/
theorem findBlank_total (b : Board) :
    ∃ v : Int, findBlank b = v ∧
      ((BLANK ∉ b ∧ v = -1) ∨
        ∃ p : Nat, v = p ∧ p < b.length ∧ b[p]? = some BLANK ∧ ∀ j, j < p → b[j]? ≠ some BLANK) := by
  refine ⟨findBlank b, rfl, ?_⟩
  by_cases h : BLANK ∈ b
  · right
    obtain ⟨h1, h2, h3⟩ := findBlank_of_mem b h
    exact ⟨b.indexOf BLANK, h1, h2, h3, before_indexOf BLANK b⟩
  · left
    exact ⟨h, by simp [findBlank, h]⟩

/-! ## The solvability test in the entry points -/

/-- The entry point of the BFS solver does not call the search on a board that `isSolvable`
rejects, whatever the search is. -/
theorem bfsMain_oracle (search : Nat → Board → Board → Option Int) (N : Int) (puzzle : Board)
    (h : isSolvable N.toNat puzzle = false) :
    bfsMainWith search N puzzle = MainResult.sizeError ∨
    bfsMainWith search N puzzle = MainResult.lengthError ∨
    bfsMainWith search N puzzle = MainResult.notSolvable := by
  unfold bfsMainWith
  by_cases h1 : N < 2 ∨ N > 10
  · simp [h1]
  · by_cases h2 : (puzzle.length : Int) ≠ N * N
    · simp [h1, h2]
    · simp [h1, h2, h]

/-- The entry point of the A* solver calls the search on every board of the right length,
whatever `isSolvable` says about it. -/
theorem h2Main_searches (search : Nat → Board → Board → Option Int) (N : Int) (puzzle : Board)
    (h2 : 2 ≤ N) (h10 : N ≤ 10) (hlen : (puzzle.length : Int) = N * N) :
    h2MainWith search N puzzle =
      MainResult.solution (search N.toNat (generateTarget N.toNat) puzzle) := by
  unfold h2MainWith
  have h1 : ¬ (N < 2 ∨ N > 10) := by omega
  simp [h1, hlen]

/-- Claim C27, evaluated at `N = 2` and the puzzle `"BAC#"`, which `isSolvable` rejects: the
entry point of the BFS solver answers "NOT SOLVABLE" without searching, but the entry point of
the A* h2 solver never calls `isSolvable`; it runs `astar_h2`, which exhausts the frontier and
prints `-1`. -/
theorem h2Main_skips_oracle :
    isSolvable 2 "BAC#".toList = false ∧
    bfsMain 2 "BAC#".toList = MainResult.notSolvable ∧
    h2Main listPQ 2 "BAC#".toList = MainResult.solution (some (-1)) := by
  decide

/-! ## The worker count in the entry points -/

/-- With a worker count of `0` the batch of the parallel A* searches is empty in every round:
the loop is never left, whatever the fuel. -/
theorem parallelAStarLoop_zero_threads (srt : DescendingSort) (h : Board → Int) :
    ∀ (fuel : Nat) (openList : List AState) (closedSet : List Board)
      (bestCost : List (Board × Int)) (sol : Int), openList ≠ [] →
      parallelAStarLoop srt h 0 fuel openList closedSet bestCost false sol = none := by
  intro fuel
  induction fuel with
  | zero =>
    intro openList closedSet bestCost sol _
    rfl
  | succ fuel ih =>
    intro openList closedSet bestCost sol hne
    have hs : srt.sort openList ≠ [] := by
      intro e
      have hp := srt.perm openList
      rw [e] at hp
      exact hne (List.Perm.nil_eq hp).symm
    have hb : min ((srt.sort openList).length : Int) (0 * 4) = 0 := by
      rw [min_eq_right]
      · norm_num
      · norm_num
    rw [parallelAStarLoop]
    simp only [hne, ne_eq, not_false_eq_true, and_self, if_true, hb, lt_self_iff_false,
      if_false, Int.toNat_zero, Nat.sub_zero, List.drop_length, List.take_length,
      List.foldl_nil, List.append_nil]
    exact ih _ _ _ _ hs

/-- With a worker count of `0` the entry point of the parallel BFS runs its search on a valid
board and prints the minimal move count. -/
theorem parallelBFSMain_zero (puzzle : Board) (hb : puzzle.Perm TARGET4) (maxThreads : Int) :
    ∃ r, parallelBFSMain puzzle (some 0) maxThreads = MainResult.solution (some r) ∧
      Optimal 4 TARGET4 puzzle r := by
  have hone : puzzle.count BLANK = 1 := by rw [hb.count_eq]; decide
  have hlen : puzzle.length = 4 * 4 := by rw [hb.length_eq]; decide
  have hT : generateTarget 4 = TARGET4 := by decide
  obtain ⟨r, hr, ho⟩ := bfs_correct 4 TARGET4 puzzle hone hlen
  have h4 : bfs4 puzzle = some r := by rw [bfs4_eq, hT]; exact hr
  refine ⟨r, ?_, ho⟩
  exact congrArg MainResult.solution (parallelBFS_eq_bfs4 puzzle 0 (le_refl 0) r h4)

/-- A worker count of `0` is not rejected: the entry point of the parallel BFS runs its search
and prints the move count `1` of the board, and the entry point of the parallel A* enters a
search that does not return. -/
theorem worker_count_zero_accepted :
    parallelBFSMain "ABCDEFGHIJKLMN#O".toList (some 0) 8 = MainResult.solution (some 1) ∧
    parallelAStarH1Main gccSort "ABCDEFGHIJKLMN#O".toList (some 0) 8 =
      MainResult.solution none := by
  refine ⟨by decide, ?_⟩
  exact congrArg MainResult.solution
    (parallelAStarLoop_zero_threads gccSort _ _ _ _ _ _ (List.cons_ne_nil _ _))

/-- Claim C28, amended. A worker count of `0` is not rejected and no configuration error is
reported.  Given `numThreads = 0` and a valid 4x4 board, the entry point of the parallel BFS
runs the search and prints the minimal move count (`-1` when the target cannot be reached); the
loop of the two parallel A* searches takes an empty batch in every round and is never left,
whatever the number of rounds allowed, so that their entry points print no value. -/
theorem worker_count_zero (srt : DescendingSort) (puzzle : Board) (hb : puzzle.Perm TARGET4)
    (maxThreads : Int) :
    (∃ r, parallelBFSMain puzzle (some 0) maxThreads = MainResult.solution (some r) ∧
      Optimal 4 TARGET4 puzzle r) ∧
    (∀ fuel, parallelAStarLoop srt calculateH1_omp 0 fuel
      [AState.mk puzzle (findBlank puzzle) 0 (calculateH1_omp puzzle)] [] [(puzzle, 0)]
      false (-1) = none) ∧
    (∀ fuel, parallelAStarLoop srt calculateH2_4x4 0 fuel
      [AState.mk puzzle (findBlank puzzle) 0 (calculateH2_4x4 puzzle)] [] [(puzzle, 0)]
      false (-1) = none) ∧
    parallelAStarH1Main srt puzzle (some 0) maxThreads = MainResult.solution none ∧
    parallelAStarH2Main srt puzzle (some 0) maxThreads = MainResult.solution none := by
  refine ⟨parallelBFSMain_zero puzzle hb maxThreads, ?_, ?_, ?_, ?_⟩
  · intro fuel
    exact parallelAStarLoop_zero_threads srt _ fuel _ _ _ _ (by simp)
  · intro fuel
    exact parallelAStarLoop_zero_threads srt _ fuel _ _ _ _ (by simp)
  · exact congrArg MainResult.solution
      (parallelAStarLoop_zero_threads srt _ _ _ _ _ _ (List.cons_ne_nil _ _))
  · exact congrArg MainResult.solution
      (parallelAStarLoop_zero_threads srt _ _ _ _ _ _ (List.cons_ne_nil _ _))

theorem worker_count_zero_witness :
    "ABCDEFGHIJKLMN#O".toList.Perm TARGET4 ∧
    (∃ r, parallelBFSMain "ABCDEFGHIJKLMN#O".toList (some 0) 8 =
      MainResult.solution (some r) ∧ Optimal 4 TARGET4 "ABCDEFGHIJKLMN#O".toList r) ∧
    parallelAStarH2Main gccSort "ABCDEFGHIJKLMN#O".toList (some 0) 8 =
      MainResult.solution none :=
  ⟨by decide, (worker_count_zero gccSort "ABCDEFGHIJKLMN#O".toList (by decide) 8).1,
    (worker_count_zero gccSort "ABCDEFGHIJKLMN#O".toList (by decide) 8).2.2.2.2⟩

/-! ## The size detection of the first mode -/

/-- A puzzle of a length outside the table is not rejected: the size defaults to `4` and the
search is called on it. -/
theorem detectSize_other_length :
    detectSize 4 = 4 ∧ detectSize 10 = 4 ∧
    bfsMainAuto "ABC#".toList =
      MainResult.solution (bfs 4 (generateTarget 4) "ABC#".toList) ∧
    h2MainAuto listPQ "ABC#".toList =
      MainResult.solution (astar_h2 listPQ 4 (generateTarget 4) "ABC#".toList) :=
  ⟨rfl, rfl, rfl, rfl⟩

/-- Claim C29, amended. In the first mode (no explicit `N`) the board size is taken from the
puzzle length by the table 9 -> 3, 16 -> 4, 25 -> 5, 64 -> 8; a puzzle of any other length is
not rejected: `N` keeps its default `4` and the search is called on the puzzle. -/
theorem size_detection (search : Nat → Board → Board → Option Int) (puzzle : Board)
    (h : puzzle.length ∉ [9, 16, 25, 64]) :
    detectSize 9 = 3 ∧ detectSize 16 = 4 ∧ detectSize 25 = 5 ∧ detectSize 64 = 8 ∧
    detectSize puzzle.length = 4 ∧
    mainAutoWith search puzzle = MainResult.solution (search 4 (generateTarget 4) puzzle) := by
  have h4 : detectSize puzzle.length = 4 := by
    simp only [List.mem_cons, List.mem_singleton, List.not_mem_nil, or_false, not_or] at h
    obtain ⟨a, b, c, d⟩ := h
    simp [detectSize, a, b, c, d]
  refine ⟨rfl, rfl, rfl, rfl, h4, ?_⟩
  unfold mainAutoWith
  simp only [h4]

theorem size_detection_witness :
    "ABC#".toList.length ∉ [9, 16, 25, 64] ∧ detectSize "ABC#".toList.length = 4 ∧
    mainAutoWith bfs "ABC#".toList =
      MainResult.solution (bfs 4 (generateTarget 4) "ABC#".toList) :=
  have h := size_detection bfs "ABC#".toList (by decide)
  ⟨by decide, h.2.2.2.2.1, h.2.2.2.2.2⟩

/-! ## The visited set of `bfs` -/

/-- The move loop of `bfs` inserts a board into the visited set exactly when it enqueues it:
read in insertion order, the visited set stays the dequeued boards followed by the queue. -/
theorem bfsExpand_log (N : Nat) (cur : State) (d : List Board) (q : List State)
    (v : List Board) (hn : v.Nodup) (hd : v.reverse = d ++ q.map State.board) :
    (bfsExpand N cur q v).2.Nodup ∧
    (bfsExpand N cur q v).2.reverse = d ++ (bfsExpand N cur q v).1.map State.board ∧
    ∃ l, (bfsExpand N cur q v).2 = l ++ v := by
  unfold bfsExpand
  generalize successors N cur.board cur.blankPos = l
  induction l generalizing q v with
  | nil => exact ⟨hn, hd, [], rfl⟩
  | cons nb l ih =>
    simp only [List.foldl_cons]
    by_cases hv : nb.1 ∈ v
    · simp only [hv, if_true]
      exact ih q v hn hd
    · simp only [hv, if_false]
      obtain ⟨i1, i2, l2, i3⟩ := ih (q ++ [State.mk nb.1 nb.2 (cur.cost + 1)]) (nb.1 :: v)
        (List.nodup_cons.mpr ⟨hv, hn⟩)
        (by rw [List.reverse_cons, hd, List.map_append, List.append_assoc]; rfl)
      refine ⟨i1, i2, l2 ++ [nb.1], ?_⟩
      rw [i3, List.append_assoc]
      rfl

/-- One iteration of the loop of `bfs` keeps the visited set free of repetitions and equal, in
insertion order, to the dequeued boards followed by the queue; it only adds to the set. -/
theorem bfsStep_log (N : Nat) (T : Board) (c c2 : List State × List Board)
    (hn : c.2.Nodup) (hd : ∃ d, c.2.reverse = d ++ c.1.map State.board)
    (h : bfsStep N T c = some c2) :
    c2.2.Nodup ∧ (∃ d, c2.2.reverse = d ++ c2.1.map State.board) ∧ ∃ l, c2.2 = l ++ c.2 := by
  obtain ⟨q0, vis⟩ := c
  obtain ⟨d, hd⟩ := hd
  unfold bfsStep at h
  cases q0 with
  | nil => simp at h
  | cons cur q =>
    by_cases ht : cur.board = T
    · simp [ht] at h
    · simp only [ht, if_false, Option.some.injEq] at h
      rw [← h]
      have hd2 : vis.reverse = (d ++ [cur.board]) ++ q.map State.board := by
        rw [hd, List.map_cons, List.append_assoc]
        rfl
      obtain ⟨i1, i2, i3⟩ := bfsExpand_log N cur (d ++ [cur.board]) q vis hn hd2
      exact ⟨i1, ⟨_, i2⟩, i3⟩

/-- Any number of iterations of the loop of `bfs` keeps the same invariant. -/
theorem bfsIter_log (N : Nat) (T : Board) (n : Nat) (c c2 : List State × List Board)
    (hn : c.2.Nodup) (hd : ∃ d, c.2.reverse = d ++ c.1.map State.board)
    (h : bfsIter N T n c = some c2) :
    c2.2.Nodup ∧ (∃ d, c2.2.reverse = d ++ c2.1.map State.board) ∧ ∃ l, c2.2 = l ++ c.2 := by
  induction n generalizing c with
  | zero =>
    simp only [bfsIter, Option.some.injEq] at h
    rw [← h]
    exact ⟨hn, hd, [], rfl⟩
  | succ n ih =>
    rw [bfsIter] at h
    cases hst : bfsStep N T c with
    | none => rw [hst] at h; simp at h
    | some c1 =>
      rw [hst] at h
      obtain ⟨a1, a2, l1, a3⟩ := bfsStep_log N T c c1 hn hd hst
      obtain ⟨b1, b2, l2, b3⟩ := ih c1 a1 a2 h
      refine ⟨b1, b2, l2 ++ l1, ?_⟩
      rw [b3, a3, List.append_assoc]

/-- Iterations of the loop of `bfs` compose. -/
theorem bfsIter_add (N : Nat) (T : Board) (n m : Nat) (c : List State × List Board) :
    bfsIter N T (n + m) c = (bfsIter N T n c).bind (bfsIter N T m) := by
  induction n generalizing c with
  | zero => simp [bfsIter]
  | succ n ih =>
    rw [Nat.succ_add, bfsIter, bfsIter]
    cases hst : bfsStep N T c with
    | none => rfl
    | some c1 => exact ih c1

/-- Claim C30. At every iteration of the loop of `bfs`, on any start board: the visited set
holds no board twice and, read in insertion order, is the sequence of the boards dequeued so
far followed by the boards of the queue (a board is inserted exactly when it is enqueued, so no
board is enqueued more than once during the run); every board in the queue is in the visited
set; no board occurs twice in the queue; and the visited set of every later iteration extends
the present one. -/
theorem bfs_visited_at_insertion (N : Nat) (T start : Board) (n : Nat)
    (c : List State × List Board) (h : bfsIter N T n (bfsInit start) = some c) :
    c.2.Nodup ∧
    (∃ d, c.2.reverse = d ++ c.1.map State.board) ∧
    (∀ s ∈ c.1, s.board ∈ c.2) ∧
    (c.1.map State.board).Nodup ∧
    (∃ l, c.2 = l ++ [start]) ∧
    ∀ m c2, bfsIter N T (n + m) (bfsInit start) = some c2 → ∃ l, c2.2 = l ++ c.2 := by
  have h0n : (bfsInit start).2.Nodup := List.nodup_singleton _
  have h0d : ∃ d, (bfsInit start).2.reverse = d ++ (bfsInit start).1.map State.board :=
    ⟨[], rfl⟩
  obtain ⟨i1, ⟨d, i2⟩, i3⟩ := bfsIter_log N T n (bfsInit start) c h0n h0d h
  have hrev : c.2.reverse.Nodup := List.nodup_reverse.mpr i1
  refine ⟨i1, ⟨d, i2⟩, ?_, ?_, i3, ?_⟩
  · intro s hs
    have : s.board ∈ c.2.reverse := by
      rw [i2]
      exact List.mem_append_right _ (List.mem_map_of_mem _ hs)
    exact List.mem_reverse.mp this
  · rw [i2] at hrev
    exact (List.nodup_append.mp hrev).2.1
  · intro m c2 h2
    rw [bfsIter_add, h] at h2
    exact (bfsIter_log N T m c c2 i1 ⟨d, i2⟩ h2).2.2

theorem bfs_visited_at_insertion_witness :
    bfsIter 2 (generateTarget 2) 1 (bfsInit "A#CB".toList) =
      some ([State.mk "ABC#".toList 3 1, State.mk "#ACB".toList 0 1],
        ["#ACB".toList, "ABC#".toList, "A#CB".toList]) ∧
    ["#ACB".toList, "ABC#".toList, "A#CB".toList].Nodup ∧
    (∀ s ∈ [State.mk "ABC#".toList 3 1, State.mk "#ACB".toList 0 1],
      s.board ∈ ["#ACB".toList, "ABC#".toList, "A#CB".toList]) ∧
    ∀ m c2, bfsIter 2 (generateTarget 2) (1 + m) (bfsInit "A#CB".toList) = some c2 →
      ∃ l, c2.2 = l ++ ["#ACB".toList, "ABC#".toList, "A#CB".toList] :=
  have h := bfs_visited_at_insertion 2 (generateTarget 2) "A#CB".toList 1
    ([State.mk "ABC#".toList 3 1, State.mk "#ACB".toList 0 1],
      ["#ACB".toList, "ABC#".toList, "A#CB".toList]) (by decide)
  ⟨by decide, h.1, h.2.2.1, h.2.2.2.2.2⟩

/-! ## The two Manhattan implementations -/

/-- The table built by `buildTargetPositions` and `TARGET.find` give the same goal position for
every symbol of the 4x4 target. -/
theorem targetPositions_find :
    ∀ c ∈ TARGET4, (mapFind (buildTargetPositions TARGET4) c).getD 0 = findChar TARGET4 c := by
  decide

/-- On boards made of the symbols of the target, the table-based `calculateH2` and the
`TARGET.find`-based `calculateH2` agree. -/
theorem calculateH2_agree (b : Board) (hlen : b.length = 16) (hmem : ∀ c ∈ b, c ∈ TARGET4) :
    calculateH2 4 (buildTargetPositions TARGET4) b = calculateH2_4x4 b := by
  rw [calculateH2_eq_sum, calculateH2_4x4_eq_sum, hlen]
  apply Finset.sum_congr rfl
  intro i hi
  have hi2 : i < b.length := by rw [hlen]; exact Finset.mem_range.mp hi
  have hc : b.getD i (Char.ofNat 0) ∈ TARGET4 := hmem _ (getD_mem b _ i hi2)
  unfold manhattanTerm
  simp only [targetPositions_find _ hc]

/-- Claim C38. With `N = 4`, `TARGET = "ABCDEFGHIJKLMNO#"` (which is `generateTarget(4)`) and
`targetPositions` built by `buildTargetPositions()`, the table-based `calculateH2` of the NxN
solver returns the value of the `TARGET.find`-based `calculateH2` of the 4x4 solvers on every
board that is a permutation of `TARGET`. -/
theorem calculateH2_implementations_agree (b : Board) (hb : b.Perm TARGET4) :
    generateTarget 4 = TARGET4 ∧
    calculateH2 4 (buildTargetPositions (generateTarget 4)) b = calculateH2_4x4 b := by
  have hT : generateTarget 4 = TARGET4 := by decide
  refine ⟨hT, ?_⟩
  rw [hT]
  exact calculateH2_agree b (by rw [hb.length_eq]; rfl) (fun c hc => hb.mem_iff.mp hc)

theorem calculateH2_implementations_agree_witness :
    "ABCDIEFHJ#KLMGNO".toList.Perm TARGET4 ∧
    calculateH2 4 (buildTargetPositions (generateTarget 4)) "ABCDIEFHJ#KLMGNO".toList =
      calculateH2_4x4 "ABCDIEFHJ#KLMGNO".toList ∧
    calculateH2_4x4 "ABCDIEFHJ#KLMGNO".toList = 9 :=
  ⟨by decide, (calculateH2_implementations_agree "ABCDIEFHJ#KLMGNO".toList (by decide)).2,
    by decide⟩

/-! ## Boards that are not rearrangements of the target -/

/-- Claim C37. Moves preserve the multiset of symbols: every board reached from a start board
of length `N * N` with exactly one `#` is a rearrangement of it. So when the start board is not
a rearrangement of `generateTarget(N)`, `bfs` returns `-1`, whatever `isSolvable` says about the
board. This holds for every `N`, in particular for `N` in `2..5`. -/
theorem bfs_other_multiset (N : Nat) (b : Board) (hone : b.count BLANK = 1)
    (hlen : b.length = N * N) (hnp : ¬ b.Perm (generateTarget N)) :
    (∀ k x, Reach N k b x → x.Perm b) ∧
    (∀ k, ¬ Reach N k b (generateTarget N)) ∧
    bfs N (generateTarget N) b = some (-1) := by
  have hr : ∀ k x, Reach N k b x → x.Perm b := reach_perm N b hone hlen
  refine ⟨hr, fun k hk => hnp (hr k _ hk).symm, ?_⟩
  exact bfs_not_perm N _ b hone hlen (fun hp => hnp hp.symm)

theorem bfs_other_multiset_witness :
    "ABCDEFGX#".toList.count BLANK = 1 ∧ "ABCDEFGX#".toList.length = 3 * 3 ∧
    isSolvable 3 "ABCDEFGX#".toList = true ∧
    bfs 3 (generateTarget 3) "ABCDEFGX#".toList = some (-1) :=
  ⟨by decide, by decide, by decide,
    (bfs_other_multiset 3 "ABCDEFGX#".toList (by decide) (by decide) (by
      intro hp
      have hX : 'X' ∈ generateTarget 3 := hp.mem_iff.mp (by decide)
      exact absurd hX (by decide))).2.2⟩

/-! ## Index safety -/

/-- For a rearrangement of the start board with its blank position recorded, the blank position
and every destination of the move loop are cells of the board: the guard of `swapTiles` holds
at every call. -/
theorem valid_indices (N : Nat) (start b : Board) (p : Int) (hone : start.count BLANK = 1)
    (hlen : start.length = N * N) (hv : b.Perm start ∧ p = findBlank b) :
    b.length = N * N ∧ 0 ≤ p ∧ p < N * N ∧
    ∀ nb ∈ successors N b p,
      0 ≤ nb.2 ∧ nb.2 < N * N ∧ nb.1.length = N * N ∧
      (0 ≤ p ∧ p < b.length ∧ 0 ≤ nb.2 ∧ nb.2 < b.length) ∧ nb.1 = swapTiles b p nb.2 := by
  have hbl : b.length = N * N := by rw [hv.1.length_eq]; exact hlen
  have hb1 : b.count BLANK = 1 := by rw [hv.1.count_eq]; exact hone
  obtain ⟨k, hk, hkl, _⟩ := findBlank_spec b hb1
  have hp : p = (k : Int) := by rw [hv.2, hk]
  have hkN : k < N * N := by rw [← hbl]; exact hkl
  refine ⟨hbl, by rw [hp]; exact Int.natCast_nonneg k, by rw [hp]; exact_mod_cast hkN, ?_⟩
  intro nb hnb
  rw [hp] at hnb
  obtain ⟨q, hq, hqN, hsw, _⟩ := successors_cases N b k hkN nb.1 nb.2 hnb
  have hql : q < b.length := by rw [hbl]; exact hqN
  refine ⟨by rw [hq]; exact Int.natCast_nonneg q, by rw [hq]; exact_mod_cast hqN, ?_, ?_, ?_⟩
  · rw [hsw, swapTiles_length]
    exact hbl
  · rw [hp, hq]
    exact ⟨Int.natCast_nonneg k, by exact_mod_cast hkl, Int.natCast_nonneg q,
      by exact_mod_cast hql⟩
  · rw [hp, hq]
    exact hsw

/-- Claim C36. For a start board of length `N * N` with exactly one `#` (any `N`, in particular
`N` in `2..5`), at every loop iteration of `bfs` and of `astar_h2` (and of every A* search of
the model) each state in the queue has a board of length `N * N`, so the reads `board[i]` for
`i < N * N` are in bounds, a `blankPos` in `[0, N*N)`, and every `newPos` produced by the
move loop in `[0, N*N)`: the guard of `swapTiles` holds at every call. -/
theorem index_safety (pq : PriorityQueue) (N : Nat) (T start : Board) (h : Board → Int)
    (gf : Bool) (hone : start.count BLANK = 1) (hlen : start.length = N * N) (n : Nat) :
    (∀ c, bfsIter N T n (bfsInit start) = some c → ∀ s ∈ c.1,
      s.board.length = N * N ∧ 0 ≤ s.blankPos ∧ s.blankPos < N * N ∧
      ∀ nb ∈ successors N s.board s.blankPos,
        0 ≤ nb.2 ∧ nb.2 < N * N ∧ nb.1.length = N * N ∧
        (0 ≤ s.blankPos ∧ s.blankPos < s.board.length ∧ 0 ≤ nb.2 ∧ nb.2 < s.board.length) ∧
        nb.1 = swapTiles s.board s.blankPos nb.2) ∧
    (∀ c, aStarIter pq N T h gf n (aStarInit pq h start) = some c → ∀ s ∈ c.1,
      s.board.length = N * N ∧ 0 ≤ s.blankPos ∧ s.blankPos < N * N ∧
      ∀ nb ∈ successors N s.board s.blankPos,
        0 ≤ nb.2 ∧ nb.2 < N * N ∧ nb.1.length = N * N ∧
        (0 ≤ s.blankPos ∧ s.blankPos < s.board.length ∧ 0 ≤ nb.2 ∧ nb.2 < s.board.length) ∧
        nb.1 = swapTiles s.board s.blankPos nb.2) := by
  constructor
  · intro c hc s hs
    apply valid_indices N start s.board s.blankPos hone hlen
    refine bfsIter_valid N T start hone hlen n (bfsInit start) c ?_ hc s hs
    intro t ht
    rw [List.mem_singleton.mp ht]
    exact ⟨List.Perm.refl _, rfl⟩
  · intro c hc s hs
    apply valid_indices N start s.board s.blankPos hone hlen
    refine aStarIter_valid pq N T start h gf hone hlen n (aStarInit pq h start) c ?_ hc s hs
    intro t ht
    have ht2 : t ∈ [AState.mk start (findBlank start) 0 (h start)] :=
      (pq.push_perm _ _).mem_iff.mp ht
    rw [List.mem_singleton.mp ht2]
    exact ⟨List.Perm.refl _, rfl⟩

theorem index_safety_witness :
    bfsIter 2 (generateTarget 2) 1 (bfsInit "A#CB".toList) ≠ none ∧
    ∀ c, bfsIter 2 (generateTarget 2) 1 (bfsInit "A#CB".toList) = some c → ∀ s ∈ c.1,
      s.board.length = 2 * 2 ∧ 0 ≤ s.blankPos ∧ s.blankPos < 2 * 2 :=
  ⟨by decide, fun c hc s hs =>
    have h := (index_safety listPQ 2 (generateTarget 2) "A#CB".toList
      (calculateH2 2 (buildTargetPositions (generateTarget 2))) false (by decide) (by decide)
      1).1 c hc s hs
    ⟨h.1, h.2.1, h.2.2.1⟩⟩

/-! ## The level order of `bfs` -/

/-- The loop invariant of `bfs` holds at every loop iteration. -/
theorem bfsIter_binv (N : Nat) (T start : Board) (hone : start.count BLANK = 1)
    (hlen : start.length = N * N) (n : Nat) (c c2 : List State × List Board)
    (hc : ∃ k, BInv N T start k none c.1 c.2) (h : bfsIter N T n c = some c2) :
    ∃ k, BInv N T start k none c2.1 c2.2 := by
  induction n generalizing c with
  | zero =>
    simp only [bfsIter, Option.some.injEq] at h
    rw [← h]
    exact hc
  | succ n ih =>
    rw [bfsIter] at h
    cases hst : bfsStep N T c with
    | none => rw [hst] at h; simp at h
    | some c1 =>
      rw [hst] at h
      apply ih c1 _ h
      obtain ⟨q0, vis⟩ := c
      obtain ⟨k, hk⟩ := hc
      unfold bfsStep at hst
      cases q0 with
      | nil => simp at hst
      | cons cur q =>
        by_cases ht : cur.board = T
        · simp [ht] at hst
        · simp only [ht, if_false, Option.some.injEq] at hst
          rw [← hst]
          obtain ⟨k2, hk2, _⟩ := binv_step N T start hone hlen k cur q vis hk ht
          exact ⟨k2, hk2⟩

/-- A queue made of a block of cost `k` followed by a block of cost `k + 1` is nondecreasing,
and any two of its costs differ by at most `1`. -/
theorem two_level_costs (q q1 q2 : List State) (k : Int) (e : q = q1 ++ q2)
    (h1 : ∀ s ∈ q1, s.cost = k) (h2 : ∀ s ∈ q2, s.cost = k + 1) :
    (q.map State.cost).Pairwise (· ≤ ·) ∧ ∀ s ∈ q, ∀ t ∈ q, t.cost ≤ s.cost + 1 := by
  have hall : ∀ s ∈ q, s.cost = k ∨ s.cost = k + 1 := by
    intro s hs
    rw [e] at hs
    rcases List.mem_append.mp hs with a | a
    · exact Or.inl (h1 s a)
    · exact Or.inr (h2 s a)
  constructor
  · rw [e, List.map_append, List.pairwise_append]
    refine ⟨?_, ?_, ?_⟩
    · rw [List.pairwise_map]
      exact List.Pairwise.imp_of_mem (fun {a b} ha hb _ => by rw [h1 a ha, h1 b hb])
        (List.pairwise_of_forall (fun _ _ => trivial))
    · rw [List.pairwise_map]
      exact List.Pairwise.imp_of_mem (fun {a b} ha hb _ => by rw [h2 a ha, h2 b hb])
        (List.pairwise_of_forall (fun _ _ => trivial))
    · intro a ha b hb
      obtain ⟨s, hs, rfl⟩ := List.mem_map.mp ha
      obtain ⟨t, ht, rfl⟩ := List.mem_map.mp hb
      rw [h1 s hs, h2 t ht]
      omega
  · intro s hs t ht
    rcases hall s hs with a | a <;> rcases hall t ht with b | b <;> omega

/-- No iteration of the loop of `bfs` brings a cost below a lower bound of the queue. -/
theorem bfsIter_lower (N : Nat) (T : Board) (lo : Int) (m : Nat)
    (c c2 : List State × List Board) (hc : ∀ s ∈ c.1, lo ≤ s.cost)
    (h : bfsIter N T m c = some c2) : ∀ s ∈ c2.1, lo ≤ s.cost := by
  induction m generalizing c with
  | zero =>
    simp only [bfsIter, Option.some.injEq] at h
    rw [← h]
    exact hc
  | succ m ih =>
    rw [bfsIter] at h
    cases hst : bfsStep N T c with
    | none => rw [hst] at h; simp at h
    | some c1 =>
      rw [hst] at h
      apply ih c1 _ h
      obtain ⟨q0, vis⟩ := c
      unfold bfsStep at hst
      cases q0 with
      | nil => simp at hst
      | cons cur q =>
        by_cases ht : cur.board = T
        · simp [ht] at hst
        · simp only [ht, if_false, Option.some.injEq] at hst
          rw [← hst]
          apply bfsExpand_mem N cur (fun s => lo ≤ s.cost) _ q vis
            (fun s hs => hc s (List.mem_cons_of_mem _ hs))
          intro nb _
          have := hc cur (List.mem_cons_self _ _)
          show lo ≤ cur.cost + 1
          omega

/-- Claim C31. For a valid start board, at every loop iteration of `bfs`: the costs of the
states in the queue are nondecreasing from front to back; any two of them differ by at most
`1`; each state's cost is the length of a sequence of legal moves from the start board to its
board; and the state at the front (the next one dequeued) has a cost no larger than that of any
state in the queue at any later iteration, so the costs of the dequeued states are
nondecreasing. -/
theorem bfs_level_order (N : Nat) (T start : Board) (hone : start.count BLANK = 1)
    (hlen : start.length = N * N) (n : Nat) (c : List State × List Board)
    (h : bfsIter N T n (bfsInit start) = some c) :
    (c.1.map State.cost).Pairwise (· ≤ ·) ∧
    (∀ s ∈ c.1, ∀ t ∈ c.1, t.cost ≤ s.cost + 1) ∧
    (∀ s ∈ c.1, ∃ k : Nat, s.cost = k ∧ Reach N k start s.board) ∧
    (∀ m c2, bfsIter N T (n + m) (bfsInit start) = some c2 →
      ∀ s ∈ c.1.head?, ∀ t ∈ c2.1, s.cost ≤ t.cost) := by
  obtain ⟨k, inv⟩ := bfsIter_binv N T start hone hlen n (bfsInit start) c
    ⟨0, binv_init N T start⟩ h
  obtain ⟨q1, q2, e, h1, h2⟩ := inv.split
  obtain ⟨hsorted, hdiff⟩ := two_level_costs c.1 q1 q2 k e h1 h2
  refine ⟨hsorted, hdiff, ?_, ?_⟩
  · intro s hs
    obtain ⟨j, hj, hr, _⟩ := inv.sound s hs
    exact ⟨j, hj, hr⟩
  · intro m c2 h2 s hs t ht
    rw [bfsIter_add, h] at h2
    refine bfsIter_lower N T s.cost m c c2 ?_ h2 t ht
    intro u hu
    cases hq : c.1 with
    | nil => rw [hq] at hs; simp at hs
    | cons a rest =>
      rw [hq] at hs hu hsorted
      have hsa : a = s := by simpa using hs
      rw [← hsa]
      rcases List.mem_cons.mp hu with e1 | e1
      · rw [e1]
      · rw [List.map_cons, List.pairwise_cons] at hsorted
        exact hsorted.1 _ (List.mem_map_of_mem _ e1)

theorem bfs_level_order_witness :
    bfsIter 2 (generateTarget 2) 1 (bfsInit "A#CB".toList) =
      some ([State.mk "ABC#".toList 3 1, State.mk "#ACB".toList 0 1],
        ["#ACB".toList, "ABC#".toList, "A#CB".toList]) ∧
    ([State.mk "ABC#".toList 3 1, State.mk "#ACB".toList 0 1].map State.cost).Pairwise
      (· ≤ ·) ∧
    ∀ s ∈ [State.mk "ABC#".toList 3 1, State.mk "#ACB".toList 0 1],
      ∃ k : Nat, s.cost = k ∧ Reach 2 k "A#CB".toList s.board :=
  have h := bfs_level_order 2 (generateTarget 2) "A#CB".toList (by decide) (by decide) 1
    ([State.mk "ABC#".toList 3 1, State.mk "#ACB".toList 0 1],
      ["#ACB".toList, "ABC#".toList, "A#CB".toList]) (by decide)
  ⟨by decide, h.1, h.2.2.1⟩

/-! ## The batch of a round of the parallel A* searches -/

/-- The loop of the parallel A* searches runs the rounds described by `parallelAStarStep`. -/
theorem parallelAStarLoop_step (srt : DescendingSort) (h : Board → Int) (numThreads : Int)
    (hn : 0 ≤ numThreads) (fuel : Nat) (c : PAStarConfig) :
    parallelAStarLoop srt h numThreads (fuel + 1) c.openList c.closedSet c.bestCost
        c.solutionFound c.solution =
      match parallelAStarStep srt h numThreads c with
      | some c2 => parallelAStarLoop srt h numThreads fuel c2.openList c2.closedSet c2.bestCost
          c2.solutionFound c2.solution
      | none => some c.solution := by
  have hb : ¬ min ((srt.sort c.openList).length : Int) (numThreads * 4) < 0 := by
    rw [not_lt]
    exact le_min (Int.natCast_nonneg _) (by omega)
  rw [parallelAStarLoop]
  unfold parallelAStarStep selectBatch
  by_cases hc : c.openList ≠ [] ∧ c.solutionFound = false
  · simp only [hc, ne_eq, not_false_eq_true, and_self, if_true, hb, if_false]
  · simp only [hc, if_false]

/-- The batch selection: the batch has `min(|openList|, 4 * numThreads)` entries, batch and
remaining open list together are a rearrangement of the open list, and no entry of the batch
has a larger `f` than an entry left in the open list. -/
theorem selectBatch_spec (srt : DescendingSort) (numThreads : Int) (hn : 1 ≤ numThreads)
    (openList : List AState) :
    ((selectBatch srt numThreads openList).1.length : Int) =
      min (openList.length : Int) (4 * numThreads) ∧
    ((selectBatch srt numThreads openList).2 ++ (selectBatch srt numThreads openList).1).Perm
      openList ∧
    ∀ s ∈ (selectBatch srt numThreads openList).1,
      ∀ t ∈ (selectBatch srt numThreads openList).2, s.f ≤ t.f := by
  unfold selectBatch
  simp only []
  have hlen : (srt.sort openList).length = openList.length := (srt.perm openList).length_eq
  refine ⟨?_, ?_, ?_⟩
  · rw [List.length_drop, hlen]
    have h0 : 0 ≤ min (openList.length : Int) (numThreads * 4) := by
      apply le_min
      · exact Int.natCast_nonneg _
      · omega
    have h1 : min (openList.length : Int) (numThreads * 4) ≤ openList.length := min_le_left _ _
    have h2 : ((min (openList.length : Int) (numThreads * 4)).toNat : Int) =
        min (openList.length : Int) (numThreads * 4) := Int.toNat_of_nonneg h0
    rw [mul_comm 4 numThreads]
    omega
  · rw [List.take_append_drop]
    exact srt.perm openList
  · intro s hs t ht
    have hp := srt.sorted openList
    rw [← List.take_append_drop
      ((srt.sort openList).length -
        (min ((srt.sort openList).length : Int) (numThreads * 4)).toNat) (srt.sort openList),
      List.pairwise_append] at hp
    exact hp.2.2 t ht s hs

/-- Claim C34. In a round of `parallelAStarH1` / `parallelAStarH2` with `numThreads >= 1` (open
list not empty, no solution yet): the batch holds exactly `min(|openList|, 4 * numThreads)`
states; the batch and the open list left after its removal are together a rearrangement of the
open list before; every state of the batch has `f = cost + heuristic` at most the `f` of every
state left; and the round works on the batch only, the open list after the round being the
states left followed by the new states. -/
theorem batch_selection (srt : DescendingSort) (h : Board → Int) (numThreads : Int)
    (hn : 1 ≤ numThreads) (c : PAStarConfig) (hopen : c.openList ≠ [])
    (hfound : c.solutionFound = false) :
    ((selectBatch srt numThreads c.openList).1.length : Int) =
      min (c.openList.length : Int) (4 * numThreads) ∧
    ((selectBatch srt numThreads c.openList).2 ++
      (selectBatch srt numThreads c.openList).1).Perm c.openList ∧
    (∀ s ∈ (selectBatch srt numThreads c.openList).1,
      ∀ t ∈ (selectBatch srt numThreads c.openList).2, s.f ≤ t.f) ∧
    parallelAStarStep srt h numThreads c =
      some (PAStarConfig.mk
        ((selectBatch srt numThreads c.openList).2 ++
          ((selectBatch srt numThreads c.openList).1.foldl (parallelAStarItem h)
            (PAStarRound.mk [] c.closedSet c.bestCost false c.solution)).newStates)
        ((selectBatch srt numThreads c.openList).1.foldl (parallelAStarItem h)
          (PAStarRound.mk [] c.closedSet c.bestCost false c.solution)).closedSet
        ((selectBatch srt numThreads c.openList).1.foldl (parallelAStarItem h)
          (PAStarRound.mk [] c.closedSet c.bestCost false c.solution)).bestCost
        ((selectBatch srt numThreads c.openList).1.foldl (parallelAStarItem h)
          (PAStarRound.mk [] c.closedSet c.bestCost false c.solution)).solutionFound
        ((selectBatch srt numThreads c.openList).1.foldl (parallelAStarItem h)
          (PAStarRound.mk [] c.closedSet c.bestCost false c.solution)).solution) := by
  obtain ⟨h1, h2, h3⟩ := selectBatch_spec srt numThreads hn c.openList
  refine ⟨h1, h2, h3, ?_⟩
  unfold parallelAStarStep
  simp only [hopen, hfound, ne_eq, not_false_eq_true, and_self, if_true]

theorem batch_selection_witness :
    (1 : Int) ≤ 2 ∧
    ((selectBatch listSort 2
      (parallelAStarInit calculateH1_omp "ABCDEFGHIJKLMN#O".toList).openList).1.length : Int) =
      min ((parallelAStarInit calculateH1_omp "ABCDEFGHIJKLMN#O".toList).openList.length : Int)
        (4 * 2) ∧
    (selectBatch listSort 2
      (parallelAStarInit calculateH1_omp "ABCDEFGHIJKLMN#O".toList).openList).1.length = 1 :=
  ⟨by decide,
    (batch_selection listSort calculateH1_omp 2 (by decide)
      (parallelAStarInit calculateH1_omp "ABCDEFGHIJKLMN#O".toList) (by decide) rfl).1,
    by decide⟩

/-! ## The best-cost table of the sequential A* searches

The table is a list to which every assignment `bestCost[b] = g` adds the pair `(b, g)` in
front; a lookup returns the value of the first pair with the key.  An assignment is made
exactly when a state is pushed (and once for the start board), so the pairs of the list are
the `(board, cost)` of all the states pushed so far. -/

/-- A value found in the table belongs to one of its pairs. -/
theorem mapFind_mem {K : Type} [DecidableEq K] (m : List (K × Int)) (k : K) (v : Int)
    (h : mapFind m k = some v) : (k, v) ∈ m := by
  induction m with
  | nil => simp [mapFind] at h
  | cons p m ih =>
    obtain ⟨a, b⟩ := p
    rw [mapFind_cons] at h
    by_cases e : a = k
    · rw [if_pos e] at h
      rw [e, Option.some.inj h]
      exact List.mem_cons_self _ _
    · rw [if_neg e] at h
      exact List.mem_cons_of_mem _ (ih h)

/-- The test before a push: the board has no entry, or the new cost is strictly smaller than
its entry. -/
theorem betterCost_iff (bc : List (Board × Int)) (b : Board) (g : Int) :
    betterCost bc b g = true ↔
      mapFind bc b = none ∨ ∃ g0, mapFind bc b = some g0 ∧ g < g0 := by
  unfold betterCost
  cases hm : mapFind bc b with
  | none => simp
  | some g0 => simp

/-- An assignment that passes the test keeps every lookup the minimum of the pairs of its
key. -/
theorem table_cons (bc : List (Board × Int)) (b : Board) (g : Int)
    (inv : ∀ p ∈ bc, ∃ g0, mapFind bc p.1 = some g0 ∧ g0 ≤ p.2)
    (hb : betterCost bc b g = true) :
    ∀ p ∈ (b, g) :: bc, ∃ g0, mapFind ((b, g) :: bc) p.1 = some g0 ∧ g0 ≤ p.2 := by
  intro p hp
  rw [mapFind_cons]
  by_cases e : b = p.1
  · rw [if_pos e]
    refine ⟨g, rfl, ?_⟩
    rcases List.mem_cons.mp hp with e1 | e1
    · rw [e1]
    · obtain ⟨g0, h0, hle⟩ := inv p e1
      rcases (betterCost_iff bc b g).mp hb with hn | ⟨g1, h1, hlt⟩
      · rw [e, h0] at hn
        exact absurd hn (by simp)
      · rw [e, h0] at h1
        have : g0 = g1 := Option.some.inj h1
        omega
  · rw [if_neg e]
    rcases List.mem_cons.mp hp with e1 | e1
    · rw [e1] at e
      exact absurd rfl e
    · exact inv p e1

/-- The move loop of the A* searches keeps the table invariant, only adds pairs in front of the
table, and every state it pushes has its `(board, cost)` among the added pairs. -/
theorem aStarExpand_table (pq : PriorityQueue) (N : Nat) (h : Board → Int) (current : AState)
    (open_ : List AState) (bc : List (Board × Int))
    (hq : ∀ e ∈ open_, (e.board, e.cost) ∈ bc)
    (inv : ∀ p ∈ bc, ∃ g0, mapFind bc p.1 = some g0 ∧ g0 ≤ p.2) :
    (∀ e ∈ (aStarExpand pq N h current open_ bc).1,
      (e.board, e.cost) ∈ (aStarExpand pq N h current open_ bc).2) ∧
    (∀ p ∈ (aStarExpand pq N h current open_ bc).2,
      ∃ g0, mapFind (aStarExpand pq N h current open_ bc).2 p.1 = some g0 ∧ g0 ≤ p.2) ∧
    ∃ added, (aStarExpand pq N h current open_ bc).2 = added ++ bc ∧
      ∀ e ∈ (aStarExpand pq N h current open_ bc).1,
        e ∈ open_ ∨ (e.board, e.cost) ∈ added := by
  unfold aStarExpand
  generalize successors N current.board current.blankPos = l
  induction l generalizing open_ bc with
  | nil => exact ⟨hq, inv, [], rfl, fun e he => Or.inl he⟩
  | cons nb l ih =>
    rw [List.foldl_cons]
    unfold aStarPush
    by_cases hv : betterCost bc nb.1 (current.cost + 1) = true
    · simp only [hv, if_true]
      have hq2 : ∀ e ∈ pq.push open_ (AState.mk nb.1 nb.2 (current.cost + 1) (h nb.1)),
          (e.board, e.cost) ∈ (nb.1, current.cost + 1) :: bc := by
        intro e he
        rcases List.mem_cons.mp ((pq.push_perm _ _).mem_iff.mp he) with e1 | e1
        · rw [e1]
          exact List.mem_cons_self _ _
        · exact List.mem_cons_of_mem _ (hq e e1)
      obtain ⟨i1, i2, added, i3, i4⟩ := ih _ _ hq2 (table_cons bc nb.1 _ inv hv)
      refine ⟨i1, i2, added ++ [(nb.1, current.cost + 1)], ?_, ?_⟩
      · refine i3.trans ?_
        rw [List.append_assoc]
        rfl
      · intro e he
        rcases i4 e he with e1 | e1
        · rcases List.mem_cons.mp ((pq.push_perm _ _).mem_iff.mp e1) with e2 | e2
          · right
            rw [e2]
            exact List.mem_append_right _ (List.mem_singleton.mpr rfl)
          · exact Or.inl e2
        · exact Or.inr (List.mem_append_left _ e1)
    · simp only [hv, if_false]
      exact ih open_ bc hq inv

/-- One iteration of the loop of an A* search keeps the table invariant. -/
theorem aStarStep_table (pq : PriorityQueue) (N : Nat) (T : Board) (h : Board → Int)
    (gf : Bool) (c c2 : List AState × List Board × List (Board × Int))
    (hq : ∀ e ∈ c.1, (e.board, e.cost) ∈ c.2.2)
    (inv : ∀ p ∈ c.2.2, ∃ g0, mapFind c.2.2 p.1 = some g0 ∧ g0 ≤ p.2)
    (hstep : aStarStep pq N T h gf c = some c2) :
    (∀ e ∈ c2.1, (e.board, e.cost) ∈ c2.2.2) ∧
    (∀ p ∈ c2.2.2, ∃ g0, mapFind c2.2.2 p.1 = some g0 ∧ g0 ≤ p.2) ∧
    ∃ added, c2.2.2 = added ++ c.2.2 ∧ ∀ e ∈ c2.1, e ∈ c.1 ∨ (e.board, e.cost) ∈ added := by
  obtain ⟨q0, vis, bc⟩ := c
  unfold aStarStep at hstep
  cases hpop : pq.pop q0 with
  | none => simp [hpop] at hstep
  | some pr =>
    obtain ⟨current, rest⟩ := pr
    have hne : q0 ≠ [] := by
      intro e
      rw [e, pq.pop_nil] at hpop
      exact Option.noConfusion hpop
    obtain ⟨s0, l0, hp0, hperm, _⟩ := pq.pop_min q0 hne
    rw [hpop] at hp0
    obtain ⟨rfl, rfl⟩ := Prod.mk.inj (Option.some.inj hp0)
    have hsub : ∀ e ∈ rest, e ∈ q0 :=
      fun e he => hperm.mem_iff.mpr (List.mem_cons_of_mem _ he)
    have hrest : ∀ e ∈ rest, (e.board, e.cost) ∈ bc := fun e he => hq e (hsub e he)
    have hskip : (∀ e ∈ rest, (e.board, e.cost) ∈ bc) ∧
        (∀ p ∈ bc, ∃ g0, mapFind bc p.1 = some g0 ∧ g0 ≤ p.2) ∧
        ∃ added, bc = added ++ bc ∧ ∀ e ∈ rest, e ∈ q0 ∨ (e.board, e.cost) ∈ added :=
      ⟨hrest, inv, [], rfl, fun e he => Or.inl (hsub e he)⟩
    obtain ⟨i1, i2, added, i3, i4⟩ := aStarExpand_table pq N h current rest bc hrest inv
    have hexp : (∀ e ∈ (aStarExpand pq N h current rest bc).1,
          (e.board, e.cost) ∈ (aStarExpand pq N h current rest bc).2) ∧
        (∀ p ∈ (aStarExpand pq N h current rest bc).2,
          ∃ g0, mapFind (aStarExpand pq N h current rest bc).2 p.1 = some g0 ∧ g0 ≤ p.2) ∧
        ∃ added, (aStarExpand pq N h current rest bc).2 = added ++ bc ∧
          ∀ e ∈ (aStarExpand pq N h current rest bc).1,
            e ∈ q0 ∨ (e.board, e.cost) ∈ added :=
      ⟨i1, i2, added, i3, fun e he => (i4 e he).imp (hsub e) id⟩
    simp only [hpop] at hstep
    by_cases ht : current.board = T <;> by_cases hv : current.board ∈ vis <;> cases gf <;>
      simp [ht, hv] at hstep <;>
      first
        | (rw [← hstep]; exact hskip)
        | (rw [← hstep]; exact hexp)
        | exact absurd hstep.1 hv
        | (rw [← hstep.2]; exact hskip)

/-- Any number of iterations of the loop of an A* search keeps the table invariant and only
adds pairs to the table. -/
theorem aStarIter_table (pq : PriorityQueue) (N : Nat) (T : Board) (h : Board → Int)
    (gf : Bool) (n : Nat) (c c2 : List AState × List Board × List (Board × Int))
    (hq : ∀ e ∈ c.1, (e.board, e.cost) ∈ c.2.2)
    (inv : ∀ p ∈ c.2.2, ∃ g0, mapFind c.2.2 p.1 = some g0 ∧ g0 ≤ p.2)
    (hit : aStarIter pq N T h gf n c = some c2) :
    (∀ e ∈ c2.1, (e.board, e.cost) ∈ c2.2.2) ∧
    (∀ p ∈ c2.2.2, ∃ g0, mapFind c2.2.2 p.1 = some g0 ∧ g0 ≤ p.2) ∧
    ∃ added, c2.2.2 = added ++ c.2.2 := by
  induction n generalizing c with
  | zero =>
    simp only [aStarIter, Option.some.injEq] at hit
    rw [← hit]
    exact ⟨hq, inv, [], rfl⟩
  | succ n ih =>
    rw [aStarIter] at hit
    cases hst : aStarStep pq N T h gf c with
    | none => rw [hst] at hit; simp at hit
    | some c1 =>
      rw [hst] at hit
      obtain ⟨a1, a2, l1, a3, _⟩ := aStarStep_table pq N T h gf c c1 hq inv hst
      obtain ⟨b1, b2, l2, b3⟩ := ih c1 a1 a2 hit
      refine ⟨b1, b2, l2 ++ l1, ?_⟩
      rw [b3, a3, List.append_assoc]

/-- Claim C32. At every loop iteration of a sequential A* search (`aStarSearch`, `astar_h2`;
any heuristic and tie-breaking, any start board): every state in the priority queue has its
board as a key of `bestCost`, with an entry no larger than its cost, and was recorded in the
table when pushed; the entry of a board is the minimum of the costs recorded for that board,
that is of all states with that board pushed so far; an iteration only adds records, one for
each state it pushes; and a successor is pushed only when its board has no entry or its cost is
strictly smaller than the entry. -/
theorem bestCost_invariant (pq : PriorityQueue) (N : Nat) (T start : Board) (h : Board → Int)
    (gf : Bool) (n : Nat) (c : List AState × List Board × List (Board × Int))
    (hit : aStarIter pq N T h gf n (aStarInit pq h start) = some c) :
    (∀ e ∈ c.1, ∃ g, mapFind c.2.2 e.board = some g ∧ g ≤ e.cost ∧
      (e.board, e.cost) ∈ c.2.2) ∧
    (∀ b g, mapFind c.2.2 b = some g →
      (b, g) ∈ c.2.2 ∧ ∀ g2, (b, g2) ∈ c.2.2 → g ≤ g2) ∧
    (∀ c2, aStarStep pq N T h gf c = some c2 →
      ∃ added, c2.2.2 = added ++ c.2.2 ∧
        ∀ e ∈ c2.1, e ∈ c.1 ∨ (e.board, e.cost) ∈ added) ∧
    (∀ (current : AState) (acc : List AState × List (Board × Int)) (nb : Board × Int),
      aStarPush pq h current acc nb = acc ∨
      ((mapFind acc.2 nb.1 = none ∨
          ∃ g0, mapFind acc.2 nb.1 = some g0 ∧ current.cost + 1 < g0) ∧
        aStarPush pq h current acc nb =
          (pq.push acc.1 (AState.mk nb.1 nb.2 (current.cost + 1) (h nb.1)),
            (nb.1, current.cost + 1) :: acc.2))) := by
  have hq0 : ∀ e ∈ (aStarInit pq h start).1,
      (e.board, e.cost) ∈ (aStarInit pq h start).2.2 := by
    intro e he
    have he2 : e ∈ [AState.mk start (findBlank start) 0 (h start)] :=
      (pq.push_perm _ _).mem_iff.mp he
    rw [List.mem_singleton.mp he2]
    exact List.mem_singleton.mpr rfl
  have inv0 : ∀ p ∈ (aStarInit pq h start).2.2,
      ∃ g0, mapFind (aStarInit pq h start).2.2 p.1 = some g0 ∧ g0 ≤ p.2 := by
    intro p hp
    have hp2 : p = (start, 0) := List.mem_singleton.mp hp
    rw [hp2]
    exact ⟨0, by simp [aStarInit, mapFind], le_refl _⟩
  obtain ⟨i1, i2, _⟩ := aStarIter_table pq N T h gf n _ c hq0 inv0 hit
  refine ⟨?_, ?_, ?_, ?_⟩
  · intro e he
    obtain ⟨g, hg, hle⟩ := i2 _ (i1 e he)
    exact ⟨g, hg, hle, i1 e he⟩
  · intro b g hg
    refine ⟨mapFind_mem _ b g hg, ?_⟩
    intro g2 h2
    obtain ⟨g0, h0, hle⟩ := i2 _ h2
    rw [hg] at h0
    rw [Option.some.inj h0]
    exact hle
  · intro c2 hst
    exact (aStarStep_table pq N T h gf c c2 i1 i2 hst).2.2
  · intro current acc nb
    unfold aStarPush
    by_cases hv : betterCost acc.2 nb.1 (current.cost + 1) = true
    · right
      exact ⟨(betterCost_iff _ _ _).mp hv, by simp only [hv, if_true]⟩
    · left
      simp only [hv, Bool.false_eq_true, if_false]

theorem bestCost_invariant_witness :
    aStarIter listPQ 2 (generateTarget 2)
        (calculateH2 2 (buildTargetPositions (generateTarget 2))) false 1
        (aStarInit listPQ (calculateH2 2 (buildTargetPositions (generateTarget 2)))
          "A#CB".toList) =
      some ([AState.mk "#ACB".toList 0 1 2, AState.mk "ABC#".toList 3 1 0], ["A#CB".toList],
        [("#ACB".toList, 1), ("ABC#".toList, 1), ("A#CB".toList, 0)]) ∧
    ∀ e ∈ [AState.mk "#ACB".toList 0 1 2, AState.mk "ABC#".toList 3 1 0],
      ∃ g, mapFind [("#ACB".toList, 1), ("ABC#".toList, 1), ("A#CB".toList, 0)] e.board =
          some g ∧ g ≤ e.cost ∧
        (e.board, e.cost) ∈ [("#ACB".toList, 1), ("ABC#".toList, 1), ("A#CB".toList, 0)] :=
  have h := bestCost_invariant listPQ 2 (generateTarget 2) "A#CB".toList
    (calculateH2 2 (buildTargetPositions (generateTarget 2))) false 1
    ([AState.mk "#ACB".toList 0 1 2, AState.mk "ABC#".toList 3 1 0], ["A#CB".toList],
      [("#ACB".toList, 1), ("ABC#".toList, 1), ("A#CB".toList, 0)]) (by decide)
  ⟨by decide, h.1⟩

/-! ## The goal report of the parallel A* searches -/

/-- Once the solution flag is set, the remaining entries of the batch are skipped. -/
theorem parallelAStar_found (h : Board → Int) (batch : List AState) (ns : List AState)
    (cl : List Board) (bc : List (Board × Int)) (s : Int) :
    batch.foldl (parallelAStarItem h) (PAStarRound.mk ns cl bc true s) =
      PAStarRound.mk ns cl bc true s := by
  induction batch with
  | nil => rfl
  | cons cur batch ih =>
    rw [List.foldl_cons]
    have : parallelAStarItem h (PAStarRound.mk ns cl bc true s) cur =
        PAStarRound.mk ns cl bc true s := by
      simp [parallelAStarItem]
    rw [this, ih]

/-- A round that sets the solution flag returns the cost of the first goal-board state of its
batch in index order: the goal board was not closed before, no state in front of that one holds
the goal board, and the states behind it are skipped. -/
theorem round_first_goal (h : Board → Int) :
    ∀ (batch : List AState) (ns : List AState) (cl : List Board) (bc : List (Board × Int))
      (sol : Int),
      (batch.foldl (parallelAStarItem h) (PAStarRound.mk ns cl bc false sol)).solutionFound
        = true →
      TARGET4 ∉ cl ∧ ∃ pre cur post, batch = pre ++ cur :: post ∧ cur.board = TARGET4 ∧
        (∀ s ∈ pre, s.board ≠ TARGET4) ∧
        (batch.foldl (parallelAStarItem h) (PAStarRound.mk ns cl bc false sol)).solution
          = cur.cost := by
  intro batch
  induction batch with
  | nil =>
    intro ns cl bc sol hf
    simp at hf
  | cons cur batch ih =>
    intro ns cl bc sol hf
    rw [List.foldl_cons] at hf ⊢
    by_cases hc : cur.board ∈ cl
    · have hi : parallelAStarItem h (PAStarRound.mk ns cl bc false sol) cur =
          PAStarRound.mk ns cl bc false sol := by
        simp [parallelAStarItem, hc]
      rw [hi] at hf ⊢
      obtain ⟨hT, pre, g, post, e, hg, hpre, hs⟩ := ih ns cl bc sol hf
      refine ⟨hT, cur :: pre, g, post, by rw [e]; rfl, hg, ?_, hs⟩
      intro s hs2
      rcases List.mem_cons.mp hs2 with e1 | e1
      · rw [e1]
        intro e2
        exact hT (e2 ▸ hc)
      · exact hpre s e1
    · by_cases ht : cur.board = TARGET4
      · have hc2 : TARGET4 ∉ cl := fun e => hc (ht ▸ e)
        have hi : parallelAStarItem h (PAStarRound.mk ns cl bc false sol) cur =
            PAStarRound.mk ns (cur.board :: cl) bc true cur.cost := by
          simp [parallelAStarItem, hc2, ht]
        rw [hi, parallelAStar_found]
        exact ⟨fun e => hc (ht ▸ e), [], cur, batch, rfl, ht, by simp, rfl⟩
      · have hi : parallelAStarItem h (PAStarRound.mk ns cl bc false sol) cur =
            PAStarRound.mk
              ((successors 4 cur.board cur.blankPos).foldl (parallelAStarPush h cur)
                (ns, bc)).1
              (cur.board :: cl)
              ((successors 4 cur.board cur.blankPos).foldl (parallelAStarPush h cur)
                (ns, bc)).2
              false sol := by
          simp [parallelAStarItem, hc, ht]
        rw [hi] at hf ⊢
        obtain ⟨hT, pre, g, post, e, hg, hpre, hs⟩ := ih _ _ _ sol hf
        refine ⟨fun e1 => hT (List.mem_cons_of_mem _ e1), cur :: pre, g, post,
          by rw [e]; rfl, hg, ?_, hs⟩
        intro s hs2
        rcases List.mem_cons.mp hs2 with e1 | e1
        · rw [e1]
          exact ht
        · exact hpre s e1

/-- Rounds of the loop of the parallel A* searches compose with the loop. -/
theorem parallelAStarLoop_iter (srt : DescendingSort) (h : Board → Int) (numThreads : Int)
    (hn : 0 ≤ numThreads) :
    ∀ (n : Nat) (c c2 : PAStarConfig) (fuel : Nat),
      parallelAStarIter srt h numThreads n c = some c2 →
      parallelAStarLoop srt h numThreads (fuel + n) c.openList c.closedSet c.bestCost
          c.solutionFound c.solution =
        parallelAStarLoop srt h numThreads fuel c2.openList c2.closedSet c2.bestCost
          c2.solutionFound c2.solution := by
  intro n
  induction n with
  | zero =>
    intro c c2 fuel hit
    simp only [parallelAStarIter, Option.some.injEq] at hit
    rw [← hit]
    rfl
  | succ n ih =>
    intro c c2 fuel hit
    rw [parallelAStarIter] at hit
    cases hst : parallelAStarStep srt h numThreads c with
    | none => rw [hst] at hit; simp at hit
    | some c1 =>
      rw [hst] at hit
      rw [← Nat.add_assoc, parallelAStarLoop_step srt h numThreads hn, hst]
      exact ih c1 c2 fuel hit

/-- A round that sets the solution flag ends the loop with its solution. -/
theorem parallelAStarLoop_last (srt : DescendingSort) (h : Board → Int) (numThreads : Int)
    (hn : 0 ≤ numThreads) (fuel : Nat) (c c2 : PAStarConfig)
    (hst : parallelAStarStep srt h numThreads c = some c2)
    (hf : c2.solutionFound = true) :
    parallelAStarLoop srt h numThreads (fuel + 2) c.openList c.closedSet c.bestCost
      c.solutionFound c.solution = some c2.solution := by
  rw [parallelAStarLoop_step srt h numThreads hn, hst]
  simp only []
  rw [parallelAStarLoop_step srt h numThreads hn]
  have : parallelAStarStep srt h numThreads c2 = none := by
    simp [parallelAStarStep, hf]
  rw [this]

/-- In a batch that is descending in `f` and whose states carry the heuristic value of their
board, the cost returned by a round that sets the solution flag is the largest cost among the
goal-board states of the batch. -/
theorem round_goal_largest (h : Board → Int) (batch : List AState) (ns : List AState)
    (cl : List Board) (bc : List (Board × Int)) (sol : Int)
    (hsorted : batch.Pairwise (fun a b => b.f ≤ a.f))
    (hheur : ∀ t ∈ batch, t.heuristic = h t.board)
    (hf : (batch.foldl (parallelAStarItem h)
      (PAStarRound.mk ns cl bc false sol)).solutionFound = true) :
    ∀ t ∈ batch, t.board = TARGET4 →
      t.cost ≤
        (batch.foldl (parallelAStarItem h) (PAStarRound.mk ns cl bc false sol)).solution := by
  obtain ⟨_, pre, cur, post, e, hg, hpre, hs⟩ := round_first_goal h batch ns cl bc sol hf
  intro t ht htT
  rw [hs]
  rw [e] at ht hsorted
  rcases List.mem_append.mp ht with e1 | e1
  · exact absurd htT (hpre t e1)
  · rcases List.mem_cons.mp e1 with e2 | e2
    · rw [e2]
    · have hp := (List.pairwise_append.mp hsorted).2.1
      have hle : t.f ≤ cur.f := (List.pairwise_cons.mp hp).1 t e2
      have h1 : t.heuristic = h TARGET4 := by
        rw [hheur t (by rw [e]; exact List.mem_append_right _ e1), htT]
      have h2 : cur.heuristic = h TARGET4 := by
        rw [hheur cur (by rw [e]; exact List.mem_append_right _ (List.mem_cons_self _ _)), hg]
      unfold AState.f at hle
      omega

/-! ## The closed set of the sequential A* searches -/

/-- What one iteration of the loop of an A* search does: the popped state is discarded when its
board is in the closed set, and otherwise its board is put into the closed set and its
successors are generated. -/
theorem aStarStep_cases (pq : PriorityQueue) (N : Nat) (T : Board) (h : Board → Int)
    (gf : Bool) (c c2 : List AState × List Board × List (Board × Int))
    (hstep : aStarStep pq N T h gf c = some c2) :
    ∃ cur rest, pq.pop c.1 = some (cur, rest) ∧
      ((cur.board ∈ c.2.1 ∧ c2 = (rest, c.2.1, c.2.2)) ∨
        (cur.board ∉ c.2.1 ∧ cur.board ≠ T ∧
          c2 = ((aStarExpand pq N h cur rest c.2.2).1, cur.board :: c.2.1,
            (aStarExpand pq N h cur rest c.2.2).2))) := by
  obtain ⟨q0, vis, bc⟩ := c
  unfold aStarStep at hstep
  cases hpop : pq.pop q0 with
  | none => simp [hpop] at hstep
  | some pr =>
    obtain ⟨cur, rest⟩ := pr
    refine ⟨cur, rest, rfl, ?_⟩
    simp only [hpop] at hstep
    by_cases hv : cur.board ∈ vis
    · left
      refine ⟨hv, ?_⟩
      by_cases ht : cur.board = T <;> cases gf <;> simp [ht, hv] at hstep <;>
        first
          | exact hstep.symm
          | exact hstep.2.symm
    · right
      by_cases ht : cur.board = T
      · cases gf <;> simp [ht, hv] at hstep
        rw [ht] at hv
        simp [hv] at hstep
      · refine ⟨hv, ht, ?_⟩
        cases gf <;> simp [ht, hv] at hstep <;> exact hstep.symm

/-- A popped state whose board is in the closed set is discarded: no successor is generated,
closed set and `bestCost` stay as they are. -/
theorem aStarStep_discard (pq : PriorityQueue) (N : Nat) (T : Board) (h : Board → Int)
    (gf : Bool) (c : List AState × List Board × List (Board × Int)) (cur : AState)
    (rest : List AState) (hpop : pq.pop c.1 = some (cur, rest)) (hv : cur.board ∈ c.2.1)
    (hT : gf = true → T ∉ c.2.1) :
    aStarStep pq N T h gf c = some (rest, c.2.1, c.2.2) := by
  obtain ⟨q0, vis, bc⟩ := c
  unfold aStarStep
  simp only [hpop]
  cases gf with
  | false => simp [hv]
  | true =>
    have hne : cur.board ≠ T := fun e => hT rfl (e ▸ hv)
    simp [hv, hne]

/-- One iteration keeps the closed set free of repetitions, keeps the target out of it in the
searches that test for the goal first, and only adds to it. -/
theorem aStarStep_closed (pq : PriorityQueue) (N : Nat) (T : Board) (h : Board → Int)
    (gf : Bool) (c c2 : List AState × List Board × List (Board × Int))
    (hn : c.2.1.Nodup) (hT : T ∉ c.2.1)
    (hstep : aStarStep pq N T h gf c = some c2) :
    c2.2.1.Nodup ∧ T ∉ c2.2.1 ∧ ∃ l, c2.2.1 = l ++ c.2.1 := by
  obtain ⟨cur, rest, _, h1 | h1⟩ := aStarStep_cases pq N T h gf c c2 hstep
  · rw [h1.2]
    exact ⟨hn, hT, [], rfl⟩
  · obtain ⟨hv, hne, e⟩ := h1
    rw [e]
    refine ⟨List.nodup_cons.mpr ⟨hv, hn⟩, ?_, [cur.board], rfl⟩
    intro hm
    rcases List.mem_cons.mp hm with e1 | e1
    · exact hne e1.symm
    · exact hT e1

/-- Any number of iterations keeps the same invariant. -/
theorem aStarIter_closed (pq : PriorityQueue) (N : Nat) (T : Board) (h : Board → Int)
    (gf : Bool) (n : Nat) (c c2 : List AState × List Board × List (Board × Int))
    (hn : c.2.1.Nodup) (hT : T ∉ c.2.1)
    (hit : aStarIter pq N T h gf n c = some c2) :
    c2.2.1.Nodup ∧ T ∉ c2.2.1 ∧ ∃ l, c2.2.1 = l ++ c.2.1 := by
  induction n generalizing c with
  | zero =>
    simp only [aStarIter, Option.some.injEq] at hit
    rw [← hit]
    exact ⟨hn, hT, [], rfl⟩
  | succ n ih =>
    rw [aStarIter] at hit
    cases hst : aStarStep pq N T h gf c with
    | none => rw [hst] at hit; simp at hit
    | some c1 =>
      rw [hst] at hit
      obtain ⟨a1, a2, l1, a3⟩ := aStarStep_closed pq N T h gf c c1 hn hT hst
      obtain ⟨b1, b2, l2, b3⟩ := ih c1 a1 a2 hit
      refine ⟨b1, b2, l2 ++ l1, ?_⟩
      rw [b3, a3, List.append_assoc]

/-- Iterations of the loop of an A* search compose. -/
theorem aStarIter_add (pq : PriorityQueue) (N : Nat) (T : Board) (h : Board → Int) (gf : Bool)
    (n m : Nat) (c : List AState × List Board × List (Board × Int)) :
    aStarIter pq N T h gf (n + m) c =
      (aStarIter pq N T h gf n c).bind (aStarIter pq N T h gf m) := by
  induction n generalizing c with
  | zero => simp [aStarIter]
  | succ n ih =>
    rw [Nat.succ_add, aStarIter, aStarIter]
    cases hst : aStarStep pq N T h gf c with
    | none => rfl
    | some c1 => exact ih c1

/-- Claim C33. At every loop iteration of a sequential A* search (`aStarSearch`, `astar_h2`;
any heuristic and tie-breaking, any start board): the closed set holds no board twice; a popped
state whose board is in the closed set is discarded, the open list losing it and closed set and
`bestCost` staying as they are; successors are generated only for a popped state whose board is
not in the closed set, and the board is put into the closed set at that moment, so no board is
expanded twice; and the closed set of every later iteration extends the present one. -/
theorem closed_set_discipline (pq : PriorityQueue) (N : Nat) (T start : Board)
    (h : Board → Int) (gf : Bool) (n : Nat)
    (c : List AState × List Board × List (Board × Int))
    (hit : aStarIter pq N T h gf n (aStarInit pq h start) = some c) :
    c.2.1.Nodup ∧
    (∀ cur rest, pq.pop c.1 = some (cur, rest) → cur.board ∈ c.2.1 →
      aStarStep pq N T h gf c = some (rest, c.2.1, c.2.2)) ∧
    (∀ c2, aStarStep pq N T h gf c = some c2 →
      ∃ cur rest, pq.pop c.1 = some (cur, rest) ∧
        ((cur.board ∈ c.2.1 ∧ c2 = (rest, c.2.1, c.2.2)) ∨
          (cur.board ∉ c.2.1 ∧ cur.board ≠ T ∧
            c2 = ((aStarExpand pq N h cur rest c.2.2).1, cur.board :: c.2.1,
              (aStarExpand pq N h cur rest c.2.2).2)))) ∧
    (∀ m c2, aStarIter pq N T h gf (n + m) (aStarInit pq h start) = some c2 →
      ∃ l, c2.2.1 = l ++ c.2.1) := by
  have h0 : (aStarInit pq h start).2.1.Nodup := List.nodup_nil
  have hT0 : T ∉ (aStarInit pq h start).2.1 := List.not_mem_nil _
  obtain ⟨i1, i2, _⟩ := aStarIter_closed pq N T h gf n _ c h0 hT0 hit
  refine ⟨i1, ?_, ?_, ?_⟩
  · intro cur rest hpop hv
    exact aStarStep_discard pq N T h gf c cur rest hpop hv (fun _ => i2)
  · intro c2 hst
    exact aStarStep_cases pq N T h gf c c2 hst
  · intro m c2 h2
    rw [aStarIter_add, hit] at h2
    exact (aStarIter_closed pq N T h gf m c c2 i1 i2 h2).2.2

theorem closed_set_discipline_witness :
    aStarIter listPQ 2 (generateTarget 2)
        (calculateH2 2 (buildTargetPositions (generateTarget 2))) false 1
        (aStarInit listPQ (calculateH2 2 (buildTargetPositions (generateTarget 2)))
          "A#CB".toList) =
      some ([AState.mk "#ACB".toList 0 1 2, AState.mk "ABC#".toList 3 1 0], ["A#CB".toList],
        [("#ACB".toList, 1), ("ABC#".toList, 1), ("A#CB".toList, 0)]) ∧
    ["A#CB".toList].Nodup ∧
    ∀ m c2, aStarIter listPQ 2 (generateTarget 2)
        (calculateH2 2 (buildTargetPositions (generateTarget 2))) false (1 + m)
        (aStarInit listPQ (calculateH2 2 (buildTargetPositions (generateTarget 2)))
          "A#CB".toList) = some c2 →
      ∃ l, c2.2.1 = l ++ ["A#CB".toList] :=
  have h := closed_set_discipline listPQ 2 (generateTarget 2) "A#CB".toList
    (calculateH2 2 (buildTargetPositions (generateTarget 2))) false 1
    ([AState.mk "#ACB".toList 0 1 2, AState.mk "ABC#".toList 3 1 0], ["A#CB".toList],
      [("#ACB".toList, 1), ("ABC#".toList, 1), ("A#CB".toList, 0)]) (by decide)
  ⟨by decide, h.1, h.2.2.2⟩

/-! ## The coded rounds of the parallel A* searches

The rounds on coded tables compute what the rounds of the source compute: the codes of two
boards are equal only for equal boards, `intGt` is the comparison of `int` values,
`calculateH2Code` is `calculateH2`, and a round of `codedStep` is the round of
`parallelAStarStep` with its tables coded. -/

/-- The comparison `intGt` decides `b < a`. -/
theorem intGt_iff (a b : Int) : intGt a b = true ↔ b < a := by
  cases a with
  | ofNat m =>
    cases b with
    | ofNat n =>
      simp only [intGt, Nat.blt_eq, Int.ofNat_eq_coe, Nat.cast_lt]
    | negSucc n =>
      simp only [intGt, true_iff]
      have := Int.negSucc_lt_zero n
      have h2 : (0 : Int) ≤ Int.ofNat m := Int.ofNat_nonneg m
      omega
  | negSucc m =>
    cases b with
    | ofNat n =>
      simp only [intGt, Bool.false_eq_true, false_iff]
      have := Int.negSucc_lt_zero m
      have h2 : (0 : Int) ≤ Int.ofNat n := Int.ofNat_nonneg n
      omega
    | negSucc n =>
      simp only [intGt, Nat.blt_eq]
      have h1 : Int.negSucc n = -((n : Int) + 1) := rfl
      have h2 : Int.negSucc m = -((m : Int) + 1) := rfl
      rw [h1, h2]
      omega

/-- The comparison `intGt` is the decision of `b < a`. -/
theorem intGt_eq (a b : Int) : intGt a b = decide (b < a) := by
  by_cases h : b < a
  · rw [decide_eq_true h]
    exact (intGt_iff a b).mpr h
  · rw [decide_eq_false h]
    cases hq : intGt a b with
    | false => rfl
    | true => exact absurd ((intGt_iff a b).mp hq) h

/-- A character code is below `1114112`. -/
theorem char_toNat_lt (c : Char) : c.toNat < 1114112 := by
  have h := c.valid
  unfold UInt32.isValidChar Nat.isValidChar at h
  have : c.toNat = c.val.toNat := rfl
  omega

/-- Characters with the same code are equal. -/
theorem char_toNat_inj (c d : Char) (h : c.toNat = d.toNat) : c = d := by
  rw [← Char.ofNat_toNat c, ← Char.ofNat_toNat d, h]

/-- The code of a board, one cell at a time. -/
theorem encodeBoard_cons (c : Char) (t : Board) :
    encodeBoard (c :: t) = (c.toNat + 1) + 2097152 * encodeBoard t := rfl

/-- Different boards have different codes. -/
theorem encodeBoard_injective : ∀ (a b : Board), encodeBoard a = encodeBoard b → a = b := by
  intro a
  induction a with
  | nil =>
    intro b h
    cases b with
    | nil => rfl
    | cons c t =>
      rw [encodeBoard_cons] at h
      have : encodeBoard [] = 0 := rfl
      omega
  | cons c t ih =>
    intro b h
    cases b with
    | nil =>
      rw [encodeBoard_cons] at h
      have : encodeBoard [] = 0 := rfl
      omega
    | cons d u =>
      rw [encodeBoard_cons, encodeBoard_cons] at h
      have h1 := char_toNat_lt c
      have h2 := char_toNat_lt d
      have e1 : c.toNat = d.toNat := by omega
      have e2 : encodeBoard t = encodeBoard u := by omega
      rw [char_toNat_inj c d e1, ih u e2]

/-- Membership in the coded closed set is membership in the closed set. -/
theorem codedMem_encode (b : Board) : ∀ (cl : List Board),
    codedMem (cl.map encodeBoard) (encodeBoard b) = decide (b ∈ cl) := by
  intro cl
  induction cl with
  | nil => simp [codedMem]
  | cons x cl ih =>
    rw [List.map_cons, codedMem, ih]
    by_cases hx : x = b
    · subst hx
      simp
    · have hne : ¬ encodeBoard x = encodeBoard b := fun e => hx (encodeBoard_injective _ _ e)
      have hb : Nat.beq (encodeBoard x) (encodeBoard b) = false := by
        cases hq : Nat.beq (encodeBoard x) (encodeBoard b) with
        | false => rfl
        | true => exact absurd (Nat.eq_of_beq_eq_true hq) hne
      rw [hb]
      simp [Ne.symm hx]

/-- Lookup in the coded cost table is lookup in the cost table. -/
theorem codedFind_encode (b : Board) : ∀ (bc : List (Board × Int)),
    codedFind (bc.map (fun e => (encodeBoard e.1, e.2))) (encodeBoard b) = mapFind bc b := by
  intro bc
  induction bc with
  | nil => rfl
  | cons x bc ih =>
    obtain ⟨k, v⟩ := x
    rw [List.map_cons, codedFind, mapFind, ih]
    by_cases hx : k = b
    · subst hx
      simp
    · have hne : ¬ encodeBoard k = encodeBoard b := fun e => hx (encodeBoard_injective _ _ e)
      have hb : Nat.beq (encodeBoard k) (encodeBoard b) = false := by
        cases hq : Nat.beq (encodeBoard k) (encodeBoard b) with
        | false => rfl
        | true => exact absurd (Nat.eq_of_beq_eq_true hq) hne
      simp only [hb, Bool.false_eq_true, if_false, hx]

/-- The coded cost test answers as the cost test of the source does. -/
theorem codedBetter_encode (bc : List (Board × Int)) (b : Board) (newCost : Int) :
    codedBetter (bc.map (fun e => (encodeBoard e.1, e.2))) (encodeBoard b) newCost =
      betterCost bc b newCost := by
  unfold codedBetter betterCost
  rw [codedFind_encode]
  cases mapFind bc b with
  | none => rfl
  | some g => exact intGt_eq g newCost

/-- One neighbour on coded tables: the result is the code of the result on boards. -/
theorem codedPush_encode (h : Board → Int) (current : AState)
    (acc : List AState × List (Board × Int)) (nb : Board × Int) :
    codedPush h current (acc.1, acc.2.map (fun e => (encodeBoard e.1, e.2))) nb =
      ((parallelAStarPush h current acc nb).1,
        (parallelAStarPush h current acc nb).2.map (fun e => (encodeBoard e.1, e.2))) := by
  unfold codedPush parallelAStarPush
  simp only [codedBetter_encode]
  by_cases hb : betterCost acc.2 nb.1 (current.cost + 1) = true
  · simp only [hb, if_true, List.map_cons]
  · simp only [hb, Bool.false_eq_true, if_false]

/-- The four neighbours on coded tables: the result is the code of the result on boards. -/
theorem codedPush_fold (h : Board → Int) (current : AState) :
    ∀ (l : List (Board × Int)) (acc : List AState × List (Board × Int)),
      l.foldl (codedPush h current) (acc.1, acc.2.map (fun e => (encodeBoard e.1, e.2))) =
        ((l.foldl (parallelAStarPush h current) acc).1,
          (l.foldl (parallelAStarPush h current) acc).2.map
            (fun e => (encodeBoard e.1, e.2))) := by
  intro l
  induction l with
  | nil => intro acc; rfl
  | cons nb l ih =>
    intro acc
    rw [List.foldl_cons, List.foldl_cons, codedPush_encode, ih]

/-- One work item on coded tables: the result is the code of the result on boards. -/
theorem codedItem_encode (h : Board → Int) (r : PAStarRound) (current : AState) :
    codedItem h (encodeBoard TARGET4) (encodeRound r) current =
      encodeRound (parallelAStarItem h r current) := by
  unfold codedItem parallelAStarItem
  by_cases hf : r.solutionFound = true
  · have : (encodeRound r).solutionFound = true := hf
    simp only [this, hf, if_true]
  · have hf2 : (encodeRound r).solutionFound = false := by
      simpa using hf
    have hf3 : r.solutionFound = false := by simpa using hf
    simp only [hf2, hf3, Bool.false_eq_true, if_false]
    have hm : codedMem (encodeRound r).closedSet (encodeBoard current.board) =
        decide (current.board ∈ r.closedSet) := codedMem_encode _ _
    rw [hm]
    by_cases hc : current.board ∈ r.closedSet
    · simp only [hc, decide_True, if_true]
    · simp only [hc, decide_False, Bool.false_eq_true, if_false]
      by_cases ht : current.board = TARGET4
      · have hb : Nat.beq (encodeBoard current.board) (encodeBoard TARGET4) = true := by
          rw [ht]
          exact Nat.beq_refl _
        simp only [hb, if_true, ht, Bool.not_false, Bool.true_or]
        rfl
      · have hb : Nat.beq (encodeBoard current.board) (encodeBoard TARGET4) = false := by
          cases hq : Nat.beq (encodeBoard current.board) (encodeBoard TARGET4) with
          | false => rfl
          | true =>
            exact absurd (encodeBoard_injective _ _ (Nat.eq_of_beq_eq_true hq)) ht
        simp only [hb, Bool.false_eq_true, if_false, ht]
        have hp := codedPush_fold h current (successors 4 current.board current.blankPos)
          (r.newStates, r.bestCost)
        simp only [encodeRound]
        rw [hp]
        simp only [List.map_cons, hf3]

/-- A batch on coded tables: the result is the code of the result on boards. -/
theorem codedItem_fold (h : Board → Int) : ∀ (batch : List AState) (r : PAStarRound),
    batch.foldl (codedItem h (encodeBoard TARGET4)) (encodeRound r) =
      encodeRound (batch.foldl (parallelAStarItem h) r) := by
  intro batch
  induction batch with
  | nil => intro r; rfl
  | cons cur batch ih =>
    intro r
    rw [List.foldl_cons, List.foldl_cons, codedItem_encode, ih]

/-- One round on coded tables is the code of one round of the search. -/
theorem codedStep_encode (srt : DescendingSort) (h : Board → Int) (numThreads : Int)
    (c : PAStarConfig) :
    codedStep srt.sort h (encodeBoard TARGET4) numThreads (encodeConfig c) =
      (parallelAStarStep srt h numThreads c).map encodeConfig := by
  unfold codedStep parallelAStarStep selectBatch
  have h1 : (encodeConfig c).openList = c.openList := rfl
  have h2 : (encodeConfig c).solutionFound = c.solutionFound := rfl
  rw [h1, h2]
  by_cases hc : c.openList ≠ [] ∧ c.solutionFound = false
  · rw [if_pos hc, if_pos hc]
    simp only [Option.map_some', Option.some.injEq]
    have hr := codedItem_fold h
      (List.drop ((srt.sort c.openList).length -
        (min ((srt.sort c.openList).length : Int) (numThreads * 4)).toNat)
        (srt.sort c.openList))
      (PAStarRound.mk [] c.closedSet c.bestCost c.solutionFound c.solution)
    have he : encodeRound (PAStarRound.mk [] c.closedSet c.bestCost c.solutionFound
        c.solution) =
        CodedRound.mk [] (encodeConfig c).closedSet (encodeConfig c).bestCost c.solutionFound
          (encodeConfig c).solution := rfl
    rw [he] at hr
    rw [hr]
    rfl
  · rw [if_neg hc, if_neg hc]
    rfl

/-- Any number of rounds on coded tables is the code of the rounds of the search. -/
theorem codedIter_encode (srt : DescendingSort) (h : Board → Int) (numThreads : Int) :
    ∀ (n : Nat) (c : PAStarConfig),
      codedIter srt.sort h (encodeBoard TARGET4) numThreads n (encodeConfig c) =
        (parallelAStarIter srt h numThreads n c).map encodeConfig := by
  intro n
  induction n with
  | zero => intro c; rfl
  | succ n ih =>
    intro c
    rw [codedIter, parallelAStarIter, codedStep_encode]
    cases parallelAStarStep srt h numThreads c with
    | none => rfl
    | some c2 => exact ih c2

/-- Rounds on coded tables compose. -/
theorem codedIter_add (sort : List AState → List AState) (h : Board → Int) (target : Nat)
    (numThreads : Int) : ∀ (m n : Nat) (c c2 : CodedConfig),
      codedIter sort h target numThreads m c = some c2 →
      codedIter sort h target numThreads (m + n) c = codedIter sort h target numThreads n c2 := by
  intro m
  induction m with
  | zero =>
    intro n c c2 hm
    simp only [codedIter, Option.some.injEq] at hm
    rw [hm, Nat.zero_add]
  | succ m ih =>
    intro n c c2 hm
    rw [codedIter] at hm
    rw [Nat.add_right_comm, codedIter]
    cases hs : codedStep sort h target numThreads c with
    | none => rw [hs] at hm; simp at hm
    | some c1 =>
      rw [hs] at hm
      exact ih n c1 c2 hm

/-- The position of a letter `A`..`O` in the target board. -/
theorem findChar_letter (c : Char) (h1 : 65 ≤ c.toNat) (h2 : c.toNat ≤ 79) :
    findChar TARGET4 c = ((c.toNat - 65 : Nat) : Int) := by
  have hc : c = Char.ofNat c.toNat := (Char.ofNat_toNat c).symm
  generalize c.toNat = n at hc h1 h2
  subst hc
  interval_cases n <;> decide

/-- A character that is neither a letter `A`..`O` nor the blank is not on the target board. -/
theorem findChar_other (c : Char) (h0 : c.toNat ≠ 35) (h1 : ¬ (65 ≤ c.toNat ∧ c.toNat ≤ 79)) :
    findChar TARGET4 c = -1 := by
  have hall : ∀ x ∈ TARGET4, x.toNat = 35 ∨ (65 ≤ x.toNat ∧ x.toNat ≤ 79) := by decide
  unfold findChar
  rw [if_neg]
  intro hm
  rcases hall c hm with e | e
  · exact h0 e
  · exact h1 e

/-- The distance computed from the character code is the distance the source computes. -/
theorem manhattanCode_eq (i : Nat) (c : Char) :
    (manhattanCode i c : Int) = manhattanTerm 4 (findChar TARGET4) i c := by
  unfold manhattanCode manhattanTerm
  by_cases h0 : c.toNat = 35
  · have hb : c = BLANK := char_toNat_inj c BLANK (by rw [h0]; rfl)
    rw [if_pos h0, if_pos hb]
    rfl
  · have hb : c ≠ BLANK := by
      intro e
      apply h0
      rw [e]
      rfl
    rw [if_neg h0, if_neg hb]
    by_cases h1 : 65 ≤ c.toNat ∧ c.toNat ≤ 79
    · rw [if_pos h1, findChar_letter c h1.1 h1.2]
      generalize c.toNat - 65 = g
      have e1 : (i : Int).tdiv ((4 : Nat) : Int) = ((i / 4 : Nat) : Int) := rfl
      have e2 : (g : Int).tdiv ((4 : Nat) : Int) = ((g / 4 : Nat) : Int) := rfl
      have e3 : (i : Int).tmod ((4 : Nat) : Int) = ((i % 4 : Nat) : Int) := rfl
      have e4 : (g : Int).tmod ((4 : Nat) : Int) = ((g % 4 : Nat) : Int) := rfl
      rw [e1, e2, e3, e4]
      rcases le_total (i / 4) (g / 4) with ha | ha <;>
        rcases le_total (i % 4) (g % 4) with hb2 | hb2
      · rw [abs_of_nonpos (by omega), abs_of_nonpos (by omega)]; omega
      · rw [abs_of_nonpos (by omega), abs_of_nonneg (by omega)]; omega
      · rw [abs_of_nonneg (by omega), abs_of_nonpos (by omega)]; omega
      · rw [abs_of_nonneg (by omega), abs_of_nonneg (by omega)]; omega
    · rw [if_neg h1, findChar_other c h0 h1]
      have e1 : (i : Int).tdiv ((4 : Nat) : Int) = ((i / 4 : Nat) : Int) := rfl
      have e3 : (i : Int).tmod ((4 : Nat) : Int) = ((i % 4 : Nat) : Int) := rfl
      have e5 : (-1 : Int).tdiv ((4 : Nat) : Int) = 0 := by decide
      have e6 : (-1 : Int).tmod ((4 : Nat) : Int) = -1 := by decide
      rw [e1, e3, e5, e6]
      rw [abs_of_nonneg (by omega), abs_of_nonneg (by omega)]
      omega

/-- The heuristic h2 computed from character codes is `calculateH2_4x4`. -/
theorem calculateH2Code_eq (b : Board) : calculateH2Code b = calculateH2_4x4 b := by
  rw [calculateH2_4x4_eq_sum]
  unfold calculateH2Code
  rw [foldl_add_eq_sum (fun i => manhattanTerm 4 (findChar TARGET4) i (b.getD i (Char.ofNat 0))),
    list_range_sum, zero_add]
  intro acc i
  rw [manhattanCode_eq]

/-- The two formulations of h2 are the same function. -/
theorem calculateH2Code_fun : calculateH2Code = calculateH2_4x4 :=
  funext calculateH2Code_eq

/-! ## The batched A* searches against the sequential ones

The board `"ABCDEFGHMKION#LJ"` is solved by 14 moves.  The parallel A* with h2 and one worker
returns 16 on it: a batch is processed from its largest `f` down and a board is closed by the
first of its entries that is processed, so an entry of larger cost can shadow the entry of
smaller cost of the same board in the same batch, and the target is first taken from the open
list at cost 16, where the loop stops.  With two workers the batches hold other states and the
search returns 14.  Both runs are evaluated round by round on coded tables, with the order that
`std::sort` of the GNU C++ library gives to states of equal `f`. -/

/-- The sort of the GNU C++ library is computed by `codedSort`. -/
theorem gccSort_coded : gccSort.sort = codedSort := by
  funext l
  have hc : (fun (a b : AState) => decide (b.f < a.f)) =
      (fun (a b : AState) => intGt (a.cost + a.heuristic) (b.cost + b.heuristic)) := by
    funext a b
    rw [intGt_eq]
    rfl
  show stdSort (fun (a b : AState) => decide (b.f < a.f)) l = codedSort l
  rw [hc]
  rfl

/-- A run of rounds that ends with the solution flag set ends the loop with its solution. -/
theorem parallelAStarLoop_solved (srt : DescendingSort) (h : Board → Int) (numThreads : Int)
    (hn : 0 ≤ numThreads) (n fuel : Nat) (c c2 : PAStarConfig)
    (hit : parallelAStarIter srt h numThreads n c = some c2) (hf : c2.solutionFound = true) :
    parallelAStarLoop srt h numThreads (fuel + 1 + n) c.openList c.closedSet c.bestCost
      c.solutionFound c.solution = some c2.solution := by
  rw [parallelAStarLoop_iter srt h numThreads hn n c c2 (fuel + 1) hit,
    parallelAStarLoop_step srt h numThreads hn]
  have : parallelAStarStep srt h numThreads c2 = none := by
    simp [parallelAStarStep, hf]
  rw [this]

/-- A run of `n` coded rounds that sets the solution flag gives the value that
`parallelAStarH2` returns with the sort of the GNU C++ library. -/
theorem parallelAStarH2_coded (start : Board) (numThreads : Int) (hn : 0 ≤ numThreads)
    (n : Nat) (r : Int) (hfuel : n + 1 ≤ 4 * start.length.factorial + 2)
    (hrun : (codedIter codedSort calculateH2Code (encodeBoard TARGET4) numThreads n
      (encodeConfig (parallelAStarInit calculateH2Code start))).map
        (fun e => (e.solutionFound, e.solution)) = some (true, r)) :
    parallelAStarH2 gccSort start numThreads = some r := by
  rw [← gccSort_coded, calculateH2Code_fun, codedIter_encode] at hrun
  cases hit : parallelAStarIter gccSort calculateH2_4x4 numThreads n
      (parallelAStarInit calculateH2_4x4 start) with
  | none => rw [hit] at hrun; simp at hrun
  | some c2 =>
    rw [hit] at hrun
    simp only [Option.map_some', Option.some.injEq, Prod.mk.injEq] at hrun
    have hf : c2.solutionFound = true := hrun.1
    have hs : c2.solution = r := hrun.2
    have hk : 4 * start.length.factorial + 2 =
        (4 * start.length.factorial + 2 - (n + 1)) + 1 + n := by omega
    unfold parallelAStarH2
    rw [hk, ← hs]
    exact parallelAStarLoop_solved gccSort calculateH2_4x4 numThreads hn n _
      (parallelAStarInit calculateH2_4x4 start) c2 hit hf

/-- The first 16 rounds of the run with one worker. -/
theorem example_rounds_a :
    codedIter codedSort calculateH2Code (encodeBoard TARGET4) 1 16
      (encodeConfig (parallelAStarInit calculateH2Code "ABCDEFGHMKION#LJ".toList)) =
      some (encodeConfig roundConfig16) := by
  decide!

/-- The rounds 17 to 25 of the run with one worker. -/
theorem example_rounds_b :
    codedIter codedSort calculateH2Code (encodeBoard TARGET4) 1 9
      (encodeConfig roundConfig16) = some (encodeConfig roundConfig25) := by
  decide!

/-- The rounds 26 to 33 of the run with one worker: round 33 sets the solution flag, with the
solution `16`. -/
theorem example_rounds_c :
    (codedIter codedSort calculateH2Code (encodeBoard TARGET4) 1 8
      (encodeConfig roundConfig25)).map (fun e => (e.solutionFound, e.solution)) =
      some (true, 16) := by
  decide!

/-- With one worker `parallelAStarH2` returns `16` on the example board. -/
theorem example_one_worker :
    parallelAStarH2 gccSort "ABCDEFGHMKION#LJ".toList 1 = some 16 := by
  apply parallelAStarH2_coded _ 1 (by decide) 33 16 (by decide)
  have h1 := codedIter_add codedSort calculateH2Code (encodeBoard TARGET4) 1 16 9 _ _
    example_rounds_a
  rw [example_rounds_b] at h1
  have h2 := codedIter_add codedSort calculateH2Code (encodeBoard TARGET4) 1 (16 + 9) 8 _ _ h1
  rw [show 16 + 9 + 8 = 33 from rfl] at h2
  rw [h2]
  exact example_rounds_c

/-- The first 10 rounds of the run with two workers. -/
theorem example_pair_a :
    codedIter codedSort calculateH2Code (encodeBoard TARGET4) 2 10
      (encodeConfig (parallelAStarInit calculateH2Code "ABCDEFGHMKION#LJ".toList)) =
      some (encodeConfig pairConfig10) := by
  decide!

/-- The rounds 11 to 15 of the run with two workers: round 15 sets the solution flag, with the
solution `14`. -/
theorem example_pair_b :
    (codedIter codedSort calculateH2Code (encodeBoard TARGET4) 2 5
      (encodeConfig pairConfig10)).map (fun e => (e.solutionFound, e.solution)) =
      some (true, 14) := by
  decide!

/-- With two workers `parallelAStarH2` returns `14` on the example board. -/
theorem example_two_workers :
    parallelAStarH2 gccSort "ABCDEFGHMKION#LJ".toList 2 = some 14 := by
  apply parallelAStarH2_coded _ 2 (by decide) 15 14 (by decide)
  have h1 := codedIter_add codedSort calculateH2Code (encodeBoard TARGET4) 2 10 5 _ _
    example_pair_a
  rw [show 10 + 5 = 15 from rfl] at h1
  rw [h1]
  exact example_pair_b

/-- The example board is solved by the 14 moves UP, RIGHT, DOWN, RIGHT, UP, LEFT, DOWN, LEFT,
LEFT, UP, RIGHT, RIGHT, DOWN, RIGHT of the blank. -/
theorem example_reach : Reach 4 14 "ABCDEFGHMKION#LJ".toList TARGET4 := by
  have h := applyDirs_reach 4 [0, 3, 1, 3, 0, 2, 1, 2, 2, 0, 3, 3, 1, 3]
    "ABCDEFGHMKION#LJ".toList TARGET4 (by decide) (by decide)
  exact h

/-- A value that is optimal for the example board is at most `14`. -/
theorem example_optimal_le (r : Int) (ho : Optimal 4 TARGET4 "ABCDEFGHMKION#LJ".toList r) :
    0 ≤ r ∧ r ≤ 14 := by
  rcases ho with ⟨_, hno⟩ | ⟨d, hd, _, hmin⟩
  · exact absurd example_reach (hno 14)
  · have hle : d ≤ 14 := by
      by_contra hc
      exact hmin 14 (by omega) example_reach
    rw [hd]
    omega

/-- Claim C24, evaluated at the valid board `"ABCDEFGHMKION#LJ"`, which 14 moves solve: with
one worker and the order that `std::sort` of the GNU C++ library gives to states of equal `f`,
`parallelAStarH2` returns `16`, whereas the sequential `aStarSearch` returns, with h1 and with
h2 and for every tie-breaking of its priority queue, the minimal move count, which is at most
`14`. -/
theorem parallelAStarH2_one_worker_differs (pq : PriorityQueue) :
    "ABCDEFGHMKION#LJ".toList.Perm TARGET4 ∧
    parallelAStarH2 gccSort "ABCDEFGHMKION#LJ".toList 1 = some 16 ∧
    (∃ r, aStarSearchH1 pq "ABCDEFGHMKION#LJ".toList = some r ∧
      aStarSearchH2 pq "ABCDEFGHMKION#LJ".toList = some r ∧
      Optimal 4 TARGET4 "ABCDEFGHMKION#LJ".toList r ∧ 0 ≤ r ∧ r ≤ 14) ∧
    parallelAStarH2 gccSort "ABCDEFGHMKION#LJ".toList 1 ≠
      aStarSearchH2 pq "ABCDEFGHMKION#LJ".toList := by
  obtain ⟨r1, hr1, ho1⟩ := aStar_correct pq 4 TARGET4 "ABCDEFGHMKION#LJ".toList
    calculateH1 true (by decide) (by decide) (h1_consistent _ (by decide) (by decide))
  obtain ⟨r2, hr2, ho2⟩ := aStar_correct pq 4 TARGET4 "ABCDEFGHMKION#LJ".toList
    calculateH2_4x4 true (by decide) (by decide) (h2_4x4_consistent _ (by decide) (by decide))
  have h1 : aStarSearchH1 pq "ABCDEFGHMKION#LJ".toList = some r1 := hr1
  have h2 : aStarSearchH2 pq "ABCDEFGHMKION#LJ".toList = some r2 := hr2
  have e12 : r1 = r2 := optimal_unique 4 TARGET4 _ r1 r2 ho1 ho2
  have hle := example_optimal_le r2 ho2
  refine ⟨by decide, example_one_worker, ⟨r2, by rw [h1, e12], h2, ho2, hle⟩, ?_⟩
  rw [example_one_worker, h2]
  intro e
  have := Option.some.inj e
  omega

/-- Claim C25, evaluated at the solvable board `"ABCDEFGHMKION#LJ"`, which 14 moves solve: with
the order that `std::sort` of the GNU C++ library gives to states of equal `f` and the work
items taken in index order, `parallelAStarH2` returns `16` with one worker and `14` with two
workers, and `16` is not the minimal move count; `parallelBFS` returns the minimal move count
for every worker count. -/
theorem parallel_results_differ :
    parallelAStarH2 gccSort "ABCDEFGHMKION#LJ".toList 1 = some 16 ∧
    parallelAStarH2 gccSort "ABCDEFGHMKION#LJ".toList 2 = some 14 ∧
    Reach 4 14 "ABCDEFGHMKION#LJ".toList TARGET4 ∧
    ¬ Optimal 4 TARGET4 "ABCDEFGHMKION#LJ".toList 16 ∧
    (∀ numThreads : Int, 0 ≤ numThreads →
      ∃ r, parallelBFS "ABCDEFGHMKION#LJ".toList numThreads = some r ∧
        Optimal 4 TARGET4 "ABCDEFGHMKION#LJ".toList r) := by
  refine ⟨example_one_worker, example_two_workers, example_reach, ?_, ?_⟩
  · intro ho
    have := example_optimal_le 16 ho
    omega
  · intro numThreads hn
    obtain ⟨r, hr, ho⟩ := bfs_correct 4 TARGET4 "ABCDEFGHMKION#LJ".toList (by decide)
      (by decide)
    exact ⟨r, parallelBFS_eq_bfs4 _ numThreads hn r hr, ho⟩

end Puzzle
